import Mathlib

/-! # Red-black tree of `rbtree.cpp`: heap model

The C++ class `RBTree` stores nodes linked by raw pointers (`left`, `right`,
`parent`) with one shared sentinel `nil`.  The model keeps that shape: a
state is a memory `mem : Ptr → Node`, the `root` pointer and an allocation
counter `next` (`new Node` takes the cell `next`).  The sentinel lives at
address `0`.  Every `while` loop and every recursion over pointers takes a
fuel argument and answers `none` when it runs out; the public operations
supply `next` as fuel, which bounds the number of allocated cells.
-/

/-- Kernel-reducible decision procedure for `<` on strings (lexicographic). -/
instance strDecLt (a b : String) : Decidable (a < b) :=
  decidable_of_iff (a.toList < b.toList) String.lt_iff_toList_lt.symm

/-- Node colour; the source stores the characters `'R'` and `'B'`. -/
inductive Color where
  | R
  | B
deriving DecidableEq, Repr

/-- Addresses of heap cells. -/
abbrev Ptr := Nat

/-- The fields of `RBTree::Node`. -/
structure Node where
  key : String
  value : String
  color : Color
  left : Ptr
  right : Ptr
  parent : Ptr
deriving DecidableEq, Repr

/-- The state of an `RBTree` object together with the heap it owns. -/
structure RBTree where
  mem : Ptr → Node
  root : Ptr
  next : Ptr

namespace RBTree

/-- Address of the sentinel `nil`. -/
def nil : Ptr := 0

/-- `Node::Node()`: the sentinel, black and linked to itself. -/
def nilNode : Node := ⟨"nil", "", Color.B, nil, nil, nil⟩

/-- `RBTree::RBTree()`: `nil = new Node(); root = nil`. -/
def empty : RBTree := ⟨fun _ => nilNode, nil, 1⟩

def key (t : RBTree) (x : Ptr) : String := (t.mem x).key
def value (t : RBTree) (x : Ptr) : String := (t.mem x).value
def color (t : RBTree) (x : Ptr) : Color := (t.mem x).color
def left (t : RBTree) (x : Ptr) : Ptr := (t.mem x).left
def right (t : RBTree) (x : Ptr) : Ptr := (t.mem x).right
def parent (t : RBTree) (x : Ptr) : Ptr := (t.mem x).parent

def setColor (t : RBTree) (x : Ptr) (c : Color) : RBTree :=
  { t with mem := Function.update t.mem x { t.mem x with color := c } }
def setLeft (t : RBTree) (x : Ptr) (p : Ptr) : RBTree :=
  { t with mem := Function.update t.mem x { t.mem x with left := p } }
def setRight (t : RBTree) (x : Ptr) (p : Ptr) : RBTree :=
  { t with mem := Function.update t.mem x { t.mem x with right := p } }
def setParent (t : RBTree) (x : Ptr) (p : Ptr) : RBTree :=
  { t with mem := Function.update t.mem x { t.mem x with parent := p } }
def setRoot (t : RBTree) (p : Ptr) : RBTree :=
  { t with root := p }

/-- `RBTree::leftRotate`. -/
def leftRotate (t : RBTree) (x : Ptr) : RBTree :=
  let y := t.right x
  let t := t.setRight x (t.left y)
  let t := if t.left y ≠ nil then t.setParent (t.left y) x else t
  let t := t.setParent y (t.parent x)
  let t :=
    if t.parent x = nil then t.setRoot y
    else if x = t.left (t.parent x) then t.setLeft (t.parent x) y
    else t.setRight (t.parent x) y
  let t := t.setLeft y x
  t.setParent x y

/-- `RBTree::rightRotate`. -/
def rightRotate (t : RBTree) (x : Ptr) : RBTree :=
  let y := t.left x
  let t := t.setLeft x (t.right y)
  let t := if t.right y ≠ nil then t.setParent (t.right y) x else t
  let t := t.setParent y (t.parent x)
  let t :=
    if t.parent x = nil then t.setRoot y
    else if x = t.right (t.parent x) then t.setRight (t.parent x) y
    else t.setLeft (t.parent x) y
  let t := t.setRight y x
  t.setParent x y

/-- `RBTree::rbTransplant`. -/
def rbTransplant (t : RBTree) (u v : Ptr) : RBTree :=
  let t :=
    if t.parent u = nil then t.setRoot v
    else if u = t.left (t.parent u) then t.setLeft (t.parent u) v
    else t.setRight (t.parent u) v
  t.setParent v (t.parent u)

/-- `RBTree::rbTreeMinimum`: `while (x->left != nil) x = x->left`. -/
def rbTreeMinimum (t : RBTree) : Nat → Ptr → Option Ptr
  | 0, _ => none
  | f + 1, x => if t.left x ≠ nil then rbTreeMinimum t f (t.left x) else some x

/-- `RBTree::rbTreeMaximum`: `while (x->right != nil) x = x->right`. -/
def rbTreeMaximum (t : RBTree) : Nat → Ptr → Option Ptr
  | 0, _ => none
  | f + 1, x => if t.right x ≠ nil then rbTreeMaximum t f (t.right x) else some x

/-- The loop of `rbTreeSuccessor`: `while (y != nil && x == y->right)`. -/
def successorLoop (t : RBTree) : Nat → Ptr → Ptr → Option Ptr
  | 0, _, _ => none
  | f + 1, x, y =>
    if y ≠ nil ∧ x = t.right y then successorLoop t f y (t.parent y) else some y

/-- `RBTree::rbTreeSuccessor`. -/
def rbTreeSuccessor (t : RBTree) (x : Ptr) : Option Ptr :=
  if t.right x ≠ nil then rbTreeMinimum t t.next (t.right x)
  else successorLoop t t.next x (t.parent x)

/-- The loop of `rbTreePredecessor`: `while (y != nil && x == y->left)`. -/
def predecessorLoop (t : RBTree) : Nat → Ptr → Ptr → Option Ptr
  | 0, _, _ => none
  | f + 1, x, y =>
    if y ≠ nil ∧ x = t.left y then predecessorLoop t f y (t.parent y) else some y

/-- `RBTree::rbTreePredecessor`. -/
def rbTreePredecessor (t : RBTree) (x : Ptr) : Option Ptr :=
  if t.left x ≠ nil then rbTreeMaximum t t.next (t.left x)
  else predecessorLoop t t.next x (t.parent x)

/-- `RBTree::rbTreeSearch` (recursive in the source). -/
def rbTreeSearch (t : RBTree) (key : String) : Nat → Ptr → Option Ptr
  | 0, _ => none
  | f + 1, x =>
    if x = nil ∨ key = t.key x then some x
    else if key < t.key x then rbTreeSearch t key f (t.left x)
    else rbTreeSearch t key f (t.right x)

/-- The loop of `rbInsertFixup`; the result is the state at loop exit. -/
def rbInsertFixupLoop : Nat → RBTree → Ptr → Option RBTree
  | 0, _, _ => none
  | f + 1, t, z =>
    if t.color (t.parent z) = Color.R then
      if t.parent z = t.left (t.parent (t.parent z)) then
        let y := t.right (t.parent (t.parent z))
        if t.color y = Color.R then
          let t := t.setColor (t.parent z) Color.B
          let t := t.setColor y Color.B
          let t := t.setColor (t.parent (t.parent z)) Color.R
          rbInsertFixupLoop f t (t.parent (t.parent z))
        else
          let tz : RBTree × Ptr :=
            if z = t.right (t.parent z) then (leftRotate t (t.parent z), t.parent z)
            else (t, z)
          let t := tz.1
          let z := tz.2
          let t := t.setColor (t.parent z) Color.B
          let t := t.setColor (t.parent (t.parent z)) Color.R
          let t := rightRotate t (t.parent (t.parent z))
          rbInsertFixupLoop f t z
      else
        let y := t.left (t.parent (t.parent z))
        if t.color y = Color.R then
          let t := t.setColor (t.parent z) Color.B
          let t := t.setColor y Color.B
          let t := t.setColor (t.parent (t.parent z)) Color.R
          rbInsertFixupLoop f t (t.parent (t.parent z))
        else
          let tz : RBTree × Ptr :=
            if z = t.left (t.parent z) then (rightRotate t (t.parent z), t.parent z)
            else (t, z)
          let t := tz.1
          let z := tz.2
          let t := t.setColor (t.parent z) Color.B
          let t := t.setColor (t.parent (t.parent z)) Color.R
          let t := leftRotate t (t.parent (t.parent z))
          rbInsertFixupLoop f t z
    else some t

/-- `RBTree::rbInsertFixup`: the loop, then `root->color = 'B'`. -/
def rbInsertFixup (t : RBTree) (z : Ptr) : Option RBTree :=
  (rbInsertFixupLoop t.next t z).map fun t => t.setColor t.root Color.B

/-- The descent loop of `rbInsert(Node*)`; the result is the final `y`. -/
def rbInsertDescend (t : RBTree) (z : Ptr) : Nat → Ptr → Ptr → Option Ptr
  | 0, _, _ => none
  | f + 1, y, x =>
    if x ≠ nil then
      if t.key z < t.key x then rbInsertDescend t z f x (t.left x)
      else rbInsertDescend t z f x (t.right x)
    else some y

/-- `RBTree::rbInsert(Node* z)`. -/
def rbInsertNode (t : RBTree) (z : Ptr) : Option RBTree :=
  (rbInsertDescend t z t.next nil t.root).bind fun y =>
    let t := t.setParent z y
    let t :=
      if y = nil then t.setRoot z
      else if t.key z < t.key y then t.setLeft y z
      else t.setRight y z
    let t := t.setLeft z nil
    let t := t.setRight z nil
    let t := t.setColor z Color.R
    rbInsertFixup t z

/-- `new Node(key, value)`: takes the cell `next`; only `key` and `value`
are initialised by the constructor. -/
def newNode (t : RBTree) (key value : String) : RBTree :=
  { t with mem := Function.update t.mem t.next { t.mem t.next with key := key, value := value },
           next := t.next + 1 }

/-- `RBTree::rbInsert(const string&, const string&)`. -/
def rbInsert (t : RBTree) (key value : String) : Option RBTree :=
  rbInsertNode (t.newNode key value) t.next

/-- The loop of `rbDeleteFixup`; the result is the state and `x` at loop exit. -/
def rbDeleteFixupLoop : Nat → RBTree → Ptr → Option (RBTree × Ptr)
  | 0, _, _ => none
  | f + 1, t, x =>
    if x ≠ t.root ∧ t.color x = Color.B then
      if x = t.left (t.parent x) then
        let w := t.right (t.parent x)
        let tw : RBTree × Ptr :=
          if t.color w = Color.R then
            let t := t.setColor w Color.B
            let t := t.setColor (t.parent x) Color.R
            let t := leftRotate t (t.parent x)
            (t, t.right (t.parent x))
          else (t, w)
        let t := tw.1
        let w := tw.2
        if t.color (t.left w) = Color.B ∧ t.color (t.right w) = Color.B then
          let t := t.setColor w Color.R
          rbDeleteFixupLoop f t (t.parent x)
        else
          let tw : RBTree × Ptr :=
            if t.color (t.right w) = Color.B then
              let t := t.setColor (t.left w) Color.B
              let t := t.setColor w Color.R
              let t := rightRotate t w
              (t, t.right (t.parent x))
            else (t, w)
          let t := tw.1
          let w := tw.2
          let t := t.setColor w (t.color (t.parent x))
          let t := t.setColor (t.parent x) Color.B
          let t := t.setColor (t.right w) Color.B
          let t := leftRotate t (t.parent x)
          rbDeleteFixupLoop f t t.root
      else
        let w := t.left (t.parent x)
        let tw : RBTree × Ptr :=
          if t.color w = Color.R then
            let t := t.setColor w Color.B
            let t := t.setColor (t.parent x) Color.R
            let t := rightRotate t (t.parent x)
            (t, t.left (t.parent x))
          else (t, w)
        let t := tw.1
        let w := tw.2
        if t.color (t.right w) = Color.B ∧ t.color (t.left w) = Color.B then
          let t := t.setColor w Color.R
          rbDeleteFixupLoop f t (t.parent x)
        else
          let tw : RBTree × Ptr :=
            if t.color (t.left w) = Color.B then
              let t := t.setColor (t.right w) Color.B
              let t := t.setColor w Color.R
              let t := leftRotate t w
              (t, t.left (t.parent x))
            else (t, w)
          let t := tw.1
          let w := tw.2
          let t := t.setColor w (t.color (t.parent x))
          let t := t.setColor (t.parent x) Color.B
          let t := t.setColor (t.left w) Color.B
          let t := rightRotate t (t.parent x)
          rbDeleteFixupLoop f t t.root
    else some (t, x)

/-- `RBTree::rbDeleteFixup`: the loop, then `x->color = 'B'`. -/
def rbDeleteFixup (t : RBTree) (x : Ptr) : Option RBTree :=
  (rbDeleteFixupLoop t.next t x).map fun tx => tx.1.setColor tx.2 Color.B

/-- `RBTree::rbDelete(Node* z)`. -/
def rbDeleteNode (t : RBTree) (z : Ptr) : Option RBTree :=
  if t.left z = nil then
    let x := t.right z
    let yoc := t.color z
    let t := rbTransplant t z (t.right z)
    if yoc = Color.B then rbDeleteFixup t x else some t
  else if t.right z = nil then
    let x := t.left z
    let yoc := t.color z
    let t := rbTransplant t z (t.left z)
    if yoc = Color.B then rbDeleteFixup t x else some t
  else
    (rbTreeMaximum t t.next (t.left z)).bind fun y =>
      let yoc := t.color y
      let x := t.left y
      let t :=
        if t.parent y = z then t.setParent x y
        else
          let t := rbTransplant t y (t.left y)
          let t := t.setLeft y (t.left z)
          t.setParent (t.left y) y
      let t := rbTransplant t z y
      let t := t.setRight y (t.right z)
      let t := t.setParent (t.right y) y
      let t := t.setColor y (t.color z)
      if yoc = Color.B then rbDeleteFixup t x else some t

/-- First scan loop of `rbFind`: walk the predecessors while the key matches. -/
def rbFindPredLoop (t : RBTree) (key : String) : Nat → Ptr → List String → Option (List String)
  | 0, _, _ => none
  | f + 1, y, results =>
    if y ≠ nil ∧ t.key y = key then
      (rbTreePredecessor t y).bind fun y' => rbFindPredLoop t key f y' (results ++ [t.value y])
    else some results

/-- Second scan loop of `rbFind`: walk the successors while the key matches. -/
def rbFindSuccLoop (t : RBTree) (key : String) : Nat → Ptr → List String → Option (List String)
  | 0, _, _ => none
  | f + 1, y, results =>
    if y ≠ nil ∧ t.key y = key then
      (rbTreeSuccessor t y).bind fun y' => rbFindSuccLoop t key f y' (results ++ [t.value y])
    else some results

/-- `RBTree::rbFind`; the result vector is a list, `push_back` appends. -/
def rbFind (t : RBTree) (key : String) : Option (List String) :=
  (rbTreeSearch t key t.next t.root).bind fun x =>
    if x ≠ nil then
      let results := [t.value x]
      (rbTreePredecessor t x).bind fun y =>
      (rbFindPredLoop t key t.next y results).bind fun results =>
      (rbTreeSuccessor t x).bind fun y =>
      rbFindSuccLoop t key t.next y results
    else some []

/-- First scan loop of `rbDelete(key, value)`. -/
def rbDeletePredLoop (t : RBTree) (key value : String) :
    Nat → Ptr → List Ptr → Option (List Ptr)
  | 0, _, _ => none
  | f + 1, y, results =>
    if y ≠ nil ∧ t.key y = key then
      let results := if t.value y = value then results ++ [y] else results
      (rbTreePredecessor t y).bind fun y' => rbDeletePredLoop t key value f y' results
    else some results

/-- Second scan loop of `rbDelete(key, value)`. -/
def rbDeleteSuccLoop (t : RBTree) (key value : String) :
    Nat → Ptr → List Ptr → Option (List Ptr)
  | 0, _, _ => none
  | f + 1, y, results =>
    if y ≠ nil ∧ t.key y = key then
      let results := if t.value y = value then results ++ [y] else results
      (rbTreeSuccessor t y).bind fun y' => rbDeleteSuccLoop t key value f y' results
    else some results

/-- The collection phase of `rbDelete(key, value)`: the vector `results`. -/
def rbDeleteCollect (t : RBTree) (key value : String) : Option (List Ptr) :=
  (rbTreeSearch t key t.next t.root).bind fun x =>
    if x ≠ nil then
      let results := if t.value x = value then [x] else []
      (rbTreePredecessor t x).bind fun y =>
      (rbDeletePredLoop t key value t.next y results).bind fun results =>
      (rbTreeSuccessor t x).bind fun y =>
      rbDeleteSuccLoop t key value t.next y results
    else some []

/-- The deletion loop of `rbDelete(key, value)`, over the vector read from
its back: the argument is the vector reversed. -/
def rbDeleteAll : RBTree → List Ptr → Option RBTree
  | t, [] => some t
  | t, toDelete :: rest => (rbDeleteNode t toDelete).bind fun t => rbDeleteAll t rest

/-- `RBTree::rbDelete(const string&, const string&)`. -/
def rbDelete (t : RBTree) (key value : String) : Option RBTree :=
  (rbDeleteCollect t key value).bind fun results => rbDeleteAll t results.reverse

/-- One line written by `reverseInOrderPrint`: the colour right-aligned in a
field of `width` characters, then key and value. -/
structure PrintEntry where
  width : Nat
  color : Color
  key : String
  value : String
deriving DecidableEq, Repr

/-- `RBTree::reverseInOrderPrint`; the output is the list of lines. -/
def reverseInOrderPrint (t : RBTree) : Nat → Ptr → Nat → Option (List PrintEntry)
  | 0, _, _ => none
  | f + 1, x, depth =>
    if x ≠ nil then
      (reverseInOrderPrint t f (t.right x) (depth + 1)).bind fun out1 =>
      (reverseInOrderPrint t f (t.left x) (depth + 1)).bind fun out2 =>
      some (out1 ++ [⟨depth * 4 + 4, t.color x, t.key x, t.value x⟩] ++ out2)
    else some []

/-- `RBTree::rbPrintTree`. -/
def rbPrintTree (t : RBTree) : Option (List PrintEntry) :=
  reverseInOrderPrint t t.next t.root 0

/-! ## Abstraction: the tree a heap state represents

A state is read as a binary tree whose nodes carry their own address.  A
zipper (`Frame` list, innermost frame first) marks a position inside it. -/

/-- Binary trees decorated with the address, colour, key and value of each node. -/
inductive T where
  | lf
  | nd (a : Ptr) (c : Color) (l : T) (k v : String) (r : T)
deriving DecidableEq, Repr

/-- One step of a path to the root: the parent node and the sibling subtree.
`L`: the hole is the left child; `R`: the hole is the right child. -/
inductive Frame where
  | L (a : Ptr) (c : Color) (k v : String) (r : T)
  | R (a : Ptr) (c : Color) (l : T) (k v : String)
deriving DecidableEq, Repr

namespace T

/-- The pointer that denotes a tree: its root cell, or the sentinel. -/
def addr : T → Ptr
  | lf => nil
  | nd a _ _ _ _ _ => a

/-- Root colour; the sentinel is black. -/
def col : T → Color
  | lf => Color.B
  | nd _ c _ _ _ _ => c

/-- Addresses of the nodes, in-order. -/
def addrs : T → List Ptr
  | lf => []
  | nd a _ l _ _ r => l.addrs ++ a :: r.addrs

/-- The (key, value) pairs, in-order. -/
def toList : T → List (String × String)
  | lf => []
  | nd _ _ l k v r => l.toList ++ (k, v) :: r.toList

/-- The nodes as (address, key, value), in-order. -/
def entries : T → List (Ptr × String × String)
  | lf => []
  | nd a _ l k v r => l.entries ++ (a, k, v) :: r.entries

def size : T → Nat
  | lf => 0
  | nd _ _ l _ _ r => l.size + 1 + r.size

/-- Number of nodes on the longest path from the root to a sentinel. -/
def height : T → Nat
  | lf => 0
  | nd _ _ l _ _ r => max l.height r.height + 1

/-- No red node has a red child. -/
def noRedRed : T → Prop
  | lf => True
  | nd _ c l _ _ r => (c = Color.R → l.col = Color.B ∧ r.col = Color.B) ∧ l.noRedRed ∧ r.noRedRed

/-- Number of black nodes on the leftmost path to a sentinel. -/
def blackHeight : T → Nat
  | lf => 0
  | nd _ c l _ _ _ => l.blackHeight + (if c = Color.B then 1 else 0)

/-- Every root-to-sentinel path has the same number of black nodes. -/
def blackBalanced : T → Prop
  | lf => True
  | nd _ _ l _ _ r => l.blackHeight = r.blackHeight ∧ l.blackBalanced ∧ r.blackBalanced

/-- The in-order key sequence is non-decreasing (`a ≤ b` written `¬ b < a`). -/
def ordered (t : T) : Prop :=
  t.toList.Pairwise fun a b => ¬ b.1 < a.1

end T

/-- Fill the hole of a zipper. -/
def plug : List Frame → T → T
  | [], t => t
  | Frame.L a c k v r :: ctx, t => plug ctx (T.nd a c t k v r)
  | Frame.R a c l k v :: ctx, t => plug ctx (T.nd a c l k v t)

/-- Address of the parent of the hole (the sentinel at the root). -/
def ctxAddr : List Frame → Ptr
  | [] => nil
  | Frame.L a _ _ _ _ :: _ => a
  | Frame.R a _ _ _ _ :: _ => a

/-- Addresses of all nodes of a zipper outside the hole. -/
def ctxAddrs : List Frame → List Ptr
  | [] => []
  | Frame.L a _ _ _ r :: ctx => a :: (r.addrs ++ ctxAddrs ctx)
  | Frame.R a _ l _ _ :: ctx => a :: (l.addrs ++ ctxAddrs ctx)

/-- In-order entries before the hole. -/
def ctxLeft : List Frame → List (Ptr × String × String)
  | [] => []
  | Frame.L _ _ _ _ _ :: ctx => ctxLeft ctx
  | Frame.R a _ l k v :: ctx => ctxLeft ctx ++ l.entries ++ [(a, k, v)]

/-- In-order entries after the hole. -/
def ctxRight : List Frame → List (Ptr × String × String)
  | [] => []
  | Frame.L a _ k v r :: ctx => (a, k, v) :: r.entries ++ ctxRight ctx
  | Frame.R _ _ _ _ _ :: ctx => ctxRight ctx

/-- The memory holds the nodes of `t`, linked as in `t`, the root's parent
link being `par`. -/
def Own (m : Ptr → Node) : T → Ptr → Prop
  | T.lf, _ => True
  | T.nd a c l k v r, par => m a = ⟨k, v, c, l.addr, r.addr, par⟩ ∧ Own m l a ∧ Own m r a

/-- The memory holds the nodes of the zipper, the child link into the hole
being `ch`. -/
def OwnCtx (m : Ptr → Node) : List Frame → Ptr → Prop
  | [], _ => True
  | Frame.L a c k v r :: ctx, ch =>
      m a = ⟨k, v, c, ch, r.addr, ctxAddr ctx⟩ ∧ Own m r a ∧ OwnCtx m ctx a
  | Frame.R a c l k v :: ctx, ch =>
      m a = ⟨k, v, c, l.addr, ch, ctxAddr ctx⟩ ∧ Own m l a ∧ OwnCtx m ctx a

/-- The state `h` represents the tree `plug ctx t`, seen from the position `ctx`:
links agree, node addresses are distinct, allocated and not the sentinel, and
the sentinel is an allocated black cell with `left` and `right` pointing to itself. -/
structure RepZ (h : RBTree) (ctx : List Frame) (t : T) : Prop where
  root : h.root = (plug ctx t).addr
  own : Own h.mem t (ctxAddr ctx)
  ownc : OwnCtx h.mem ctx t.addr
  nodup : (t.addrs ++ ctxAddrs ctx).Nodup
  bound : ∀ a ∈ t.addrs ++ ctxAddrs ctx, a ≠ nil ∧ a < h.next
  sent : h.color nil = Color.B ∧ h.left nil = nil ∧ h.right nil = nil
  alloc : nil < h.next

/-- The state `h` represents the tree `t`. -/
def Rep (h : RBTree) (t : T) : Prop := RepZ h [] t

/-- A valid red-black tree: the state represents a tree that is ordered by
key (non-strictly), has a black root, no red node with a red child, and the
same number of black nodes on every root-to-sentinel path. -/
def Valid (h : RBTree) : Prop :=
  ∃ t : T, Rep h t ∧ t.ordered ∧ t.col = Color.B ∧ t.noRedRed ∧ t.blackBalanced

/-- Balanced subtree with root colour `c` and black height `n`. -/
inductive Bal : T → Color → Nat → Prop
  | lf : Bal T.lf Color.B 0
  | red {a l k v r n} : Bal l Color.B n → Bal r Color.B n →
      Bal (T.nd a Color.R l k v r) Color.R n
  | black {a l k v r c₁ c₂ n} : Bal l c₁ n → Bal r c₂ n →
      Bal (T.nd a Color.B l k v r) Color.B (n + 1)

/-- Balanced zipper: filling the hole with a balanced tree of colour `c` and
black height `n` gives a balanced tree with a black root. -/
inductive CBal : List Frame → Color → Nat → Prop
  | root {n} : CBal [] Color.B n
  | redL {a k v r ctx n} : Bal r Color.B n → CBal ctx Color.R n →
      CBal (Frame.L a Color.R k v r :: ctx) Color.B n
  | redR {a l k v ctx n} : Bal l Color.B n → CBal ctx Color.R n →
      CBal (Frame.R a Color.R l k v :: ctx) Color.B n
  | blackL {a k v r ctx c c₂ n} : Bal r c₂ n → CBal ctx Color.B (n + 1) →
      CBal (Frame.L a Color.B k v r :: ctx) c n
  | blackR {a l k v ctx c c₁ n} : Bal l c₁ n → CBal ctx Color.B (n + 1) →
      CBal (Frame.R a Color.B l k v :: ctx) c n

/-- In-order traversal of the state, as (key, value) pairs: left subtree,
node, right subtree, stopping at the sentinel (the mirror image of
`reverseInOrderPrint`; the source has no such function). -/
def inorderAux (t : RBTree) : Nat → Ptr → List (String × String)
  | 0, _ => []
  | f + 1, x =>
    if x ≠ nil then inorderAux t f (t.left x) ++ (t.key x, t.value x) :: inorderAux t f (t.right x)
    else []

/-- In-order (key, value) sequence of the tree. -/
def inorder (t : RBTree) : List (String × String) := inorderAux t t.next t.root

/-- Zipper state of `rbInsertFixup`: the hole holds a red node of black
height `n`; either it is the root, or its parent is black, or its parent is
red (the one violation) below a black grandparent. -/
inductive CIns : List Frame → Nat → Prop
  | root {n} : CIns [] n
  | ok {ctx n} : CBal ctx Color.R n → CIns ctx n
  | redL {a k v r ctx n} : Bal r Color.B n → CBal ctx Color.R n →
      CIns (Frame.L a Color.R k v r :: ctx) n
  | redR {a l k v ctx n} : Bal l Color.B n → CBal ctx Color.R n →
      CIns (Frame.R a Color.R l k v :: ctx) n

/-- The path taken by the descent of `rbInsert(Node*)` for key `k`, as a
zipper: left when `k` is smaller than the node key, right otherwise. -/
def descend (k : String) : T → List Frame → List Frame
  | T.lf, ctx => ctx
  | T.nd a c l k' v r, ctx =>
    if k < k' then descend k l (Frame.L a c k' v r :: ctx)
    else descend k r (Frame.R a c l k' v :: ctx)

/-- The innermost frame agrees with the comparison that `rbInsert(Node*)`
repeats when it links the new node below `y`. -/
def TopOK (k : String) : List Frame → Prop
  | [] => True
  | Frame.L _ _ k' _ _ :: _ => k < k'
  | Frame.R _ _ _ k' _ :: _ => ¬ k < k'

/-- Address of the first entry of a list, the sentinel for the empty list. -/
def headAddr : List (Ptr × String × String) → Ptr
  | [] => nil
  | e :: _ => e.1

/-- Address of the last entry of a list, the sentinel for the empty list. -/
def lastAddr (l : List (Ptr × String × String)) : Ptr := headAddr l.reverse

/-- The position reached by `rbTreeSearch` for key `k`, as a zipper and the
subtree found there (`lf` when the key is absent). -/
def searchZ (k : String) : T → List Frame → List Frame × T
  | T.lf, ctx => (ctx, T.lf)
  | T.nd a c l k' v r, ctx =>
    if k = k' then (ctx, T.nd a c l k' v r)
    else if k < k' then searchZ k l (Frame.L a c k' v r :: ctx)
    else searchZ k r (Frame.R a c l k' v :: ctx)

/-- Case 4 of `rbDeleteFixup` for `x` a left child (the sibling `w` is black
with a red right child), followed by the next loop test `rec`. -/
def deleteFixupCase4L (rec : RBTree → Ptr → Option (RBTree × Ptr)) (t : RBTree) (x w : Ptr) :
    Option (RBTree × Ptr) :=
  let t := t.setColor w (t.color (t.parent x))
  let t := t.setColor (t.parent x) Color.B
  let t := t.setColor (t.right w) Color.B
  let t := leftRotate t (t.parent x)
  rec t t.root

/-- The body of the `rbDeleteFixup` loop after Case 1, for `x` a left child. -/
def deleteFixupRestL (rec : RBTree → Ptr → Option (RBTree × Ptr)) (t : RBTree) (x w : Ptr) :
    Option (RBTree × Ptr) :=
  if t.color (t.left w) = Color.B ∧ t.color (t.right w) = Color.B then
    let t := t.setColor w Color.R
    rec t (t.parent x)
  else
    let tw : RBTree × Ptr :=
      if t.color (t.right w) = Color.B then
        let t := t.setColor (t.left w) Color.B
        let t := t.setColor w Color.R
        let t := rightRotate t w
        (t, t.right (t.parent x))
      else (t, w)
    deleteFixupCase4L rec tw.1 x tw.2

/-- Case 4 of `rbDeleteFixup` for `x` a right child. -/
def deleteFixupCase4R (rec : RBTree → Ptr → Option (RBTree × Ptr)) (t : RBTree) (x w : Ptr) :
    Option (RBTree × Ptr) :=
  let t := t.setColor w (t.color (t.parent x))
  let t := t.setColor (t.parent x) Color.B
  let t := t.setColor (t.left w) Color.B
  let t := rightRotate t (t.parent x)
  rec t t.root

/-- The body of the `rbDeleteFixup` loop after Case 1, for `x` a right child. -/
def deleteFixupRestR (rec : RBTree → Ptr → Option (RBTree × Ptr)) (t : RBTree) (x w : Ptr) :
    Option (RBTree × Ptr) :=
  if t.color (t.right w) = Color.B ∧ t.color (t.left w) = Color.B then
    let t := t.setColor w Color.R
    rec t (t.parent x)
  else
    let tw : RBTree × Ptr :=
      if t.color (t.left w) = Color.B then
        let t := t.setColor (t.right w) Color.B
        let t := t.setColor w Color.R
        let t := leftRotate t w
        (t, t.left (t.parent x))
      else (t, w)
    deleteFixupCase4R rec tw.1 x tw.2

/-- What `rbDeleteFixup` works on: a black subtree of black height `n`, or a
red node whose children are balanced with black height `n`. -/
inductive DelFocus : T → Nat → Prop
  | black {t n} : Bal t Color.B n → DelFocus t n
  | red {a l k v r c₁ c₂ n} : Bal l c₁ n → Bal r c₂ n → DelFocus (T.nd a Color.R l k v r) n

/-- What the loop of `rbDeleteFixup` delivers: it returns a state and a
pointer `x` such that, after `x->color = 'B'`, the state represents a
balanced tree with the in-order entries `E`. -/
def DelPost (res : Option (RBTree × Ptr)) (E : List (Ptr × String × String)) (nx : Nat) : Prop :=
  ∃ h' x' t' m, res = some (h', x') ∧ Rep (h'.setColor x' Color.B) t' ∧ Bal t' Color.B m ∧
    t'.entries = E ∧ h'.next = nx

/-- The statement proved about the loop of `rbDeleteFixup` run with fuel `f`. -/
def DelSpec (f : Nat) : Prop :=
  ∀ (h : RBTree) (ctx : List Frame) (xt : T) (n : Nat),
    0 < f → (xt.col = Color.B → ctx.length < f) → RepZ h ctx xt →
    h.parent xt.addr = ctxAddr ctx → CBal ctx Color.B (n + 1) → DelFocus xt n →
    DelPost (rbDeleteFixupLoop f h xt.addr) (plug ctx xt).entries h.next

/-! ## Observers and drivers

The source has no function for the size, the height or the depth of a node,
and no driver for a sequence of calls.  The definitions below read them off a
state by following the same links the source follows (`left`, `right`,
`parent`, stopping at the sentinel), with `next` as fuel. -/

/-- Number of nodes of the tree. -/
def sizeAux (t : RBTree) : Nat → Ptr → Nat
  | 0, _ => 0
  | f + 1, x => if x ≠ nil then sizeAux t f (t.left x) + 1 + sizeAux t f (t.right x) else 0

def size (t : RBTree) : Nat := sizeAux t t.next t.root

/-- Number of nodes on the longest path from the root down to the sentinel. -/
def heightAux (t : RBTree) : Nat → Ptr → Nat
  | 0, _ => 0
  | f + 1, x => if x ≠ nil then max (heightAux t f (t.left x)) (heightAux t f (t.right x)) + 1 else 0

def height (t : RBTree) : Nat := heightAux t t.next t.root

/-- Addresses of the nodes, in-order. -/
def nodesAux (t : RBTree) : Nat → Ptr → List Ptr
  | 0, _ => []
  | f + 1, x => if x ≠ nil then nodesAux t f (t.left x) ++ x :: nodesAux t f (t.right x) else []

def nodes (t : RBTree) : List Ptr := nodesAux t t.next t.root

/-- Distance of a node from the root, counted along the parent links. -/
def depthAux (t : RBTree) : Nat → Ptr → Nat
  | 0, _ => 0
  | f + 1, x => if x = t.root then 0 else depthAux t f (t.parent x) + 1

def depth (t : RBTree) (x : Ptr) : Nat := depthAux t t.next x

/-- A sequence of `rbInsert` calls, as `RBapp::processInsert` issues them;
`none` if a call gives no result. -/
def insertAll : RBTree → List (String × String) → Option RBTree
  | t, [] => some t
  | t, p :: ps => (t.rbInsert p.1 p.2).bind fun t => insertAll t ps

/-- A call of the public interface that changes the tree. -/
inductive Op where
  | insert (key value : String)
  | delete (key value : String)

def applyOp (t : RBTree) : Op → Option RBTree
  | Op.insert k v => t.rbInsert k v
  | Op.delete k v => t.rbDelete k v

/-- A sequence of `rbInsert` and `rbDelete` calls; `none` if a call gives no
result. -/
def run : RBTree → List Op → Option RBTree
  | t, [] => some t
  | t, op :: ops => (t.applyOp op).bind fun t => run t ops

/-- The lines `reverseInOrderPrint` writes for a subtree at depth `d`. -/
def T.printList : T → Nat → List PrintEntry
  | T.lf, _ => []
  | T.nd _ c l k v r, d => r.printList (d + 1) ++ [⟨d * 4 + 4, c, k, v⟩] ++ l.printList (d + 1)

/-- A small tree used to instantiate the theorems: five inserts into the
empty tree (the state itself if an insert were to fail). -/
def sample : RBTree :=
  (insertAll empty [("m", "1"), ("c", "2"), ("x", "3"), ("a", "4"), ("e", "5")]).getD empty

/-! ## The fixups, step by step

`rbInsert(Node*)` and `rbDelete(Node*)` are cut at the call of their fixup,
and the two fixup loops are unrolled one iteration at a time, with a record
of what an iteration does: the rotations it calls and the siblings it reads.
The functions below repeat the code of the loops; they are shown to compute
the same states as `rbInsertFixupLoop` and `rbDeleteFixupLoop`. -/

/-- The part of `rbInsert(Node*)` before the call `rbInsertFixup(z)`. -/
def rbInsertAttach (t : RBTree) (z : Ptr) : Option RBTree :=
  (rbInsertDescend t z t.next nil t.root).bind fun y =>
    let t := t.setParent z y
    let t :=
      if y = nil then t.setRoot z
      else if t.key z < t.key y then t.setLeft y z
      else t.setRight y z
    let t := t.setLeft z nil
    let t := t.setRight z nil
    let t := t.setColor z Color.R
    some t

/-- The part of `rbDelete(Node*)` before `if (yoc == 'B') rbDeleteFixup(x)`:
the state reached there, with `x` and `yoc`. -/
def rbDeleteSplice (t : RBTree) (z : Ptr) : Option (RBTree × Ptr × Color) :=
  if t.left z = nil then
    let x := t.right z
    let yoc := t.color z
    let t := rbTransplant t z (t.right z)
    some (t, x, yoc)
  else if t.right z = nil then
    let x := t.left z
    let yoc := t.color z
    let t := rbTransplant t z (t.left z)
    some (t, x, yoc)
  else
    (rbTreeMaximum t t.next (t.left z)).bind fun y =>
      let yoc := t.color y
      let x := t.left y
      let t :=
        if t.parent y = z then t.setParent x y
        else
          let t := rbTransplant t y (t.left y)
          let t := t.setLeft y (t.left z)
          t.setParent (t.left y) y
      let t := rbTransplant t z y
      let t := t.setRight y (t.right z)
      let t := t.setParent (t.right y) y
      let t := t.setColor y (t.color z)
      some (t, x, yoc)

/-- Something a fixup loop does, with the state in which it does it. -/
inductive Event where
  /-- A call `leftRotate(x)`. -/
  | leftRotate (t : RBTree) (x : Ptr)
  /-- A call `rightRotate(x)`. -/
  | rightRotate (t : RBTree) (x : Ptr)
  /-- The loop test of `rbInsertFixup` holds (the parent of `z` is red): an
  iteration begins. -/
  | insertIter (t : RBTree) (z : Ptr)
  /-- The loop test of `rbDeleteFixup` holds: an iteration begins. -/
  | deleteIter (t : RBTree) (x : Ptr)
  /-- An assignment `w = ...` of `rbDeleteFixup`, with the value assigned. -/
  | sibling (t : RBTree) (w : Ptr)

/-- One iteration of the loop of `rbInsertFixup`: the state and `z` after
it, and the rotations it calls. -/
def rbInsertFixupBody (t : RBTree) (z : Ptr) : RBTree × Ptr × List Event :=
  if t.parent z = t.left (t.parent (t.parent z)) then
    let y := t.right (t.parent (t.parent z))
    if t.color y = Color.R then
      let t := t.setColor (t.parent z) Color.B
      let t := t.setColor y Color.B
      let t := t.setColor (t.parent (t.parent z)) Color.R
      (t, t.parent (t.parent z), [])
    else
      let tz : RBTree × Ptr × List Event :=
        if z = t.right (t.parent z) then
          (leftRotate t (t.parent z), t.parent z, [Event.leftRotate t (t.parent z)])
        else (t, z, [])
      let t := tz.1
      let z := tz.2.1
      let t := t.setColor (t.parent z) Color.B
      let t := t.setColor (t.parent (t.parent z)) Color.R
      (rightRotate t (t.parent (t.parent z)), z,
        tz.2.2 ++ [Event.rightRotate t (t.parent (t.parent z))])
  else
    let y := t.left (t.parent (t.parent z))
    if t.color y = Color.R then
      let t := t.setColor (t.parent z) Color.B
      let t := t.setColor y Color.B
      let t := t.setColor (t.parent (t.parent z)) Color.R
      (t, t.parent (t.parent z), [])
    else
      let tz : RBTree × Ptr × List Event :=
        if z = t.left (t.parent z) then
          (rightRotate t (t.parent z), t.parent z, [Event.rightRotate t (t.parent z)])
        else (t, z, [])
      let t := tz.1
      let z := tz.2.1
      let t := t.setColor (t.parent z) Color.B
      let t := t.setColor (t.parent (t.parent z)) Color.R
      (leftRotate t (t.parent (t.parent z)), z,
        tz.2.2 ++ [Event.leftRotate t (t.parent (t.parent z))])

/-- The loop of `rbInsertFixup`, with the record of its iterations. -/
def rbInsertFixupLoopLog : Nat → RBTree → Ptr → Option (RBTree × List Event)
  | 0, _, _ => none
  | f + 1, t, z =>
    if t.color (t.parent z) = Color.R then
      (rbInsertFixupLoopLog f (rbInsertFixupBody t z).1 (rbInsertFixupBody t z).2.1).map fun r =>
        (r.1, Event.insertIter t z :: ((rbInsertFixupBody t z).2.2 ++ r.2))
    else some (t, [])

/-- `RBTree::rbInsertFixup`, with the record of its loop. -/
def rbInsertFixupLog (t : RBTree) (z : Ptr) : Option (RBTree × List Event) :=
  (rbInsertFixupLoopLog t.next t z).map fun r => (r.1.setColor r.1.root Color.B, r.2)

/-- `RBTree::rbInsert(const string&, const string&)`, with the record of its
fixup. -/
def rbInsertLog (t : RBTree) (key value : String) : Option (RBTree × List Event) :=
  (rbInsertAttach (t.newNode key value) t.next).bind fun t' => rbInsertFixupLog t' t.next

/-- Case 4 of `rbDeleteFixup` for `x` a left child, to the end of the
iteration (`x = root`). -/
def deleteBodyCase4L (t : RBTree) (x w : Ptr) : RBTree × Ptr × List Event :=
  let t := t.setColor w (t.color (t.parent x))
  let t := t.setColor (t.parent x) Color.B
  let t := t.setColor (t.right w) Color.B
  (leftRotate t (t.parent x), (leftRotate t (t.parent x)).root,
    [Event.leftRotate t (t.parent x)])

/-- An iteration of `rbDeleteFixup` after Case 1, for `x` a left child. -/
def deleteBodyRestL (t : RBTree) (x w : Ptr) : RBTree × Ptr × List Event :=
  if t.color (t.left w) = Color.B ∧ t.color (t.right w) = Color.B then
    let t := t.setColor w Color.R
    (t, t.parent x, [])
  else
    let tw : RBTree × Ptr × List Event :=
      if t.color (t.right w) = Color.B then
        let t := t.setColor (t.left w) Color.B
        let t := t.setColor w Color.R
        (rightRotate t w, (rightRotate t w).right ((rightRotate t w).parent x),
          [Event.rightRotate t w,
            Event.sibling (rightRotate t w) ((rightRotate t w).right ((rightRotate t w).parent x))])
      else (t, w, [])
    ((deleteBodyCase4L tw.1 x tw.2.1).1, (deleteBodyCase4L tw.1 x tw.2.1).2.1,
      tw.2.2 ++ (deleteBodyCase4L tw.1 x tw.2.1).2.2)

/-- Case 4 of `rbDeleteFixup` for `x` a right child. -/
def deleteBodyCase4R (t : RBTree) (x w : Ptr) : RBTree × Ptr × List Event :=
  let t := t.setColor w (t.color (t.parent x))
  let t := t.setColor (t.parent x) Color.B
  let t := t.setColor (t.left w) Color.B
  (rightRotate t (t.parent x), (rightRotate t (t.parent x)).root,
    [Event.rightRotate t (t.parent x)])

/-- An iteration of `rbDeleteFixup` after Case 1, for `x` a right child. -/
def deleteBodyRestR (t : RBTree) (x w : Ptr) : RBTree × Ptr × List Event :=
  if t.color (t.right w) = Color.B ∧ t.color (t.left w) = Color.B then
    let t := t.setColor w Color.R
    (t, t.parent x, [])
  else
    let tw : RBTree × Ptr × List Event :=
      if t.color (t.left w) = Color.B then
        let t := t.setColor (t.right w) Color.B
        let t := t.setColor w Color.R
        (leftRotate t w, (leftRotate t w).left ((leftRotate t w).parent x),
          [Event.leftRotate t w,
            Event.sibling (leftRotate t w) ((leftRotate t w).left ((leftRotate t w).parent x))])
      else (t, w, [])
    ((deleteBodyCase4R tw.1 x tw.2.1).1, (deleteBodyCase4R tw.1 x tw.2.1).2.1,
      tw.2.2 ++ (deleteBodyCase4R tw.1 x tw.2.1).2.2)

/-- One iteration of the loop of `rbDeleteFixup`: the state and `x` after
it, the rotations it calls and the siblings `w` it reads. -/
def rbDeleteFixupBody (t : RBTree) (x : Ptr) : RBTree × Ptr × List Event :=
  if x = t.left (t.parent x) then
    let w := t.right (t.parent x)
    let tw : RBTree × Ptr × List Event :=
      if t.color w = Color.R then
        let t1 := t.setColor w Color.B
        let t2 := t1.setColor (t1.parent x) Color.R
        let t3 := leftRotate t2 (t2.parent x)
        (t3, t3.right (t3.parent x),
          [Event.leftRotate t2 (t2.parent x), Event.sibling t3 (t3.right (t3.parent x))])
      else (t, w, [])
    ((deleteBodyRestL tw.1 x tw.2.1).1, (deleteBodyRestL tw.1 x tw.2.1).2.1,
      Event.sibling t w :: (tw.2.2 ++ (deleteBodyRestL tw.1 x tw.2.1).2.2))
  else
    let w := t.left (t.parent x)
    let tw : RBTree × Ptr × List Event :=
      if t.color w = Color.R then
        let t1 := t.setColor w Color.B
        let t2 := t1.setColor (t1.parent x) Color.R
        let t3 := rightRotate t2 (t2.parent x)
        (t3, t3.left (t3.parent x),
          [Event.rightRotate t2 (t2.parent x), Event.sibling t3 (t3.left (t3.parent x))])
      else (t, w, [])
    ((deleteBodyRestR tw.1 x tw.2.1).1, (deleteBodyRestR tw.1 x tw.2.1).2.1,
      Event.sibling t w :: (tw.2.2 ++ (deleteBodyRestR tw.1 x tw.2.1).2.2))

/-- The loop of `rbDeleteFixup`, with the record of its iterations. -/
def rbDeleteFixupLoopLog : Nat → RBTree → Ptr → Option ((RBTree × Ptr) × List Event)
  | 0, _, _ => none
  | f + 1, t, x =>
    if x ≠ t.root ∧ t.color x = Color.B then
      (rbDeleteFixupLoopLog f (rbDeleteFixupBody t x).1 (rbDeleteFixupBody t x).2.1).map fun r =>
        (r.1, Event.deleteIter t x :: ((rbDeleteFixupBody t x).2.2 ++ r.2))
    else some ((t, x), [])

/-- `RBTree::rbDeleteFixup`, with the record of its loop. -/
def rbDeleteFixupLog (t : RBTree) (x : Ptr) : Option (RBTree × List Event) :=
  (rbDeleteFixupLoopLog t.next t x).map fun r => (r.1.1.setColor r.1.2 Color.B, r.2)

/-- `RBTree::rbDelete(Node* z)`, with the record of its fixup. -/
def rbDeleteNodeLog (t : RBTree) (z : Ptr) : Option (RBTree × List Event) :=
  (rbDeleteSplice t z).bind fun r =>
    if r.2.2 = Color.B then rbDeleteFixupLog r.1 r.2.1 else some (r.1, [])

/-- The deletion loop of `rbDelete(key, value)`, with the record of the
fixups. -/
def rbDeleteAllLog : RBTree → List Ptr → Option (RBTree × List Event)
  | t, [] => some (t, [])
  | t, toDelete :: rest =>
    (rbDeleteNodeLog t toDelete).bind fun r =>
      (rbDeleteAllLog r.1 rest).map fun r' => (r'.1, r.2 ++ r'.2)

/-- `RBTree::rbDelete(const string&, const string&)`, with the record of the
fixups. -/
def rbDeleteLog (t : RBTree) (key value : String) : Option (RBTree × List Event) :=
  (rbDeleteCollect t key value).bind fun results => rbDeleteAllLog t results.reverse

/-- The event is a call of `leftRotate` or `rightRotate`. -/
def Event.isRotation : Event → Bool
  | Event.leftRotate _ _ => true
  | Event.rightRotate _ _ => true
  | _ => false

/-- A real node of the tree: not the sentinel, and met by the in-order walk
from the root. -/
def real (t : RBTree) (x : Ptr) : Prop := x ≠ nil ∧ x ∈ nodes t

/-- The sentinel is not taken for a real node: a rotation is at a real node
whose child on the far side is real, an iteration of `rbInsertFixup` finds a
real parent and grandparent, an iteration of `rbDeleteFixup` finds a real
parent, and a sibling is real. -/
def Event.safe : Event → Prop
  | Event.leftRotate t x => real t x ∧ real t (t.right x)
  | Event.rightRotate t x => real t x ∧ real t (t.left x)
  | Event.insertIter t z => real t z ∧ real t (t.parent z) ∧ real t (t.parent (t.parent z))
  | Event.deleteIter t x => real t (t.parent x)
  | Event.sibling t w => real t w

/-- The uncle `y` of `z` in `rbInsertFixup`: the sibling of the parent of `z`. -/
def uncle (t : RBTree) (z : Ptr) : Ptr :=
  if t.parent z = t.left (t.parent (t.parent z)) then t.right (t.parent (t.parent z))
  else t.left (t.parent (t.parent z))

/-- What an iteration of `rbInsertFixup` does, by the colour of the uncle.
Uncle red: three cells are recoloured, nothing else changes, no rotation is
called, and `z` moves to its grandparent, two levels up.  Uncle black: at
most two rotations are called, and after them the parent of `z` is black. -/
def InsertIterOK (t : RBTree) (z : Ptr) : Prop :=
  (t.color (uncle t z) = Color.R →
    rbInsertFixupBody t z =
      (((t.setColor (t.parent z) Color.B).setColor (uncle t z) Color.B).setColor
        (t.parent (t.parent z)) Color.R, t.parent (t.parent z), []) ∧
    depth (rbInsertFixupBody t z).1 (rbInsertFixupBody t z).2.1 + 2 = depth t z) ∧
  (t.color (uncle t z) ≠ Color.R →
    (rbInsertFixupBody t z).1.color
      ((rbInsertFixupBody t z).1.parent (rbInsertFixupBody t z).2.1) = Color.B ∧
    (rbInsertFixupBody t z).2.2.length ≤ 2)

/-- The state of the loop of `rbInsertFixup` at its test: `z` is a red node
at depth `d` of a tree that is balanced but for the colour of the parent of
`z`. -/
def InsInv (h : RBTree) (z : Ptr) (d : Nat) : Prop :=
  ∃ ctx k v l r n, ctx.length = d ∧ RepZ h ctx (T.nd z Color.R l k v r) ∧
    Bal (T.nd z Color.R l k v r) Color.R n ∧ CIns ctx n

/-- The state of the loop of `rbDeleteFixup` at its test: `x` (possibly the
sentinel) heads a subtree that is one black node short, in a tree that is
balanced otherwise; when `x` is black it is at most `m` levels below the
root. -/
def DelInv (h : RBTree) (x : Ptr) (m : Nat) : Prop :=
  ∃ ctx xt n, x = xt.addr ∧ RepZ h ctx xt ∧ h.parent xt.addr = ctxAddr ctx ∧
    CBal ctx Color.B (n + 1) ∧ DelFocus xt n ∧ (xt.col = Color.B → ctx.length ≤ m)

/-- The state `h1` is a state of the loop of `rbDeleteFixup` with `x`. -/
def FixupReady (h1 : RBTree) (x : Ptr) : Prop :=
  ∃ ctx xt n, x = xt.addr ∧ RepZ h1 ctx xt ∧ h1.parent xt.addr = ctxAddr ctx ∧
    CBal ctx Color.B (n + 1) ∧ DelFocus xt n

/-- A tree of three nodes: `m` at the root (cell 1), `c` (cell 2) and `x`
(cell 3) below it. -/
def three : RBTree :=
  (insertAll empty [("m", "1"), ("c", "2"), ("x", "3")]).getD empty

/-- The reading of `rbDelete(Node*)` with the in-order successor: the
minimum `y` of the right subtree of `z` is the node found, after the
relinking, in the position of `z` (same parent, root if `z` was the root)
with the colour of `z`. -/
def ReplacedBySuccessor (t : RBTree) (z : Ptr) : Prop :=
  ∃ y t1 x yoc, rbTreeMinimum t t.next (t.right z) = some y ∧
    rbDeleteSplice t z = some (t1, x, yoc) ∧
    t1.parent y = t.parent z ∧ t1.color y = t.color z ∧ (t.parent z = nil → t1.root = y)

/-- Key of the parent node a frame stands for. -/
def Frame.key : Frame → String
  | Frame.L _ _ k _ _ => k
  | Frame.R _ _ _ k _ => k

/-- A tree of three nodes with the same key: inserts of `(k, a)`, `(k, b)`,
`(k, c)` (cells 1, 2, 3). -/
def dup : RBTree :=
  (insertAll empty [("k", "a"), ("k", "b"), ("k", "c")]).getD empty

/-- The reading of the search as "first in in-order": the in-order
predecessor of the node found by `rbTreeSearch` from the root, if there is
one, has another key. -/
def SearchFindsFirst (t : RBTree) (k : String) : Prop :=
  ∀ x, rbTreeSearch t k t.next t.root = some x → x ≠ nil →
    ∀ y, rbTreePredecessor t x = some y → y ≠ nil → t.key y ≠ k

/-- In-order (key, value, colour) sequence of the tree. -/
def inorderC (t : RBTree) : List (String × String × Color) :=
  (nodes t).map fun a => (t.key a, t.value a, t.color a)

/-- What `leftRotate(x)` is to do, `h'` being the state after it and `y` the
right child of `x` before it.  The tree stays well formed with the same
in-order nodes, keys, values and colours; `y` is in the former position of
`x`; `x` is the left child of `y` and the former left subtree of `y` is the
right subtree of `x`; every other link is as before. -/
def LeftRotated (h h' : RBTree) (x : Ptr) : Prop :=
  (∃ t', Rep h' t') ∧ nodes h' = nodes h ∧ inorderC h' = inorderC h ∧
  (∀ a, h'.key a = h.key a ∧ h'.value a = h.value a ∧ h'.color a = h.color a) ∧
  h'.parent (h.right x) = h.parent x ∧
  (if h.parent x = nil then h'.root = h.right x
    else if x = h.left (h.parent x) then h'.left (h.parent x) = h.right x
    else h'.right (h.parent x) = h.right x) ∧
  h'.left (h.right x) = x ∧ h'.parent x = h.right x ∧
  h'.right x = h.left (h.right x) ∧
  (h.left (h.right x) ≠ nil → h'.parent (h.left (h.right x)) = x) ∧
  h'.left x = h.left x ∧ h'.right (h.right x) = h.right (h.right x) ∧
  (h.parent x ≠ nil → h'.root = h.root ∧ h'.parent (h.parent x) = h.parent (h.parent x) ∧
    (x = h.left (h.parent x) → h'.right (h.parent x) = h.right (h.parent x)) ∧
    (x ≠ h.left (h.parent x) → h'.left (h.parent x) = h.left (h.parent x))) ∧
  (h.left (h.right x) ≠ nil →
    h'.left (h.left (h.right x)) = h.left (h.left (h.right x)) ∧
    h'.right (h.left (h.right x)) = h.right (h.left (h.right x))) ∧
  (∀ a, a ≠ x → a ≠ h.right x → a ≠ h.left (h.right x) → a ≠ h.parent x → h'.mem a = h.mem a) ∧
  h'.mem nil = h.mem nil ∧ h'.next = h.next

/-- What `rightRotate(x)` is to do: the mirror image of `LeftRotated`, `y`
being the left child of `x`. -/
def RightRotated (h h' : RBTree) (x : Ptr) : Prop :=
  (∃ t', Rep h' t') ∧ nodes h' = nodes h ∧ inorderC h' = inorderC h ∧
  (∀ a, h'.key a = h.key a ∧ h'.value a = h.value a ∧ h'.color a = h.color a) ∧
  h'.parent (h.left x) = h.parent x ∧
  (if h.parent x = nil then h'.root = h.left x
    else if x = h.right (h.parent x) then h'.right (h.parent x) = h.left x
    else h'.left (h.parent x) = h.left x) ∧
  h'.right (h.left x) = x ∧ h'.parent x = h.left x ∧
  h'.left x = h.right (h.left x) ∧
  (h.right (h.left x) ≠ nil → h'.parent (h.right (h.left x)) = x) ∧
  h'.right x = h.right x ∧ h'.left (h.left x) = h.left (h.left x) ∧
  (h.parent x ≠ nil → h'.root = h.root ∧ h'.parent (h.parent x) = h.parent (h.parent x) ∧
    (x = h.right (h.parent x) → h'.left (h.parent x) = h.left (h.parent x)) ∧
    (x ≠ h.right (h.parent x) → h'.right (h.parent x) = h.right (h.parent x))) ∧
  (h.right (h.left x) ≠ nil →
    h'.left (h.right (h.left x)) = h.left (h.right (h.left x)) ∧
    h'.right (h.right (h.left x)) = h.right (h.right (h.left x))) ∧
  (∀ a, a ≠ x → a ≠ h.left x → a ≠ h.right (h.left x) → a ≠ h.parent x → h'.mem a = h.mem a) ∧
  h'.mem nil = h.mem nil ∧ h'.next = h.next

/-! ## `splitString` of `rbapp.cpp`

A `std::string` is a list of characters.  The counter `i` is an
`unsigned int`: `w` is its width in bits (32 on the usual platforms), and
`i++` is addition modulo `2 ^ w`.  The length of the string is a `size_t`,
wide enough for every string, so `i < in.length()` compares the numbers. -/

/-- `std::string::substr(pos, len)`, for `pos` not beyond the end. -/
def substr (s : List Char) (pos len : Nat) : List Char := (s.drop pos).take len

/-- The loop of `splitString`:
`while (i < in.length() && in.substr(i,1) != " ") { out1 += in.substr(i,1); i++; }`.
The result is the final `i` and `out1`; `none` when the fuel runs out. -/
def splitStringLoop (w : Nat) (s : List Char) : Nat → Nat → List Char → Option (Nat × List Char)
  | 0, _, _ => none
  | f + 1, i, out1 =>
    if i < s.length ∧ substr s i 1 ≠ [' '] then
      splitStringLoop w s f ((i + 1) % 2 ^ w) (out1 ++ substr s i 1)
    else some (i, out1)

/-- `splitString(in, out1, out2)`: the result is `(out1, out2)`; after the
loop, `i++; if (i < in.length()) out2 = in.substr(i);`. -/
def splitString (w : Nat) (s : List Char) (fuel : Nat) : Option (List Char × List Char) :=
  (splitStringLoop w s fuel 0 []).map fun r =>
    (r.2, if (r.1 + 1) % 2 ^ w < s.length then s.drop ((r.1 + 1) % 2 ^ w) else [])

/-- A line of `2 ^ 32 - 1` letters `a`, without a space. -/
def longWord : List Char := List.replicate (2 ^ 32 - 1) 'a'

/-- What the specification says of `splitString`: without a space, `out1`
is the input and `out2` is empty; otherwise `out1` is the part before the
first space, without a space, and `out1 + " " + out2` is the input. -/
def SplitsAtFirstSpace (s out1 out2 : List Char) : Prop :=
  (' ' ∉ s → out1 = s ∧ out2 = []) ∧
  (' ' ∈ s → ' ' ∉ out1 ∧ out1 ++ ' ' :: out2 = s)

/-! ## Reading and writing cells -/

@[simp] theorem setColor_root (h : RBTree) (x : Ptr) (c : Color) : (h.setColor x c).root = h.root := rfl
@[simp] theorem setLeft_root (h : RBTree) (x p : Ptr) : (h.setLeft x p).root = h.root := rfl
@[simp] theorem setRight_root (h : RBTree) (x p : Ptr) : (h.setRight x p).root = h.root := rfl
@[simp] theorem setParent_root (h : RBTree) (x p : Ptr) : (h.setParent x p).root = h.root := rfl
@[simp] theorem setRoot_root (h : RBTree) (p : Ptr) : (h.setRoot p).root = p := rfl
@[simp] theorem setColor_next (h : RBTree) (x : Ptr) (c : Color) : (h.setColor x c).next = h.next := rfl
@[simp] theorem setLeft_next (h : RBTree) (x p : Ptr) : (h.setLeft x p).next = h.next := rfl
@[simp] theorem setRight_next (h : RBTree) (x p : Ptr) : (h.setRight x p).next = h.next := rfl
@[simp] theorem setParent_next (h : RBTree) (x p : Ptr) : (h.setParent x p).next = h.next := rfl
@[simp] theorem setRoot_next (h : RBTree) (p : Ptr) : (h.setRoot p).next = h.next := rfl
@[simp] theorem setRoot_mem (h : RBTree) (p : Ptr) : (h.setRoot p).mem = h.mem := rfl

theorem setColor_mem (h : RBTree) (x : Ptr) (c : Color) (y : Ptr) :
    (h.setColor x c).mem y = if y = x then { h.mem x with color := c } else h.mem y := by
  simp [setColor, Function.update_apply]

theorem setLeft_mem (h : RBTree) (x p y : Ptr) :
    (h.setLeft x p).mem y = if y = x then { h.mem x with left := p } else h.mem y := by
  simp [setLeft, Function.update_apply]

theorem setRight_mem (h : RBTree) (x p y : Ptr) :
    (h.setRight x p).mem y = if y = x then { h.mem x with right := p } else h.mem y := by
  simp [setRight, Function.update_apply]

theorem setParent_mem (h : RBTree) (x p y : Ptr) :
    (h.setParent x p).mem y = if y = x then { h.mem x with parent := p } else h.mem y := by
  simp [setParent, Function.update_apply]

@[simp] theorem T.addr_lf : T.lf.addr = nil := rfl
@[simp] theorem T.addr_nd (a c l k v r) : (T.nd a c l k v r).addr = a := rfl
@[simp] theorem T.addrs_lf : T.lf.addrs = [] := rfl
@[simp] theorem T.addrs_nd (a c l k v r) : (T.nd a c l k v r).addrs = l.addrs ++ a :: r.addrs := rfl
@[simp] theorem ctxAddrs_nil : ctxAddrs [] = [] := rfl
@[simp] theorem ctxAddrs_L (a c k v r ctx) :
    ctxAddrs (Frame.L a c k v r :: ctx) = a :: (r.addrs ++ ctxAddrs ctx) := rfl
@[simp] theorem ctxAddrs_R (a c l k v ctx) :
    ctxAddrs (Frame.R a c l k v :: ctx) = a :: (l.addrs ++ ctxAddrs ctx) := rfl
@[simp] theorem ctxAddr_nil : ctxAddr [] = nil := rfl
@[simp] theorem ctxAddr_L (a c k v r ctx) : ctxAddr (Frame.L a c k v r :: ctx) = a := rfl
@[simp] theorem ctxAddr_R (a c l k v ctx) : ctxAddr (Frame.R a c l k v :: ctx) = a := rfl
@[simp] theorem plug_nil (t : T) : plug [] t = t := rfl
@[simp] theorem plug_L (a c k v r ctx t) :
    plug (Frame.L a c k v r :: ctx) t = plug ctx (T.nd a c t k v r) := rfl
@[simp] theorem plug_R (a c l k v ctx t) :
    plug (Frame.R a c l k v :: ctx) t = plug ctx (T.nd a c l k v t) := rfl

theorem plug_addr_congr : ∀ (ctx : List Frame) {t t' : T}, t.addr = t'.addr →
    (plug ctx t).addr = (plug ctx t').addr
  | [], _, _, h => h
  | Frame.L _ _ _ _ _ :: ctx, _, _, _ => plug_addr_congr ctx rfl
  | Frame.R _ _ _ _ _ :: ctx, _, _, _ => plug_addr_congr ctx rfl

theorem plug_addr_cons (f : Frame) (ctx : List Frame) (t t' : T) :
    (plug (f :: ctx) t).addr = (plug (f :: ctx) t').addr := by
  cases f <;> exact plug_addr_congr ctx rfl

theorem ctxAddr_mem_ctxAddrs : ∀ {ctx : List Frame}, ctx ≠ [] → ctxAddr ctx ∈ ctxAddrs ctx
  | [], h => absurd rfl h
  | Frame.L _ _ _ _ _ :: _, _ => by simp
  | Frame.R _ _ _ _ _ :: _, _ => by simp

/-! ## Frame lemmas -/

theorem own_congr {m m' : Ptr → Node} : ∀ (t : T) (par : Ptr),
    (∀ a ∈ t.addrs, m' a = m a) → Own m t par → Own m' t par
  | T.lf, _, _, _ => trivial
  | T.nd a c l k v r, par, h, ⟨h1, h2, h3⟩ => by
    refine ⟨?_, own_congr l a ?_ h2, own_congr r a ?_ h3⟩
    · rw [h a (by simp)]; exact h1
    · intro x hx; exact h x (by simp [hx])
    · intro x hx; exact h x (by simp [hx])

theorem ownCtx_congr {m m' : Ptr → Node} : ∀ (ctx : List Frame) (ch : Ptr),
    (∀ a ∈ ctxAddrs ctx, m' a = m a) → OwnCtx m ctx ch → OwnCtx m' ctx ch
  | [], _, _, _ => trivial
  | Frame.L a c k v r :: ctx, ch, h, ⟨h1, h2, h3⟩ => by
    refine ⟨?_, own_congr r a ?_ h2, ownCtx_congr ctx a ?_ h3⟩
    · rw [h a (by simp)]; exact h1
    · intro x hx; exact h x (by simp [hx])
    · intro x hx; exact h x (by simp [hx])
  | Frame.R a c l k v :: ctx, ch, h, ⟨h1, h2, h3⟩ => by
    refine ⟨?_, own_congr l a ?_ h2, ownCtx_congr ctx a ?_ h3⟩
    · rw [h a (by simp)]; exact h1
    · intro x hx; exact h x (by simp [hx])
    · intro x hx; exact h x (by simp [hx])

/-- Changing the parent link expected at the root of a subtree. -/
theorem own_reparent {m : Ptr → Node} {a c l k v r par} (par' : Ptr)
    (h : Own m (T.nd a c l k v r) par) (hl : a ∉ l.addrs) (hr : a ∉ r.addrs) :
    Own (Function.update m a { m a with parent := par' }) (T.nd a c l k v r) par' := by
  obtain ⟨h1, h2, h3⟩ := h
  refine ⟨by simp [h1], own_congr l a ?_ h2, own_congr r a ?_ h3⟩
  · intro b hb; rw [Function.update_noteq (ne_of_mem_of_not_mem hb hl)]
  · intro b hb; rw [Function.update_noteq (ne_of_mem_of_not_mem hb hr)]

/-- Changing the child link into the hole of a zipper: only the parent cell changes. -/
theorem ownCtx_child {m m' : Ptr → Node} : ∀ {ctx : List Frame} {ch ch' : Ptr},
    OwnCtx m ctx ch → (ctxAddrs ctx).Nodup →
    (∀ a ∈ ctxAddrs ctx, a ≠ ctxAddr ctx → m' a = m a) →
    (∀ a c k v r rest, ctx = Frame.L a c k v r :: rest → m' a = { m a with left := ch' }) →
    (∀ a c l k v rest, ctx = Frame.R a c l k v :: rest → m' a = { m a with right := ch' }) →
    OwnCtx m' ctx ch'
  | [], _, _, _, _, _, _, _ => trivial
  | Frame.L a c k v r :: ctx, ch, ch', ⟨h1, h2, h3⟩, hnd, hf, hL, _ => by
    simp only [ctxAddrs_L, List.nodup_cons, List.mem_append, not_or, List.nodup_append] at hnd
    refine ⟨?_, own_congr r a ?_ h2, ownCtx_congr ctx a ?_ h3⟩
    · rw [hL a c k v r ctx rfl, h1]
    · intro b hb; exact hf b (by simp [hb]) (ne_of_mem_of_not_mem hb hnd.1.1)
    · intro b hb; exact hf b (by simp [hb]) (ne_of_mem_of_not_mem hb hnd.1.2)
  | Frame.R a c l k v :: ctx, ch, ch', ⟨h1, h2, h3⟩, hnd, hf, _, hR => by
    simp only [ctxAddrs_R, List.nodup_cons, List.mem_append, not_or, List.nodup_append] at hnd
    refine ⟨?_, own_congr l a ?_ h2, ownCtx_congr ctx a ?_ h3⟩
    · rw [hR a c l k v ctx rfl, h1]
    · intro b hb; exact hf b (by simp [hb]) (ne_of_mem_of_not_mem hb hnd.1.1)
    · intro b hb; exact hf b (by simp [hb]) (ne_of_mem_of_not_mem hb hnd.1.2)

theorem T.addr_nil_or_mem : ∀ t : T, t.addr = nil ∨ t.addr ∈ t.addrs
  | T.lf => Or.inl rfl
  | T.nd _ _ _ _ _ _ => Or.inr (by simp)

theorem T.addr_ne_of_not_mem {t : T} {x : Ptr} (hx : x ≠ nil) (h : x ∉ t.addrs) : x ≠ t.addr := by
  rcases t.addr_nil_or_mem with e | e
  · rw [e]; exact hx
  · exact fun e' => h (e' ▸ e)

/-- The parent-side relinking shared by `leftRotate` and `rbTransplant`:
`if (x->parent == nil) root = v; else if (x == x->parent->left) ... else ...`. -/
theorem relinkL_spec {g : RBTree} {ctx : List Frame} {x v : Ptr}
    (hc : OwnCtx g.mem ctx x) (hnd : (ctxAddrs ctx).Nodup)
    (hnz : ∀ a ∈ ctxAddrs ctx, a ≠ nil) (hx : x ≠ nil) (hxc : x ∉ ctxAddrs ctx)
    (hp : g.parent x = ctxAddr ctx) :
    ∃ g' : RBTree,
      (if g.parent x = nil then g.setRoot v
        else if x = g.left (g.parent x) then g.setLeft (g.parent x) v
        else g.setRight (g.parent x) v) = g' ∧
      OwnCtx g'.mem ctx v ∧ (∀ a, a ∉ ctxAddrs ctx → g'.mem a = g.mem a) ∧ g'.next = g.next ∧
      (∀ t t' : T, g.root = (plug ctx t).addr → t'.addr = v → g'.root = (plug ctx t').addr) := by
  refine ⟨_, rfl, ?_⟩
  rw [hp]
  rcases ctx with _ | ⟨f, ctx⟩
  · simp only [ctxAddr_nil, if_true]
    exact ⟨trivial, fun _ _ => rfl, rfl, fun _ _ _ e => e.symm⟩
  · have hpn : ctxAddr (f :: ctx) ≠ nil := hnz _ (ctxAddr_mem_ctxAddrs (by simp))
    rw [if_neg hpn]
    cases f with
    | L a c k v' r =>
      have ha : g.left a = x := by simp [left, hc.1]
      simp only [ctxAddr_L, ha, if_true]
      refine ⟨?_, ?_, rfl, fun t t' e _ => e.trans (plug_addr_cons _ _ _ _)⟩
      · refine ownCtx_child hc hnd ?_ ?_ ?_
        · intro b _ hb; simp only [ctxAddr_L] at hb; simp [setLeft_mem, hb]
        · intro a' c' k' v'' r' rest e; cases e; simp [setLeft_mem]
        · intro a' c' l' k' v'' rest e; cases e
      · intro b hb; simp only [ctxAddrs_L, List.mem_cons, not_or] at hb
        simp [setLeft_mem, hb.1]
    | R a c l k v' =>
      have hxl : x ≠ l.addr := by
        refine T.addr_ne_of_not_mem hx ?_
        intro hm; exact hxc (by simp [hm])
      have ha : g.left a = l.addr := by simp [left, hc.1]
      simp only [ctxAddr_R, ha, if_neg hxl]
      refine ⟨?_, ?_, rfl, fun t t' e _ => e.trans (plug_addr_cons _ _ _ _)⟩
      · refine ownCtx_child hc hnd ?_ ?_ ?_
        · intro b _ hb; simp only [ctxAddr_R] at hb; simp [setRight_mem, hb]
        · intro a' c' k' v'' r' rest e; cases e
        · intro a' c' l' k' v'' rest e; cases e; simp [setRight_mem]
      · intro b hb; simp only [ctxAddrs_R, List.mem_cons, not_or] at hb
        simp [setRight_mem, hb.1]

/-- The parent-side relinking of `rightRotate`, which tests the right link first. -/
theorem relinkR_spec {g : RBTree} {ctx : List Frame} {x v : Ptr}
    (hc : OwnCtx g.mem ctx x) (hnd : (ctxAddrs ctx).Nodup)
    (hnz : ∀ a ∈ ctxAddrs ctx, a ≠ nil) (hx : x ≠ nil) (hxc : x ∉ ctxAddrs ctx)
    (hp : g.parent x = ctxAddr ctx) :
    ∃ g' : RBTree,
      (if g.parent x = nil then g.setRoot v
        else if x = g.right (g.parent x) then g.setRight (g.parent x) v
        else g.setLeft (g.parent x) v) = g' ∧
      OwnCtx g'.mem ctx v ∧ (∀ a, a ∉ ctxAddrs ctx → g'.mem a = g.mem a) ∧ g'.next = g.next ∧
      (∀ t t' : T, g.root = (plug ctx t).addr → t'.addr = v → g'.root = (plug ctx t').addr) := by
  refine ⟨_, rfl, ?_⟩
  rw [hp]
  rcases ctx with _ | ⟨f, ctx⟩
  · simp only [ctxAddr_nil, if_true]
    exact ⟨trivial, fun _ _ => rfl, rfl, fun _ _ _ e => e.symm⟩
  · have hpn : ctxAddr (f :: ctx) ≠ nil := hnz _ (ctxAddr_mem_ctxAddrs (by simp))
    rw [if_neg hpn]
    cases f with
    | R a c l k v' =>
      have ha : g.right a = x := by simp [right, hc.1]
      simp only [ctxAddr_R, ha, if_true]
      refine ⟨?_, ?_, rfl, fun t t' e _ => e.trans (plug_addr_cons _ _ _ _)⟩
      · refine ownCtx_child hc hnd ?_ ?_ ?_
        · intro b _ hb; simp only [ctxAddr_R] at hb; simp [setRight_mem, hb]
        · intro a' c' k' v'' r' rest e; cases e
        · intro a' c' l' k' v'' rest e; cases e; simp [setRight_mem]
      · intro b hb; simp only [ctxAddrs_R, List.mem_cons, not_or] at hb
        simp [setRight_mem, hb.1]
    | L a c k v' r =>
      have hxl : x ≠ r.addr := by
        refine T.addr_ne_of_not_mem hx ?_
        intro hm; exact hxc (by simp [hm])
      have ha : g.right a = r.addr := by simp [right, hc.1]
      simp only [ctxAddr_L, ha, if_neg hxl]
      refine ⟨?_, ?_, rfl, fun t t' e _ => e.trans (plug_addr_cons _ _ _ _)⟩
      · refine ownCtx_child hc hnd ?_ ?_ ?_
        · intro b _ hb; simp only [ctxAddr_L] at hb; simp [setLeft_mem, hb]
        · intro a' c' k' v'' r' rest e; cases e; simp [setLeft_mem]
        · intro a' c' l' k' v'' rest e; cases e
      · intro b hb; simp only [ctxAddrs_L, List.mem_cons, not_or] at hb
        simp [setLeft_mem, hb.1]

theorem leftRotate_eq (h : RBTree) (x : Ptr) (t1 t2 t3 t4 : RBTree)
    (e1 : h.setRight x (h.left (h.right x)) = t1)
    (e2 : (if t1.left (h.right x) ≠ nil then t1.setParent (t1.left (h.right x)) x else t1) = t2)
    (e3 : t2.setParent (h.right x) (t2.parent x) = t3)
    (e4 : (if t3.parent x = nil then t3.setRoot (h.right x)
        else if x = t3.left (t3.parent x) then t3.setLeft (t3.parent x) (h.right x)
        else t3.setRight (t3.parent x) (h.right x)) = t4) :
    leftRotate h x = (t4.setLeft (h.right x) x).setParent x (h.right x) := by
  subst e1 e2 e3 e4; rfl

theorem rightRotate_eq (h : RBTree) (x : Ptr) (t1 t2 t3 t4 : RBTree)
    (e1 : h.setLeft x (h.right (h.left x)) = t1)
    (e2 : (if t1.right (h.left x) ≠ nil then t1.setParent (t1.right (h.left x)) x else t1) = t2)
    (e3 : t2.setParent (h.left x) (t2.parent x) = t3)
    (e4 : (if t3.parent x = nil then t3.setRoot (h.left x)
        else if x = t3.right (t3.parent x) then t3.setRight (t3.parent x) (h.left x)
        else t3.setLeft (t3.parent x) (h.left x)) = t4) :
    rightRotate h x = (t4.setRight (h.left x) x).setParent x (h.left x) := by
  subst e1 e2 e3 e4; rfl

/-- The guarded write `if (m != nil) m->parent = x` re-parents the subtree `m`. -/
theorem reparent_guard {g : RBTree} {m : T} {q : Ptr} (x : Ptr) (hm : Own g.mem m q)
    (hnd : m.addrs.Nodup) (hnz : ∀ a ∈ m.addrs, a ≠ nil) :
    ∃ g' : RBTree, (if m.addr ≠ nil then g.setParent m.addr x else g) = g' ∧
      Own g'.mem m x ∧ (∀ a, a ∉ m.addrs → g'.mem a = g.mem a) ∧ g'.next = g.next ∧
      g'.root = g.root := by
  refine ⟨_, rfl, ?_⟩
  cases m with
  | lf => simp [Own]
  | nd a c l k v r =>
    have ha : a ≠ nil := hnz a (by simp)
    simp only [T.addrs_nd, List.nodup_append, List.nodup_cons, List.disjoint_cons_right] at hnd
    simp only [T.addr_nd, ne_eq, ha, not_false_eq_true, if_true, setParent_next, setParent_root,
      and_true]
    refine ⟨own_reparent x hm hnd.2.2.1 hnd.2.1.1, ?_⟩
    intro b hb
    simp only [T.addrs_nd, List.mem_append, List.mem_cons, not_or] at hb
    simp [setParent_mem, hb.2.1]

theorem repZ_leftRotate {h : RBTree} {ctx : List Frame} {x cx l kx vx y cy m ky vy r}
    (hz : RepZ h ctx (T.nd x cx l kx vx (T.nd y cy m ky vy r))) :
    RepZ (leftRotate h x) ctx (T.nd y cy (T.nd x cx l kx vx m) ky vy r)
      ∧ (leftRotate h x).mem nil = h.mem nil ∧ (leftRotate h x).next = h.next := by
  obtain ⟨hroot, ⟨hx, hl, hy, hm, hr⟩, hc, hnd, hb, hs, hal⟩ := hz
  simp only [T.addr_nd] at hx hc
  have hxn : x ≠ nil := (hb x (by simp)).1
  have hyn : y ≠ nil := (hb y (by simp)).1
  have hnd0 := hnd
  simp only [T.addrs_nd, List.append_assoc, List.cons_append, List.nodup_append, List.nodup_cons,
    List.mem_append, List.mem_cons, not_or, List.disjoint_cons_left, List.disjoint_cons_right,
    List.disjoint_append_left, List.disjoint_append_right] at hnd
  obtain ⟨ndl, ⟨⟨xm, xy, xr, xc⟩, ndm, ⟨⟨yr, yc⟩, ndr, ndc, drc⟩, ym, dmr, dmc⟩, xl, dlm, yl, dlr, dlc⟩ := hnd
  have hrx : h.right x = y := by simp [right, hx]
  have hly : h.left y = m.addr := by simp [left, hy]
  have hpx : h.parent x = ctxAddr ctx := by simp [parent, hx]
  have hmnz : ∀ a ∈ m.addrs, a ≠ nil := fun a ha => (hb a (by simp [ha])).1
  have hcnz : ∀ a ∈ ctxAddrs ctx, a ≠ nil := fun a ha => (hb a (by simp [ha])).1
  -- step 1 and 2
  have e1 : (h.setRight x m.addr).left y = m.addr := by
    simp [left, setRight_mem, Ne.symm xy, hy]
  obtain ⟨t2, e2, om2, f2, n2, r2⟩ := reparent_guard (g := h.setRight x m.addr) (m := m) (q := y) x
    (own_congr m y (fun a ha => by simp [setRight_mem, ne_of_mem_of_not_mem ha xm]) hm) ndm hmnz
  have hp2 : t2.parent x = ctxAddr ctx := by
    simp [parent, f2 x xm, setRight_mem, hx]
  -- step 4
  have hp3 : (t2.setParent y (ctxAddr ctx)).parent x = ctxAddr ctx := by
    simp [parent, setParent_mem, xy, f2 x xm, setRight_mem, hx]
  have hc3 : OwnCtx (t2.setParent y (ctxAddr ctx)).mem ctx x := by
    refine ownCtx_congr ctx x ?_ hc
    intro a ha
    rw [setParent_mem, if_neg (ne_of_mem_of_not_mem ha yc), f2 a (fun hm => dmc hm ha), setRight_mem,
      if_neg (ne_of_mem_of_not_mem ha xc)]
  obtain ⟨t4, e4, oc4, f4, n4, r4⟩ := relinkL_spec (v := y) hc3 ndc hcnz hxn xc hp3
  have key := leftRotate_eq h x (h.setRight x m.addr) t2 (t2.setParent y (ctxAddr ctx))
    t4 (by rw [hrx, hly]) (by rw [hrx, e1]; exact e2) (by rw [hrx, hp2]) (by rw [hrx]; exact e4)
  rw [key, hrx]
  have g3 : ∀ a, a ≠ x → a ≠ y → a ∉ m.addrs → a ∉ ctxAddrs ctx →
      ((t4.setLeft y x).setParent x y).mem a = h.mem a := by
    intro a ax ay am ac
    rw [setParent_mem, if_neg ax, setLeft_mem, if_neg ay, f4 a ac, setParent_mem, if_neg ay, f2 a am,
      setRight_mem, if_neg ax]
  refine ⟨⟨?_, ⟨?_, ⟨?_, ?_, ?_⟩, ?_⟩, ?_, ?_, ?_, ?_, by simpa [n4, n2] using hal⟩, ?_, ?_⟩
  · simp only [setParent_root, setLeft_root]
    exact r4 (T.nd x cx l kx vx (T.nd y cy m ky vy r)) _ (by rw [setParent_root, r2, setRight_root, hroot]) rfl
  · rw [setParent_mem, if_neg (Ne.symm xy), setLeft_mem, if_pos rfl, f4 y yc, setParent_mem, if_pos rfl,
      f2 y ym, setRight_mem, if_neg (Ne.symm xy), hy]
    simp
  · rw [setParent_mem, if_pos rfl, setLeft_mem, if_neg xy, f4 x xc, setParent_mem, if_neg xy,
      f2 x xm, setRight_mem, if_pos rfl, hx]
  · refine own_congr l x (fun a ha => g3 a (ne_of_mem_of_not_mem ha xl) (ne_of_mem_of_not_mem ha yl)
      (fun hm => dlm ha hm) (fun hc => dlc ha hc)) hl
  · refine own_congr m x (fun a ha => ?_) om2
    rw [setParent_mem, if_neg (ne_of_mem_of_not_mem ha xm), setLeft_mem,
      if_neg (ne_of_mem_of_not_mem ha ym), f4 a (fun hc => dmc ha hc), setParent_mem,
      if_neg (ne_of_mem_of_not_mem ha ym)]
  · refine own_congr r y (fun a ha => g3 a (ne_of_mem_of_not_mem ha xr) (ne_of_mem_of_not_mem ha yr)
      (fun hm => dmr hm ha) (fun hc => drc ha hc)) hr
  · refine ownCtx_congr ctx _ (fun a ha => ?_) oc4
    rw [setParent_mem, if_neg (ne_of_mem_of_not_mem ha xc), setLeft_mem,
      if_neg (ne_of_mem_of_not_mem ha yc)]
  · refine (List.Perm.nodup_iff ?_).mp hnd0
    simp only [List.perm_iff_count, List.count_cons, List.count_append, T.addrs_nd]
    intro a; omega
  · intro a ha
    have := hb a (by
      simp only [T.addrs_nd, List.mem_append, List.mem_cons] at ha ⊢
      tauto)
    simpa [n4, n2] using this
  · simp only [color, left, right] at hs ⊢
    rw [g3 nil (Ne.symm hxn) (Ne.symm hyn) (fun hm => hmnz _ hm rfl) (fun hc => hcnz _ hc rfl)]
    exact hs
  · exact g3 nil (Ne.symm hxn) (Ne.symm hyn) (fun hm => hmnz _ hm rfl) (fun hc => hcnz _ hc rfl)
  · simp [n4, n2]

theorem repZ_rightRotate {h : RBTree} {ctx : List Frame} {x cx l kx vx y cy m ky vy r}
    (hz : RepZ h ctx (T.nd x cx (T.nd y cy l ky vy m) kx vx r)) :
    RepZ (rightRotate h x) ctx (T.nd y cy l ky vy (T.nd x cx m kx vx r))
      ∧ (rightRotate h x).mem nil = h.mem nil ∧ (rightRotate h x).next = h.next := by
  obtain ⟨hroot, ⟨hx, ⟨hy, hl, hm⟩, hr⟩, hc, hnd, hb, hs, hal⟩ := hz
  simp only [T.addr_nd] at hx hc
  have hxn : x ≠ nil := (hb x (by simp)).1
  have hyn : y ≠ nil := (hb y (by simp)).1
  have hnd0 := hnd
  simp only [T.addrs_nd, List.append_assoc, List.cons_append, List.nodup_append, List.nodup_cons,
    List.mem_append, List.mem_cons, not_or, List.disjoint_cons_left, List.disjoint_cons_right,
    List.disjoint_append_left, List.disjoint_append_right] at hnd
  obtain ⟨ndl, ⟨⟨ym, yx, yr, yc⟩, ndm, ⟨⟨xr, xc⟩, ndr, ndc, drc⟩, xm, dmr, dmc⟩, yl, dlm, xl, dlr, dlc⟩ := hnd
  have xy : x ≠ y := Ne.symm yx
  have hlx : h.left x = y := by simp [left, hx]
  have hry : h.right y = m.addr := by simp [right, hy]
  have hpx : h.parent x = ctxAddr ctx := by simp [parent, hx]
  have hmnz : ∀ a ∈ m.addrs, a ≠ nil := fun a ha => (hb a (by simp [ha])).1
  have hcnz : ∀ a ∈ ctxAddrs ctx, a ≠ nil := fun a ha => (hb a (by simp [ha])).1
  have e1 : (h.setLeft x m.addr).right y = m.addr := by
    simp [right, setLeft_mem, Ne.symm xy, hy]
  obtain ⟨t2, e2, om2, f2, n2, r2⟩ := reparent_guard (g := h.setLeft x m.addr) (m := m) (q := y) x
    (own_congr m y (fun a ha => by simp [setLeft_mem, ne_of_mem_of_not_mem ha xm]) hm) ndm hmnz
  have hp2 : t2.parent x = ctxAddr ctx := by
    simp [parent, f2 x xm, setLeft_mem, hx]
  have hp3 : (t2.setParent y (ctxAddr ctx)).parent x = ctxAddr ctx := by
    simp [parent, setParent_mem, xy, f2 x xm, setLeft_mem, hx]
  have hc3 : OwnCtx (t2.setParent y (ctxAddr ctx)).mem ctx x := by
    refine ownCtx_congr ctx x ?_ hc
    intro a ha
    rw [setParent_mem, if_neg (ne_of_mem_of_not_mem ha yc), f2 a (fun hm => dmc hm ha), setLeft_mem,
      if_neg (ne_of_mem_of_not_mem ha xc)]
  obtain ⟨t4, e4, oc4, f4, n4, r4⟩ := relinkR_spec (v := y) hc3 ndc hcnz hxn xc hp3
  have key := rightRotate_eq h x (h.setLeft x m.addr) t2 (t2.setParent y (ctxAddr ctx))
    t4 (by rw [hlx, hry]) (by rw [hlx, e1]; exact e2) (by rw [hlx, hp2]) (by rw [hlx]; exact e4)
  rw [key, hlx]
  have g3 : ∀ a, a ≠ x → a ≠ y → a ∉ m.addrs → a ∉ ctxAddrs ctx →
      ((t4.setRight y x).setParent x y).mem a = h.mem a := by
    intro a ax ay am ac
    rw [setParent_mem, if_neg ax, setRight_mem, if_neg ay, f4 a ac, setParent_mem, if_neg ay, f2 a am,
      setLeft_mem, if_neg ax]
  refine ⟨⟨?_, ⟨?_, ?_, ⟨?_, ?_, ?_⟩⟩, ?_, ?_, ?_, ?_, by simpa [n4, n2] using hal⟩, ?_, ?_⟩
  · simp only [setParent_root, setRight_root]
    exact r4 (T.nd x cx (T.nd y cy l ky vy m) kx vx r) _
      (by rw [setParent_root, r2, setLeft_root, hroot]) rfl
  · rw [setParent_mem, if_neg (Ne.symm xy), setRight_mem, if_pos rfl, f4 y yc, setParent_mem, if_pos rfl,
      f2 y ym, setLeft_mem, if_neg (Ne.symm xy), hy]
    simp
  · refine own_congr l y (fun a ha => g3 a (ne_of_mem_of_not_mem ha xl) (ne_of_mem_of_not_mem ha yl)
      (fun hm => dlm ha hm) (fun hc => dlc ha hc)) hl
  · rw [setParent_mem, if_pos rfl, setRight_mem, if_neg xy, f4 x xc, setParent_mem, if_neg xy,
      f2 x xm, setLeft_mem, if_pos rfl, hx]
  · refine own_congr m x (fun a ha => ?_) om2
    rw [setParent_mem, if_neg (ne_of_mem_of_not_mem ha xm), setRight_mem,
      if_neg (ne_of_mem_of_not_mem ha ym), f4 a (fun hc => dmc ha hc), setParent_mem,
      if_neg (ne_of_mem_of_not_mem ha ym)]
  · refine own_congr r x (fun a ha => g3 a (ne_of_mem_of_not_mem ha xr) (ne_of_mem_of_not_mem ha yr)
      (fun hm => dmr hm ha) (fun hc => drc ha hc)) hr
  · refine ownCtx_congr ctx _ (fun a ha => ?_) oc4
    rw [setParent_mem, if_neg (ne_of_mem_of_not_mem ha xc), setRight_mem,
      if_neg (ne_of_mem_of_not_mem ha yc)]
  · refine (List.Perm.nodup_iff ?_).mp hnd0
    simp only [List.perm_iff_count, List.count_cons, List.count_append, T.addrs_nd]
    intro a; omega
  · intro a ha
    have := hb a (by
      simp only [T.addrs_nd, List.mem_append, List.mem_cons] at ha ⊢
      tauto)
    simpa [n4, n2] using this
  · simp only [color, left, right] at hs ⊢
    rw [g3 nil (Ne.symm hxn) (Ne.symm hyn) (fun hm => hmnz _ hm rfl) (fun hc => hcnz _ hc rfl)]
    exact hs
  · exact g3 nil (Ne.symm hxn) (Ne.symm hyn) (fun hm => hmnz _ hm rfl) (fun hc => hcnz _ hc rfl)
  · simp [n4, n2]

/-- Recolouring the node in focus. -/
theorem repZ_setColor {h : RBTree} {ctx : List Frame} {a c l k v r} (c' : Color)
    (hz : RepZ h ctx (T.nd a c l k v r)) :
    RepZ (h.setColor a c') ctx (T.nd a c' l k v r) := by
  obtain ⟨hroot, ⟨ha, hl, hr⟩, hc, hnd, hb, hs, hal⟩ := hz
  have han : a ≠ nil := (hb a (by simp)).1
  have hnd0 := hnd
  simp only [T.addrs_nd, List.append_assoc, List.cons_append, List.nodup_append, List.nodup_cons,
    List.mem_append, List.mem_cons, not_or, List.disjoint_cons_left, List.disjoint_cons_right,
    List.disjoint_append_left, List.disjoint_append_right] at hnd
  obtain ⟨ndl, ⟨⟨ar, ac⟩, -⟩, al, -⟩ := hnd
  refine ⟨?_, ⟨?_, ?_, ?_⟩, ?_, hnd0, hb, ?_, hal⟩
  · exact hroot.trans (plug_addr_congr ctx rfl)
  · rw [setColor_mem, if_pos rfl, ha]
  · exact own_congr l a (fun b hb => by rw [setColor_mem, if_neg (ne_of_mem_of_not_mem hb al)]) hl
  · exact own_congr r a (fun b hb => by rw [setColor_mem, if_neg (ne_of_mem_of_not_mem hb ar)]) hr
  · exact ownCtx_congr ctx _ (fun b hb => by rw [setColor_mem, if_neg (ne_of_mem_of_not_mem hb ac)]) hc
  · simp only [color, left, right] at hs ⊢
    rw [setColor_mem, if_neg (Ne.symm han)]; exact hs

/-! ## Moving the focus -/

theorem repZ_L {h : RBTree} {ctx : List Frame} {t : T} {a c k v r} :
    RepZ h (Frame.L a c k v r :: ctx) t ↔ RepZ h ctx (T.nd a c t k v r) := by
  constructor
  · rintro ⟨h1, h2, h3, h4, h5, h6, h7⟩
    refine ⟨h1, ⟨h3.1, h2, h3.2.1⟩, h3.2.2, ?_, ?_, h6, h7⟩
    · refine (List.Perm.nodup_iff ?_).mp h4
      simp only [List.perm_iff_count, List.count_cons, List.count_append, T.addrs_nd, ctxAddrs_L]
      intro a; omega
    · intro x hx; apply h5
      simp only [T.addrs_nd, ctxAddrs_L, List.mem_append, List.mem_cons] at hx ⊢
      tauto
  · rintro ⟨h1, ⟨h2, h2', h2''⟩, h3, h4, h5, h6, h7⟩
    refine ⟨h1, h2', ⟨h2, h2'', h3⟩, ?_, ?_, h6, h7⟩
    · refine (List.Perm.nodup_iff ?_).mp h4
      simp only [List.perm_iff_count, List.count_cons, List.count_append, T.addrs_nd, ctxAddrs_L]
      intro a; omega
    · intro x hx; apply h5
      simp only [T.addrs_nd, ctxAddrs_L, List.mem_append, List.mem_cons] at hx ⊢
      tauto

theorem repZ_R {h : RBTree} {ctx : List Frame} {t : T} {a c l k v} :
    RepZ h (Frame.R a c l k v :: ctx) t ↔ RepZ h ctx (T.nd a c l k v t) := by
  constructor
  · rintro ⟨h1, h2, h3, h4, h5, h6, h7⟩
    refine ⟨h1, ⟨h3.1, h3.2.1, h2⟩, h3.2.2, ?_, ?_, h6, h7⟩
    · refine (List.Perm.nodup_iff ?_).mp h4
      simp only [List.perm_iff_count, List.count_cons, List.count_append, T.addrs_nd, ctxAddrs_R]
      intro a; omega
    · intro x hx; apply h5
      simp only [T.addrs_nd, ctxAddrs_R, List.mem_append, List.mem_cons] at hx ⊢
      tauto
  · rintro ⟨h1, ⟨h2, h2', h2''⟩, h3, h4, h5, h6, h7⟩
    refine ⟨h1, h2'', ⟨h2, h2', h3⟩, ?_, ?_, h6, h7⟩
    · refine (List.Perm.nodup_iff ?_).mp h4
      simp only [List.perm_iff_count, List.count_cons, List.count_append, T.addrs_nd, ctxAddrs_R]
      intro a; omega
    · intro x hx; apply h5
      simp only [T.addrs_nd, ctxAddrs_R, List.mem_append, List.mem_cons] at hx ⊢
      tauto

theorem repZ_plug {h : RBTree} : ∀ (c1 ctx : List Frame) {t : T},
    RepZ h (c1 ++ ctx) t ↔ RepZ h ctx (plug c1 t)
  | [], _, _ => Iff.rfl
  | Frame.L a c k v r :: c1, ctx, t => by
    rw [List.cons_append, repZ_L, plug_L]; exact repZ_plug c1 ctx
  | Frame.R a c l k v :: c1, ctx, t => by
    rw [List.cons_append, repZ_R, plug_R]; exact repZ_plug c1 ctx

theorem rep_plug {h : RBTree} {ctx : List Frame} {t : T} :
    RepZ h ctx t ↔ Rep h (plug ctx t) := by
  have := repZ_plug (h := h) ctx [] (t := t)
  rwa [List.append_nil] at this

/-- The cell of the node in focus. -/
theorem RepZ.mem_focus {h : RBTree} {ctx : List Frame} {a c l k v r}
    (hz : RepZ h ctx (T.nd a c l k v r)) :
    h.mem a = ⟨k, v, c, l.addr, r.addr, ctxAddr ctx⟩ := hz.own.1

/-! ## Getters after a recolouring -/

@[simp] theorem setColor_parent (h : RBTree) (a : Ptr) (c : Color) (x : Ptr) :
    (h.setColor a c).parent x = h.parent x := by
  simp only [parent, setColor_mem]; split <;> simp_all
@[simp] theorem setColor_left (h : RBTree) (a : Ptr) (c : Color) (x : Ptr) :
    (h.setColor a c).left x = h.left x := by
  simp only [left, setColor_mem]; split <;> simp_all
@[simp] theorem setColor_right (h : RBTree) (a : Ptr) (c : Color) (x : Ptr) :
    (h.setColor a c).right x = h.right x := by
  simp only [right, setColor_mem]; split <;> simp_all
@[simp] theorem setColor_key (h : RBTree) (a : Ptr) (c : Color) (x : Ptr) :
    (h.setColor a c).key x = h.key x := by
  simp only [key, setColor_mem]; split <;> simp_all
@[simp] theorem setColor_value (h : RBTree) (a : Ptr) (c : Color) (x : Ptr) :
    (h.setColor a c).value x = h.value x := by
  simp only [value, setColor_mem]; split <;> simp_all
theorem setColor_color (h : RBTree) (a : Ptr) (c : Color) (x : Ptr) :
    (h.setColor a c).color x = if x = a then c else h.color x := by
  simp only [color, setColor_mem]; split <;> simp_all

/-! ## Reading through the representation -/

theorem own_color {h : RBTree} {u : T} {par : Ptr} (ho : Own h.mem u par)
    (hs : h.color nil = Color.B) : h.color u.addr = u.col := by
  cases u with
  | lf => exact hs
  | nd a c l k v r => simp [color, ho.1, T.col]

theorem RepZ.topL {h : RBTree} {ctx : List Frame} {t : T} {p c k v s}
    (hz : RepZ h (Frame.L p c k v s :: ctx) t) :
    h.mem p = ⟨k, v, c, t.addr, s.addr, ctxAddr ctx⟩ := hz.ownc.1

theorem RepZ.topR {h : RBTree} {ctx : List Frame} {t : T} {p c k v s}
    (hz : RepZ h (Frame.R p c s k v :: ctx) t) :
    h.mem p = ⟨k, v, c, s.addr, t.addr, ctxAddr ctx⟩ := hz.ownc.1

theorem RepZ.focus_ne_nil {h : RBTree} {ctx : List Frame} {a c l k v r}
    (hz : RepZ h ctx (T.nd a c l k v r)) : a ≠ nil := (hz.bound a (by simp)).1

/-- The node in focus is not the root of a sibling subtree of its parent. -/
theorem RepZ.focus_ne_sibL {h : RBTree} {ctx : List Frame} {a c l k v r p cp kp vp s}
    (hz : RepZ h (Frame.L p cp kp vp s :: ctx) (T.nd a c l k v r)) : a ≠ s.addr := by
  refine T.addr_ne_of_not_mem hz.focus_ne_nil ?_
  have := hz.nodup
  simp only [T.addrs_nd, ctxAddrs_L, List.append_assoc, List.cons_append, List.nodup_append,
    List.nodup_cons, List.mem_append, List.mem_cons, not_or, List.disjoint_cons_left,
    List.disjoint_cons_right, List.disjoint_append_left, List.disjoint_append_right] at this
  tauto

theorem RepZ.focus_ne_sibR {h : RBTree} {ctx : List Frame} {a c l k v r p cp kp vp s}
    (hz : RepZ h (Frame.R p cp s kp vp :: ctx) (T.nd a c l k v r)) : a ≠ s.addr := by
  refine T.addr_ne_of_not_mem hz.focus_ne_nil ?_
  have := hz.nodup
  simp only [T.addrs_nd, ctxAddrs_R, List.append_assoc, List.cons_append, List.nodup_append,
    List.nodup_cons, List.mem_append, List.mem_cons, not_or, List.disjoint_cons_left,
    List.disjoint_cons_right, List.disjoint_append_left, List.disjoint_append_right] at this
  tauto

/-! ## Balance of zippers -/

theorem CBal.plug : ∀ {ctx : List Frame} {t : T} {c : Color} {n : Nat},
    CBal ctx c n → Bal t c n → ∃ m, Bal (plug ctx t) Color.B m
  | _, _, _, _, CBal.root, ht => ⟨_, ht⟩
  | _, _, _, _, CBal.redL hr hc, ht => hc.plug (Bal.red ht hr)
  | _, _, _, _, CBal.redR hl hc, ht => hc.plug (Bal.red hl ht)
  | _, _, _, _, CBal.blackL hr hc, ht => hc.plug (Bal.black ht hr)
  | _, _, _, _, CBal.blackR hl hc, ht => hc.plug (Bal.black hl ht)

/-- A zipper that accepts some colour accepts a black subtree of the same height. -/
theorem CBal.toBlack : ∀ {ctx : List Frame} {c : Color} {n : Nat},
    CBal ctx c n → CBal ctx Color.B n
  | _, _, _, CBal.root => CBal.root
  | _, _, _, CBal.redL hr hc => CBal.redL hr hc
  | _, _, _, CBal.redR hl hc => CBal.redR hl hc
  | _, _, _, CBal.blackL hr hc => CBal.blackL hr hc
  | _, _, _, CBal.blackR hl hc => CBal.blackR hl hc

/-- A zipper that takes a black hole is a legal start for `rbInsertFixup`. -/
theorem CBal.toIns : ∀ {ctx : List Frame} {n : Nat}, CBal ctx Color.B n → CIns ctx n
  | _, _, CBal.root => CIns.root
  | _, _, CBal.redL hr hc => CIns.redL hr hc
  | _, _, CBal.redR hl hc => CIns.redR hl hc
  | _, _, CBal.blackL hr hc => CIns.ok (CBal.blackL hr hc)
  | _, _, CBal.blackR hl hc => CIns.ok (CBal.blackR hl hc)

/-- Decomposition of a balanced tree along a zipper. -/
theorem Bal.unplug : ∀ (ctx : List Frame) {t : T} {m : Nat},
    Bal (RBTree.plug ctx t) Color.B m → ∃ c n, Bal t c n ∧ CBal ctx c n
  | [], t, m, h => ⟨_, _, h, CBal.root⟩
  | Frame.L a c k v r :: ctx, t, m, h => by
    obtain ⟨c', n', hb, hc⟩ := Bal.unplug ctx h
    cases hb with
    | red hl hr => exact ⟨_, _, hl, CBal.redL hr hc⟩
    | black hl hr => exact ⟨_, _, hl, CBal.blackL hr hc⟩
  | Frame.R a c l k v :: ctx, t, m, h => by
    obtain ⟨c', n', hb, hc⟩ := Bal.unplug ctx h
    cases hb with
    | red hl hr => exact ⟨_, _, hr, CBal.redR hl hc⟩
    | black hl hr => exact ⟨_, _, hr, CBal.blackR hl hc⟩

theorem Bal.col_eq : ∀ {t : T} {c : Color} {n : Nat}, Bal t c n → t.col = c
  | _, _, _, Bal.lf => rfl
  | _, _, _, Bal.red _ _ => rfl
  | _, _, _, Bal.black _ _ => rfl

/-! ## In-order entries of a zipper -/

@[simp] theorem T.entries_lf : T.lf.entries = [] := rfl
@[simp] theorem T.entries_nd (a c l k v r) :
    (T.nd a c l k v r).entries = l.entries ++ (a, k, v) :: r.entries := rfl

theorem plug_entries : ∀ (ctx : List Frame) (t : T),
    (plug ctx t).entries = ctxLeft ctx ++ t.entries ++ ctxRight ctx
  | [], t => by simp [ctxLeft, ctxRight]
  | Frame.L a c k v r :: ctx, t => by
    rw [plug_L, plug_entries ctx]; simp [ctxLeft, ctxRight]
  | Frame.R a c l k v :: ctx, t => by
    rw [plug_R, plug_entries ctx]; simp [ctxLeft, ctxRight]

theorem plug_ne_lf : ∀ (ctx : List Frame) {t : T}, t ≠ T.lf → plug ctx t ≠ T.lf
  | [], _, h => h
  | Frame.L _ _ _ _ _ :: ctx, _, _ => plug_ne_lf ctx (by simp)
  | Frame.R _ _ _ _ _ :: ctx, _, _ => plug_ne_lf ctx (by simp)

theorem setColor_mem_nil (h : RBTree) {a : Ptr} (c : Color) (ha : a ≠ nil) :
    (h.setColor a c).mem nil = h.mem nil := by
  rw [setColor_mem, if_neg (Ne.symm ha)]

theorem Bal.red_inv {a l k v r c n} (h : Bal (T.nd a Color.R l k v r) c n) :
    Bal l Color.B n ∧ Bal r Color.B n := by
  cases h with
  | red hl hr => exact ⟨hl, hr⟩

/-- Simulation of the loop of `rbInsertFixup` on the zipper: with fuel above
the depth of `z` the loop returns, and the state it leaves represents a
balanced tree with the same in-order entries. -/
theorem insertFixupLoop_spec : ∀ (fuel : Nat) (h : RBTree) (ctx : List Frame) (z : Ptr)
    (k v : String) (l r : T) (n : Nat),
    ctx.length < fuel → RepZ h ctx (T.nd z Color.R l k v r) →
    Bal (T.nd z Color.R l k v r) Color.R n → CIns ctx n →
    ∃ h' t', rbInsertFixupLoop fuel h z = some h' ∧ Rep h' t' ∧ h'.next = h.next ∧
      h'.mem nil = h.mem nil ∧
      t'.entries = (plug ctx (T.nd z Color.R l k v r)).entries ∧ t' ≠ T.lf ∧ ∃ c m, Bal t' c m := by
  intro fuel
  induction fuel with
  | zero => intro h ctx z k v l r n hf; exact absurd hf (Nat.not_lt_zero _)
  | succ f ih =>
    intro h ctx z k v l r n hf hz hb hci
    have hpz : h.parent z = ctxAddr ctx := by simp [parent, hz.mem_focus]
    rw [rbInsertFixupLoop]
    cases hci with
    | root =>
      have : h.color (h.parent z) = Color.B := by rw [hpz]; exact hz.sent.1
      simp only [this, if_false, reduceCtorEq]
      exact ⟨h, _, rfl, hz, rfl, rfl, rfl, by simp, _, _, hb⟩
    | ok hc =>
      have : h.color (h.parent z) = Color.B := by
        rw [hpz]
        cases hc with
        | blackL _ _ => simp [color, hz.topL]
        | blackR _ _ => simp [color, hz.topR]
      simp only [this, if_false, reduceCtorEq]
      obtain ⟨m, hm⟩ := hc.plug hb
      exact ⟨h, _, rfl, rep_plug.1 hz, rfl, rfl, rfl, plug_ne_lf _ (by simp), _, _, hm⟩
    | @redL p kp vp s ctx1 _ hs hc =>
      have hcp : h.color (h.parent z) = Color.R := by rw [hpz]; simp [color, hz.topL]
      have hrp : h.right p = s.addr := by simp [right, hz.topL]
      have hzs : z ≠ s.addr := hz.focus_ne_sibL
      simp only [hcp, if_true]
      cases hc with
      | @blackL g kg vg u ctx2 _ cu _ hu hc2 =>
        have hz1 := repZ_L.1 hz
        have hz2 := repZ_L.1 hz1
        have hpp : h.parent p = g := by simp [parent, hz1.mem_focus]
        have hlg : h.left g = p := by simp [left, hz2.mem_focus]
        have hrg : h.right g = u.addr := by simp [right, hz2.mem_focus]
        have hcu : h.color u.addr = cu := (own_color hz2.own.2.2 hz.sent.1).trans hu.col_eq
        have hlen : ctx2.length + 1 < f := by simp only [List.length_cons] at hf; omega
        simp only [hpz, ctxAddr_L, hpp, hlg, if_true, hrg, hcu]
        cases cu with
        | R =>
          cases hu with
          | @red y ul ku vu ur _ hul hur =>
          simp only [if_true, setColor_parent, hpz, hpp, ctxAddr_L, T.addr_nd]
          have hz3 := repZ_L.1 (repZ_setColor Color.B hz1)
          have hz4 := repZ_R.1 (repZ_setColor Color.B (repZ_R.2 hz3))
          have hz5 := repZ_setColor Color.R hz4
          have hn0 : y ≠ nil := (repZ_R.2 hz3).focus_ne_nil
          obtain ⟨h', t', e, hrep, hn, hm, he, hne, hbal⟩ := ih _ ctx2 g kg vg _ _ (n + 1) (by omega) hz5
            (Bal.red (Bal.black hb hs) (Bal.black hul hur)) hc2.toIns
          refine ⟨h', t', e, hrep, by simpa using hn, ?_, ?_, hne, hbal⟩
          · rw [hm, setColor_mem_nil _ _ hz5.focus_ne_nil, setColor_mem_nil _ _ hn0,
              setColor_mem_nil _ _ hz1.focus_ne_nil]
          · rw [he]; simp [plug_entries, ctxLeft, ctxRight]
        | B =>
          simp only [reduceCtorEq, if_false, hrp, hzs, hpz, ctxAddr_L, setColor_parent, hpp]
          have hz3 := repZ_setColor Color.R (repZ_L.1 (repZ_setColor Color.B hz1))
          obtain ⟨hz4, hm4, hn4⟩ := repZ_rightRotate hz3
          obtain ⟨h', t', e, hrep, hn, hm, he, hne, hbal⟩ := ih _ _ z k v l r n (by simp only [List.length_cons]; omega) (repZ_L.2 hz4) hb
            (CIns.ok (CBal.blackL (Bal.red hs hu) hc2))
          refine ⟨h', t', e, hrep, by simpa [hn4] using hn, ?_, ?_, hne, hbal⟩
          · rw [hm, hm4, setColor_mem_nil _ _ hz3.focus_ne_nil, setColor_mem_nil _ _ hz1.focus_ne_nil]
          · rw [he]; simp [plug_entries, ctxLeft, ctxRight]
      | @blackR g u kg vg ctx2 _ cu _ hu hc2 =>
        have hz1 := repZ_L.1 hz
        have hz2 := repZ_R.1 hz1
        have hpp : h.parent p = g := by simp [parent, hz1.mem_focus]
        have hlg : h.left g = u.addr := by simp [left, hz2.mem_focus]
        have hpu : p ≠ u.addr := hz1.focus_ne_sibR
        have hlp : h.left p = z := by simp [left, hz.topL]
        have hcu : h.color u.addr = cu := (own_color hz2.own.2.1 hz.sent.1).trans hu.col_eq
        have hlen : ctx2.length + 1 < f := by simp only [List.length_cons] at hf; omega
        simp only [hpz, ctxAddr_L, hpp, hlg, hpu, if_false, hcu]
        cases cu with
        | R =>
          cases hu with
          | @red y ul ku vu ur _ hul hur =>
          simp only [if_true, setColor_parent, hpz, hpp, ctxAddr_L, T.addr_nd]
          have hz3 := repZ_R.1 (repZ_setColor Color.B hz1)
          have hz4 := repZ_L.1 (repZ_setColor Color.B (repZ_L.2 hz3))
          have hz5 := repZ_setColor Color.R hz4
          have hn0 : y ≠ nil := (repZ_L.2 hz3).focus_ne_nil
          obtain ⟨h', t', e, hrep, hn, hm, he, hne, hbal⟩ := ih _ ctx2 g kg vg _ _ (n + 1) (by omega) hz5
            (Bal.red (Bal.black hul hur) (Bal.black hb hs)) hc2.toIns
          refine ⟨h', t', e, hrep, by simpa using hn, ?_, ?_, hne, hbal⟩
          · rw [hm, setColor_mem_nil _ _ hz5.focus_ne_nil, setColor_mem_nil _ _ hn0,
              setColor_mem_nil _ _ hz1.focus_ne_nil]
          · rw [he]; simp [plug_entries, ctxLeft, ctxRight]
        | B =>
          obtain ⟨hr1, hm1, hn1⟩ := repZ_rightRotate hz1
          have hpp1 : (h.rightRotate p).parent p = z := by
            simp [parent, (repZ_R.2 hr1).mem_focus]
          have hpz1 : (h.rightRotate p).parent z = g := by
            simp [parent, hr1.mem_focus]
          simp only [reduceCtorEq, if_false, hlp, if_true, setColor_parent, hpp1, hpz1]
          have hz3 := repZ_setColor Color.R (repZ_R.1 (repZ_setColor Color.B hr1))
          obtain ⟨hz4, hm4, hn4⟩ := repZ_leftRotate hz3
          obtain ⟨h', t', e, hrep, hn, hm, he, hne, hbal⟩ := ih _ _ p kp vp r s n
            (by simp only [List.length_cons]; omega) (repZ_R.2 hz4) (Bal.red hb.red_inv.2 hs)
            (CIns.ok (CBal.blackR (Bal.red hu hb.red_inv.1) hc2))
          refine ⟨h', t', e, hrep, by simpa [hn4, hn1] using hn, ?_, ?_, hne, hbal⟩
          · rw [hm, hm4, setColor_mem_nil _ _ hz3.focus_ne_nil, setColor_mem_nil _ _ hr1.focus_ne_nil, hm1]
          · rw [he]; simp [plug_entries, ctxLeft, ctxRight]
    | @redR p s kp vp ctx1 _ hs hc =>
      have hcp : h.color (h.parent z) = Color.R := by rw [hpz]; simp [color, hz.topR]
      have hlp : h.left p = s.addr := by simp [left, hz.topR]
      have hrp : h.right p = z := by simp [right, hz.topR]
      have hzs : z ≠ s.addr := hz.focus_ne_sibR
      simp only [hcp, if_true]
      cases hc with
      | @blackL g kg vg u ctx2 _ cu _ hu hc2 =>
        have hz1 := repZ_R.1 hz
        have hz2 := repZ_L.1 hz1
        have hpp : h.parent p = g := by simp [parent, hz1.mem_focus]
        have hlg : h.left g = p := by simp [left, hz2.mem_focus]
        have hrg : h.right g = u.addr := by simp [right, hz2.mem_focus]
        have hcu : h.color u.addr = cu := (own_color hz2.own.2.2 hz.sent.1).trans hu.col_eq
        have hlen : ctx2.length + 1 < f := by simp only [List.length_cons] at hf; omega
        simp only [hpz, ctxAddr_R, hpp, hlg, if_true, hrg, hcu]
        cases cu with
        | R =>
          cases hu with
          | @red y ul ku vu ur _ hul hur =>
          simp only [if_true, setColor_parent, hpz, hpp, ctxAddr_R, T.addr_nd]
          have hz3 := repZ_L.1 (repZ_setColor Color.B hz1)
          have hz4 := repZ_R.1 (repZ_setColor Color.B (repZ_R.2 hz3))
          have hz5 := repZ_setColor Color.R hz4
          have hn0 : y ≠ nil := (repZ_R.2 hz3).focus_ne_nil
          obtain ⟨h', t', e, hrep, hn, hm, he, hne, hbal⟩ := ih _ ctx2 g kg vg _ _ (n + 1) (by omega) hz5
            (Bal.red (Bal.black hs hb) (Bal.black hul hur)) hc2.toIns
          refine ⟨h', t', e, hrep, by simpa using hn, ?_, ?_, hne, hbal⟩
          · rw [hm, setColor_mem_nil _ _ hz5.focus_ne_nil, setColor_mem_nil _ _ hn0,
              setColor_mem_nil _ _ hz1.focus_ne_nil]
          · rw [he]; simp [plug_entries, ctxLeft, ctxRight]
        | B =>
          obtain ⟨hr1, hm1, hn1⟩ := repZ_leftRotate hz1
          have hpp1 : (h.leftRotate p).parent p = z := by
            simp [parent, (repZ_L.2 hr1).mem_focus]
          have hpz1 : (h.leftRotate p).parent z = g := by
            simp [parent, hr1.mem_focus]
          simp only [reduceCtorEq, if_false, hrp, if_true, setColor_parent, hpp1, hpz1]
          have hz3 := repZ_setColor Color.R (repZ_L.1 (repZ_setColor Color.B hr1))
          obtain ⟨hz4, hm4, hn4⟩ := repZ_rightRotate hz3
          obtain ⟨h', t', e, hrep, hn, hm, he, hne, hbal⟩ := ih _ _ p kp vp s l n
            (by simp only [List.length_cons]; omega) (repZ_L.2 hz4) (Bal.red hs hb.red_inv.1)
            (CIns.ok (CBal.blackL (Bal.red hb.red_inv.2 hu) hc2))
          refine ⟨h', t', e, hrep, by simpa [hn4, hn1] using hn, ?_, ?_, hne, hbal⟩
          · rw [hm, hm4, setColor_mem_nil _ _ hz3.focus_ne_nil, setColor_mem_nil _ _ hr1.focus_ne_nil, hm1]
          · rw [he]; simp [plug_entries, ctxLeft, ctxRight]
      | @blackR g u kg vg ctx2 _ cu _ hu hc2 =>
        have hz1 := repZ_R.1 hz
        have hz2 := repZ_R.1 hz1
        have hpp : h.parent p = g := by simp [parent, hz1.mem_focus]
        have hlg : h.left g = u.addr := by simp [left, hz2.mem_focus]
        have hpu : p ≠ u.addr := hz1.focus_ne_sibR
        have hcu : h.color u.addr = cu := (own_color hz2.own.2.1 hz.sent.1).trans hu.col_eq
        have hlen : ctx2.length + 1 < f := by simp only [List.length_cons] at hf; omega
        simp only [hpz, ctxAddr_R, hpp, hlg, hpu, if_false, hcu]
        cases cu with
        | R =>
          cases hu with
          | @red y ul ku vu ur _ hul hur =>
          simp only [if_true, setColor_parent, hpz, hpp, ctxAddr_R, T.addr_nd]
          have hz3 := repZ_R.1 (repZ_setColor Color.B hz1)
          have hz4 := repZ_L.1 (repZ_setColor Color.B (repZ_L.2 hz3))
          have hz5 := repZ_setColor Color.R hz4
          have hn0 : y ≠ nil := (repZ_L.2 hz3).focus_ne_nil
          obtain ⟨h', t', e, hrep, hn, hm, he, hne, hbal⟩ := ih _ ctx2 g kg vg _ _ (n + 1) (by omega) hz5
            (Bal.red (Bal.black hul hur) (Bal.black hs hb)) hc2.toIns
          refine ⟨h', t', e, hrep, by simpa using hn, ?_, ?_, hne, hbal⟩
          · rw [hm, setColor_mem_nil _ _ hz5.focus_ne_nil, setColor_mem_nil _ _ hn0,
              setColor_mem_nil _ _ hz1.focus_ne_nil]
          · rw [he]; simp [plug_entries, ctxLeft, ctxRight]
        | B =>
          simp only [reduceCtorEq, if_false, hlp, hzs, hpz, ctxAddr_R, setColor_parent, hpp]
          have hz3 := repZ_setColor Color.R (repZ_R.1 (repZ_setColor Color.B hz1))
          obtain ⟨hz4, hm4, hn4⟩ := repZ_leftRotate hz3
          obtain ⟨h', t', e, hrep, hn, hm, he, hne, hbal⟩ := ih _ _ z k v l r n
            (by simp only [List.length_cons]; omega) (repZ_R.2 hz4) hb
            (CIns.ok (CBal.blackR (Bal.red hu hs) hc2))
          refine ⟨h', t', e, hrep, by simpa [hn4] using hn, ?_, ?_, hne, hbal⟩
          · rw [hm, hm4, setColor_mem_nil _ _ hz3.focus_ne_nil, setColor_mem_nil _ _ hz1.focus_ne_nil]
          · rw [he]; simp [plug_entries, ctxLeft, ctxRight]

/-! ## Sizes and fuel -/

theorem nodup_length_lt {l : List Ptr} {n : Nat} (hnd : l.Nodup)
    (hb : ∀ a ∈ l, a ≠ nil ∧ a < n) (hn : nil < n) : l.length + 1 ≤ n := by
  have h1 : (0 :: l).Nodup := by
    refine List.nodup_cons.2 ⟨?_, hnd⟩
    intro h0; exact (hb 0 h0).1 rfl
  have h2 : (0 :: l).toFinset ⊆ Finset.range n := by
    intro a ha
    simp only [List.toFinset_cons, Finset.mem_insert, List.mem_toFinset] at ha
    rcases ha with rfl | ha
    · exact Finset.mem_range.2 hn
    · exact Finset.mem_range.2 (hb a ha).2
  have h3 := Finset.card_le_card h2
  rw [List.toFinset_card_of_nodup h1, Finset.card_range] at h3
  simpa using h3

theorem T.length_addrs : ∀ t : T, t.addrs.length = t.size
  | T.lf => rfl
  | T.nd _ _ l _ _ r => by simp [T.size, T.length_addrs l, T.length_addrs r]; omega

theorem T.height_le_size : ∀ t : T, t.height ≤ t.size
  | T.lf => Nat.le_refl _
  | T.nd _ _ l _ _ r => by
    have := T.height_le_size l
    have := T.height_le_size r
    simp only [T.height, T.size]; omega

theorem length_le_ctxAddrs : ∀ ctx : List Frame, ctx.length ≤ (ctxAddrs ctx).length
  | [] => Nat.le_refl _
  | Frame.L _ _ _ _ _ :: ctx => by
    have := length_le_ctxAddrs ctx
    simp only [List.length_cons, ctxAddrs_L, List.length_append]; omega
  | Frame.R _ _ _ _ _ :: ctx => by
    have := length_le_ctxAddrs ctx
    simp only [List.length_cons, ctxAddrs_R, List.length_append]; omega

/-- The depth of the focus plus the size below it is less than `next`. -/
theorem RepZ.fuel {h : RBTree} {ctx : List Frame} {t : T} (hz : RepZ h ctx t) :
    ctx.length + t.size < h.next := by
  have hlt := nodup_length_lt hz.nodup hz.bound hz.alloc
  have h1 := length_le_ctxAddrs ctx
  rw [List.length_append, T.length_addrs] at hlt
  omega

/-! ## `rbInsert`: descent and attachment -/

theorem plug_descend (k : String) : ∀ (t : T) (ctx : List Frame),
    plug (descend k t ctx) T.lf = plug ctx t
  | T.lf, _ => rfl
  | T.nd a c l k' v r, ctx => by
    unfold descend
    split
    · rw [plug_descend k l]; rfl
    · rw [plug_descend k r]; rfl

theorem topOK_descend (k : String) : ∀ (t : T) (ctx : List Frame),
    TopOK k ctx → TopOK k (descend k t ctx)
  | T.lf, _, h => h
  | T.nd a c l k' v r, ctx, _ => by
    unfold descend
    split
    · rename_i hlt; exact topOK_descend k l _ hlt
    · rename_i hge; exact topOK_descend k r _ hge

theorem descend_bounds (k : String) : ∀ (t : T) (ctx : List Frame),
    t.entries.Pairwise (fun a b => ¬ b.2.1 < a.2.1) →
    (∀ e ∈ ctxLeft ctx, ¬ k < e.2.1) → (∀ e ∈ ctxRight ctx, k < e.2.1) →
    (∀ e ∈ ctxLeft (descend k t ctx), ¬ k < e.2.1) ∧ (∀ e ∈ ctxRight (descend k t ctx), k < e.2.1)
  | T.lf, _, _, h1, h2 => ⟨h1, h2⟩
  | T.nd a c l k' v r, ctx, hp, h1, h2 => by
    simp only [T.entries_nd, List.pairwise_append, List.pairwise_cons, List.mem_cons,
      forall_eq_or_imp] at hp
    obtain ⟨hl, ⟨har, hr⟩, hlr⟩ := hp
    unfold descend
    split
    · rename_i hlt
      refine descend_bounds k l _ hl h1 ?_
      intro e he
      simp only [ctxRight, List.cons_append, List.mem_cons, List.mem_append] at he
      rcases he with rfl | he | he
      · exact hlt
      · exact lt_of_lt_of_le hlt (not_lt.1 (har e he))
      · exact h2 e he
    · rename_i hge
      refine descend_bounds k r _ hr ?_ h2
      intro e he
      simp only [ctxLeft, List.mem_append, List.mem_singleton] at he
      rcases he with (he | he) | rfl
      · exact h1 e he
      · exact fun hke => hge (lt_of_lt_of_le hke (not_lt.1 (hlr e he).1))
      · exact hge

theorem descend_spec {h : RBTree} {z : Ptr} {k : String} (hk : h.key z = k) :
    ∀ (t : T) (ctx : List Frame) (fuel : Nat), t.height < fuel → RepZ h ctx t →
    rbInsertDescend h z fuel (ctxAddr ctx) t.addr = some (ctxAddr (descend k t ctx)) ∧
      RepZ h (descend k t ctx) T.lf
  | T.lf, ctx, fuel, hf, hz => by
    cases fuel with
    | zero => exact absurd hf (Nat.not_lt_zero _)
    | succ f => exact ⟨by simp [rbInsertDescend, descend], hz⟩
  | T.nd a c l k' v r, ctx, fuel, hf, hz => by
    cases fuel with
    | zero => exact absurd hf (Nat.not_lt_zero _)
    | succ f =>
      have han : a ≠ nil := hz.focus_ne_nil
      have hka : h.key a = k' := by simp [key, hz.mem_focus]
      have hla : h.left a = l.addr := by simp [left, hz.mem_focus]
      have hra : h.right a = r.addr := by simp [right, hz.mem_focus]
      simp only [T.height] at hf
      rw [rbInsertDescend, T.addr_nd, if_pos han, hk, hka, hla, hra]
      unfold descend
      split
      · exact descend_spec hk l (Frame.L a c k' v r :: ctx) f (by omega) (repZ_L.2 hz)
      · exact descend_spec hk r (Frame.R a c l k' v :: ctx) f (by omega) (repZ_R.2 hz)

/-- Allocation leaves the represented tree alone. -/
theorem repZ_newNode {h : RBTree} {ctx : List Frame} {t : T} (k v : String) (hz : RepZ h ctx t) :
    RepZ (h.newNode k v) ctx t := by
  obtain ⟨h1, h2, h3, h4, h5, h6, h7⟩ := hz
  have hne : ∀ a ∈ t.addrs ++ ctxAddrs ctx, a ≠ h.next := fun a ha => Nat.ne_of_lt (h5 a ha).2
  have hm : ∀ a, a ≠ h.next → (h.newNode k v).mem a = h.mem a := by
    intro a ha; simp [newNode, Function.update_noteq ha]
  refine ⟨h1, ?_, ?_, h4, ?_, ?_, ?_⟩
  · exact own_congr t _ (fun a ha => hm a (hne a (by simp [ha]))) h2
  · exact ownCtx_congr ctx _ (fun a ha => hm a (hne a (by simp [ha]))) h3
  · intro a ha; exact ⟨(h5 a ha).1, Nat.lt_succ_of_lt (h5 a ha).2⟩
  · simp only [color, left, right] at h6 ⊢
    rw [hm nil (Nat.ne_of_lt h7)]; exact h6
  · exact Nat.lt_succ_of_lt h7

/-- Linking the fresh cell `z` below the position found by the descent. -/
theorem attach_spec {h : RBTree} {ctx : List Frame} {z : Ptr} {k v : String}
    (hz : RepZ h ctx T.lf) (hzn : z ≠ nil) (hzc : z ∉ ctxAddrs ctx) (hzb : z < h.next)
    (hk : h.key z = k) (hv : h.value z = v) (htop : TopOK k ctx) :
    ∃ t2 : RBTree,
      (if ctxAddr ctx = nil then (h.setParent z (ctxAddr ctx)).setRoot z
        else if (h.setParent z (ctxAddr ctx)).key z < (h.setParent z (ctxAddr ctx)).key (ctxAddr ctx)
          then (h.setParent z (ctxAddr ctx)).setLeft (ctxAddr ctx) z
        else (h.setParent z (ctxAddr ctx)).setRight (ctxAddr ctx) z) = t2 ∧
      RepZ (((t2.setLeft z nil).setRight z nil).setColor z Color.R) ctx
        (T.nd z Color.R T.lf k v T.lf) ∧
      (((t2.setLeft z nil).setRight z nil).setColor z Color.R).next = h.next := by
  obtain ⟨hroot, -, hc, hnd, hb, hs, hal⟩ := hz
  simp only [T.addrs_lf, List.nil_append] at hnd hb
  simp only [T.addr_lf] at hc
  have hcz : ∀ a ∈ ctxAddrs ctx, a ≠ z := fun a ha => ne_of_mem_of_not_mem ha hzc
  have hcn : ∀ a ∈ ctxAddrs ctx, a ≠ nil := fun a ha => (hb a ha).1
  have hkz : ∀ p, (h.setParent z p).key z = k := by
    intro p; simp [key, setParent_mem] at hk ⊢; exact hk
  -- the relinked context
  have hstep : ∃ t2 : RBTree,
      (if ctxAddr ctx = nil then (h.setParent z (ctxAddr ctx)).setRoot z
        else if (h.setParent z (ctxAddr ctx)).key z < (h.setParent z (ctxAddr ctx)).key (ctxAddr ctx)
          then (h.setParent z (ctxAddr ctx)).setLeft (ctxAddr ctx) z
        else (h.setParent z (ctxAddr ctx)).setRight (ctxAddr ctx) z) = t2 ∧
      OwnCtx t2.mem ctx z ∧ t2.mem z = { h.mem z with parent := ctxAddr ctx } ∧
      t2.mem nil = h.mem nil ∧ t2.next = h.next ∧
      t2.root = (plug ctx (T.nd z Color.R T.lf k v T.lf)).addr := by
    refine ⟨_, rfl, ?_⟩
    cases ctx with
    | nil =>
      simp only [ctxAddr_nil, if_true, setRoot_mem, setRoot_next, setParent_next, setRoot_root,
        plug_nil, T.addr_nd, and_true]
      refine ⟨trivial, by simp [setParent_mem], by simp [setParent_mem, Ne.symm hzn]⟩
    | cons f ctx =>
      cases f with
      | L a c k' v' r =>
        have haz : a ≠ z := hcz a (by simp)
        have han : a ≠ nil := hcn a (by simp)
        have hka : (h.setParent z a).key a = k' := by
          simp [key, setParent_mem, haz, hc.1]
        simp only [ctxAddr_L, if_neg han, hkz, hka]
        rw [if_pos (show k < k' from htop)]
        refine ⟨?_, ?_, ?_, rfl, ?_⟩
        · refine ownCtx_child hc hnd ?_ ?_ ?_
          · intro b hb1 hb'; simp only [ctxAddr_L] at hb'
            rw [setLeft_mem, if_neg hb', setParent_mem, if_neg (hcz b hb1)]
          · intro a' c' k'' v'' r' rest e; cases e
            rw [setLeft_mem, if_pos rfl, setParent_mem, if_neg haz]
          · intro a' c' l' k'' v'' rest e; cases e
        · simp [setLeft_mem, Ne.symm haz, setParent_mem]
        · simp [setLeft_mem, Ne.symm han, setParent_mem, Ne.symm hzn]
        · simp only [setLeft_root, setParent_root, hroot]; exact plug_addr_cons _ _ _ _
      | R a c l k' v' =>
        have haz : a ≠ z := hcz a (by simp)
        have han : a ≠ nil := hcn a (by simp)
        have hka : (h.setParent z a).key a = k' := by
          simp [key, setParent_mem, haz, hc.1]
        simp only [ctxAddr_R, if_neg han, hkz, hka]
        rw [if_neg (show ¬ k < k' from htop)]
        refine ⟨?_, ?_, ?_, rfl, ?_⟩
        · refine ownCtx_child hc hnd ?_ ?_ ?_
          · intro b hb1 hb'; simp only [ctxAddr_R] at hb'
            rw [setRight_mem, if_neg hb', setParent_mem, if_neg (hcz b hb1)]
          · intro a' c' k'' v'' r' rest e; cases e
          · intro a' c' l' k'' v'' rest e; cases e
            rw [setRight_mem, if_pos rfl, setParent_mem, if_neg haz]
        · simp [setRight_mem, Ne.symm haz, setParent_mem]
        · simp [setRight_mem, Ne.symm han, setParent_mem, Ne.symm hzn]
        · simp only [setRight_root, setParent_root, hroot]; exact plug_addr_cons _ _ _ _
  obtain ⟨t2, e2, oc2, mz2, mn2, n2, r2⟩ := hstep
  refine ⟨t2, e2, ⟨?_, ⟨?_, trivial, trivial⟩, ?_, ?_, ?_, ?_, ?_⟩, ?_⟩
  · simpa using r2
  · simp only [key, value] at hk hv
    simp [setColor_mem, setRight_mem, setLeft_mem, mz2, hk, hv]
  · refine ownCtx_congr ctx _ (fun a ha => ?_) oc2
    rw [setColor_mem, if_neg (hcz a ha), setRight_mem, if_neg (hcz a ha), setLeft_mem,
      if_neg (hcz a ha)]
  · simpa using ⟨hzc, hnd⟩
  · intro a ha
    simp only [T.addrs_nd, T.addrs_lf, List.nil_append, List.cons_append, List.mem_cons] at ha
    simp only [setColor_next, setRight_next, setLeft_next, n2]
    rcases ha with rfl | ha
    · exact ⟨hzn, hzb⟩
    · exact hb a ha
  · simp only [color, left, right] at hs ⊢
    rw [setColor_mem, if_neg (Ne.symm hzn), setRight_mem, if_neg (Ne.symm hzn), setLeft_mem,
      if_neg (Ne.symm hzn), mn2]
    exact hs
  · simpa [n2] using hal
  · simp [n2]

/-! ## The balance predicate and the four red-black properties -/

theorem Bal.props : ∀ {t : T} {c : Color} {n : Nat}, Bal t c n →
    t.col = c ∧ t.noRedRed ∧ t.blackBalanced ∧ t.blackHeight = n
  | _, _, _, Bal.lf => ⟨rfl, trivial, trivial, rfl⟩
  | _, _, _, Bal.red hl hr => by
    obtain ⟨l1, l2, l3, l4⟩ := hl.props
    obtain ⟨r1, r2, r3, r4⟩ := hr.props
    exact ⟨rfl, ⟨fun _ => ⟨l1, r1⟩, l2, r2⟩, ⟨l4.trans r4.symm, l3, r3⟩, by simp [T.blackHeight, l4]⟩
  | _, _, _, Bal.black hl hr => by
    obtain ⟨l1, l2, l3, l4⟩ := hl.props
    obtain ⟨r1, r2, r3, r4⟩ := hr.props
    exact ⟨rfl, ⟨(fun h => by cases h), l2, r2⟩, ⟨l4.trans r4.symm, l3, r3⟩,
      by simp [T.blackHeight, l4]⟩

theorem bal_of_props : ∀ t : T, t.noRedRed → t.blackBalanced → Bal t t.col t.blackHeight
  | T.lf, _, _ => Bal.lf
  | T.nd a c l k v r, h1, h2 => by
    have hl := bal_of_props l h1.2.1 h2.2.1
    have hr := bal_of_props r h1.2.2 h2.2.2
    rw [← h2.1] at hr
    cases c with
    | R =>
      obtain ⟨e1, e2⟩ := h1.1 rfl
      rw [e1] at hl; rw [e2] at hr
      simpa [T.col, T.blackHeight] using Bal.red hl hr
    | B => simpa [T.col, T.blackHeight] using Bal.black hl hr

theorem T.toList_eq : ∀ t : T, t.toList = t.entries.map Prod.snd
  | T.lf => rfl
  | T.nd _ _ l _ _ r => by simp [T.toList, T.toList_eq l, T.toList_eq r]

theorem T.addrs_eq : ∀ t : T, t.addrs = t.entries.map Prod.fst
  | T.lf => rfl
  | T.nd _ _ l _ _ r => by simp [T.addrs_eq l, T.addrs_eq r]

theorem T.ordered_iff (t : T) :
    t.ordered ↔ t.entries.Pairwise (fun a b => ¬ b.2.1 < a.2.1) := by
  rw [T.ordered, T.toList_eq, List.pairwise_map]

/-- The data of a valid state: a represented tree that is ordered and balanced. -/
theorem valid_iff {h : RBTree} :
    Valid h ↔ ∃ t n, Rep h t ∧ t.entries.Pairwise (fun a b => ¬ b.2.1 < a.2.1) ∧
      Bal t Color.B n := by
  constructor
  · rintro ⟨t, hr, ho, hc, h1, h2⟩
    refine ⟨t, t.blackHeight, hr, (T.ordered_iff t).1 ho, ?_⟩
    have := bal_of_props t h1 h2
    rwa [hc] at this
  · rintro ⟨t, n, hr, ho, hb⟩
    obtain ⟨p1, p2, p3, -⟩ := hb.props
    exact ⟨t, hr, (T.ordered_iff t).2 ho, p1, p2, p3⟩

/-! ## In-order traversal of a represented tree -/

theorem inorderAux_spec {h : RBTree} : ∀ (t : T) (par : Ptr) (fuel : Nat),
    Own h.mem t par → (∀ a ∈ t.addrs, a ≠ nil) → t.height < fuel →
    inorderAux h fuel t.addr = t.toList
  | T.lf, _, fuel, _, _, hf => by
    cases fuel with
    | zero => exact absurd hf (Nat.not_lt_zero _)
    | succ f => simp [inorderAux, T.toList]
  | T.nd a c l k v r, par, fuel, ho, hn, hf => by
    cases fuel with
    | zero => exact absurd hf (Nat.not_lt_zero _)
    | succ f =>
      simp only [T.height] at hf
      have ha : a ≠ nil := hn a (by simp)
      rw [inorderAux, T.addr_nd, if_pos ha]
      have e1 : h.left a = l.addr := by simp [left, ho.1]
      have e2 : h.right a = r.addr := by simp [right, ho.1]
      have e3 : h.key a = k := by simp [key, ho.1]
      have e4 : h.value a = v := by simp [value, ho.1]
      rw [e1, e2, e3, e4, inorderAux_spec l a f ho.2.1 (fun b hb => hn b (by simp [hb])) (by omega),
        inorderAux_spec r a f ho.2.2 (fun b hb => hn b (by simp [hb])) (by omega)]
      rfl

theorem Rep.inorder_eq {h : RBTree} {t : T} (hr : Rep h t) : inorder h = t.toList := by
  have hf := RepZ.fuel hr
  have hs := t.height_le_size
  rw [inorder, hr.root]
  exact inorderAux_spec t nil h.next hr.own (fun a ha => (hr.bound a (by simp [ha])).1)
    (by simp only [List.length_nil] at hf; omega)

/-! ## `rbInsertFixup` and `rbInsert` -/

theorem rbInsertFixup_spec {h : RBTree} {ctx : List Frame} {z : Ptr} {k v : String} {l r : T}
    {n : Nat} (hz : RepZ h ctx (T.nd z Color.R l k v r))
    (hb : Bal (T.nd z Color.R l k v r) Color.R n) (hci : CIns ctx n) :
    ∃ h' t' m, rbInsertFixup h z = some h' ∧ Rep h' t' ∧ h'.next = h.next ∧
      t'.entries = (plug ctx (T.nd z Color.R l k v r)).entries ∧ Bal t' Color.B m := by
  have hf := RepZ.fuel hz
  obtain ⟨h1, t1, e1, hr1, hn1, -, he1, hne1, c1, m1, hb1⟩ :=
    insertFixupLoop_spec h.next h ctx z k v l r n (by omega) hz hb hci
  rw [rbInsertFixup, e1, Option.map_some']
  cases hb1 with
  | lf => exact absurd rfl hne1
  | @red a l' k' v' r' _ hl hr =>
    have hroot : h1.root = a := hr1.root
    rw [hroot]
    exact ⟨_, _, _, rfl, repZ_setColor Color.B hr1, by simpa using hn1, by simpa using he1,
      Bal.black hl hr⟩
  | @black a l' k' v' r' _ _ _ hl hr =>
    have hroot : h1.root = a := hr1.root
    rw [hroot]
    exact ⟨_, _, _, rfl, repZ_setColor Color.B hr1, by simpa using hn1, by simpa using he1,
      Bal.black hl hr⟩

/-- `rbInsert` on a represented, ordered, balanced tree: it returns, the new
state represents an ordered balanced tree, and the new entry sits after all
entries with a key `≤ k` and before all entries with a larger key. -/
theorem rbInsert_core {h : RBTree} {t : T} {n : Nat} (k v : String) (hr : Rep h t)
    (ho : t.entries.Pairwise (fun a b => ¬ b.2.1 < a.2.1)) (hb : Bal t Color.B n) :
    ∃ h' t' n', rbInsert h k v = some h' ∧ Rep h' t' ∧ Bal t' Color.B n' ∧
      h'.next = h.next + 1 ∧
      ∃ A B, t.entries = A ++ B ∧ t'.entries = A ++ (h.next, k, v) :: B ∧
        (∀ e ∈ A, ¬ k < e.2.1) ∧ (∀ e ∈ B, k < e.2.1) := by
  have hz0 : RepZ (h.newNode k v) [] t := repZ_newNode k v hr
  have hk0 : (h.newNode k v).key h.next = k := by simp [key, newNode]
  have hv0 : (h.newNode k v).value h.next = v := by simp [value, newNode]
  have hfu := RepZ.fuel hr
  have hhs := t.height_le_size
  obtain ⟨ed, hzd⟩ := descend_spec hk0 t [] (h.newNode k v).next
    (by simp only [newNode, List.length_nil] at hfu ⊢; omega) hz0
  have hzd0 : RepZ h (descend k t []) T.lf := by
    refine rep_plug.2 ?_
    rw [plug_descend]; exact hr
  have hzc : h.next ∉ ctxAddrs (descend k t []) := fun hm =>
    Nat.lt_irrefl _ (hzd0.bound _ (by simp [hm])).2
  obtain ⟨t2, e2, hz5, hn5⟩ := attach_spec (z := h.next) hzd (Nat.ne_of_gt hr.alloc) hzc
    (by simp [newNode]) hk0 hv0 (topOK_descend k t [] trivial)
  have hci : CIns (descend k t []) 0 := by
    have hb' : Bal (plug (descend k t []) T.lf) Color.B n := by rw [plug_descend]; exact hb
    obtain ⟨c, n0, hlf, hcb⟩ := Bal.unplug _ hb'
    cases hlf
    exact hcb.toIns
  obtain ⟨h', t', m, ef, hr', hn', he', hb'⟩ := rbInsertFixup_spec hz5 (Bal.red Bal.lf Bal.lf) hci
  refine ⟨h', t', m, ?_, hr', hb', ?_, ctxLeft (descend k t []), ctxRight (descend k t []), ?_, ?_, ?_⟩
  · rw [rbInsert, rbInsertNode, hz0.root]
    simp only [plug_nil]
    have ed' : rbInsertDescend (h.newNode k v) h.next (h.newNode k v).next nil t.addr =
        some (ctxAddr (descend k t [])) := ed
    rw [ed', Option.some_bind, e2]
    exact ef
  · rw [hn', hn5]; rfl
  · have := plug_entries (descend k t []) T.lf
    rw [plug_descend] at this
    simpa using this
  · rw [he', plug_entries]; simp
  · exact (descend_bounds k t [] ho (by simp [ctxLeft]) (by simp [ctxRight]))

/-! ## Minimum, maximum, successor, predecessor -/

@[simp] theorem headAddr_nil : headAddr [] = nil := rfl
@[simp] theorem headAddr_cons (e : Ptr × String × String) (l) : headAddr (e :: l) = e.1 := rfl
@[simp] theorem lastAddr_nil : lastAddr [] = nil := rfl
@[simp] theorem lastAddr_append_singleton (l : List (Ptr × String × String)) (e) :
    lastAddr (l ++ [e]) = e.1 := by simp [lastAddr]

theorem headAddr_append (l₁ l₂ : List (Ptr × String × String)) :
    headAddr (l₁ ++ l₂) = if l₁ = [] then headAddr l₂ else headAddr l₁ := by
  cases l₁ <;> simp

theorem lastAddr_append (l₁ l₂ : List (Ptr × String × String)) :
    lastAddr (l₁ ++ l₂) = if l₂ = [] then lastAddr l₁ else lastAddr l₂ := by
  simp only [lastAddr, List.reverse_append, headAddr_append, List.reverse_eq_nil_iff]

theorem lastAddr_cons_ne (e : Ptr × String × String) (l : List (Ptr × String × String))
    (h : l ≠ []) : lastAddr (e :: l) = lastAddr l := by
  have := lastAddr_append [e] l
  simpa [h] using this

theorem T.entries_eq_nil : ∀ {t : T}, t.entries = [] ↔ t = T.lf
  | T.lf => by simp
  | T.nd _ _ _ _ _ _ => by simp

theorem rbTreeMinimum_spec {h : RBTree} : ∀ (l : T) (a c k v r par) (fuel : Nat),
    Own h.mem (T.nd a c l k v r) par → (∀ b ∈ (T.nd a c l k v r).addrs, b ≠ nil) →
    (T.nd a c l k v r).height < fuel →
    rbTreeMinimum h fuel a = some (headAddr (T.nd a c l k v r).entries)
  | T.lf, a, c, k, v, r, par, fuel, ho, _, hf => by
    cases fuel with
    | zero => exact absurd hf (Nat.not_lt_zero _)
    | succ f =>
      have : h.left a = nil := by simp [left, ho.1]
      simp [rbTreeMinimum, this]
  | T.nd a' c' l' k' v' r', a, c, k, v, r, par, fuel, ho, hn, hf => by
    cases fuel with
    | zero => exact absurd hf (Nat.not_lt_zero _)
    | succ f =>
      have e1 : h.left a = a' := by simp [left, ho.1]
      have e2 : a' ≠ nil := hn a' (by simp)
      simp only [T.height] at hf
      rw [rbTreeMinimum, e1, if_pos e2,
        rbTreeMinimum_spec l' a' c' k' v' r' a f ho.2.1 (fun b hb => hn b (by
          simp only [T.addrs_nd, List.mem_append, List.mem_cons] at hb ⊢; tauto))
          (by simp only [T.height]; omega)]
      simp [headAddr_append]

theorem rbTreeMaximum_spec {h : RBTree} : ∀ (r : T) (a c l k v par) (fuel : Nat),
    Own h.mem (T.nd a c l k v r) par → (∀ b ∈ (T.nd a c l k v r).addrs, b ≠ nil) →
    (T.nd a c l k v r).height < fuel →
    rbTreeMaximum h fuel a = some (lastAddr (T.nd a c l k v r).entries)
  | T.lf, a, c, l, k, v, par, fuel, ho, _, hf => by
    cases fuel with
    | zero => exact absurd hf (Nat.not_lt_zero _)
    | succ f =>
      have : h.right a = nil := by simp [right, ho.1]
      simp [rbTreeMaximum, this]
  | T.nd a' c' l' k' v' r', a, c, l, k, v, par, fuel, ho, hn, hf => by
    cases fuel with
    | zero => exact absurd hf (Nat.not_lt_zero _)
    | succ f =>
      have e1 : h.right a = a' := by simp [right, ho.1]
      have e2 : a' ≠ nil := hn a' (by simp)
      simp only [T.height] at hf
      rw [rbTreeMaximum, e1, if_pos e2,
        rbTreeMaximum_spec r' a' c' l' k' v' a f ho.2.2 (fun b hb => hn b (by
          simp only [T.addrs_nd, List.mem_append, List.mem_cons] at hb ⊢; tauto))
          (by simp only [T.height]; omega)]
      have e3 : (T.nd a c l k v (T.nd a' c' l' k' v' r')).entries =
          (l.entries ++ [(a, k, v)]) ++ (T.nd a' c' l' k' v' r').entries := by simp
      rw [e3, lastAddr_append, if_neg (by simp)]

theorem successorLoop_spec {h : RBTree} : ∀ (ctx : List Frame) (a c l k v r) (fuel : Nat),
    RepZ h ctx (T.nd a c l k v r) → ctx.length < fuel →
    successorLoop h fuel a (ctxAddr ctx) = some (headAddr (ctxRight ctx))
  | [], a, c, l, k, v, r, fuel, _, hf => by
    cases fuel with
    | zero => exact absurd hf (Nat.not_lt_zero _)
    | succ f => simp [successorLoop, ctxRight]
  | Frame.L p cp kp vp s :: ctx, a, c, l, k, v, r, fuel, hz, hf => by
    cases fuel with
    | zero => exact absurd hf (Nat.not_lt_zero _)
    | succ f =>
      have e1 : h.right p = s.addr := by simp [right, hz.topL]
      have e2 : a ≠ s.addr := hz.focus_ne_sibL
      simp [successorLoop, e1, e2, ctxRight]
  | Frame.R p cp s kp vp :: ctx, a, c, l, k, v, r, fuel, hz, hf => by
    cases fuel with
    | zero => exact absurd hf (Nat.not_lt_zero _)
    | succ f =>
      have e1 : h.right p = a := by simp [right, hz.topR]
      have e2 : p ≠ nil := (repZ_R.1 hz).focus_ne_nil
      have e3 : h.parent p = ctxAddr ctx := by simp [parent, hz.topR]
      simp only [List.length_cons] at hf
      rw [successorLoop, ctxAddr_R, e1, if_pos ⟨e2, rfl⟩, e3,
        successorLoop_spec ctx p cp s kp vp _ f (repZ_R.1 hz) (by omega)]
      rfl

theorem predecessorLoop_spec {h : RBTree} : ∀ (ctx : List Frame) (a c l k v r) (fuel : Nat),
    RepZ h ctx (T.nd a c l k v r) → ctx.length < fuel →
    predecessorLoop h fuel a (ctxAddr ctx) = some (lastAddr (ctxLeft ctx))
  | [], a, c, l, k, v, r, fuel, _, hf => by
    cases fuel with
    | zero => exact absurd hf (Nat.not_lt_zero _)
    | succ f => simp [predecessorLoop, ctxLeft]
  | Frame.R p cp s kp vp :: ctx, a, c, l, k, v, r, fuel, hz, hf => by
    cases fuel with
    | zero => exact absurd hf (Nat.not_lt_zero _)
    | succ f =>
      have e1 : h.left p = s.addr := by simp [left, hz.topR]
      have e2 : a ≠ s.addr := hz.focus_ne_sibR
      have e3 : ctxLeft (Frame.R p cp s kp vp :: ctx) = (ctxLeft ctx ++ s.entries) ++ [(p, kp, vp)] := rfl
      rw [e3, lastAddr_append_singleton]
      simp [predecessorLoop, e1, e2]
  | Frame.L p cp kp vp s :: ctx, a, c, l, k, v, r, fuel, hz, hf => by
    cases fuel with
    | zero => exact absurd hf (Nat.not_lt_zero _)
    | succ f =>
      have e1 : h.left p = a := by simp [left, hz.topL]
      have e2 : p ≠ nil := (repZ_L.1 hz).focus_ne_nil
      have e3 : h.parent p = ctxAddr ctx := by simp [parent, hz.topL]
      simp only [List.length_cons] at hf
      rw [predecessorLoop, ctxAddr_L, e1, if_pos ⟨e2, rfl⟩, e3,
        predecessorLoop_spec ctx p cp _ kp vp s f (repZ_L.1 hz) (by omega)]
      rfl

/-- `rbTreeSuccessor` at the node in focus: the first entry after it. -/
theorem rbTreeSuccessor_zip {h : RBTree} {ctx : List Frame} {a c l k v r}
    (hz : RepZ h ctx (T.nd a c l k v r)) :
    rbTreeSuccessor h a = some (headAddr (r.entries ++ ctxRight ctx)) := by
  have hfu := RepZ.fuel hz
  simp only [T.size] at hfu
  have hra : h.right a = r.addr := by simp [right, hz.mem_focus]
  have hpa : h.parent a = ctxAddr ctx := by simp [parent, hz.mem_focus]
  rw [rbTreeSuccessor, hra, hpa]
  cases r with
  | lf =>
    simp only [T.addr_lf, ne_eq, not_true_eq_false, if_false, T.entries_lf, List.nil_append]
    exact successorLoop_spec ctx a c l k v _ _ hz (by omega)
  | nd a' c' l' k' v' r' =>
    have hz' := repZ_R.2 hz
    have hs := (T.nd a' c' l' k' v' r').height_le_size
    simp only [T.size] at hfu
    rw [T.addr_nd, if_pos hz'.focus_ne_nil, rbTreeMinimum_spec l' a' c' k' v' r' a h.next hz'.own
      (fun b hb => (hz'.bound b (List.mem_append_left _ hb)).1) (by simp only [T.size] at hs; omega)]
    simp [headAddr_append]

/-- `rbTreePredecessor` at the node in focus: the last entry before it. -/
theorem rbTreePredecessor_zip {h : RBTree} {ctx : List Frame} {a c l k v r}
    (hz : RepZ h ctx (T.nd a c l k v r)) :
    rbTreePredecessor h a = some (lastAddr (ctxLeft ctx ++ l.entries)) := by
  have hfu := RepZ.fuel hz
  simp only [T.size] at hfu
  have hla : h.left a = l.addr := by simp [left, hz.mem_focus]
  have hpa : h.parent a = ctxAddr ctx := by simp [parent, hz.mem_focus]
  rw [rbTreePredecessor, hla, hpa]
  cases l with
  | lf =>
    simp only [T.addr_lf, ne_eq, not_true_eq_false, if_false, T.entries_lf, List.append_nil]
    exact predecessorLoop_spec ctx a c _ k v r _ hz (by omega)
  | nd a' c' l' k' v' r' =>
    have hz' := repZ_L.2 hz
    have hs := (T.nd a' c' l' k' v' r').height_le_size
    simp only [T.size] at hfu
    rw [T.addr_nd, if_pos hz'.focus_ne_nil, rbTreeMaximum_spec r' a' c' l' k' v' a h.next hz'.own
      (fun b hb => (hz'.bound b (List.mem_append_left _ hb)).1) (by simp only [T.size] at hs; omega)]
    rw [lastAddr_append]; simp

/-! ## Positions in the in-order list -/

theorem plug_append : ∀ (c1 c2 : List Frame) (t : T), plug (c1 ++ c2) t = plug c2 (plug c1 t)
  | [], _, _ => rfl
  | Frame.L _ _ _ _ _ :: c1, c2, _ => plug_append c1 c2 _
  | Frame.R _ _ _ _ _ :: c1, c2, _ => plug_append c1 c2 _

/-- Every node of a tree can be put in focus. -/
theorem focus_of_mem : ∀ (t : T) (a : Ptr), a ∈ t.addrs →
    ∃ ctx c l k v r, t = plug ctx (T.nd a c l k v r)
  | T.lf, a, h => by simp at h
  | T.nd b c l k v r, a, h => by
    simp only [T.addrs_nd, List.mem_append, List.mem_cons] at h
    rcases h with h | rfl | h
    · obtain ⟨ctx, c', l', k', v', r', e⟩ := focus_of_mem l a h
      exact ⟨ctx ++ [Frame.L b c k v r], c', l', k', v', r', by rw [plug_append, ← e]; rfl⟩
    · exact ⟨[], c, l, k, v, r, rfl⟩
    · obtain ⟨ctx, c', l', k', v', r', e⟩ := focus_of_mem r a h
      exact ⟨ctx ++ [Frame.R b c l k v], c', l', k', v', r', by rw [plug_append, ← e]; rfl⟩

/-- A list with distinct addresses splits at a given address in one way only. -/
theorem split_unique {α : Type} (f : α → Ptr) : ∀ (X X' : List α) (x x' : α) (Y Y' : List α),
    ((X ++ x :: Y).map f).Nodup → X ++ x :: Y = X' ++ x' :: Y' → f x = f x' →
    X = X' ∧ x = x' ∧ Y = Y'
  | [], [], x, x', Y, Y', _, e, _ => by
    simp only [List.nil_append, List.cons.injEq] at e
    exact ⟨rfl, e.1, e.2⟩
  | [], b :: X', x, x', Y, Y', hnd, e, hf => by
    simp only [List.nil_append, List.cons_append, List.cons.injEq] at e
    obtain ⟨rfl, rfl⟩ := e
    simp only [List.nil_append, List.map_cons, List.map_append, List.nodup_cons, List.mem_append,
      List.mem_cons, List.mem_map] at hnd
    exact absurd (Or.inr (Or.inl hf)) hnd.1
  | a :: X, [], x, x', Y, Y', hnd, e, hf => by
    simp only [List.nil_append, List.cons_append, List.cons.injEq] at e
    obtain ⟨rfl, rfl⟩ := e
    simp only [List.cons_append, List.map_cons, List.map_append, List.nodup_cons, List.mem_append,
      List.mem_cons, List.mem_map] at hnd
    exact absurd (Or.inr (Or.inl hf.symm)) hnd.1
  | a :: X, b :: X', x, x', Y, Y', hnd, e, hf => by
    simp only [List.cons_append, List.cons.injEq] at e
    obtain ⟨rfl, e⟩ := e
    simp only [List.cons_append, List.map_cons, List.nodup_cons] at hnd
    obtain ⟨h1, h2, h3⟩ := split_unique f X X' x x' Y Y' hnd.2 e hf
    exact ⟨by rw [h1], h2, h3⟩

theorem Rep.nodup_entries {h : RBTree} {t : T} (hr : Rep h t) :
    (t.entries.map Prod.fst).Nodup := by
  have := hr.nodup
  simpa [T.addrs_eq] using this

/-- Every entry of a represented tree can be put in focus, and the zipper
splits the in-order list at that entry. -/
theorem Rep.focus {h : RBTree} {t : T} (hr : Rep h t) {A B : List (Ptr × String × String)}
    {e : Ptr × String × String} (he : t.entries = A ++ e :: B) :
    ∃ ctx c l r, RepZ h ctx (T.nd e.1 c l e.2.1 e.2.2 r) ∧ t = plug ctx (T.nd e.1 c l e.2.1 e.2.2 r) ∧
      A = ctxLeft ctx ++ l.entries ∧ B = r.entries ++ ctxRight ctx := by
  have hm : e.1 ∈ t.addrs := by
    rw [T.addrs_eq, he]; simp
  obtain ⟨ctx, c, l, k, v, r, e1⟩ := focus_of_mem t e.1 hm
  have e2 := plug_entries ctx (T.nd e.1 c l k v r)
  rw [← e1, he, T.entries_nd, List.append_assoc, List.append_assoc, ← List.append_assoc,
    List.cons_append] at e2
  have hnd := hr.nodup_entries
  rw [he] at hnd
  obtain ⟨h1, h2, h3⟩ := split_unique Prod.fst _ _ _ _ _ _ hnd e2 rfl
  have hk : k = e.2.1 := by rw [h2]
  have hv : v = e.2.2 := by rw [h2]
  subst hk hv
  refine ⟨ctx, c, l, r, ?_, e1, h1, h3⟩
  rw [rep_plug, ← e1]; exact hr

/-- Successor, predecessor, key and value of an entry, read in the in-order list. -/
theorem Rep.at_entry {h : RBTree} {t : T} (hr : Rep h t) {A B : List (Ptr × String × String)}
    {e : Ptr × String × String} (he : t.entries = A ++ e :: B) :
    rbTreeSuccessor h e.1 = some (headAddr B) ∧ rbTreePredecessor h e.1 = some (lastAddr A) ∧
      h.key e.1 = e.2.1 ∧ h.value e.1 = e.2.2 ∧ e.1 ≠ nil := by
  obtain ⟨ctx, c, l, r, hz, -, hA, hB⟩ := hr.focus he
  refine ⟨?_, ?_, ?_, ?_, hz.focus_ne_nil⟩
  · rw [hB]; exact rbTreeSuccessor_zip hz
  · rw [hA]; exact rbTreePredecessor_zip hz
  · simp [key, hz.mem_focus]
  · simp [value, hz.mem_focus]

/-! ## `rbTreeSearch` -/

theorem plug_searchZ (k : String) : ∀ (t : T) (ctx : List Frame),
    plug (searchZ k t ctx).1 (searchZ k t ctx).2 = plug ctx t
  | T.lf, _ => rfl
  | T.nd a c l k' v r, ctx => by
    unfold searchZ
    split
    · rfl
    · split
      · rw [plug_searchZ k l]; rfl
      · rw [plug_searchZ k r]; rfl

theorem searchZ_found (k : String) : ∀ (t : T) (ctx : List Frame),
    (searchZ k t ctx).2 = T.lf ∨ ∃ a c l v r, (searchZ k t ctx).2 = T.nd a c l k v r
  | T.lf, _ => Or.inl rfl
  | T.nd a c l k' v r, ctx => by
    unfold searchZ
    split
    · rename_i hk; subst hk; exact Or.inr ⟨a, c, l, v, r, rfl⟩
    · split
      · exact searchZ_found k l _
      · exact searchZ_found k r _

/-- In an ordered tree a failed search means the key is absent. -/
theorem searchZ_absent (k : String) : ∀ (t : T) (ctx : List Frame),
    t.entries.Pairwise (fun a b => ¬ b.2.1 < a.2.1) → (searchZ k t ctx).2 = T.lf →
    ∀ e ∈ t.entries, e.2.1 ≠ k
  | T.lf, _, _, _ => by simp
  | T.nd a c l k' v r, ctx, hp, hs => by
    simp only [T.entries_nd, List.pairwise_append, List.pairwise_cons, List.mem_cons,
      forall_eq_or_imp] at hp
    obtain ⟨hl, ⟨har, hr⟩, hlr⟩ := hp
    unfold searchZ at hs
    split at hs
    · cases hs
    · rename_i hne
      split at hs
      · rename_i hlt
        intro e he
        simp only [T.entries_nd, List.mem_append, List.mem_cons] at he
        rcases he with he | rfl | he
        · exact searchZ_absent k l _ hl hs e he
        · exact fun e' => hne e'.symm
        · intro e'
          exact har e he (e' ▸ hlt)
      · rename_i hge
        have hgt : k' < k := lt_of_le_of_ne (not_lt.1 hge) (fun e' => hne e'.symm)
        intro e he
        simp only [T.entries_nd, List.mem_append, List.mem_cons] at he
        rcases he with he | rfl | he
        · intro e'
          exact (hlr e he).1 (e' ▸ hgt)
        · exact fun e' => hne e'.symm
        · exact searchZ_absent k r _ hr hs e he

theorem rbTreeSearch_spec {h : RBTree} (k : String) : ∀ (t : T) (ctx : List Frame) (fuel : Nat),
    RepZ h ctx t → t.height < fuel →
    rbTreeSearch h k fuel t.addr = some (searchZ k t ctx).2.addr
  | T.lf, ctx, fuel, _, hf => by
    cases fuel with
    | zero => exact absurd hf (Nat.not_lt_zero _)
    | succ f => simp [rbTreeSearch, searchZ]
  | T.nd a c l k' v r, ctx, fuel, hz, hf => by
    cases fuel with
    | zero => exact absurd hf (Nat.not_lt_zero _)
    | succ f =>
      have han : a ≠ nil := hz.focus_ne_nil
      have hka : h.key a = k' := by simp [key, hz.mem_focus]
      have hla : h.left a = l.addr := by simp [left, hz.mem_focus]
      have hra : h.right a = r.addr := by simp [right, hz.mem_focus]
      simp only [T.height] at hf
      rw [rbTreeSearch, T.addr_nd, hka, hla, hra]
      unfold searchZ
      by_cases hk : k = k'
      · rw [if_pos (Or.inr hk), if_pos hk]; rfl
      · rw [if_neg (by simp [han, hk]), if_neg hk]
        split
        · exact rbTreeSearch_spec k l _ f (repZ_L.2 hz) (by omega)
        · exact rbTreeSearch_spec k r _ f (repZ_R.2 hz) (by omega)

/-! ## The scan loops of `rbFind` -/

/-- When `p` is downward closed along the list, `takeWhile p` keeps all matches. -/
theorem takeWhile_eq_filter {α : Type} (p : α → Bool) : ∀ (L : List α),
    L.Pairwise (fun a b => p b = true → p a = true) → L.takeWhile p = L.filter p
  | [], _ => rfl
  | a :: L, h => by
    obtain ⟨h1, h2⟩ := List.pairwise_cons.1 h
    by_cases hp : p a = true
    · rw [List.takeWhile_cons_of_pos hp, List.filter_cons_of_pos hp, takeWhile_eq_filter p L h2]
    · rw [List.takeWhile_cons_of_neg hp, List.filter_cons_of_neg hp]
      symm
      rw [List.filter_eq_nil_iff]
      intro b hb hpb
      exact hp (h1 b hb hpb)

theorem rbFindSuccLoop_spec {h : RBTree} {t : T} (hr : Rep h t) (k : String) :
    ∀ (B A : List (Ptr × String × String)) (fuel : Nat) (res : List String),
    t.entries = A ++ B → B.length < fuel →
    rbFindSuccLoop h k fuel (headAddr B) res =
      some (res ++ (B.takeWhile (fun e => decide (e.2.1 = k))).map (fun e => e.2.2))
  | [], A, fuel, res, _, hf => by
    cases fuel with
    | zero => exact absurd hf (Nat.not_lt_zero _)
    | succ f => simp [rbFindSuccLoop]
  | e :: B, A, fuel, res, he, hf => by
    cases fuel with
    | zero => exact absurd hf (Nat.not_lt_zero _)
    | succ f =>
      obtain ⟨h1, -, h3, h4, h5⟩ := hr.at_entry he
      simp only [List.length_cons] at hf
      rw [rbFindSuccLoop, headAddr_cons, h3, h4, h1]
      by_cases hk : e.2.1 = k
      · rw [if_pos ⟨h5, hk⟩, Option.some_bind,
          rbFindSuccLoop_spec hr k B (A ++ [e]) f _ (by simp [he]) (by omega),
          List.takeWhile_cons_of_pos (by simpa using hk)]
        simp
      · rw [if_neg (fun hc => hk hc.2), List.takeWhile_cons_of_neg (by simpa using hk)]
        simp

theorem rbFindPredLoop_spec {h : RBTree} {t : T} (hr : Rep h t) (k : String) :
    ∀ (R B : List (Ptr × String × String)) (fuel : Nat) (res : List String),
    t.entries = R.reverse ++ B → R.length < fuel →
    rbFindPredLoop h k fuel (headAddr R) res =
      some (res ++ (R.takeWhile (fun e => decide (e.2.1 = k))).map (fun e => e.2.2))
  | [], B, fuel, res, _, hf => by
    cases fuel with
    | zero => exact absurd hf (Nat.not_lt_zero _)
    | succ f => simp [rbFindPredLoop]
  | e :: R, B, fuel, res, he, hf => by
    cases fuel with
    | zero => exact absurd hf (Nat.not_lt_zero _)
    | succ f =>
      have he' : t.entries = R.reverse ++ e :: B := by simp [he]
      obtain ⟨-, h2, h3, h4, h5⟩ := hr.at_entry he'
      simp only [List.length_cons] at hf
      have h2' : rbTreePredecessor h e.1 = some (headAddr R) := by
        rw [h2, lastAddr, List.reverse_reverse]
      rw [rbFindPredLoop, headAddr_cons, h3, h4, h2']
      by_cases hk : e.2.1 = k
      · rw [if_pos ⟨h5, hk⟩, Option.some_bind,
          rbFindPredLoop_spec hr k R (e :: B) f _ he' (by omega),
          List.takeWhile_cons_of_pos (by simpa using hk)]
        simp
      · rw [if_neg (fun hc => hk hc.2), List.takeWhile_cons_of_neg (by simpa using hk)]
        simp

theorem Rep.length_entries_lt {h : RBTree} {t : T} (hr : Rep h t) : t.entries.length < h.next := by
  have := RepZ.fuel hr
  have e : t.entries.length = t.size := by
    rw [← T.length_addrs, T.addrs_eq, List.length_map]
  simp only [List.length_nil] at this
  omega

/-- The search step of `rbFind` and `rbDelete`: either the key is absent and
the search answers the sentinel, or it answers a node with that key. -/
theorem rbTreeSearch_root {h : RBTree} {t : T} (hr : Rep h t) (k : String)
    (ho : t.entries.Pairwise (fun a b => ¬ b.2.1 < a.2.1)) :
    (rbTreeSearch h k h.next h.root = some nil ∧ ∀ e ∈ t.entries, e.2.1 ≠ k) ∨
    ∃ A x v B, t.entries = A ++ (x, k, v) :: B ∧ x ≠ nil ∧
      rbTreeSearch h k h.next h.root = some x := by
  have hfu := RepZ.fuel hr
  have hhs := t.height_le_size
  have hs := rbTreeSearch_spec (h := h) k t [] h.next hr
    (by simp only [List.length_nil] at hfu; omega)
  have hroot : h.root = t.addr := hr.root
  rw [hroot, hs]
  have hp := plug_searchZ k t []
  rcases searchZ_found k t [] with e | ⟨a, c, l, v, r, e⟩
  · left
    rw [e]
    exact ⟨rfl, searchZ_absent k t [] ho e⟩
  · right
    rw [e] at hp ⊢
    have hz : RepZ h (searchZ k t []).1 (T.nd a c l k v r) := by
      rw [rep_plug, hp]; exact hr
    refine ⟨ctxLeft (searchZ k t []).1 ++ l.entries, a, v, r.entries ++ ctxRight (searchZ k t []).1,
      ?_, hz.focus_ne_nil, rfl⟩
    have := plug_entries (searchZ k t []).1 (T.nd a c l k v r)
    rw [hp, plug_nil] at this
    simp [this]

/-- `rbFind` on a represented ordered tree: the empty list when the key is
absent; otherwise the value of the node found by the search, then the values
of the entries with that key before it, nearest first, then of those after it. -/
theorem rbFind_core {h : RBTree} {t : T} (hr : Rep h t) (k : String)
    (ho : t.entries.Pairwise (fun a b => ¬ b.2.1 < a.2.1)) :
    (rbFind h k = some [] ∧ ∀ e ∈ t.entries, e.2.1 ≠ k) ∨
    ∃ A x v B, t.entries = A ++ (x, k, v) :: B ∧ rbTreeSearch h k h.next h.root = some x ∧
      rbFind h k = some (v :: ((A.filter (fun e => decide (e.2.1 = k))).reverse.map (fun e => e.2.2) ++
        (B.filter (fun e => decide (e.2.1 = k))).map (fun e => e.2.2))) := by
  rcases rbTreeSearch_root hr k ho with ⟨e, hab⟩ | ⟨A, x, v, B, he, hx, e⟩
  · left
    exact ⟨by simp [rbFind, e], hab⟩
  · right
    refine ⟨A, x, v, B, he, e, ?_⟩
    obtain ⟨h1, h2, -, h4, -⟩ := hr.at_entry he
    simp only at h1 h2 h4
    have hlen := hr.length_entries_lt
    rw [he, List.length_append, List.length_cons] at hlen
    have hp := rbFindPredLoop_spec hr k A.reverse ((x, k, v) :: B) h.next [v]
      (by simp [he]) (by simp; omega)
    have hs := rbFindSuccLoop_spec hr k B (A ++ [(x, k, v)]) h.next
      ([v] ++ (A.reverse.takeWhile (fun e => decide (e.2.1 = k))).map (fun e => e.2.2))
      (by simp [he]) (by omega)
    rw [he] at ho
    have hoA : A.reverse.Pairwise (fun a b => (decide (b.2.1 = k)) = true → (decide (a.2.1 = k)) = true) := by
      rw [List.pairwise_reverse]
      have hA := (List.pairwise_append.1 ho).1
      have hAx := (List.pairwise_append.1 ho).2.2
      refine (List.Pairwise.and_mem.1 hA).imp ?_
      rintro a b ⟨ha, hb, hab⟩ hak
      simp only [decide_eq_true_eq] at hak ⊢
      have h1 := hAx b hb (x, k, v) (by simp)
      simp only at h1
      rw [hak] at hab
      exact le_antisymm (not_lt.1 h1) (not_lt.1 hab)
    have hoB : B.Pairwise (fun a b => (decide (b.2.1 = k)) = true → (decide (a.2.1 = k)) = true) := by
      have hxB := (List.pairwise_append.1 ho).2.1
      obtain ⟨hx1, hB⟩ := List.pairwise_cons.1 hxB
      refine (List.Pairwise.and_mem.1 hB).imp ?_
      rintro a b ⟨ha, hb, hab⟩ hbk
      simp only [decide_eq_true_eq] at hbk ⊢
      have h1 := hx1 a ha
      simp only at h1
      rw [hbk] at hab
      exact le_antisymm (not_lt.1 hab) (not_lt.1 h1)
    rw [takeWhile_eq_filter _ _ hoA] at hp hs
    rw [takeWhile_eq_filter _ _ hoB] at hs
    rw [rbFind, e, Option.some_bind, if_pos hx, h4, h2]
    have e2 : lastAddr A = headAddr A.reverse := rfl
    rw [e2, Option.some_bind, hp, Option.some_bind, h1, Option.some_bind, hs]
    simp [List.filter_reverse]

/-! ## `rbTransplant` -/

theorem own_setParent_root {g : RBTree} {s : T} {par : Ptr} (x : Ptr) (hs : Own g.mem s par)
    (hnd : s.addrs.Nodup) : Own (g.setParent s.addr x).mem s x := by
  cases s with
  | lf => trivial
  | nd a c l k v r =>
    simp only [T.addrs_nd, List.nodup_append, List.nodup_cons, List.disjoint_cons_right] at hnd
    exact own_reparent x hs hnd.2.2.1 hnd.2.1.1

/-- `rbTransplant(u, s)` where `s` is a child subtree of the node `u` in
focus: `s` takes the place of `u`. -/
theorem repZ_transplant {h : RBTree} {ctx : List Frame} {u c l k v r} {s : T}
    (hz : RepZ h ctx (T.nd u c l k v r)) (hs : s = l ∨ s = r) :
    RepZ (rbTransplant h u s.addr) ctx s ∧
      (rbTransplant h u s.addr).parent s.addr = ctxAddr ctx ∧
      (∀ a, a ∉ ctxAddrs ctx → a ≠ s.addr → (rbTransplant h u s.addr).mem a = h.mem a) ∧
      (rbTransplant h u s.addr).next = h.next := by
  obtain ⟨hroot, ⟨hu, hl, hr⟩, hc, hnd, hb, hsn, hal⟩ := hz
  simp only [T.addr_nd] at hc
  have hun : u ≠ nil := (hb u (by simp)).1
  have hnd0 := hnd
  simp only [T.addrs_nd, List.append_assoc, List.cons_append, List.nodup_append, List.nodup_cons,
    List.mem_append, List.mem_cons, not_or, List.disjoint_cons_left, List.disjoint_cons_right,
    List.disjoint_append_left, List.disjoint_append_right] at hnd
  obtain ⟨ndl, ⟨⟨ur, uc⟩, ndr, ndc, drc⟩, ul, dlr, dlc⟩ := hnd
  have hcnz : ∀ a ∈ ctxAddrs ctx, a ≠ nil := fun a ha => (hb a (by simp [ha])).1
  have hpu : h.parent u = ctxAddr ctx := by simp [parent, hu]
  have hso : Own h.mem s u := by rcases hs with rfl | rfl <;> assumption
  have hsnd : s.addrs.Nodup := by rcases hs with rfl | rfl <;> assumption
  have hsc : s.addrs.Disjoint (ctxAddrs ctx) := by rcases hs with rfl | rfl <;> assumption
  have hsub : ∀ a ∈ s.addrs, a ∈ (T.nd u c l k v r).addrs := by
    intro a ha
    rcases hs with rfl | rfl <;> simp [ha]
  have hsac : s.addr ∉ ctxAddrs ctx := by
    rcases s.addr_nil_or_mem with e | e
    · rw [e]; exact fun hm => hcnz _ hm rfl
    · exact fun hm => hsc e hm
  obtain ⟨t1, e1, oc1, f1, n1, r1⟩ := relinkL_spec (v := s.addr) hc ndc hcnz hun uc hpu
  have hp1 : t1.parent u = ctxAddr ctx := by simp [parent, f1 u uc, hu]
  have key : rbTransplant h u s.addr = t1.setParent s.addr (ctxAddr ctx) := by
    rw [rbTransplant, e1, hp1]
  rw [key]
  refine ⟨⟨?_, ?_, ?_, ?_, ?_, ?_, ?_⟩, ?_, ?_, ?_⟩
  · rw [setParent_root]; exact r1 _ s hroot rfl
  · refine own_setParent_root _ (own_congr s u (fun a ha => f1 a (fun hm => hsc ha hm)) hso) hsnd
  · refine ownCtx_congr ctx _ (fun a ha => ?_) oc1
    rw [setParent_mem, if_neg (fun (e : a = s.addr) => hsac (e ▸ ha))]
  · exact List.nodup_append.2 ⟨hsnd, ndc, hsc⟩
  · intro a ha
    rw [setParent_next, n1]
    rcases List.mem_append.1 ha with ha | ha
    · exact hb a (List.mem_append_left _ (hsub a ha))
    · exact hb a (List.mem_append_right _ ha)
  · simp only [color, left, right, setParent_mem] at hsn ⊢
    have hn1 : t1.mem nil = h.mem nil := f1 nil (fun hm => hcnz _ hm rfl)
    split
    · rename_i e; rw [← e, hn1]; exact hsn
    · rw [hn1]; exact hsn
  · rw [setParent_next, n1]; exact hal
  · simp [parent, setParent_mem]
  · intro a hac has
    rw [setParent_mem, if_neg has, f1 a hac]
  · rw [setParent_next, n1]

/-! ## The relinking of `rbDelete(Node*)` when `z` has two children -/

/-- The tail of the two-children case: `rbTransplant(z, y); y->right = z->right;
y->right->parent = y; y->color = z->color`, where the cell `y` already heads
its future left subtree `L`. -/
theorem substitute_spec {g : RBTree} {ctx : List Frame} {z y : Ptr} {kz vz ky vy : String}
    {cz cy : Color} {zl ry py : Ptr} {L : T} {ra cr rl kr vr rr}
    (hroot : g.root = (plug ctx (T.nd z cz T.lf kz vz T.lf)).addr)
    (hc : OwnCtx g.mem ctx z)
    (hz : g.mem z = ⟨kz, vz, cz, zl, ra, ctxAddr ctx⟩)
    (hr : Own g.mem (T.nd ra cr rl kr vr rr) z)
    (hy : g.mem y = ⟨ky, vy, cy, L.addr, ry, py⟩)
    (hL : Own g.mem L y)
    (hnd : ((T.nd y cz L ky vy (T.nd ra cr rl kr vr rr)).addrs ++ ctxAddrs ctx).Nodup)
    (hb : ∀ a ∈ (T.nd y cz L ky vy (T.nd ra cr rl kr vr rr)).addrs ++ ctxAddrs ctx,
      a ≠ nil ∧ a < g.next)
    (hzn : z ≠ nil)
    (hzm : z ∉ (T.nd y cz L ky vy (T.nd ra cr rl kr vr rr)).addrs ++ ctxAddrs ctx)
    (hs : g.color nil = Color.B ∧ g.left nil = nil ∧ g.right nil = nil) (hal : nil < g.next) :
    ∃ g4 : RBTree,
      (((rbTransplant g z y).setRight y ((rbTransplant g z y).right z)).setParent
          (((rbTransplant g z y).setRight y ((rbTransplant g z y).right z)).right y) y).setColor y
        ((((rbTransplant g z y).setRight y ((rbTransplant g z y).right z)).setParent
          (((rbTransplant g z y).setRight y ((rbTransplant g z y).right z)).right y) y).color z) = g4 ∧
      RepZ g4 ctx (T.nd y cz L ky vy (T.nd ra cr rl kr vr rr)) ∧ g4.mem nil = g.mem nil ∧
      g4.next = g.next := by
  refine ⟨_, rfl, ?_⟩
  have hnd0 := hnd
  simp only [T.addrs_nd, List.append_assoc, List.cons_append, List.nodup_append, List.nodup_cons,
    List.mem_append, List.mem_cons, not_or, List.disjoint_cons_left, List.disjoint_cons_right,
    List.disjoint_append_left, List.disjoint_append_right] at hnd hzm
  obtain ⟨ndL, ⟨⟨yrl, yra, yrr, yc⟩, ndrl, ⟨⟨rarr, rac⟩, ndrr, ndc, drrc⟩, rarl, drlrr, drlc⟩,
    yL, dLrl, raL, dLrr, dLc⟩ := hnd
  obtain ⟨zL, zy, zrl, zra, zrr, zc⟩ := hzm
  have hyn : y ≠ nil := (hb y (by simp)).1
  have hran : ra ≠ nil := (hb ra (by simp)).1
  have hcnz : ∀ a ∈ ctxAddrs ctx, a ≠ nil := fun a ha => (hb a (by simp [ha])).1
  have hpz : g.parent z = ctxAddr ctx := by simp [parent, hz]
  obtain ⟨t1, e1, oc1, f1, n1, r1⟩ := relinkL_spec (v := y) hc ndc hcnz hzn zc hpz
  have hp1 : t1.parent z = ctxAddr ctx := by simp [parent, f1 z zc, hz]
  have key : rbTransplant g z y = t1.setParent y (ctxAddr ctx) := by
    rw [rbTransplant, e1, hp1]
  have hrz : (t1.setParent y (ctxAddr ctx)).right z = ra := by
    simp [right, setParent_mem, zy, f1 z zc, hz]
  have hry : ((t1.setParent y (ctxAddr ctx)).setRight y ra).right y = ra := by
    simp [right, setRight_mem]
  have hcz : ((((t1.setParent y (ctxAddr ctx)).setRight y ra).setParent ra y)).color z = cz := by
    simp [color, setParent_mem, setRight_mem, zy, zra, f1 z zc, hz]
  rw [key, hrz, hry, hcz]
  have fr : ∀ a, a ≠ y → a ≠ ra → a ∉ ctxAddrs ctx →
      ((((t1.setParent y (ctxAddr ctx)).setRight y ra).setParent ra y).setColor y cz).mem a = g.mem a := by
    intro a ay ara ac
    rw [setColor_mem, if_neg ay, setParent_mem, if_neg ara, setRight_mem, if_neg ay, setParent_mem,
      if_neg ay, f1 a ac]
  refine ⟨⟨?_, ⟨?_, ?_, ⟨?_, ?_, ?_⟩⟩, ?_, hnd0, ?_, ?_, ?_⟩, ?_, ?_⟩
  · simp only [setColor_root, setParent_root, setRight_root]
    exact r1 _ (T.nd y cz L ky vy (T.nd ra cr rl kr vr rr)) hroot rfl
  · rw [setColor_mem, if_pos rfl, setParent_mem, if_neg yra, setRight_mem, if_pos rfl, setParent_mem,
      if_pos rfl, f1 y yc, hy]
    rfl
  · exact own_congr L y (fun a ha => fr a (ne_of_mem_of_not_mem ha yL) (ne_of_mem_of_not_mem ha raL)
      (fun hm => dLc ha hm)) hL
  · rw [setColor_mem, if_neg (Ne.symm yra), setParent_mem, if_pos rfl, setRight_mem,
      if_neg (Ne.symm yra), setParent_mem, if_neg (Ne.symm yra), f1 ra rac, hr.1]
  · exact own_congr rl ra (fun a ha => fr a (ne_of_mem_of_not_mem ha yrl)
      (ne_of_mem_of_not_mem ha rarl) (fun hm => drlc ha hm)) hr.2.1
  · exact own_congr rr ra (fun a ha => fr a (ne_of_mem_of_not_mem ha yrr)
      (ne_of_mem_of_not_mem ha rarr) (fun hm => drrc ha hm)) hr.2.2
  · refine ownCtx_congr ctx _ (fun a ha => ?_) oc1
    rw [setColor_mem, if_neg (ne_of_mem_of_not_mem ha yc), setParent_mem,
      if_neg (ne_of_mem_of_not_mem ha rac), setRight_mem, if_neg (ne_of_mem_of_not_mem ha yc),
      setParent_mem, if_neg (ne_of_mem_of_not_mem ha yc)]
  · intro a ha
    simp only [setColor_next, setParent_next, setRight_next, n1]
    exact hb a ha
  · simp only [color, left, right] at hs ⊢
    rw [fr nil (Ne.symm hyn) (Ne.symm hran) (fun hm => hcnz _ hm rfl)]
    exact hs
  · simp only [setColor_next, setParent_next, setRight_next, n1]; exact hal
  · exact fr nil (Ne.symm hyn) (Ne.symm hran) (fun hm => hcnz _ hm rfl)
  · simp only [setColor_next, setParent_next, setRight_next, n1]

/-! ## `rbDeleteFixup` -/

theorem rbDeleteFixupLoop_succ (f : Nat) (t : RBTree) (x : Ptr) :
    rbDeleteFixupLoop (f + 1) t x =
      if x ≠ t.root ∧ t.color x = Color.B then
        if x = t.left (t.parent x) then
          deleteFixupRestL (rbDeleteFixupLoop f)
            (if t.color (t.right (t.parent x)) = Color.R then
              (leftRotate ((t.setColor (t.right (t.parent x)) Color.B).setColor
                  ((t.setColor (t.right (t.parent x)) Color.B).parent x) Color.R)
                (((t.setColor (t.right (t.parent x)) Color.B).setColor
                  ((t.setColor (t.right (t.parent x)) Color.B).parent x) Color.R).parent x))
            else t) x
            (if t.color (t.right (t.parent x)) = Color.R then
              (leftRotate ((t.setColor (t.right (t.parent x)) Color.B).setColor
                  ((t.setColor (t.right (t.parent x)) Color.B).parent x) Color.R)
                (((t.setColor (t.right (t.parent x)) Color.B).setColor
                  ((t.setColor (t.right (t.parent x)) Color.B).parent x) Color.R).parent x)).right
                ((leftRotate ((t.setColor (t.right (t.parent x)) Color.B).setColor
                  ((t.setColor (t.right (t.parent x)) Color.B).parent x) Color.R)
                (((t.setColor (t.right (t.parent x)) Color.B).setColor
                  ((t.setColor (t.right (t.parent x)) Color.B).parent x) Color.R).parent x)).parent x)
            else t.right (t.parent x))
        else
          deleteFixupRestR (rbDeleteFixupLoop f)
            (if t.color (t.left (t.parent x)) = Color.R then
              (rightRotate ((t.setColor (t.left (t.parent x)) Color.B).setColor
                  ((t.setColor (t.left (t.parent x)) Color.B).parent x) Color.R)
                (((t.setColor (t.left (t.parent x)) Color.B).setColor
                  ((t.setColor (t.left (t.parent x)) Color.B).parent x) Color.R).parent x))
            else t) x
            (if t.color (t.left (t.parent x)) = Color.R then
              (rightRotate ((t.setColor (t.left (t.parent x)) Color.B).setColor
                  ((t.setColor (t.left (t.parent x)) Color.B).parent x) Color.R)
                (((t.setColor (t.left (t.parent x)) Color.B).setColor
                  ((t.setColor (t.left (t.parent x)) Color.B).parent x) Color.R).parent x)).left
                ((rightRotate ((t.setColor (t.left (t.parent x)) Color.B).setColor
                  ((t.setColor (t.left (t.parent x)) Color.B).parent x) Color.R)
                (((t.setColor (t.left (t.parent x)) Color.B).setColor
                  ((t.setColor (t.left (t.parent x)) Color.B).parent x) Color.R).parent x)).parent x)
            else t.left (t.parent x))
      else some (t, x) := by
  rw [rbDeleteFixupLoop]
  by_cases h1 : x ≠ t.root ∧ t.color x = Color.B
  · rw [if_pos h1, if_pos h1]
    by_cases h2 : x = t.left (t.parent x)
    · rw [if_pos h2, if_pos h2]
      by_cases h3 : t.color (t.right (t.parent x)) = Color.R
      · simp only [h3, if_true]; rfl
      · simp only [h3, if_false]; rfl
    · rw [if_neg h2, if_neg h2]
      by_cases h3 : t.color (t.left (t.parent x)) = Color.R
      · simp only [h3, if_true]; rfl
      · simp only [h3, if_false]; rfl
  · rw [if_neg h1, if_neg h1]

theorem Rep.parent_root {h : RBTree} {t : T} (hr : Rep h t) (hne : t ≠ T.lf) :
    h.parent t.addr = nil := by
  cases t with
  | lf => exact absurd rfl hne
  | nd a c l k v r => simp [parent, RepZ.mem_focus hr]

/-- The parent link of `x` (possibly the sentinel) survives a step that
keeps the sentinel cell and keeps `x` below the same parent. -/
theorem parent_keep {h h' : RBTree} {ctx' : List Frame} {xt : T} {q : Ptr}
    (hz' : RepZ h' ctx' xt) (hm : h'.mem nil = h.mem nil) (hp : h.parent xt.addr = q)
    (hq : ctxAddr ctx' = q) : h'.parent xt.addr = q := by
  cases xt with
  | lf => simp only [T.addr_lf, parent] at hp ⊢; rw [hm]; exact hp
  | nd a c l k v r => simp [parent, hz'.mem_focus, hq]

theorem deleteFixupCase4L_spec {f : Nat} (ih : DelSpec f) (hf0 : 0 < f) {h : RBTree}
    {ctx1 : List Frame} {xt : T} {n : Nat} {p cp kp vp wa wl kw vw wra a kr vr b c₁}
    (hz : RepZ h (Frame.L p cp kp vp (T.nd wa Color.B wl kw vw (T.nd wra Color.R a kr vr b)) :: ctx1) xt)
    (hpx : h.parent xt.addr = p) (hx : Bal xt Color.B n) (hwl : Bal wl c₁ n)
    (ha : Bal a Color.B n) (hb : Bal b Color.B n)
    (hctx : CBal (Frame.L p cp kp vp (T.nd wa Color.B wl kw vw (T.nd wra Color.R a kr vr b)) :: ctx1)
      Color.B (n + 1)) :
    DelPost (deleteFixupCase4L (rbDeleteFixupLoop f) h xt.addr wa)
      (plug (Frame.L p cp kp vp (T.nd wa Color.B wl kw vw (T.nd wra Color.R a kr vr b)) :: ctx1) xt).entries
      h.next := by
  have hz1 := repZ_L.1 hz
  have hzw := repZ_R.2 hz1
  have hcp : h.color p = cp := by simp [color, hz1.mem_focus]
  have hrw : h.right wa = wra := by simp [right, hzw.mem_focus]
  have h1 := repZ_R.1 (repZ_setColor cp hzw)
  have h2 := repZ_setColor Color.B h1
  have h3 := repZ_R.1 (repZ_R.1 (repZ_setColor Color.B (repZ_R.2 (repZ_R.2 h2))))
  obtain ⟨h4, hm4, hn4⟩ := repZ_leftRotate h3
  have hwan : wa ≠ nil := hzw.focus_ne_nil
  have hpn : p ≠ nil := hz1.focus_ne_nil
  have hwran : wra ≠ nil := (repZ_R.2 (repZ_R.2 h2)).focus_ne_nil
  have hS : ∃ m, Bal (plug ctx1 (T.nd wa cp (T.nd p Color.B xt kp vp wl) kw vw
      (T.nd wra Color.B a kr vr b))) Color.B m := by
    cases hctx with
    | redL _ hc => exact hc.plug (Bal.red (Bal.black hx hwl) (Bal.black ha hb))
    | blackL _ hc => exact hc.plug (Bal.black (Bal.black hx hwl) (Bal.black ha hb))
  obtain ⟨m, hT⟩ := hS
  have hr4 := rep_plug.1 h4
  have hne : plug ctx1 (T.nd wa cp (T.nd p Color.B xt kp vp wl) kw vw
      (T.nd wra Color.B a kr vr b)) ≠ T.lf := plug_ne_lf _ (by simp)
  have hpost := ih _ [] _ m hf0 (fun _ => hf0) hr4 (hr4.parent_root hne) CBal.root (DelFocus.black hT)
  have hroot := hr4.root
  simp only [plug_nil] at hroot hpost
  simp only [deleteFixupCase4L, hpx, hcp, setColor_parent, setColor_right, hrw, hroot]
  obtain ⟨h', x', t', m', e1, e2, e3, e4, e5⟩ := hpost
  refine ⟨h', x', t', m', e1, e2, e3, ?_, ?_⟩
  · rw [e4]; simp [plug_entries, ctxLeft, ctxRight]
  · rw [e5, hn4]; rfl

theorem Bal.black_of_col {t : T} {c : Color} {n : Nat} (h : Bal t c n) (hc : t.col = Color.B) :
    Bal t Color.B n := by
  have := h.col_eq
  rw [hc] at this
  rw [this]; exact h

theorem deleteFixupRestL_spec {f : Nat} (ih : DelSpec f) (hf0 : 0 < f) {h : RBTree}
    {ctx1 : List Frame} {xt : T} {n : Nat} {p cp kp vp wa wl kw vw wr c₁ c₂}
    (hz : RepZ h (Frame.L p cp kp vp (T.nd wa Color.B wl kw vw wr) :: ctx1) xt)
    (hpx : h.parent xt.addr = p) (hx : Bal xt Color.B n) (hwl : Bal wl c₁ n) (hwr : Bal wr c₂ n)
    (hctx : CBal (Frame.L p cp kp vp (T.nd wa Color.B wl kw vw wr) :: ctx1) Color.B (n + 1))
    (hfl : cp = Color.B → ctx1.length < f) :
    DelPost (deleteFixupRestL (rbDeleteFixupLoop f) h xt.addr wa)
      (plug (Frame.L p cp kp vp (T.nd wa Color.B wl kw vw wr) :: ctx1) xt).entries h.next := by
  have hz1 := repZ_L.1 hz
  have hzw := repZ_R.2 hz1
  have hlw : h.left wa = wl.addr := by simp [left, hzw.mem_focus]
  have hrw : h.right wa = wr.addr := by simp [right, hzw.mem_focus]
  have hcl : h.color wl.addr = wl.col := own_color hzw.own.2.1 hz.sent.1
  have hcr : h.color wr.addr = wr.col := own_color hzw.own.2.2 hz.sent.1
  have hwan : wa ≠ nil := hzw.focus_ne_nil
  rw [deleteFixupRestL, hlw, hrw, hcl, hcr]
  by_cases hbr : wr.col = Color.B
  · by_cases hbl : wl.col = Color.B
    · -- Case 2
      rw [if_pos ⟨hbl, hbr⟩]
      simp only [setColor_parent, hpx]
      have h1 := repZ_R.1 (repZ_setColor Color.R hzw)
      have hpp : (h.setColor wa Color.R).parent p = ctxAddr ctx1 := by
        simp [parent, h1.mem_focus]
      have hw' : Bal (T.nd wa Color.R wl kw vw wr) Color.R n :=
        Bal.red (hwl.black_of_col hbl) (hwr.black_of_col hbr)
      cases hctx with
      | redL _ hc =>
        have := ih _ ctx1 _ n hf0 (fun hcol => by cases hcol) h1 hpp hc.toBlack (DelFocus.red hx hw')
        obtain ⟨h', x', t', m', e1, e2, e3, e4, e5⟩ := this
        exact ⟨h', x', t', m', e1, e2, e3, by rw [e4]; simp [plug_entries, ctxLeft, ctxRight], e5⟩
      | blackL _ hc =>
        have := ih _ ctx1 _ (n + 1) hf0 (fun _ => hfl rfl) h1 hpp hc
          (DelFocus.black (Bal.black hx hw'))
        obtain ⟨h', x', t', m', e1, e2, e3, e4, e5⟩ := this
        exact ⟨h', x', t', m', e1, e2, e3, by rw [e4]; simp [plug_entries, ctxLeft, ctxRight], e5⟩
    · -- Case 3, then Case 4
      rw [if_neg (fun hc => hbl hc.1), if_pos hbr]
      cases hwl with
      | lf => exact absurd rfl hbl
      | black _ _ => exact absurd rfl hbl
      | @red wla a kl vl b _ ha hb =>
        simp only [T.addr_nd, setColor_parent, hpx]
        have h1 := repZ_L.1 (repZ_setColor Color.B (repZ_L.2 hzw))
        have h2 := repZ_setColor Color.R h1
        obtain ⟨h3, hm3, hn3⟩ := repZ_rightRotate h2
        have h3x := repZ_L.2 (repZ_R.1 h3)
        have hwlan : wla ≠ nil := (repZ_L.2 hzw).focus_ne_nil
        have hm : ((h.setColor wla Color.B).setColor wa Color.R).mem nil = h.mem nil := by
          rw [setColor_mem_nil _ _ hwan, setColor_mem_nil _ _ hwlan]
        have hpx3 : (((h.setColor wla Color.B).setColor wa Color.R).rightRotate wa).parent xt.addr = p :=
          parent_keep h3x (hm3.trans hm) hpx rfl
        have hrp3 : (((h.setColor wla Color.B).setColor wa Color.R).rightRotate wa).right p = wla := by
          simp [right, h3x.topL]
        rw [hpx3, hrp3]
        have hctx' : CBal (Frame.L p cp kp vp (T.nd wla Color.B a kl vl
            (T.nd wa Color.R b kw vw wr)) :: ctx1) Color.B (n + 1) := by
          have hW : Bal (T.nd wla Color.B a kl vl (T.nd wa Color.R b kw vw wr)) Color.B (n + 1) :=
            Bal.black ha (Bal.red hb (hwr.black_of_col hbr))
          cases hctx with
          | redL _ hc => exact CBal.redL hW hc
          | blackL _ hc => exact CBal.blackL hW hc
        have := deleteFixupCase4L_spec ih hf0 h3x hpx3 hx ha hb (hwr.black_of_col hbr) hctx'
        obtain ⟨h', x', t', m', e1, e2, e3, e4, e5⟩ := this
        refine ⟨h', x', t', m', e1, e2, e3, ?_, ?_⟩
        · rw [e4]; simp [plug_entries, ctxLeft, ctxRight]
        · rw [e5, hn3]; rfl
  · -- Case 4
    rw [if_neg (fun hc => hbr hc.2), if_neg hbr]
    cases hwr with
    | lf => exact absurd rfl hbr
    | black _ _ => exact absurd rfl hbr
    | @red wra a kr vr b _ ha hb =>
      exact deleteFixupCase4L_spec ih hf0 hz hpx hx hwl ha hb hctx

theorem deleteFixupCase4R_spec {f : Nat} (ih : DelSpec f) (hf0 : 0 < f) {h : RBTree}
    {ctx1 : List Frame} {xt : T} {n : Nat} {p cp kp vp wa wr kw vw wla a kl vl b c₂}
    (hz : RepZ h (Frame.R p cp (T.nd wa Color.B (T.nd wla Color.R a kl vl b) kw vw wr) kp vp :: ctx1) xt)
    (hpx : h.parent xt.addr = p) (hx : Bal xt Color.B n) (hwr : Bal wr c₂ n)
    (ha : Bal a Color.B n) (hb : Bal b Color.B n)
    (hctx : CBal (Frame.R p cp (T.nd wa Color.B (T.nd wla Color.R a kl vl b) kw vw wr) kp vp :: ctx1)
      Color.B (n + 1)) :
    DelPost (deleteFixupCase4R (rbDeleteFixupLoop f) h xt.addr wa)
      (plug (Frame.R p cp (T.nd wa Color.B (T.nd wla Color.R a kl vl b) kw vw wr) kp vp :: ctx1) xt).entries
      h.next := by
  have hz1 := repZ_R.1 hz
  have hzw := repZ_L.2 hz1
  have hcp : h.color p = cp := by simp [color, hz1.mem_focus]
  have hlw : h.left wa = wla := by simp [left, hzw.mem_focus]
  have h1 := repZ_L.1 (repZ_setColor cp hzw)
  have h2 := repZ_setColor Color.B h1
  have h3 := repZ_L.1 (repZ_L.1 (repZ_setColor Color.B (repZ_L.2 (repZ_L.2 h2))))
  obtain ⟨h4, hm4, hn4⟩ := repZ_rightRotate h3
  have hS : ∃ m, Bal (plug ctx1 (T.nd wa cp (T.nd wla Color.B a kl vl b) kw vw
      (T.nd p Color.B wr kp vp xt))) Color.B m := by
    cases hctx with
    | redR _ hc => exact hc.plug (Bal.red (Bal.black ha hb) (Bal.black hwr hx))
    | blackR _ hc => exact hc.plug (Bal.black (Bal.black ha hb) (Bal.black hwr hx))
  obtain ⟨m, hT⟩ := hS
  have hr4 := rep_plug.1 h4
  have hne : plug ctx1 (T.nd wa cp (T.nd wla Color.B a kl vl b) kw vw
      (T.nd p Color.B wr kp vp xt)) ≠ T.lf := plug_ne_lf _ (by simp)
  have hpost := ih _ [] _ m hf0 (fun _ => hf0) hr4 (hr4.parent_root hne) CBal.root (DelFocus.black hT)
  have hroot := hr4.root
  simp only [plug_nil] at hroot hpost
  simp only [deleteFixupCase4R, hpx, hcp, setColor_parent, setColor_left, hlw, hroot]
  obtain ⟨h', x', t', m', e1, e2, e3, e4, e5⟩ := hpost
  refine ⟨h', x', t', m', e1, e2, e3, ?_, ?_⟩
  · rw [e4]; simp [plug_entries, ctxLeft, ctxRight]
  · rw [e5, hn4]; rfl

theorem deleteFixupRestR_spec {f : Nat} (ih : DelSpec f) (hf0 : 0 < f) {h : RBTree}
    {ctx1 : List Frame} {xt : T} {n : Nat} {p cp kp vp wa wl kw vw wr c₁ c₂}
    (hz : RepZ h (Frame.R p cp (T.nd wa Color.B wl kw vw wr) kp vp :: ctx1) xt)
    (hpx : h.parent xt.addr = p) (hx : Bal xt Color.B n) (hwl : Bal wl c₁ n) (hwr : Bal wr c₂ n)
    (hctx : CBal (Frame.R p cp (T.nd wa Color.B wl kw vw wr) kp vp :: ctx1) Color.B (n + 1))
    (hfl : cp = Color.B → ctx1.length < f) :
    DelPost (deleteFixupRestR (rbDeleteFixupLoop f) h xt.addr wa)
      (plug (Frame.R p cp (T.nd wa Color.B wl kw vw wr) kp vp :: ctx1) xt).entries h.next := by
  have hz1 := repZ_R.1 hz
  have hzw := repZ_L.2 hz1
  have hlw : h.left wa = wl.addr := by simp [left, hzw.mem_focus]
  have hrw : h.right wa = wr.addr := by simp [right, hzw.mem_focus]
  have hcl : h.color wl.addr = wl.col := own_color hzw.own.2.1 hz.sent.1
  have hcr : h.color wr.addr = wr.col := own_color hzw.own.2.2 hz.sent.1
  have hwan : wa ≠ nil := hzw.focus_ne_nil
  rw [deleteFixupRestR, hlw, hrw, hcl, hcr]
  by_cases hbl : wl.col = Color.B
  · by_cases hbr : wr.col = Color.B
    · -- Case 2
      rw [if_pos ⟨hbr, hbl⟩]
      simp only [setColor_parent, hpx]
      have h1 := repZ_L.1 (repZ_setColor Color.R hzw)
      have hpp : (h.setColor wa Color.R).parent p = ctxAddr ctx1 := by
        simp [parent, h1.mem_focus]
      have hw' : Bal (T.nd wa Color.R wl kw vw wr) Color.R n :=
        Bal.red (hwl.black_of_col hbl) (hwr.black_of_col hbr)
      cases hctx with
      | redR _ hc =>
        have := ih _ ctx1 _ n hf0 (fun hcol => by cases hcol) h1 hpp hc.toBlack (DelFocus.red hw' hx)
        obtain ⟨h', x', t', m', e1, e2, e3, e4, e5⟩ := this
        exact ⟨h', x', t', m', e1, e2, e3, by rw [e4]; simp [plug_entries, ctxLeft, ctxRight], e5⟩
      | blackR _ hc =>
        have := ih _ ctx1 _ (n + 1) hf0 (fun _ => hfl rfl) h1 hpp hc
          (DelFocus.black (Bal.black hw' hx))
        obtain ⟨h', x', t', m', e1, e2, e3, e4, e5⟩ := this
        exact ⟨h', x', t', m', e1, e2, e3, by rw [e4]; simp [plug_entries, ctxLeft, ctxRight], e5⟩
    · -- Case 3, then Case 4
      rw [if_neg (fun hc => hbr hc.1), if_pos hbl]
      cases hwr with
      | lf => exact absurd rfl hbr
      | black _ _ => exact absurd rfl hbr
      | @red wra a kr vr b _ ha hb =>
        simp only [T.addr_nd, setColor_parent, hpx]
        have h1 := repZ_R.1 (repZ_setColor Color.B (repZ_R.2 hzw))
        have h2 := repZ_setColor Color.R h1
        obtain ⟨h3, hm3, hn3⟩ := repZ_leftRotate h2
        have h3x := repZ_R.2 (repZ_L.1 h3)
        have hwran : wra ≠ nil := (repZ_R.2 hzw).focus_ne_nil
        have hm : ((h.setColor wra Color.B).setColor wa Color.R).mem nil = h.mem nil := by
          rw [setColor_mem_nil _ _ hwan, setColor_mem_nil _ _ hwran]
        have hpx3 : (((h.setColor wra Color.B).setColor wa Color.R).leftRotate wa).parent xt.addr = p :=
          parent_keep h3x (hm3.trans hm) hpx rfl
        have hlp3 : (((h.setColor wra Color.B).setColor wa Color.R).leftRotate wa).left p = wra := by
          simp [left, h3x.topR]
        rw [hpx3, hlp3]
        have hctx' : CBal (Frame.R p cp (T.nd wra Color.B (T.nd wa Color.R wl kw vw a) kr vr b)
            kp vp :: ctx1) Color.B (n + 1) := by
          have hW : Bal (T.nd wra Color.B (T.nd wa Color.R wl kw vw a) kr vr b) Color.B (n + 1) :=
            Bal.black (Bal.red (hwl.black_of_col hbl) ha) hb
          cases hctx with
          | redR _ hc => exact CBal.redR hW hc
          | blackR _ hc => exact CBal.blackR hW hc
        have := deleteFixupCase4R_spec ih hf0 h3x hpx3 hx hb (hwl.black_of_col hbl) ha hctx'
        obtain ⟨h', x', t', m', e1, e2, e3, e4, e5⟩ := this
        refine ⟨h', x', t', m', e1, e2, e3, ?_, ?_⟩
        · rw [e4]; simp [plug_entries, ctxLeft, ctxRight]
        · rw [e5, hn3]; rfl
  · -- Case 4
    rw [if_neg (fun hc => hbl hc.2), if_neg hbl]
    cases hwl with
    | lf => exact absurd rfl hbl
    | black _ _ => exact absurd rfl hbl
    | @red wla a kl vl b _ ha hb =>
      exact deleteFixupCase4R_spec ih hf0 hz hpx hx hwr ha hb hctx

theorem plug_addr_mem : ∀ (ctx : List Frame) (t : T), ctx ≠ [] → (plug ctx t).addr ∈ ctxAddrs ctx
  | [], _, h => absurd rfl h
  | Frame.L a c k v r :: ctx, t, _ => by
    cases ctx with
    | nil => simp
    | cons f ctx =>
      have := plug_addr_mem (f :: ctx) (T.nd a c t k v r) (by simp)
      simp only [plug_L, ctxAddrs_L, List.mem_cons, List.mem_append]
      exact Or.inr (Or.inr this)
  | Frame.R a c l k v :: ctx, t, _ => by
    cases ctx with
    | nil => simp
    | cons f ctx =>
      have := plug_addr_mem (f :: ctx) (T.nd a c l k v t) (by simp)
      simp only [plug_R, ctxAddrs_R, List.mem_cons, List.mem_append]
      exact Or.inr (Or.inr this)

/-- Below the root, the pointer in focus (possibly the sentinel) is not the root. -/
theorem RepZ.focus_ne_root {h : RBTree} {f : Frame} {ctx : List Frame} {xt : T}
    (hz : RepZ h (f :: ctx) xt) : xt.addr ≠ h.root := by
  have hm := plug_addr_mem (f :: ctx) xt (by simp)
  rw [← hz.root] at hm
  rcases xt.addr_nil_or_mem with e | e
  · rw [e]; exact fun e' => (hz.bound _ (List.mem_append_right _ hm)).1 e'.symm
  · intro e'
    rw [e'] at e
    exact (List.nodup_append.1 hz.nodup).2.2 e hm

/-- The pointer in focus (possibly the sentinel) is not a non-empty sibling. -/
theorem RepZ.x_ne_sibR {h : RBTree} {ctx : List Frame} {xt : T} {p cp kp vp wa cw wl kw vw wr}
    (hz : RepZ h (Frame.R p cp (T.nd wa cw wl kw vw wr) kp vp :: ctx) xt) : xt.addr ≠ wa := by
  have hwm : wa ∈ ctxAddrs (Frame.R p cp (T.nd wa cw wl kw vw wr) kp vp :: ctx) := by simp
  rcases xt.addr_nil_or_mem with e | e
  · rw [e]; exact fun e' => (hz.bound _ (List.mem_append_right _ hwm)).1 e'.symm
  · intro e'
    rw [e'] at e
    exact (List.nodup_append.1 hz.nodup).2.2 e hwm

theorem repZ_setColor_nil {h : RBTree} {ctx : List Frame} {t : T} (hz : RepZ h ctx t) :
    RepZ (h.setColor nil Color.B) ctx t := by
  obtain ⟨h1, h2, h3, h4, h5, h6, h7⟩ := hz
  have hm : ∀ a ∈ t.addrs ++ ctxAddrs ctx, (h.setColor nil Color.B).mem a = h.mem a := by
    intro a ha; rw [setColor_mem, if_neg (h5 a ha).1]
  refine ⟨h1, own_congr t _ (fun a ha => hm a (by simp [ha])) h2,
    ownCtx_congr ctx _ (fun a ha => hm a (by simp [ha])) h3, h4, h5, ?_, h7⟩
  simp only [color, left, right] at h6 ⊢
  rw [setColor_mem, if_pos rfl]
  exact ⟨rfl, h6.2.1, h6.2.2⟩

/-- Leaving the loop of `rbDeleteFixup`: at the root, or at a red node. -/
theorem delPost_exit {h : RBTree} {ctx : List Frame} {xt : T} {n : Nat}
    (hz : RepZ h ctx xt) (hctx : CBal ctx Color.B (n + 1)) (hfoc : DelFocus xt n)
    (hex : ctx = [] ∨ xt.col = Color.R) :
    DelPost (some (h, xt.addr)) (plug ctx xt).entries h.next := by
  cases hfoc with
  | @red a l k v r c₁ c₂ _ hl hr =>
    obtain ⟨m, hm⟩ := hctx.plug (Bal.black hl hr)
    exact ⟨h, a, _, m, rfl, rep_plug.1 (repZ_setColor Color.B hz), hm,
      by simp [plug_entries], rfl⟩
  | black hb =>
    rcases hex with rfl | hc
    · cases hb with
      | lf => exact ⟨h, nil, T.lf, 0, rfl, repZ_setColor_nil hz, Bal.lf, rfl, rfl⟩
      | @black a l k v r c₁ c₂ n' hl hr =>
        exact ⟨h, a, _, _, rfl, repZ_setColor Color.B hz, Bal.black hl hr, rfl, rfl⟩
    · rw [hb.col_eq] at hc; cases hc

/-- The loop of `rbDeleteFixup` on the zipper: with enough fuel it returns,
and after the final `x->color = 'B'` the state represents a balanced tree
with the same in-order entries. -/
theorem deleteFixupLoop_spec : ∀ f : Nat, DelSpec f := by
  intro f
  induction f with
  | zero => intro h ctx xt n hf0; exact absurd hf0 (Nat.lt_irrefl 0)
  | succ f ih =>
    intro h ctx xt n _ hfl hz hpx hctx hfoc
    rw [rbDeleteFixupLoop_succ]
    cases ctx with
    | nil =>
      have hroot : h.root = xt.addr := hz.root
      rw [if_neg (fun hc => hc.1 hroot.symm)]
      exact delPost_exit hz hctx hfoc (Or.inl rfl)
    | cons F ctx1 =>
      have hcol : h.color xt.addr = xt.col := own_color hz.own hz.sent.1
      cases hfoc with
      | @red a l k v r c₁ c₂ _ hl hr =>
        rw [if_neg (fun hc => by rw [hcol] at hc; cases hc.2)]
        exact delPost_exit hz hctx (DelFocus.red hl hr) (Or.inr rfl)
      | black hb =>
        have hlen := hfl hb.col_eq
        simp only [List.length_cons] at hlen
        have hf0 : 0 < f := by omega
        rw [if_pos ⟨hz.focus_ne_root, hcol.trans hb.col_eq⟩, hpx]
        cases F with
        | L p cp kp vp w =>
          have hlp : h.left p = xt.addr := by simp [left, hz.topL]
          have hrp : h.right p = w.addr := by simp [right, hz.topL]
          simp only [ctxAddr_L] at hpx ⊢
          rw [hlp, if_pos rfl, hrp]
          have hz1 := repZ_L.1 hz
          have hzw := repZ_R.2 hz1
          have hcw : h.color w.addr = w.col := own_color hzw.own hz.sent.1
          rw [hcw]
          cases hctx with
          | redL hw hc =>
            cases hw with
            | @black wa wl kw vw wr c₁ c₂ _ hwl hwr =>
              simp only [T.col, reduceCtorEq, if_false, T.addr_nd]
              exact deleteFixupRestL_spec ih hf0 hz hpx hb hwl hwr (CBal.redL (Bal.black hwl hwr) hc)
                (fun hc' => by cases hc')
          | blackL hw hc =>
            cases hw with
            | @black wa wl kw vw wr c₁ c₂ _ hwl hwr =>
              simp only [T.col, reduceCtorEq, if_false, T.addr_nd]
              exact deleteFixupRestL_spec ih hf0 hz hpx hb hwl hwr (CBal.blackL (Bal.black hwl hwr) hc)
                (fun _ => by omega)
            | @red wa wl kw vw wr _ hwl hwr =>
              simp only [T.col, if_true, T.addr_nd, setColor_parent, hpx]
              have h1 := repZ_setColor Color.R (repZ_R.1 (repZ_setColor Color.B hzw))
              obtain ⟨h3, hm3, hn3⟩ := repZ_leftRotate h1
              have h3x := repZ_L.2 (repZ_L.2 h3)
              have hwan : wa ≠ nil := hzw.focus_ne_nil
              have hpn : p ≠ nil := hz1.focus_ne_nil
              have hm : ((h.setColor wa Color.B).setColor p Color.R).mem nil = h.mem nil := by
                rw [setColor_mem_nil _ _ hpn, setColor_mem_nil _ _ hwan]
              have hpx3 : (((h.setColor wa Color.B).setColor p Color.R).leftRotate p).parent xt.addr = p :=
                parent_keep h3x (hm3.trans hm) hpx rfl
              rw [hpx3]
              cases hwl with
              | @black wla a kl vl b c₁ c₂ _ ha hb' =>
                have hrp3 : (((h.setColor wa Color.B).setColor p Color.R).leftRotate p).right p = wla := by
                  simp [right, h3x.topL]
                rw [hrp3]
                have := deleteFixupRestL_spec ih hf0 h3x hpx3 hb ha hb'
                  (CBal.redL (Bal.black ha hb') (CBal.blackL hwr hc)) (fun hc' => by cases hc')
                obtain ⟨h', x', t', m', e1, e2, e3, e4, e5⟩ := this
                refine ⟨h', x', t', m', e1, e2, e3, ?_, ?_⟩
                · rw [e4]; simp [plug_entries, ctxLeft, ctxRight]
                · rw [e5, hn3]; rfl
        | R p cp w kp vp =>
          have hlp : h.left p = w.addr := by simp [left, hz.topR]
          simp only [ctxAddr_R] at hpx ⊢
          rw [hlp]
          have hz1 := repZ_R.1 hz
          have hzw := repZ_L.2 hz1
          have hcw : h.color w.addr = w.col := own_color hzw.own hz.sent.1
          cases hctx with
          | redR hw hc =>
            cases hw with
            | @black wa wl kw vw wr c₁ c₂ _ hwl hwr =>
              rw [if_neg (show xt.addr ≠ (T.nd wa Color.B wl kw vw wr).addr from hz.x_ne_sibR), hcw]
              simp only [T.col, reduceCtorEq, if_false, T.addr_nd]
              exact deleteFixupRestR_spec ih hf0 hz hpx hb hwl hwr (CBal.redR (Bal.black hwl hwr) hc)
                (fun hc' => by cases hc')
          | blackR hw hc =>
            cases hw with
            | @black wa wl kw vw wr c₁ c₂ _ hwl hwr =>
              rw [if_neg (show xt.addr ≠ (T.nd wa Color.B wl kw vw wr).addr from hz.x_ne_sibR), hcw]
              simp only [T.col, reduceCtorEq, if_false, T.addr_nd]
              exact deleteFixupRestR_spec ih hf0 hz hpx hb hwl hwr (CBal.blackR (Bal.black hwl hwr) hc)
                (fun _ => by omega)
            | @red wa wl kw vw wr _ hwl hwr =>
              rw [if_neg (show xt.addr ≠ (T.nd wa Color.R wl kw vw wr).addr from hz.x_ne_sibR), hcw]
              simp only [T.col, if_true, T.addr_nd, setColor_parent, hpx]
              have h1 := repZ_setColor Color.R (repZ_L.1 (repZ_setColor Color.B hzw))
              obtain ⟨h3, hm3, hn3⟩ := repZ_rightRotate h1
              have h3x := repZ_R.2 (repZ_R.2 h3)
              have hwan : wa ≠ nil := hzw.focus_ne_nil
              have hpn : p ≠ nil := hz1.focus_ne_nil
              have hm : ((h.setColor wa Color.B).setColor p Color.R).mem nil = h.mem nil := by
                rw [setColor_mem_nil _ _ hpn, setColor_mem_nil _ _ hwan]
              have hpx3 : (((h.setColor wa Color.B).setColor p Color.R).rightRotate p).parent xt.addr = p :=
                parent_keep h3x (hm3.trans hm) hpx rfl
              rw [hpx3]
              cases hwr with
              | @black wra a kr vr b c₁ c₂ _ ha hb' =>
                have hlp3 : (((h.setColor wa Color.B).setColor p Color.R).rightRotate p).left p = wra := by
                  simp [left, h3x.topR]
                rw [hlp3]
                have := deleteFixupRestR_spec ih hf0 h3x hpx3 hb ha hb'
                  (CBal.redR (Bal.black ha hb') (CBal.blackR hwl hc)) (fun hc' => by cases hc')
                obtain ⟨h', x', t', m', e1, e2, e3, e4, e5⟩ := this
                refine ⟨h', x', t', m', e1, e2, e3, ?_, ?_⟩
                · rw [e4]; simp [plug_entries, ctxLeft, ctxRight]
                · rw [e5, hn3]; rfl

/-! ## Helpers for `rbDelete(Node*)` -/

theorem ctxLeft_append : ∀ (c1 c2 : List Frame), ctxLeft (c1 ++ c2) = ctxLeft c2 ++ ctxLeft c1
  | [], c2 => by simp [ctxLeft]
  | Frame.L _ _ _ _ _ :: c1, c2 => by simp [ctxLeft, ctxLeft_append c1 c2]
  | Frame.R _ _ _ _ _ :: c1, c2 => by simp [ctxLeft, ctxLeft_append c1 c2]

theorem ctxRight_append : ∀ (c1 c2 : List Frame), ctxRight (c1 ++ c2) = ctxRight c1 ++ ctxRight c2
  | [], c2 => by simp [ctxRight]
  | Frame.L _ _ _ _ _ :: c1, c2 => by simp [ctxRight, ctxRight_append c1 c2]
  | Frame.R _ _ _ _ _ :: c1, c2 => by simp [ctxRight, ctxRight_append c1 c2]

theorem ctxAddr_append {f : Frame} {c1 c2 : List Frame} :
    ctxAddr (f :: c1 ++ c2) = ctxAddr (f :: c1) := by
  cases f <;> rfl

/-- The maximum of a non-empty tree, as a zipper position: the path to it
only goes right, and the node has no right child. -/
theorem max_decomp : ∀ (l : T), l ≠ T.lf →
    ∃ path y cy yl ky vy, l = plug path (T.nd y cy yl ky vy T.lf) ∧ ctxRight path = []
  | T.lf, h => absurd rfl h
  | T.nd a c ll k v T.lf, _ => ⟨[], a, c, ll, k, v, rfl, rfl⟩
  | T.nd a c ll k v (T.nd a' c' l' k' v' r'), _ => by
    obtain ⟨path, y, cy, yl, ky, vy, e, hr⟩ := max_decomp (T.nd a' c' l' k' v' r') (by simp)
    refine ⟨path ++ [Frame.R a c ll k v], y, cy, yl, ky, vy, ?_, ?_⟩
    · rw [plug_append, ← e]; rfl
    · rw [ctxRight_append, hr]; rfl

theorem addrs_plug_perm : ∀ (c1 ctx : List Frame) (t : T),
    (t.addrs ++ ctxAddrs (c1 ++ ctx)).Perm ((plug c1 t).addrs ++ ctxAddrs ctx)
  | [], _, _ => List.Perm.refl _
  | Frame.L a c k v r :: c1, ctx, t => by
    refine List.Perm.trans ?_ (addrs_plug_perm c1 ctx (T.nd a c t k v r))
    simp only [List.perm_iff_count, List.count_cons, List.count_append, T.addrs_nd, ctxAddrs_L,
      List.cons_append]
    intro x; omega
  | Frame.R a c l k v :: c1, ctx, t => by
    refine List.Perm.trans ?_ (addrs_plug_perm c1 ctx (T.nd a c l k v t))
    simp only [List.perm_iff_count, List.count_cons, List.count_append, T.addrs_nd, ctxAddrs_R,
      List.cons_append]
    intro x; omega

/-- Balance of a zipper does not depend on the address, key and value of a frame. -/
theorem CBal.swapL {z y : Ptr} {cz : Color} {kz vz ky vy : String} {r : T} {ctx : List Frame} :
    ∀ {path : List Frame} {c : Color} {n : Nat},
    CBal (path ++ Frame.L z cz kz vz r :: ctx) c n → CBal (path ++ Frame.L y cz ky vy r :: ctx) c n
  | [], _, _, h => by
    cases h with
    | redL hr hc => exact CBal.redL hr hc
    | blackL hr hc => exact CBal.blackL hr hc
  | Frame.L _ _ _ _ _ :: path, _, _, h => by
    cases h with
    | redL hr hc => exact CBal.redL hr (CBal.swapL hc)
    | blackL hr hc => exact CBal.blackL hr (CBal.swapL hc)
  | Frame.R _ _ _ _ _ :: path, _, _, h => by
    cases h with
    | redR hl hc => exact CBal.redR hl (CBal.swapL hc)
    | blackR hl hc => exact CBal.blackR hl (CBal.swapL hc)

theorem plug_addr_ne_nil {h : RBTree} {ctx : List Frame} {t : T} (hz : RepZ h ctx t)
    (hne : ctx ≠ [] ∨ t ≠ T.lf) : (plug ctx t).addr ≠ nil := by
  have hr := rep_plug.1 hz
  have : plug ctx t ≠ T.lf := by
    rcases hne with h1 | h1
    · cases ctx with
      | nil => exact absurd rfl h1
      | cons f ctx =>
        cases f with
        | L a c k v r => exact plug_ne_lf (t := T.nd a c t k v r) ctx (by simp)
        | R a c l k v => exact plug_ne_lf (t := T.nd a c l k v t) ctx (by simp)
    · exact plug_ne_lf _ h1
  cases hp : plug ctx t with
  | lf => exact absurd hp this
  | nd a c l k v r =>
    rw [hp] at hr
    exact RepZ.focus_ne_nil hr

/-- `rbDeleteFixup`: the loop with fuel `next`, then `x->color = 'B'`. -/
theorem rbDeleteFixup_spec {h : RBTree} {ctx : List Frame} {xt : T} {n : Nat}
    (hz : RepZ h ctx xt) (hpx : h.parent xt.addr = ctxAddr ctx)
    (hctx : CBal ctx Color.B (n + 1)) (hfoc : DelFocus xt n) :
    ∃ h' t' m, rbDeleteFixup h xt.addr = some h' ∧ Rep h' t' ∧ Bal t' Color.B m ∧
      t'.entries = (plug ctx xt).entries ∧ h'.next = h.next := by
  have hfu := RepZ.fuel hz
  obtain ⟨h', x', t', m, e1, e2, e3, e4, e5⟩ :=
    deleteFixupLoop_spec h.next h ctx xt n hz.alloc (fun _ => by omega) hz hpx hctx hfoc
  exact ⟨_, t', m, by rw [rbDeleteFixup, e1]; rfl, e2, e3, e4, by simpa using e5⟩

/-! ## `rbDelete(Node*)` -/

theorem delFocus_of_bal0 {r : T} {c : Color} (h : Bal r c 0) : DelFocus r 0 := by
  cases h with
  | lf => exact DelFocus.black Bal.lf
  | red hl hr => exact DelFocus.red hl hr

/-- `z` has no left child: its right subtree takes its place. -/
theorem rbDeleteNode_caseA {h : RBTree} {ctx : List Frame} {z c k v r c' m}
    (hz : RepZ h ctx (T.nd z c T.lf k v r)) (hb : Bal (T.nd z c T.lf k v r) c' m)
    (hctx : CBal ctx c' m) :
    ∃ h' t' m', rbDeleteNode h z = some h' ∧ Rep h' t' ∧ Bal t' Color.B m' ∧
      t'.entries = ctxLeft ctx ++ r.entries ++ ctxRight ctx ∧ h'.next = h.next := by
  have hlz : h.left z = nil := by simp [left, hz.mem_focus]
  have hrz : h.right z = r.addr := by simp [right, hz.mem_focus]
  have hcz : h.color z = c := by simp [color, hz.mem_focus]
  obtain ⟨hz1, hp1, -, hn1⟩ := repZ_transplant (s := r) hz (Or.inr rfl)
  simp only [rbDeleteNode, hlz, if_true, hrz, hcz]
  cases hb with
  | red hl hr =>
    simp only [reduceCtorEq, if_false]
    obtain ⟨m', hm'⟩ := hctx.toBlack.plug hr
    exact ⟨_, _, m', rfl, rep_plug.1 hz1, hm', plug_entries _ _, hn1⟩
  | black hl hr =>
    simp only [if_true]
    cases hl
    obtain ⟨h', t', m', e1, e2, e3, e4, e5⟩ := rbDeleteFixup_spec hz1 hp1 hctx (delFocus_of_bal0 hr)
    exact ⟨h', t', m', e1, e2, e3, by rw [e4, plug_entries], by rw [e5, hn1]⟩

/-- `z` has a left child and no right child: its left subtree takes its place. -/
theorem rbDeleteNode_caseB {h : RBTree} {ctx : List Frame} {z c k v la cl ll kl vl lr c' m}
    (hz : RepZ h ctx (T.nd z c (T.nd la cl ll kl vl lr) k v T.lf))
    (hb : Bal (T.nd z c (T.nd la cl ll kl vl lr) k v T.lf) c' m) (hctx : CBal ctx c' m) :
    ∃ h' t' m', rbDeleteNode h z = some h' ∧ Rep h' t' ∧ Bal t' Color.B m' ∧
      t'.entries = ctxLeft ctx ++ (T.nd la cl ll kl vl lr).entries ++ ctxRight ctx ∧
      h'.next = h.next := by
  have hlz : h.left z = la := by simp [left, hz.mem_focus]
  have hrz : h.right z = nil := by simp [right, hz.mem_focus]
  have hcz : h.color z = c := by simp [color, hz.mem_focus]
  have hla : la ≠ nil := (repZ_L.2 hz).focus_ne_nil
  obtain ⟨hz1, hp1, -, hn1⟩ := repZ_transplant (s := T.nd la cl ll kl vl lr) hz (Or.inl rfl)
  simp only [T.addr_nd] at hp1 hn1
  simp only [rbDeleteNode, hlz, hla, if_false, hrz, if_true, hcz]
  cases hb with
  | red hl hr =>
    simp only [reduceCtorEq, if_false]
    obtain ⟨m', hm'⟩ := hctx.toBlack.plug hl
    exact ⟨_, _, m', rfl, rep_plug.1 hz1, hm', plug_entries _ _, hn1⟩
  | black hl hr =>
    simp only [if_true]
    cases hr
    obtain ⟨h', t', m', e1, e2, e3, e4, e5⟩ := rbDeleteFixup_spec hz1 hp1 hctx (delFocus_of_bal0 hl)
    exact ⟨h', t', m', e1, e2, e3, by rw [e4, plug_entries], e5.trans hn1⟩

/-- The two-children case of `rbDelete(Node*)`, once the maximum `y` of the
left subtree is known. -/
theorem rbDeleteNode_two {h : RBTree} {z y : Ptr} (hl : h.left z ≠ nil) (hr : h.right z ≠ nil)
    (hy : rbTreeMaximum h h.next (h.left z) = some y) (g : RBTree)
    (hg : (if h.parent y = z then h.setParent (h.left y) y
      else ((rbTransplant h y (h.left y)).setLeft y ((rbTransplant h y (h.left y)).left z)).setParent
        (((rbTransplant h y (h.left y)).setLeft y ((rbTransplant h y (h.left y)).left z)).left y) y) = g) :
    rbDeleteNode h z =
      if h.color y = Color.B then
        rbDeleteFixup ((((rbTransplant g z y).setRight y ((rbTransplant g z y).right z)).setParent
          (((rbTransplant g z y).setRight y ((rbTransplant g z y).right z)).right y) y).setColor y
        ((((rbTransplant g z y).setRight y ((rbTransplant g z y).right z)).setParent
          (((rbTransplant g z y).setRight y ((rbTransplant g z y).right z)).right y) y).color z))
          (h.left y)
      else
        some ((((rbTransplant g z y).setRight y ((rbTransplant g z y).right z)).setParent
          (((rbTransplant g z y).setRight y ((rbTransplant g z y).right z)).right y) y).setColor y
        ((((rbTransplant g z y).setRight y ((rbTransplant g z y).right z)).setParent
          (((rbTransplant g z y).setRight y ((rbTransplant g z y).right z)).right y) y).color z)) := by
  subst hg
  rw [rbDeleteNode, if_neg hl, if_neg hr, hy, Option.some_bind]

theorem T.addr_not_mem_of_disjoint {t : T} {l : List Ptr} (hn : ∀ a ∈ l, a ≠ nil)
    (hd : t.addrs.Disjoint l) : t.addr ∉ l := by
  rcases t.addr_nil_or_mem with e | e
  · rw [e]; exact fun hm => hn _ hm rfl
  · exact fun hm => hd e hm

/-- `z` has two children and the maximum of its left subtree is its left child. -/
theorem rbDeleteNode_caseC1 {h : RBTree} {ctx : List Frame}
    {z cz kz vz y cy yl ky vy ra cr rl kr vr rr c' m}
    (hz : RepZ h ctx (T.nd z cz (T.nd y cy yl ky vy T.lf) kz vz (T.nd ra cr rl kr vr rr)))
    (hb : Bal (T.nd z cz (T.nd y cy yl ky vy T.lf) kz vz (T.nd ra cr rl kr vr rr)) c' m)
    (hctx : CBal ctx c' m) :
    ∃ h' t' m', rbDeleteNode h z = some h' ∧ Rep h' t' ∧ Bal t' Color.B m' ∧
      t'.entries = ctxLeft ctx ++ ((T.nd y cy yl ky vy T.lf).entries ++
        (T.nd ra cr rl kr vr rr).entries) ++ ctxRight ctx ∧
      h'.next = h.next := by
  have hzy := repZ_L.2 hz
  have hzr := repZ_R.2 hz
  have hlz : h.left z = y := by simp [left, hz.mem_focus]
  have hrz : h.right z = ra := by simp [right, hz.mem_focus]
  have hyn : y ≠ nil := hzy.focus_ne_nil
  have hran : ra ≠ nil := hzr.focus_ne_nil
  have hzn : z ≠ nil := hz.focus_ne_nil
  have hpy : h.parent y = z := by simp [parent, hzy.mem_focus]
  have hly : h.left y = yl.addr := by simp [left, hzy.mem_focus]
  have hcy : h.color y = cy := by simp [color, hzy.mem_focus]
  have hfu := RepZ.fuel hz
  have hmax : rbTreeMaximum h h.next (h.left z) = some y := by
    rw [hlz, rbTreeMaximum_spec T.lf y cy yl ky vy z h.next hzy.own
      (fun b hb => (hzy.bound b (List.mem_append_left _ hb)).1)
      (by have := (T.nd y cy yl ky vy T.lf).height_le_size; simp only [T.size] at hfu this; omega)]
    simp
  have hnd := hz.nodup
  simp only [T.addrs_nd, T.addrs_lf, List.append_assoc, List.cons_append, List.nodup_append,
    List.nodup_cons, List.mem_append, List.mem_cons, not_or, List.disjoint_cons_left,
    List.disjoint_cons_right, List.disjoint_append_left, List.disjoint_append_right,
    List.nil_append, List.append_nil] at hnd
  obtain ⟨ndyl, ⟨⟨yz, yrl, yra, yrr, yc⟩, ⟨zrl, zra, zrr, zc⟩, ndrl, ⟨⟨rarr, rac⟩, ndrr, ndc, drrc⟩,
    rarl, drlrr, drlc⟩, yyl, zyl, dylrl, rayl, dylrr, dylc⟩ := hnd
  have hbd := hz.bound
  have hcnz : ∀ a ∈ ctxAddrs ctx, a ≠ nil := fun a ha => (hbd a (List.mem_append_right _ ha)).1
  have hrlnz : ∀ a ∈ rl.addrs, a ≠ nil := fun a ha => (hbd a (by simp [ha])).1
  have hrrnz : ∀ a ∈ rr.addrs, a ≠ nil := fun a ha => (hbd a (by simp [ha])).1
  have xz : z ≠ yl.addr := T.addr_ne_of_not_mem hzn zyl
  have xy : y ≠ yl.addr := T.addr_ne_of_not_mem hyn yyl
  have xra : ra ≠ yl.addr := T.addr_ne_of_not_mem hran rayl
  have xrl : yl.addr ∉ rl.addrs := T.addr_not_mem_of_disjoint hrlnz dylrl
  have xrr : yl.addr ∉ rr.addrs := T.addr_not_mem_of_disjoint hrrnz dylrr
  have xc : yl.addr ∉ ctxAddrs ctx := T.addr_not_mem_of_disjoint hcnz dylc
  have fr : ∀ a, a ≠ yl.addr → (h.setParent yl.addr y).mem a = h.mem a := by
    intro a ha; rw [setParent_mem, if_neg ha]
  have hs' : (h.setParent yl.addr y).color nil = Color.B ∧ (h.setParent yl.addr y).left nil = nil ∧
      (h.setParent yl.addr y).right nil = nil := by
    have := hz.sent
    simp only [color, left, right, setParent_mem] at this ⊢
    split
    · rename_i e; rw [← e]; exact this
    · exact this
  obtain ⟨g4, e4, hg4, hm4, hn4⟩ := @substitute_spec (h.setParent yl.addr y) ctx z y kz vz ky vy cz cy y
    nil z yl ra cr rl kr vr rr
    (by rw [setParent_root, hz.root]; exact plug_addr_congr ctx rfl)
    (ownCtx_congr ctx _ (fun a ha => fr a (fun e => xc (e ▸ ha))) hz.ownc)
    (by rw [fr z xz, hz.mem_focus]; rfl)
    (own_congr _ _ (fun a ha => fr a (by
      simp only [T.addrs_nd, List.mem_append, List.mem_cons] at ha
      rcases ha with ha | rfl | ha
      · exact fun e => xrl (e ▸ ha)
      · exact xra
      · exact fun e => xrr (e ▸ ha))) hz.own.2.2)
    (by rw [fr y xy, hzy.mem_focus]; rfl)
    (own_setParent_root y hzy.own.2.1 ndyl)
    (by
      simp only [T.addrs_nd, List.append_assoc, List.cons_append, List.nodup_append,
        List.nodup_cons, List.mem_append, List.mem_cons, not_or, List.disjoint_cons_left,
        List.disjoint_cons_right, List.disjoint_append_left, List.disjoint_append_right]
      exact ⟨ndyl, ⟨⟨yrl, yra, yrr, yc⟩, ndrl, ⟨⟨rarr, rac⟩, ndrr, ndc, drrc⟩, rarl, drlrr, drlc⟩,
        yyl, dylrl, rayl, dylrr, dylc⟩)
    (by
      intro a ha
      rw [setParent_next]
      refine hbd a ?_
      simp only [T.addrs_nd, T.addrs_lf, List.mem_append, List.mem_cons] at ha ⊢
      tauto)
    hzn
    (by
      simp only [T.addrs_nd, List.mem_append, List.mem_cons, not_or]
      exact ⟨⟨zyl, Ne.symm yz, zrl, zra, zrr⟩, zc⟩)
    hs' (by rw [setParent_next]; exact hz.alloc)
  have hg4x := repZ_L.2 hg4
  have hpx : g4.parent yl.addr = ctxAddr (Frame.L y cz ky vy (T.nd ra cr rl kr vr rr) :: ctx) :=
    parent_keep hg4x hm4 (by simp [parent, setParent_mem]) rfl
  rw [rbDeleteNode_two (by rw [hlz]; exact hyn) (by rw [hrz]; exact hran) hmax
    (h.setParent yl.addr y) (by rw [if_pos hpy, hly]), e4, hcy, hly]
  have hn4' : g4.next = h.next := by rw [hn4, setParent_next]
  cases hb with
  | red hl hr =>
    cases hl with
    | black hyl hlf =>
      cases hlf
      rw [if_pos rfl]
      obtain ⟨h', t', m', e1, e2, e3, e5, e6⟩ := rbDeleteFixup_spec hg4x hpx
        (CBal.redL hr hctx) (delFocus_of_bal0 hyl)
      refine ⟨h', t', m', e1, e2, e3, ?_, e6.trans hn4'⟩
      rw [e5]; simp [plug_entries, ctxLeft, ctxRight]
  | black hl hr =>
    cases hl with
    | black hyl hlf =>
      cases hlf
      rw [if_pos rfl]
      obtain ⟨h', t', m', e1, e2, e3, e5, e6⟩ := rbDeleteFixup_spec hg4x hpx
        (CBal.blackL hr hctx) (delFocus_of_bal0 hyl)
      refine ⟨h', t', m', e1, e2, e3, ?_, e6.trans hn4'⟩
      rw [e5]; simp [plug_entries, ctxLeft, ctxRight]
    | red hyl hlf =>
      rw [if_neg (by simp)]
      obtain ⟨m', hm'⟩ := hctx.plug (Bal.black hyl hr)
      refine ⟨g4, _, m', rfl, rep_plug.1 hg4, hm', ?_, hn4'⟩
      simp [plug_entries]

theorem ctxAddrs_append : ∀ (c1 c2 : List Frame), ctxAddrs (c1 ++ c2) = ctxAddrs c1 ++ ctxAddrs c2
  | [], c2 => List.nil_append (ctxAddrs c2) ▸ rfl
  | Frame.L _ _ _ _ _ :: c1, c2 => by simp [ctxAddrs_append c1 c2]
  | Frame.R _ _ _ _ _ :: c1, c2 => by simp [ctxAddrs_append c1 c2]

theorem rbTreeMaximum_last {h : RBTree} {l : T} {q : Ptr} {fuel : Nat} (hne : l ≠ T.lf)
    (hown : Own h.mem l q) (hbd : ∀ b ∈ l.addrs, b ≠ nil) (hf : l.height < fuel) :
    rbTreeMaximum h fuel l.addr = some (lastAddr l.entries) := by
  cases l with
  | lf => exact absurd rfl hne
  | nd la cl ll kl vl lr => exact rbTreeMaximum_spec lr la cl ll kl vl q fuel hown hbd hf

theorem T.addr_ne_nil {t : T} (hne : t ≠ T.lf) (hbd : ∀ b ∈ t.addrs, b ≠ nil) : t.addr ≠ nil := by
  cases t with
  | lf => exact absurd rfl hne
  | nd a c l k v r => exact hbd a (by simp)

/-- `z` has two children and the maximum `y` of its left subtree is not its
left child: `y` is unlinked first, then takes the place of `z`. -/
theorem rbDeleteNode_caseC2 {h : RBTree} {ctx path : List Frame}
    {z cz kz vz y cy yl ky vy ra cr rl kr vr rr c' m} (hpath : path ≠ [])
    (hcr : ctxRight path = [])
    (hz : RepZ h ctx (T.nd z cz (plug path (T.nd y cy yl ky vy T.lf)) kz vz (T.nd ra cr rl kr vr rr)))
    (hbY : Bal (T.nd y cy yl ky vy T.lf) c' m)
    (hctx : CBal (path ++ Frame.L z cz kz vz (T.nd ra cr rl kr vr rr) :: ctx) c' m) :
    ∃ h' t' m', rbDeleteNode h z = some h' ∧ Rep h' t' ∧ Bal t' Color.B m' ∧
      t'.entries = ctxLeft ctx ++ ((plug path (T.nd y cy yl ky vy T.lf)).entries ++
        (T.nd ra cr rl kr vr rr).entries) ++ ctxRight ctx ∧
      h'.next = h.next := by
  have hzl := repZ_L.2 hz
  have hzY := (repZ_plug path _).2 hzl
  have hzr := repZ_R.2 hz
  have hzn : z ≠ nil := hz.focus_ne_nil
  have hyn : y ≠ nil := hzY.focus_ne_nil
  have hran : ra ≠ nil := hzr.focus_ne_nil
  have hlz : h.left z = (plug path (T.nd y cy yl ky vy T.lf)).addr := by simp [left, hz.mem_focus]
  have hrz : h.right z = ra := by simp [right, hz.mem_focus]
  have hly : h.left y = yl.addr := by simp [left, hzY.mem_focus]
  have hcy : h.color y = cy := by simp [color, hzY.mem_focus]
  have hpy : h.parent y = ctxAddr (path ++ Frame.L z cz kz vz (T.nd ra cr rl kr vr rr) :: ctx) := by
    simp [parent, hzY.mem_focus]
  have hlne : plug path (T.nd y cy yl ky vy T.lf) ≠ T.lf := plug_ne_lf _ (by simp)
  have hfu := RepZ.fuel hzl
  -- the maximum
  have hmax : rbTreeMaximum h h.next (h.left z) = some y := by
    have hle : (plug path (T.nd y cy yl ky vy T.lf)).entries =
        (ctxLeft path ++ yl.entries) ++ [(y, ky, vy)] := by
      rw [plug_entries, hcr]; simp
    have hhs := (plug path (T.nd y cy yl ky vy T.lf)).height_le_size
    rw [hlz, rbTreeMaximum_last hlne hzl.own
      (fun b hb => (hzl.bound b (List.mem_append_left _ hb)).1) (by omega), hle,
      lastAddr_append_singleton]
  -- y's parent is not z
  have hpyz : h.parent y ≠ z := by
    rw [hpy]
    have hnd := hzY.nodup
    rw [ctxAddrs_append] at hnd
    cases path with
    | nil => exact absurd rfl hpath
    | cons F path' =>
      have hm : ctxAddr (F :: path' ++ Frame.L z cz kz vz (T.nd ra cr rl kr vr rr) :: ctx) ∈
          ctxAddrs (F :: path') := by
        rw [ctxAddr_append]; exact ctxAddr_mem_ctxAddrs (by simp)
      intro e
      rw [e] at hm
      simp only [ctxAddrs_L, List.nodup_append, List.disjoint_append_right,
        List.disjoint_cons_right, List.mem_append, List.mem_cons, not_or] at hnd
      exact hnd.2.1.2.2.1 hm
  -- step 1: unlink y
  obtain ⟨hz1, hp1, f1, hn1⟩ := repZ_transplant (s := yl) hzY (Or.inl rfl)
  have hz1' := repZ_L.1 ((repZ_plug path _).1 hz1)
  have hyC : y ∉ ctxAddrs (path ++ Frame.L z cz kz vz (T.nd ra cr rl kr vr rr) :: ctx) := by
    have hnd := hzY.nodup
    simp only [T.addrs_nd, T.addrs_lf, List.append_assoc, List.cons_append, List.nil_append,
      List.nodup_append, List.nodup_cons, List.disjoint_cons_left] at hnd
    exact hnd.2.1.1
  have hyyl : y ∉ yl.addrs := by
    have hnd := hzY.nodup
    simp only [T.addrs_nd, T.addrs_lf, List.append_assoc, List.cons_append, List.nil_append,
      List.nodup_append, List.nodup_cons, List.disjoint_cons_right] at hnd
    exact hnd.2.2.1
  have hyN : y ∉ (T.nd z cz (plug path yl) kz vz (T.nd ra cr rl kr vr rr)).addrs ++ ctxAddrs ctx := by
    intro hm
    have hp := addrs_plug_perm path (Frame.L z cz kz vz (T.nd ra cr rl kr vr rr) :: ctx) yl
    have : y ∈ yl.addrs ++ ctxAddrs (path ++ Frame.L z cz kz vz (T.nd ra cr rl kr vr rr) :: ctx) := by
      rw [hp.mem_iff]
      simp only [T.addrs_nd, ctxAddrs_L, List.mem_append, List.mem_cons] at hm ⊢
      tauto
    rcases List.mem_append.1 this with h1 | h1
    · exact hyyl h1
    · exact hyC h1
  have hm1y : (rbTransplant h y yl.addr).mem y = h.mem y :=
    f1 y hyC (T.addr_ne_of_not_mem hyn hyyl)
  have hl'ne : plug path yl ≠ T.lf := by
    cases path with
    | nil => exact absurd rfl hpath
    | cons F path' =>
      cases F with
      | L a c k v r => exact plug_ne_lf (t := T.nd a c yl k v r) path' (by simp)
      | R a c l k v => exact plug_ne_lf (t := T.nd a c l k v yl) path' (by simp)
  have hl'n : (plug path yl).addr ≠ nil :=
    T.addr_ne_nil hl'ne (fun b hb => (hz1'.bound b (by simp [hb])).1)
  have hnd1 := hz1'.nodup
  simp only [T.addrs_nd, List.append_assoc, List.cons_append, List.nodup_append, List.nodup_cons,
    List.mem_append, List.mem_cons, not_or, List.disjoint_cons_left, List.disjoint_cons_right,
    List.disjoint_append_left, List.disjoint_append_right] at hnd1
  obtain ⟨ndl', ⟨⟨zrl, zra, zrr, zc⟩, ndrl, ⟨⟨rarr, rac⟩, ndrr, ndc, drrc⟩, rarl, drlrr, drlc⟩,
    zl', dl'rl, ral', dl'rr, dl'c⟩ := hnd1
  simp only [T.addrs_nd, List.mem_append, List.mem_cons, not_or] at hyN
  obtain ⟨⟨yl', yz, yrl, yra, yrr⟩, yc⟩ := hyN
  have hbd1 := hz1'.bound
  have hcnz : ∀ a ∈ ctxAddrs ctx, a ≠ nil := fun a ha => (hbd1 a (List.mem_append_right _ ha)).1
  have hrlnz : ∀ a ∈ rl.addrs, a ≠ nil := fun a ha => (hbd1 a (by simp [ha])).1
  have hrrnz : ∀ a ∈ rr.addrs, a ≠ nil := fun a ha => (hbd1 a (by simp [ha])).1
  have l'y : y ≠ (plug path yl).addr := T.addr_ne_of_not_mem hyn yl'
  have l'z : z ≠ (plug path yl).addr := T.addr_ne_of_not_mem hzn zl'
  have l'ra : ra ≠ (plug path yl).addr := T.addr_ne_of_not_mem hran ral'
  have l'rl : (plug path yl).addr ∉ rl.addrs := T.addr_not_mem_of_disjoint hrlnz dl'rl
  have l'rr : (plug path yl).addr ∉ rr.addrs := T.addr_not_mem_of_disjoint hrrnz dl'rr
  have l'c : (plug path yl).addr ∉ ctxAddrs ctx := T.addr_not_mem_of_disjoint hcnz dl'c
  have ht1lz : (rbTransplant h y yl.addr).left z = (plug path yl).addr := by
    simp [left, hz1'.mem_focus]
  have hleft : ((rbTransplant h y yl.addr).setLeft y (plug path yl).addr).left y =
      (plug path yl).addr := by simp [left, setLeft_mem]
  have fr : ∀ a, a ≠ y → a ≠ (plug path yl).addr →
      (((rbTransplant h y yl.addr).setLeft y (plug path yl).addr).setParent
        (plug path yl).addr y).mem a = (rbTransplant h y yl.addr).mem a := by
    intro a ay al; rw [setParent_mem, if_neg al, setLeft_mem, if_neg ay]
  have hgnil : (((rbTransplant h y yl.addr).setLeft y (plug path yl).addr).setParent
      (plug path yl).addr y).mem nil = (rbTransplant h y yl.addr).mem nil :=
    fr nil (Ne.symm hyn) (Ne.symm hl'n)
  obtain ⟨g4, e4, hg4, hm4, hn4⟩ := @substitute_spec
    (((rbTransplant h y yl.addr).setLeft y (plug path yl).addr).setParent (plug path yl).addr y)
    ctx z y kz vz ky vy cz cy (plug path yl).addr nil
    (ctxAddr (path ++ Frame.L z cz kz vz (T.nd ra cr rl kr vr rr) :: ctx)) (plug path yl)
    ra cr rl kr vr rr
    (by rw [setParent_root, setLeft_root, hz1'.root]; exact plug_addr_congr ctx rfl)
    (ownCtx_congr ctx _ (fun a ha => fr a (ne_of_mem_of_not_mem ha yc)
      (fun e => l'c (e ▸ ha))) hz1'.ownc)
    (by rw [fr z (Ne.symm yz) l'z, hz1'.mem_focus]; rfl)
    (own_congr _ _ (fun a ha => by
      simp only [T.addrs_nd, List.mem_append, List.mem_cons] at ha
      rcases ha with ha | rfl | ha
      · exact fr a (ne_of_mem_of_not_mem ha yrl) (fun e => l'rl (e ▸ ha))
      · exact fr a (Ne.symm yra) l'ra
      · exact fr a (ne_of_mem_of_not_mem ha yrr) (fun e => l'rr (e ▸ ha))) hz1'.own.2.2)
    (by
      rw [setParent_mem, if_neg l'y, setLeft_mem, if_pos rfl, hm1y, hzY.mem_focus]
      rfl)
    (own_setParent_root y (own_congr _ _ (fun a ha => by
      rw [setLeft_mem, if_neg (ne_of_mem_of_not_mem ha yl')]) hz1'.own.2.1) ndl')
    (by
      simp only [T.addrs_nd, List.append_assoc, List.cons_append, List.nodup_append,
        List.nodup_cons, List.mem_append, List.mem_cons, not_or, List.disjoint_cons_left,
        List.disjoint_cons_right, List.disjoint_append_left, List.disjoint_append_right]
      exact ⟨ndl', ⟨⟨yrl, yra, yrr, yc⟩, ndrl, ⟨⟨rarr, rac⟩, ndrr, ndc, drrc⟩, rarl, drlrr, drlc⟩,
        yl', dl'rl, ral', dl'rr, dl'c⟩)
    (by
      intro a ha
      rw [setParent_next, setLeft_next]
      simp only [T.addrs_nd, List.mem_append, List.mem_cons] at ha
      rcases ha with (ha | rfl | ha) | ha
      · exact hbd1 a (by simp [ha])
      · exact ⟨hyn, by rw [hn1]; exact (hzY.bound a (by simp)).2⟩
      · exact hbd1 a (by
          simp only [T.addrs_nd, List.mem_append, List.mem_cons] at ha ⊢; tauto)
      · exact hbd1 a (by simp [ha]))
    hzn
    (by
      simp only [T.addrs_nd, List.mem_append, List.mem_cons, not_or]
      exact ⟨⟨zl', fun e => yz e.symm, zrl, zra, zrr⟩, zc⟩)
    (by
      have := hz1.sent
      simp only [color, left, right] at this ⊢
      rw [hgnil]; exact this)
    (by rw [setParent_next, setLeft_next]; exact hz1.alloc)
  have hg4x := (repZ_plug path _).2 (repZ_L.2 hg4)
  have hca : ctxAddr (path ++ Frame.L y cz ky vy (T.nd ra cr rl kr vr rr) :: ctx) =
      ctxAddr (path ++ Frame.L z cz kz vz (T.nd ra cr rl kr vr rr) :: ctx) := by
    cases path with
    | nil => exact absurd rfl hpath
    | cons F path' => rw [ctxAddr_append, ctxAddr_append]
  have hpx : g4.parent yl.addr =
      ctxAddr (path ++ Frame.L y cz ky vy (T.nd ra cr rl kr vr rr) :: ctx) := by
    rw [hca]; exact parent_keep hg4x (hm4.trans hgnil) hp1 hca
  have hn4' : g4.next = h.next := by rw [hn4, setParent_next, setLeft_next, hn1]
  have hlzn : h.left z ≠ nil := by
    rw [hlz]
    exact T.addr_ne_nil hlne (fun b hb => (hzl.bound b (List.mem_append_left _ hb)).1)
  have hrzn : h.right z ≠ nil := by rw [hrz]; exact hran
  rw [rbDeleteNode_two hlzn hrzn hmax _ (by rw [if_neg hpyz, hly, ht1lz, hleft]), e4, hcy, hly]
  cases hbY with
  | red hyl hlf =>
    rw [if_neg (by simp)]
    obtain ⟨m', hm'⟩ := (CBal.swapL hctx).toBlack.plug hyl
    refine ⟨g4, _, m', rfl, rep_plug.1 hg4x, hm', ?_, hn4'⟩
    simp [plug_entries, ctxLeft_append, ctxRight_append, ctxLeft, ctxRight, hcr]
  | black hyl hlf =>
    cases hlf
    rw [if_pos rfl]
    obtain ⟨h', t', m', e1, e2, e3, e5, e6⟩ := rbDeleteFixup_spec hg4x hpx
      (CBal.swapL hctx) (delFocus_of_bal0 hyl)
    refine ⟨h', t', m', e1, e2, e3, ?_, e6.trans hn4'⟩
    rw [e5]
    simp [plug_entries, ctxLeft_append, ctxRight_append, ctxLeft, ctxRight, hcr]

/-- `rbDelete(Node*)` on a represented balanced tree, at the node of the
entry `e`: it returns, the new state represents a balanced tree, and the
in-order entries are the old ones without `e`. -/
theorem rbDeleteNode_core {h : RBTree} {t : T} {n : Nat} (hr : Rep h t) (hb : Bal t Color.B n)
    {A B : List (Ptr × String × String)} {e : Ptr × String × String}
    (he : t.entries = A ++ e :: B) :
    ∃ h' t' n', rbDeleteNode h e.1 = some h' ∧ Rep h' t' ∧ Bal t' Color.B n' ∧
      t'.entries = A ++ B ∧ h'.next = h.next := by
  obtain ⟨ctx, c, l, r, hz, et, hA, hB⟩ := hr.focus he
  rw [et] at hb
  obtain ⟨c', m, hbZ, hctx⟩ := Bal.unplug ctx hb
  cases l with
  | lf =>
    obtain ⟨h', t', m', e1, e2, e3, e4, e5⟩ := rbDeleteNode_caseA hz hbZ hctx
    refine ⟨h', t', m', e1, e2, e3, ?_, e5⟩
    rw [e4, hA, hB]; simp
  | nd la cl ll kl vl lr =>
    cases r with
    | lf =>
      obtain ⟨h', t', m', e1, e2, e3, e4, e5⟩ := rbDeleteNode_caseB hz hbZ hctx
      refine ⟨h', t', m', e1, e2, e3, ?_, e5⟩
      rw [e4, hA, hB]; simp
    | nd ra cr rl kr vr rr =>
      obtain ⟨path, y, cy, yl, ky, vy, el, hcr⟩ := max_decomp (T.nd la cl ll kl vl lr) (by simp)
      cases path with
      | nil =>
        rw [plug_nil] at el
        rw [el] at hz hbZ hA
        obtain ⟨h', t', m', e1, e2, e3, e4, e5⟩ := rbDeleteNode_caseC1 hz hbZ hctx
        refine ⟨h', t', m', e1, e2, e3, ?_, e5⟩
        rw [e4, hA, hB]; simp
      | cons F path' =>
        rw [el] at hz hb hA
        have hp : plug ctx (T.nd e.1 c (plug (F :: path') (T.nd y cy yl ky vy T.lf)) e.2.1 e.2.2
            (T.nd ra cr rl kr vr rr)) =
            plug ((F :: path') ++ Frame.L e.1 c e.2.1 e.2.2 (T.nd ra cr rl kr vr rr) :: ctx)
              (T.nd y cy yl ky vy T.lf) := by
          rw [plug_append]; rfl
        rw [hp] at hb
        obtain ⟨c'', m'', hbY, hctx'⟩ := Bal.unplug _ hb
        obtain ⟨h', t', m', e1, e2, e3, e4, e5⟩ :=
          rbDeleteNode_caseC2 (by simp) hcr hz hbY hctx'
        refine ⟨h', t', m', e1, e2, e3, ?_, e5⟩
        rw [e4, hA, hB]; simp

/-- Removing the entry at a given address from a list with distinct addresses. -/
theorem filter_ne_addr {A B : List (Ptr × String × String)} {e : Ptr × String × String}
    (hnd : ((A ++ e :: B).map Prod.fst).Nodup) :
    (A ++ e :: B).filter (fun x => decide (x.1 ≠ e.1)) = A ++ B := by
  simp only [List.map_append, List.map_cons, List.nodup_append, List.nodup_cons, List.mem_map,
    List.disjoint_cons_right, not_exists, not_and] at hnd
  obtain ⟨-, ⟨heB, -⟩, heA, -⟩ := hnd
  rw [List.filter_append, List.filter_cons_of_neg (by simp)]
  congr 1
  · rw [List.filter_eq_self]
    intro x hx
    simpa using fun e' => heA x hx e'
  · rw [List.filter_eq_self]
    intro x hx
    simpa using fun e' => heB x hx e'

/-- The deletion loop of `rbDelete(key, value)`: every listed node is removed. -/
theorem rbDeleteAll_core : ∀ (zs : List Ptr) {h : RBTree} {t : T} {n : Nat}, Rep h t →
    Bal t Color.B n → zs.Nodup → (∀ z ∈ zs, z ∈ t.addrs) →
    ∃ h' t' n', rbDeleteAll h zs = some h' ∧ Rep h' t' ∧ Bal t' Color.B n' ∧
      t'.entries = t.entries.filter (fun x => decide (x.1 ∉ zs)) ∧ h'.next = h.next
  | [], h, t, n, hr, hb, _, _ => ⟨h, t, n, rfl, hr, hb, by simp, rfl⟩
  | z :: zs, h, t, n, hr, hb, hnd, hm => by
    have hz : z ∈ t.entries.map Prod.fst := by rw [← T.addrs_eq]; exact hm z (by simp)
    obtain ⟨e, he, rfl⟩ := List.mem_map.1 hz
    obtain ⟨A, B, hAB⟩ := List.append_of_mem he
    obtain ⟨h1, t1, n1, e1, hr1, hb1, he1, hn1⟩ := rbDeleteNode_core hr hb hAB
    have hnde := hr.nodup_entries
    rw [hAB] at hnde
    have hf := filter_ne_addr hnde
    obtain ⟨hnz, hnd'⟩ := List.nodup_cons.1 hnd
    have hm1 : ∀ z' ∈ zs, z' ∈ t1.addrs := by
      intro z' hz'
      have h1 := hm z' (by simp [hz'])
      rw [T.addrs_eq, hAB] at h1
      rw [T.addrs_eq, he1]
      have hne : z' ≠ e.1 := fun e' => hnz (e' ▸ hz')
      simp only [List.map_append, List.map_cons, List.mem_append, List.mem_cons] at h1 ⊢
      tauto
    obtain ⟨h2, t2, n2, e2, hr2, hb2, he2, hn2⟩ := rbDeleteAll_core zs hr1 hb1 hnd' hm1
    refine ⟨h2, t2, n2, ?_, hr2, hb2, ?_, hn2.trans hn1⟩
    · rw [rbDeleteAll, e1, Option.some_bind, e2]
    · rw [he2, he1, ← hf, ← hAB, List.filter_filter]
      congr 1
      funext x
      simp only [List.mem_cons, not_or, Bool.decide_and, ne_eq, Bool.and_comm]

/-! ## `rbDelete(key, value)` -/

theorem rbDeleteSuccLoop_spec {h : RBTree} {t : T} (hr : Rep h t) (k v : String) :
    ∀ (B A : List (Ptr × String × String)) (fuel : Nat) (res : List Ptr),
    t.entries = A ++ B → B.length < fuel →
    rbDeleteSuccLoop h k v fuel (headAddr B) res =
      some (res ++ ((B.takeWhile (fun e => decide (e.2.1 = k))).filter
        (fun e => decide (e.2.2 = v))).map Prod.fst)
  | [], A, fuel, res, _, hf => by
    cases fuel with
    | zero => exact absurd hf (Nat.not_lt_zero _)
    | succ f => simp [rbDeleteSuccLoop]
  | e :: B, A, fuel, res, he, hf => by
    cases fuel with
    | zero => exact absurd hf (Nat.not_lt_zero _)
    | succ f =>
      obtain ⟨h1, -, h3, h4, h5⟩ := hr.at_entry he
      simp only [List.length_cons] at hf
      rw [rbDeleteSuccLoop, headAddr_cons, h3, h4, h1]
      by_cases hk : e.2.1 = k
      · rw [if_pos ⟨h5, hk⟩, Option.some_bind,
          rbDeleteSuccLoop_spec hr k v B (A ++ [e]) f _ (by simp [he]) (by omega),
          List.takeWhile_cons_of_pos (by simpa using hk)]
        by_cases hv : e.2.2 = v
        · rw [if_pos hv, List.filter_cons_of_pos (by simpa using hv)]; simp
        · rw [if_neg hv, List.filter_cons_of_neg (by simpa using hv)]
      · rw [if_neg (fun hc => hk hc.2), List.takeWhile_cons_of_neg (by simpa using hk)]
        simp

theorem rbDeletePredLoop_spec {h : RBTree} {t : T} (hr : Rep h t) (k v : String) :
    ∀ (R B : List (Ptr × String × String)) (fuel : Nat) (res : List Ptr),
    t.entries = R.reverse ++ B → R.length < fuel →
    rbDeletePredLoop h k v fuel (headAddr R) res =
      some (res ++ ((R.takeWhile (fun e => decide (e.2.1 = k))).filter
        (fun e => decide (e.2.2 = v))).map Prod.fst)
  | [], B, fuel, res, _, hf => by
    cases fuel with
    | zero => exact absurd hf (Nat.not_lt_zero _)
    | succ f => simp [rbDeletePredLoop]
  | e :: R, B, fuel, res, he, hf => by
    cases fuel with
    | zero => exact absurd hf (Nat.not_lt_zero _)
    | succ f =>
      have he' : t.entries = R.reverse ++ e :: B := by simp [he]
      obtain ⟨-, h2, h3, h4, h5⟩ := hr.at_entry he'
      simp only [List.length_cons] at hf
      have h2' : rbTreePredecessor h e.1 = some (headAddr R) := by
        rw [h2, lastAddr, List.reverse_reverse]
      rw [rbDeletePredLoop, headAddr_cons, h3, h4, h2']
      by_cases hk : e.2.1 = k
      · rw [if_pos ⟨h5, hk⟩, Option.some_bind,
          rbDeletePredLoop_spec hr k v R (e :: B) f _ he' (by omega),
          List.takeWhile_cons_of_pos (by simpa using hk)]
        by_cases hv : e.2.2 = v
        · rw [if_pos hv, List.filter_cons_of_pos (by simpa using hv)]; simp
        · rw [if_neg hv, List.filter_cons_of_neg (by simpa using hv)]
      · rw [if_neg (fun hc => hk hc.2), List.takeWhile_cons_of_neg (by simpa using hk)]
        simp

/-- In an ordered list the entries with key `k` around an entry with key `k`
are contiguous: `takeWhile` finds them all, in both directions. -/
theorem takeWhile_around {A B : List (Ptr × String × String)} {x : Ptr} {k v : String}
    (ho : (A ++ (x, k, v) :: B).Pairwise (fun a b => ¬ b.2.1 < a.2.1)) :
    A.reverse.takeWhile (fun e => decide (e.2.1 = k)) =
        A.reverse.filter (fun e => decide (e.2.1 = k)) ∧
      B.takeWhile (fun e => decide (e.2.1 = k)) = B.filter (fun e => decide (e.2.1 = k)) := by
  constructor
  · refine takeWhile_eq_filter _ _ ?_
    rw [List.pairwise_reverse]
    have hA := (List.pairwise_append.1 ho).1
    have hAx := (List.pairwise_append.1 ho).2.2
    refine (List.Pairwise.and_mem.1 hA).imp ?_
    rintro a b ⟨ha, hb, hab⟩ hak
    simp only [decide_eq_true_eq] at hak ⊢
    have h1 := hAx b hb (x, k, v) (by simp)
    simp only at h1
    rw [hak] at hab
    exact le_antisymm (not_lt.1 h1) (not_lt.1 hab)
  · refine takeWhile_eq_filter _ _ ?_
    have hxB := (List.pairwise_append.1 ho).2.1
    obtain ⟨hx1, hB⟩ := List.pairwise_cons.1 hxB
    refine (List.Pairwise.and_mem.1 hB).imp ?_
    rintro a b ⟨ha, hb, hab⟩ hbk
    simp only [decide_eq_true_eq] at hbk ⊢
    have h1 := hx1 a ha
    simp only at h1
    rw [hbk] at hab
    exact le_antisymm (not_lt.1 hab) (not_lt.1 h1)

/-- The collection phase of `rbDelete(key, value)`: the addresses of exactly
the entries equal to `(k, v)`, in some order. -/
theorem rbDeleteCollect_core {h : RBTree} {t : T} (hr : Rep h t) (k v : String)
    (ho : t.entries.Pairwise (fun a b => ¬ b.2.1 < a.2.1)) :
    ∃ zs, rbDeleteCollect h k v = some zs ∧
      zs.Perm ((t.entries.filter (fun e => decide (e.2.1 = k) && decide (e.2.2 = v))).map Prod.fst) := by
  rcases rbTreeSearch_root hr k ho with ⟨e, hab⟩ | ⟨A, x, v0, B, he, hx, e⟩
  · refine ⟨[], by simp [rbDeleteCollect, e], ?_⟩
    have : t.entries.filter (fun e => decide (e.2.1 = k) && decide (e.2.2 = v)) = [] := by
      rw [List.filter_eq_nil_iff]
      intro a ha
      simp [hab a ha]
    rw [this]; exact List.Perm.refl _
  · obtain ⟨h1, h2, -, h4, -⟩ := hr.at_entry he
    simp only at h1 h2 h4
    have hlen := hr.length_entries_lt
    rw [he, List.length_append, List.length_cons] at hlen
    have hp := rbDeletePredLoop_spec hr k v A.reverse ((x, k, v0) :: B) h.next
      (if v0 = v then [x] else []) (by simp [he]) (by simp; omega)
    have hs := rbDeleteSuccLoop_spec hr k v B (A ++ [(x, k, v0)]) h.next
      ((if v0 = v then [x] else []) ++ ((A.reverse.takeWhile (fun e => decide (e.2.1 = k))).filter
        (fun e => decide (e.2.2 = v))).map Prod.fst) (by simp [he]) (by omega)
    rw [he] at ho
    obtain ⟨tA, tB⟩ := takeWhile_around ho
    rw [tA] at hp hs
    rw [tB] at hs
    have hcol : rbDeleteCollect h k v = some ((if v0 = v then [x] else []) ++
        ((A.reverse.filter (fun e => decide (e.2.1 = k))).filter
          (fun e => decide (e.2.2 = v))).map Prod.fst ++
        ((B.filter (fun e => decide (e.2.1 = k))).filter
          (fun e => decide (e.2.2 = v))).map Prod.fst) := by
      rw [rbDeleteCollect, e, Option.some_bind, if_pos hx, h4, h2]
      have e2 : lastAddr A = headAddr A.reverse := rfl
      rw [e2, Option.some_bind, hp, Option.some_bind, h1, Option.some_bind, hs]
    refine ⟨_, hcol, ?_⟩
    · rw [he, List.filter_append, List.filter_cons, List.map_append]
      have pA : (((A.reverse.filter (fun e => decide (e.2.1 = k))).filter
          (fun e => decide (e.2.2 = v))).map Prod.fst).Perm
          ((A.filter (fun e => decide (e.2.1 = k) && decide (e.2.2 = v))).map Prod.fst) := by
        rw [List.filter_filter, List.filter_reverse]
        refine ((List.reverse_perm _).map _).trans ?_
        rw [show (fun a : Ptr × String × String => decide (a.2.2 = v) && decide (a.2.1 = k)) =
          (fun e => decide (e.2.1 = k) && decide (e.2.2 = v)) from
          funext fun a => Bool.and_comm _ _]
      have pB : (((B.filter (fun e => decide (e.2.1 = k))).filter
          (fun e => decide (e.2.2 = v))).map Prod.fst) =
          ((B.filter (fun e => decide (e.2.1 = k) && decide (e.2.2 = v))).map Prod.fst) := by
        rw [List.filter_filter]
        rw [show (fun a : Ptr × String × String => decide (a.2.2 = v) && decide (a.2.1 = k)) =
          (fun e => decide (e.2.1 = k) && decide (e.2.2 = v)) from
          funext fun a => Bool.and_comm _ _]
      rw [pB]
      by_cases hv : v0 = v
      · simp only [hv, if_true, decide_True, Bool.and_self, List.map_cons]
        refine List.Perm.trans ?_ (List.perm_middle.symm)
        rw [List.append_assoc, List.singleton_append]
        exact List.Perm.cons _ (List.Perm.append_right _ pA)
      · simp only [hv, if_false, decide_False, Bool.and_false, List.nil_append]
        exact List.Perm.append_right _ pA

theorem entry_eq_of_addr {E : List (Ptr × String × String)} (hnd : (E.map Prod.fst).Nodup)
    {e e' : Ptr × String × String} (he : e ∈ E) (he' : e' ∈ E) (h : e.1 = e'.1) : e = e' :=
  List.inj_on_of_nodup_map hnd he he' h

/-- `rbDelete(key, value)` on a represented, ordered, balanced tree: it
returns, the new state represents a balanced tree whose entries are the old
ones without those equal to `(k, v)`, and nothing is written when there is
no such entry. -/
theorem rbDelete_core {h : RBTree} {t : T} {n : Nat} (k v : String) (hr : Rep h t)
    (ho : t.entries.Pairwise (fun a b => ¬ b.2.1 < a.2.1)) (hb : Bal t Color.B n) :
    ∃ h' t' n', rbDelete h k v = some h' ∧ Rep h' t' ∧ Bal t' Color.B n' ∧
      t'.entries = t.entries.filter (fun e => !(decide (e.2.1 = k) && decide (e.2.2 = v))) ∧
      h'.next = h.next ∧
      ((∀ e ∈ t.entries, ¬ (e.2.1 = k ∧ e.2.2 = v)) → h' = h) := by
  obtain ⟨zs, hcol, hperm⟩ := rbDeleteCollect_core hr k v ho
  have hnde := hr.nodup_entries
  have hsub : ((t.entries.filter (fun e => decide (e.2.1 = k) && decide (e.2.2 = v))).map
      Prod.fst).Sublist (t.entries.map Prod.fst) := (List.filter_sublist _).map _
  have hnd : zs.reverse.Nodup := by
    rw [List.nodup_reverse]
    exact (List.Perm.nodup_iff hperm).2 (hnde.sublist hsub)
  have hmem : ∀ z ∈ zs.reverse, z ∈ t.addrs := by
    intro z hz
    rw [List.mem_reverse, hperm.mem_iff] at hz
    rw [T.addrs_eq]
    exact hsub.subset hz
  obtain ⟨h', t', n', e1, hr', hb', he', hn'⟩ := rbDeleteAll_core zs.reverse hr hb hnd hmem
  refine ⟨h', t', n', by rw [rbDelete, hcol, Option.some_bind, e1], hr', hb', ?_, hn', ?_⟩
  · rw [he']
    refine List.filter_congr ?_
    intro e he
    have : e.1 ∈ zs.reverse ↔ (e.2.1 = k ∧ e.2.2 = v) := by
      rw [List.mem_reverse, hperm.mem_iff, List.mem_map]
      constructor
      · rintro ⟨e', he'm, hee⟩
        rw [List.mem_filter] at he'm
        have := entry_eq_of_addr hnde he'm.1 he hee
        rw [← this]
        simpa using he'm.2
      · intro hkv
        exact ⟨e, List.mem_filter.2 ⟨he, by simpa using hkv⟩, rfl⟩
    by_cases hkv : e.2.1 = k ∧ e.2.2 = v
    · simp [this.2 hkv, hkv.1, hkv.2]
    · have h1 : e.1 ∉ zs.reverse := fun hm => hkv (this.1 hm)
      have h2 : (decide (e.2.1 = k) && decide (e.2.2 = v)) = false := by
        simpa using fun hk => (not_and.1 hkv) hk
      simp [h1, h2]
  · intro hno
    have : t.entries.filter (fun e => decide (e.2.1 = k) && decide (e.2.2 = v)) = [] := by
      rw [List.filter_eq_nil_iff]
      intro a ha
      simpa using fun hk => (not_and.1 (hno a ha)) hk
    rw [this] at hperm
    have hz : zs = [] := List.Perm.eq_nil hperm
    rw [hz] at e1
    simp only [List.reverse_nil, rbDeleteAll, Option.some.injEq] at e1
    exact e1.symm

/-! ## The public operations on valid states -/

theorem valid_empty : Valid empty := by
  refine ⟨T.lf, ⟨rfl, trivial, trivial, by simp [T.addrs, ctxAddrs], ?_, ⟨rfl, rfl, rfl⟩, ?_⟩,
    List.Pairwise.nil, rfl, trivial, trivial⟩
  · intro a ha; simp [T.addrs, ctxAddrs] at ha
  · show (0 : Nat) < 1
    exact Nat.one_pos

/-- Inserting into a valid state: the result is valid and its in-order
sequence is the old one with the new pair put after every key `≤ k`. -/
theorem rbInsert_step {h : RBTree} (k v : String) (hv : Valid h) :
    ∃ h', rbInsert h k v = some h' ∧ Valid h' ∧
      ∃ A B, inorder h = A ++ B ∧ inorder h' = A ++ (k, v) :: B ∧
        (∀ e ∈ A, ¬ k < e.1) ∧ (∀ e ∈ B, k < e.1) := by
  obtain ⟨t, n, hr, ho, hb⟩ := valid_iff.1 hv
  obtain ⟨h', t', n', e, hr', hb', -, A, B, eA, eB, hA, hB⟩ := rbInsert_core k v hr ho hb
  refine ⟨h', e, valid_iff.2 ⟨t', n', hr', ?_, hb'⟩, A.map Prod.snd, B.map Prod.snd, ?_, ?_, ?_, ?_⟩
  · rw [eA, List.pairwise_append] at ho
    obtain ⟨o1, o2, o3⟩ := ho
    rw [eB, List.pairwise_append]
    refine ⟨o1, List.pairwise_cons.2 ⟨fun b hb1 => lt_asymm (hB b hb1), o2⟩, ?_⟩
    intro a ha b hb1
    rcases List.mem_cons.1 hb1 with e1 | hb2
    · rw [e1]; exact hA a ha
    · exact o3 a ha b hb2
  · rw [hr.inorder_eq, T.toList_eq, eA, List.map_append]
  · rw [hr'.inorder_eq, T.toList_eq, eB, List.map_append, List.map_cons]
  · intro e1 he1
    obtain ⟨a, ha, rfl⟩ := List.mem_map.1 he1
    exact hA a ha
  · intro e1 he1
    obtain ⟨a, ha, rfl⟩ := List.mem_map.1 he1
    exact hB a ha

/-- Deleting from a valid state: the result is valid, its in-order sequence
is the old one without the matching pairs, and nothing changes when no pair
matches. -/
theorem rbDelete_step {h : RBTree} (k v : String) (hv : Valid h) :
    ∃ h', rbDelete h k v = some h' ∧ Valid h' ∧
      inorder h' = (inorder h).filter (fun e => decide (e ≠ (k, v))) ∧
      ((∀ e ∈ inorder h, e ≠ (k, v)) → h' = h) := by
  obtain ⟨t, n, hr, ho, hb⟩ := valid_iff.1 hv
  obtain ⟨h', t', n', e, hr', hb', he, -, hid⟩ := rbDelete_core k v hr ho hb
  refine ⟨h', e, valid_iff.2 ⟨t', n', hr', ?_, hb'⟩, ?_, ?_⟩
  · rw [he]
    exact ho.sublist (List.filter_sublist _)
  · rw [hr.inorder_eq, hr'.inorder_eq, T.toList_eq, T.toList_eq, he, List.filter_map]
    congr 1
    apply List.filter_congr
    rintro ⟨a, k1, v1⟩ -
    simp [Prod.ext_iff]
  · intro hno
    apply hid
    intro e1 he1 hkv
    apply hno e1.2 (by rw [hr.inorder_eq, T.toList_eq]; exact List.mem_map_of_mem _ he1)
    exact Prod.ext hkv.1 hkv.2

/-- Searching a valid state: the values found are, up to order, the values
stored under the key. -/
theorem rbFind_step {h : RBTree} (k : String) (hv : Valid h) :
    ∃ res, rbFind h k = some res ∧
      res.Perm (((inorder h).filter (fun e => decide (e.1 = k))).map Prod.snd) := by
  obtain ⟨t, n, hr, ho, -⟩ := valid_iff.1 hv
  rw [hr.inorder_eq, T.toList_eq, List.filter_map, List.map_map]
  rcases rbFind_core hr k ho with ⟨e, hno⟩ | ⟨A, x, v, B, eA, -, e⟩
  · refine ⟨[], e, ?_⟩
    rw [List.filter_eq_nil_iff.2]
    · exact List.Perm.refl _
    · intro a ha
      simpa using hno a ha
  · refine ⟨_, e, ?_⟩
    rw [eA, List.filter_append, List.filter_cons_of_pos (by simp), List.map_append, List.map_cons]
    refine (List.Perm.cons _ ?_).trans List.perm_middle.symm
    refine List.Perm.append ?_ (List.Perm.refl _)
    refine ((List.reverse_perm _).map _).trans ?_
    exact List.Perm.refl _

/-! ## Sequences of operations -/

theorem applyOp_step {h : RBTree} (op : Op) (hv : Valid h) :
    ∃ h', applyOp h op = some h' ∧ Valid h' := by
  cases op with
  | insert k v =>
    obtain ⟨h', e, hv', -⟩ := rbInsert_step k v hv
    exact ⟨h', e, hv'⟩
  | delete k v =>
    obtain ⟨h', e, hv', -⟩ := rbDelete_step k v hv
    exact ⟨h', e, hv'⟩

theorem run_valid : ∀ (ops : List Op) (h : RBTree), Valid h →
    ∃ h', run h ops = some h' ∧ Valid h'
  | [], h, hv => ⟨h, rfl, hv⟩
  | op :: ops, h, hv => by
    obtain ⟨h1, e1, hv1⟩ := applyOp_step op hv
    obtain ⟨h2, e2, hv2⟩ := run_valid ops h1 hv1
    exact ⟨h2, by rw [run, e1]; exact e2, hv2⟩

theorem insertAll_valid : ∀ (ps : List (String × String)) (h : RBTree), Valid h →
    ∃ h', insertAll h ps = some h' ∧ Valid h'
  | [], h, hv => ⟨h, rfl, hv⟩
  | p :: ps, h, hv => by
    obtain ⟨h1, e1, hv1, -⟩ := rbInsert_step p.1 p.2 hv
    obtain ⟨h2, e2, hv2⟩ := insertAll_valid ps h1 hv1
    exact ⟨h2, by rw [insertAll, e1]; exact e2, hv2⟩

theorem sample_valid : Valid sample := by
  obtain ⟨h', e, hv⟩ := insertAll_valid
    [("m", "1"), ("c", "2"), ("x", "3"), ("a", "4"), ("e", "5")] empty valid_empty
  rw [sample, e]
  exact hv

/-! ## Size and height of a represented tree -/

theorem sizeAux_spec {h : RBTree} : ∀ (t : T) (par : Ptr) (fuel : Nat),
    Own h.mem t par → (∀ a ∈ t.addrs, a ≠ nil) → t.height < fuel →
    sizeAux h fuel t.addr = t.size
  | T.lf, _, fuel, _, _, hf => by
    cases fuel with
    | zero => exact absurd hf (Nat.not_lt_zero _)
    | succ f => simp [sizeAux, T.size]
  | T.nd a c l k v r, par, fuel, ho, hn, hf => by
    cases fuel with
    | zero => exact absurd hf (Nat.not_lt_zero _)
    | succ f =>
      simp only [T.height] at hf
      have ha : a ≠ nil := hn a (by simp)
      rw [sizeAux, T.addr_nd, if_pos ha]
      have e1 : h.left a = l.addr := by simp [left, ho.1]
      have e2 : h.right a = r.addr := by simp [right, ho.1]
      rw [e1, e2, sizeAux_spec l a f ho.2.1 (fun b hb => hn b (by simp [hb])) (by omega),
        sizeAux_spec r a f ho.2.2 (fun b hb => hn b (by simp [hb])) (by omega)]
      rfl

theorem heightAux_spec {h : RBTree} : ∀ (t : T) (par : Ptr) (fuel : Nat),
    Own h.mem t par → (∀ a ∈ t.addrs, a ≠ nil) → t.height < fuel →
    heightAux h fuel t.addr = t.height
  | T.lf, _, fuel, _, _, hf => by
    cases fuel with
    | zero => exact absurd hf (Nat.not_lt_zero _)
    | succ f => simp [heightAux, T.height]
  | T.nd a c l k v r, par, fuel, ho, hn, hf => by
    cases fuel with
    | zero => exact absurd hf (Nat.not_lt_zero _)
    | succ f =>
      simp only [T.height] at hf
      have ha : a ≠ nil := hn a (by simp)
      rw [heightAux, T.addr_nd, if_pos ha]
      have e1 : h.left a = l.addr := by simp [left, ho.1]
      have e2 : h.right a = r.addr := by simp [right, ho.1]
      rw [e1, e2, heightAux_spec l a f ho.2.1 (fun b hb => hn b (by simp [hb])) (by omega),
        heightAux_spec r a f ho.2.2 (fun b hb => hn b (by simp [hb])) (by omega)]
      rfl

theorem nodesAux_spec {h : RBTree} : ∀ (t : T) (par : Ptr) (fuel : Nat),
    Own h.mem t par → (∀ a ∈ t.addrs, a ≠ nil) → t.height < fuel →
    nodesAux h fuel t.addr = t.addrs
  | T.lf, _, fuel, _, _, hf => by
    cases fuel with
    | zero => exact absurd hf (Nat.not_lt_zero _)
    | succ f => simp [nodesAux, T.addrs]
  | T.nd a c l k v r, par, fuel, ho, hn, hf => by
    cases fuel with
    | zero => exact absurd hf (Nat.not_lt_zero _)
    | succ f =>
      simp only [T.height] at hf
      have ha : a ≠ nil := hn a (by simp)
      rw [nodesAux, T.addr_nd, if_pos ha]
      have e1 : h.left a = l.addr := by simp [left, ho.1]
      have e2 : h.right a = r.addr := by simp [right, ho.1]
      rw [e1, e2, nodesAux_spec l a f ho.2.1 (fun b hb => hn b (by simp [hb])) (by omega),
        nodesAux_spec r a f ho.2.2 (fun b hb => hn b (by simp [hb])) (by omega)]
      rfl

theorem Rep.height_lt {h : RBTree} {t : T} (hr : Rep h t) : t.height < h.next := by
  have hf := RepZ.fuel hr
  have hs := t.height_le_size
  simp only [List.length_nil] at hf
  omega

theorem Rep.size_eq {h : RBTree} {t : T} (hr : Rep h t) : size h = t.size := by
  rw [size, hr.root]
  exact sizeAux_spec t nil h.next hr.own (fun a ha => (hr.bound a (by simp [ha])).1) hr.height_lt

theorem Rep.height_eq {h : RBTree} {t : T} (hr : Rep h t) : height h = t.height := by
  rw [height, hr.root]
  exact heightAux_spec t nil h.next hr.own (fun a ha => (hr.bound a (by simp [ha])).1) hr.height_lt

theorem Rep.nodes_eq {h : RBTree} {t : T} (hr : Rep h t) : nodes h = t.addrs := by
  rw [nodes, hr.root]
  exact nodesAux_spec t nil h.next hr.own (fun a ha => (hr.bound a (by simp [ha])).1) hr.height_lt

/-- A balanced tree of black height `n` has height at most `2n` (one more
under a red root) and at least `2^n - 1` nodes. -/
theorem Bal.height_size : ∀ {t : T} {c : Color} {n : Nat}, Bal t c n →
    t.height ≤ 2 * n + (if c = Color.R then 1 else 0) ∧ 2 ^ n ≤ t.size + 1
  | _, _, _, Bal.lf => by simp [T.height, T.size]
  | _, _, _, Bal.red hl hr => by
    obtain ⟨l1, l2⟩ := hl.height_size
    obtain ⟨r1, r2⟩ := hr.height_size
    simp only [T.height, T.size, if_true] at *
    simp only [(by decide : ¬ (Color.B = Color.R)), if_false] at l1 r1
    constructor <;> omega
  | _, _, _, @Bal.black _ _ _ _ _ c₁ c₂ n hl hr => by
    obtain ⟨l1, l2⟩ := hl.height_size
    obtain ⟨r1, r2⟩ := hr.height_size
    simp only [T.height, T.size]
    simp only [(by decide : ¬ (Color.B = Color.R)), if_false]
    have a1 : (if c₁ = Color.R then 1 else 0) ≤ 1 := by split <;> omega
    have a2 : (if c₂ = Color.R then 1 else 0) ≤ 1 := by split <;> omega
    rw [pow_succ]
    constructor <;> omega

theorem valid_height_bound {h : RBTree} (hv : Valid h) : 2 ^ height h ≤ (size h + 1) ^ 2 := by
  obtain ⟨t, n, hr, -, hb⟩ := valid_iff.1 hv
  obtain ⟨b1, b2⟩ := hb.height_size
  simp only [(by decide : ¬ (Color.B = Color.R)), if_false, Nat.add_zero] at b1
  rw [hr.height_eq, hr.size_eq]
  calc 2 ^ t.height ≤ 2 ^ (2 * n) := Nat.pow_le_pow_right (by decide) b1
    _ = (2 ^ n) ^ 2 := by rw [Nat.mul_comm, pow_mul]
    _ ≤ (t.size + 1) ^ 2 := Nat.pow_le_pow_left b2 2

/-! ## Printing -/

theorem reverseInOrderPrint_spec {h : RBTree} : ∀ (t : T) (par : Ptr) (fuel d : Nat),
    Own h.mem t par → (∀ a ∈ t.addrs, a ≠ nil) → t.height < fuel →
    reverseInOrderPrint h fuel t.addr d = some (t.printList d)
  | T.lf, _, fuel, _, _, _, hf => by
    cases fuel with
    | zero => exact absurd hf (Nat.not_lt_zero _)
    | succ f => simp [reverseInOrderPrint, T.printList]
  | T.nd a c l k v r, par, fuel, d, ho, hn, hf => by
    cases fuel with
    | zero => exact absurd hf (Nat.not_lt_zero _)
    | succ f =>
      simp only [T.height] at hf
      have ha : a ≠ nil := hn a (by simp)
      rw [reverseInOrderPrint, T.addr_nd, if_pos ha]
      have e1 : h.left a = l.addr := by simp [left, ho.1]
      have e2 : h.right a = r.addr := by simp [right, ho.1]
      have e3 : h.key a = k := by simp [key, ho.1]
      have e4 : h.value a = v := by simp [value, ho.1]
      have e5 : h.color a = c := by simp [color, ho.1]
      rw [e1, e2, e3, e4, e5,
        reverseInOrderPrint_spec l a f (d + 1) ho.2.1 (fun b hb => hn b (by simp [hb])) (by omega),
        reverseInOrderPrint_spec r a f (d + 1) ho.2.2 (fun b hb => hn b (by simp [hb])) (by omega)]
      rfl

/-- The node in focus is as many parent links away from the root as the
zipper is long. -/
theorem depthAux_focus {h : RBTree} : ∀ (ctx : List Frame) (a : Ptr) (c : Color) (l : T)
    (k v : String) (r : T) (fuel : Nat), RepZ h ctx (T.nd a c l k v r) → ctx.length < fuel →
    depthAux h fuel a = ctx.length
  | [], a, c, l, k, v, r, fuel, hz, hf => by
    cases fuel with
    | zero => exact absurd hf (Nat.not_lt_zero _)
    | succ f =>
      have e : a = h.root := hz.root.symm
      rw [depthAux, if_pos e]; rfl
  | fr :: ctx, a, c, l, k, v, r, fuel, hz, hf => by
    cases fuel with
    | zero => exact absurd hf (Nat.not_lt_zero _)
    | succ f =>
      have hne : a ≠ h.root := hz.focus_ne_root
      have hp : h.parent a = ctxAddr (fr :: ctx) := by simp [parent, hz.own.1]
      simp only [List.length_cons] at hf
      rw [depthAux, if_neg hne, hp]
      cases fr with
      | L p pc pk pv pr =>
        rw [ctxAddr_L, depthAux_focus ctx p pc _ pk pv pr f (repZ_L.1 hz) (by omega)]; rfl
      | R p pc pl pk pv =>
        rw [ctxAddr_R, depthAux_focus ctx p pc pl pk pv _ f (repZ_R.1 hz) (by omega)]; rfl

theorem printList_eq {h : RBTree} : ∀ (t : T) (ctx : List Frame), RepZ h ctx t →
    t.printList ctx.length =
      t.addrs.reverse.map (fun x => ⟨4 * depth h x + 4, h.color x, h.key x, h.value x⟩)
  | T.lf, _, _ => rfl
  | T.nd a c l k v r, ctx, hz => by
    have hf := RepZ.fuel hz
    have hd : depth h a = ctx.length :=
      depthAux_focus ctx a c l k v r h.next hz (by omega)
    have e3 : h.key a = k := by simp [key, hz.own.1]
    have e4 : h.value a = v := by simp [value, hz.own.1]
    have e5 : h.color a = c := by simp [color, hz.own.1]
    have il := printList_eq l (Frame.L a c k v r :: ctx) (repZ_L.2 hz)
    have ir := printList_eq r (Frame.R a c l k v :: ctx) (repZ_R.2 hz)
    simp only [List.length_cons] at il ir
    rw [T.printList, il, ir, T.addrs_nd, List.reverse_append, List.reverse_cons, List.map_append,
      List.map_append, List.map_cons, List.map_nil, hd, e3, e4, e5, Nat.mul_comm 4 ctx.length]

theorem T.printList_kv : ∀ (t : T) (d : Nat),
    (t.printList d).map (fun e => (e.key, e.value)) = t.toList.reverse
  | T.lf, _ => rfl
  | T.nd a c l k v r, d => by
    simp [T.printList, T.toList, T.printList_kv l (d + 1), T.printList_kv r (d + 1)]

/-- Printing a represented tree: the lines are those of the nodes in reverse
in-order, each with the indentation of its depth. -/
theorem rbPrintTree_step {h : RBTree} {t : T} (hr : Rep h t) :
    rbPrintTree h = some ((nodes h).reverse.map
        (fun x => ⟨4 * depth h x + 4, h.color x, h.key x, h.value x⟩)) ∧
      ((nodes h).reverse.map (fun x => (h.key x, h.value x)) = (inorder h).reverse) ∧
      (nodes h).length = size h ∧ (nodes h).Nodup := by
  have hp := reverseInOrderPrint_spec t nil h.next 0 hr.own
    (fun a ha => (hr.bound a (by simp [ha])).1) hr.height_lt
  have he := printList_eq t [] hr
  simp only [List.length_nil] at he
  have hroot : h.root = t.addr := hr.root
  rw [← hroot] at hp
  refine ⟨?_, ?_, ?_, ?_⟩
  · rw [rbPrintTree, hp, he, hr.nodes_eq]
  · have := T.printList_kv t 0
    rw [he, List.map_map] at this
    rw [hr.nodes_eq, hr.inorder_eq, ← this]
    rfl
  · rw [hr.nodes_eq, hr.size_eq, T.length_addrs]
  · rw [hr.nodes_eq]
    have := hr.nodup
    simp only [ctxAddrs_nil, List.append_nil] at this
    exact this

/-! ## Inserts only: the stable sort -/

/-- A list sorted by key is determined by its per-key sublists. -/
theorem sorted_unique : ∀ (S1 S2 : List (String × String)),
    S1.Pairwise (fun a b => ¬ b.1 < a.1) → S2.Pairwise (fun a b => ¬ b.1 < a.1) →
    (∀ k : String, S1.filter (fun e => decide (e.1 = k)) = S2.filter (fun e => decide (e.1 = k))) →
    S1 = S2
  | [], [], _, _, _ => rfl
  | [], b :: S2, _, _, hf => by
    have := hf b.1
    simp at this
  | a :: S1, [], _, _, hf => by
    have := hf a.1
    simp at this
  | a :: S1, b :: S2, h1, h2, hf => by
    obtain ⟨a1, a2⟩ := List.pairwise_cons.1 h1
    obtain ⟨b1, b2⟩ := List.pairwise_cons.1 h2
    have hab : ¬ a.1 < b.1 := by
      have hm : a ∈ (b :: S2).filter (fun e => decide (e.1 = a.1)) := by
        rw [← hf a.1]; simp
      rcases List.mem_cons.1 (List.mem_filter.1 hm).1 with e | e
      · rw [e]; exact lt_irrefl _
      · exact b1 a e
    have hba : ¬ b.1 < a.1 := by
      have hm : b ∈ (a :: S1).filter (fun e => decide (e.1 = b.1)) := by
        rw [hf b.1]; simp
      rcases List.mem_cons.1 (List.mem_filter.1 hm).1 with e | e
      · rw [e]; exact lt_irrefl _
      · exact a1 b e
    have hk : a.1 = b.1 := le_antisymm (not_lt.1 hba) (not_lt.1 hab)
    have h0 := hf a.1
    rw [List.filter_cons_of_pos (by simp), List.filter_cons_of_pos (by simp [hk])] at h0
    obtain ⟨e0, e1⟩ := List.cons.inj h0
    rw [e0]
    congr 1
    apply sorted_unique S1 S2 a2 b2
    intro k
    by_cases hka : a.1 = k
    · rw [← hka]; exact e1
    · have := hf k
      rwa [List.filter_cons_of_neg (by simpa using hka),
        List.filter_cons_of_neg (by simpa using (hk ▸ hka))] at this

theorem orderedInsert_filter (k : String) (a : String × String) : ∀ l : List (String × String),
    (l.orderedInsert (fun a b => a.1 ≤ b.1) a).filter (fun e => decide (e.1 = k)) =
      (a :: l).filter (fun e => decide (e.1 = k))
  | [] => rfl
  | b :: l => by
    rw [List.orderedInsert]
    split
    · rfl
    · rename_i hle
      have hlt : b.1 < a.1 := not_le.1 hle
      have ih := orderedInsert_filter k a l
      by_cases hb : b.1 = k
      · have ha : ¬ a.1 = k := fun e => by rw [e, ← hb] at hlt; exact lt_irrefl _ hlt
        rw [List.filter_cons_of_pos (by simpa using hb), ih,
          List.filter_cons_of_neg (by simpa using ha), List.filter_cons_of_neg (by simpa using ha),
          List.filter_cons_of_pos (by simpa using hb)]
      · rw [List.filter_cons_of_neg (by simpa using hb), ih]
        by_cases ha : a.1 = k
        · rw [List.filter_cons_of_pos (by simpa using ha), List.filter_cons_of_pos (by simpa using ha),
            List.filter_cons_of_neg (by simpa using hb)]
        · rw [List.filter_cons_of_neg (by simpa using ha), List.filter_cons_of_neg (by simpa using ha),
            List.filter_cons_of_neg (by simpa using hb)]

theorem insertionSort_filter (k : String) : ∀ l : List (String × String),
    (l.insertionSort (fun a b => a.1 ≤ b.1)).filter (fun e => decide (e.1 = k)) =
      l.filter (fun e => decide (e.1 = k))
  | [] => rfl
  | a :: l => by
    rw [List.insertionSort, orderedInsert_filter, List.filter_cons, List.filter_cons,
      insertionSort_filter k l]

theorem insertionSort_sorted (l : List (String × String)) :
    (l.insertionSort (fun a b => a.1 ≤ b.1)).Pairwise (fun a b => ¬ b.1 < a.1) := by
  haveI : IsTotal (String × String) (fun a b => a.1 ≤ b.1) := ⟨fun a b => le_total a.1 b.1⟩
  haveI : IsTrans (String × String) (fun a b => a.1 ≤ b.1) := ⟨fun a b c => le_trans⟩
  have := List.sorted_insertionSort (fun a b : String × String => a.1 ≤ b.1) l
  exact List.Pairwise.imp (fun hab => not_lt.2 hab) this

/-- After inserts only, the per-key sublists of the in-order sequence are
the old ones followed by the inserted pairs in insertion order. -/
theorem insertAll_filter (k : String) : ∀ (ps : List (String × String)) (h : RBTree), Valid h →
    ∃ h', insertAll h ps = some h' ∧ Valid h' ∧
      (inorder h').filter (fun e => decide (e.1 = k)) =
        (inorder h).filter (fun e => decide (e.1 = k)) ++ ps.filter (fun e => decide (e.1 = k))
  | [], h, hv => ⟨h, rfl, hv, by simp⟩
  | p :: ps, h, hv => by
    obtain ⟨h1, e1, hv1, A, B, eA, eB, -, hB⟩ := rbInsert_step p.1 p.2 hv
    obtain ⟨h2, e2, hv2, hf⟩ := insertAll_filter k ps h1 hv1
    refine ⟨h2, by rw [insertAll, e1]; exact e2, hv2, ?_⟩
    rw [hf, eB, eA]
    by_cases hk : p.1 = k
    · have hB0 : B.filter (fun e => decide (e.1 = k)) = [] := by
        rw [List.filter_eq_nil_iff]
        intro e he hek
        have := hB e he
        rw [hk, ← of_decide_eq_true hek] at this
        exact lt_irrefl _ this
      rw [List.filter_append, List.filter_append, List.filter_cons_of_pos (by simpa using hk), hB0,
        List.filter_cons_of_pos (by simpa using hk)]
      simp
    · rw [List.filter_append, List.filter_append, List.filter_cons_of_neg (by simpa using hk),
        List.filter_cons_of_neg (by simpa using hk)]

theorem inorder_empty : inorder empty = [] := rfl

theorem valid_sorted {h : RBTree} (hv : Valid h) :
    (inorder h).Pairwise (fun a b => ¬ b.1 < a.1) := by
  obtain ⟨t, hr, ho, -⟩ := hv
  rw [hr.inorder_eq]
  exact ho

/-- Inserts only, from the empty tree: the in-order sequence is the stable
sort by key of the inserted pairs. -/
theorem insertAll_sorted (ps : List (String × String)) :
    ∃ h', insertAll empty ps = some h' ∧ Valid h' ∧
      inorder h' = ps.insertionSort (fun a b => a.1 ≤ b.1) := by
  obtain ⟨h', e, hv, -⟩ := insertAll_filter "" ps empty valid_empty
  refine ⟨h', e, hv, ?_⟩
  apply sorted_unique _ _ (valid_sorted hv) (insertionSort_sorted ps)
  intro k
  obtain ⟨h2, e2, -, hf⟩ := insertAll_filter k ps empty valid_empty
  rw [e] at e2
  cases e2
  rw [hf, insertionSort_filter, inorder_empty]
  rfl

/-! ## The claims -/

/-- Claim C1: on a valid red-black tree (ordered by key non-strictly, black
root, no red node with a red child, equal black count on every path),
`rbInsert` returns and the tree it returns is again a valid red-black tree. -/
theorem rbInsert_preserves_valid (h : RBTree) (k v : String) (hv : Valid h) :
    ∃ h', rbInsert h k v = some h' ∧ Valid h' := by
  obtain ⟨h', e, hv', -⟩ := rbInsert_step k v hv
  exact ⟨h', e, hv'⟩

theorem rbInsert_preserves_valid_witness :
    Valid sample ∧ ∃ h', rbInsert sample "k" "9" = some h' ∧ Valid h' :=
  ⟨sample_valid, rbInsert_preserves_valid sample "k" "9" sample_valid⟩

/-- Claim C2: on a valid red-black tree, `rbDelete` returns and the tree it
returns is again a valid red-black tree, however many nodes match the pair. -/
theorem rbDelete_preserves_valid (h : RBTree) (k v : String) (hv : Valid h) :
    ∃ h', rbDelete h k v = some h' ∧ Valid h' := by
  obtain ⟨h', e, hv', -⟩ := rbDelete_step k v hv
  exact ⟨h', e, hv'⟩

theorem rbDelete_preserves_valid_witness :
    Valid sample ∧ ∃ h', rbDelete sample "c" "2" = some h' ∧ Valid h' :=
  ⟨sample_valid, rbDelete_preserves_valid sample "c" "2" sample_valid⟩

/-- Claim C3: on a valid tree with in-order sequence `A ++ B`, where `A`
holds the entries with key `≤ k` and `B` those with key `> k`, `rbInsert k v`
gives the in-order sequence `A ++ (k, v) :: B`; and after inserts only, from
the empty tree, the in-order sequence is the stable sort by key of the
inserted pairs. -/
theorem rbInsert_inorder_stable (h : RBTree) (k v : String) (hv : Valid h) :
    (∃ h', rbInsert h k v = some h' ∧
      ∃ A B, inorder h = A ++ B ∧ inorder h' = A ++ (k, v) :: B ∧
        (∀ e ∈ A, ¬ k < e.1) ∧ (∀ e ∈ B, k < e.1)) ∧
    (∀ ps : List (String × String), ∃ h', insertAll empty ps = some h' ∧
      inorder h' = ps.insertionSort (fun a b => a.1 ≤ b.1)) := by
  constructor
  · obtain ⟨h', e, -, hs⟩ := rbInsert_step k v hv
    exact ⟨h', e, hs⟩
  · intro ps
    obtain ⟨h', e, -, hs⟩ := insertAll_sorted ps
    exact ⟨h', e, hs⟩

theorem rbInsert_inorder_stable_witness :
    Valid sample ∧
    ((∃ h', rbInsert sample "c" "7" = some h' ∧
      ∃ A B, inorder sample = A ++ B ∧ inorder h' = A ++ ("c", "7") :: B ∧
        (∀ e ∈ A, ¬ "c" < e.1) ∧ (∀ e ∈ B, "c" < e.1)) ∧
    (∀ ps : List (String × String), ∃ h', insertAll empty ps = some h' ∧
      inorder h' = ps.insertionSort (fun a b => a.1 ≤ b.1))) :=
  ⟨sample_valid, rbInsert_inorder_stable sample "c" "7" sample_valid⟩

/-- Claim C4: on a valid tree, `rbDelete k v` returns a tree whose in-order
sequence is the old one with every entry equal to `(k, v)` removed and all
other entries kept in their order. -/
theorem rbDelete_inorder (h : RBTree) (k v : String) (hv : Valid h) :
    ∃ h', rbDelete h k v = some h' ∧
      inorder h' = (inorder h).filter (fun e => decide (e ≠ (k, v))) := by
  obtain ⟨h', e, -, hs, -⟩ := rbDelete_step k v hv
  exact ⟨h', e, hs⟩

theorem rbDelete_inorder_witness :
    Valid sample ∧ ∃ h', rbDelete sample "e" "5" = some h' ∧
      inorder h' = (inorder sample).filter (fun e => decide (e ≠ ("e", "5"))) :=
  ⟨sample_valid, rbDelete_inorder sample "e" "5" sample_valid⟩

/-- Claim C5: on a tree that is valid, or reachable from the empty tree by
inserts and deletes, `rbFind k` returns, up to order, exactly the values of
the entries with key `k`; the result is empty iff no entry has key `k`. -/
theorem rbFind_multiset (h : RBTree) (k : String)
    (hv : Valid h ∨ ∃ ops, run empty ops = some h) :
    ∃ res, rbFind h k = some res ∧
      res.Perm (((inorder h).filter (fun e => decide (e.1 = k))).map Prod.snd) ∧
      (res = [] ↔ ∀ e ∈ inorder h, e.1 ≠ k) := by
  have hv' : Valid h := by
    rcases hv with hv | ⟨ops, e⟩
    · exact hv
    · obtain ⟨h', e', hv'⟩ := run_valid ops empty valid_empty
      rw [e] at e'
      cases e'
      exact hv'
  obtain ⟨res, e, hp⟩ := rbFind_step k hv'
  refine ⟨res, e, hp, ?_⟩
  constructor
  · intro hnil e1 he1 hk
    rw [hnil] at hp
    have hm : e1.2 ∈ ((inorder h).filter (fun e => decide (e.1 = k))).map Prod.snd :=
      List.mem_map_of_mem _ (List.mem_filter.2 ⟨he1, by simpa using hk⟩)
    rw [← hp.nil_eq] at hm
    cases hm
  · intro hno
    have hnil : (inorder h).filter (fun e => decide (e.1 = k)) = [] := by
      rw [List.filter_eq_nil_iff]
      intro e1 he1 hk
      exact hno e1 he1 (of_decide_eq_true hk)
    rw [hnil] at hp
    exact hp.eq_nil

theorem rbFind_multiset_witness :
    (Valid sample ∨ ∃ ops, run empty ops = some sample) ∧
    ∃ res, rbFind sample "m" = some res ∧
      res.Perm (((inorder sample).filter (fun e => decide (e.1 = "m"))).map Prod.snd) ∧
      (res = [] ↔ ∀ e ∈ inorder sample, e.1 ≠ "m") :=
  ⟨Or.inl sample_valid, rbFind_multiset sample "m" (Or.inl sample_valid)⟩

set_option maxRecDepth 100000 in
theorem inorder_sample :
    inorder sample = [("a", "4"), ("c", "2"), ("e", "5"), ("m", "1"), ("x", "3")] := by
  decide!

theorem Valid.wf {h : RBTree} (hv : Valid h) : ∃ t, Rep h t := by
  obtain ⟨t, hr, -⟩ := hv
  exact ⟨t, hr⟩

/-- Claim C6: on a valid tree with no entry equal to `(k, v)`, `rbDelete k v`
returns the state it was given: shape, colours and in-order sequence are
unchanged. -/
theorem rbDelete_absent_noop (h : RBTree) (k v : String) (hv : Valid h)
    (hno : ∀ e ∈ inorder h, e ≠ (k, v)) : rbDelete h k v = some h := by
  obtain ⟨h', e, -, -, hid⟩ := rbDelete_step k v hv
  rw [e, hid hno]

theorem rbDelete_absent_noop_witness :
    Valid sample ∧ (∀ e ∈ inorder sample, e ≠ ("c", "9")) ∧
      rbDelete sample "c" "9" = some sample :=
  ⟨sample_valid, by rw [inorder_sample]; decide,
    rbDelete_absent_noop sample "c" "9" sample_valid (by rw [inorder_sample]; decide)⟩

/-- Claim C7: round trip on a valid tree: after `rbInsert k v`, the result
of `rbFind k` contains `v`; after `rbDelete k v` on top of that, the result
of `rbFind k` does not contain `v`. -/
theorem insert_find_delete_round_trip (h : RBTree) (k v : String) (hv : Valid h) :
    ∃ h1, rbInsert h k v = some h1 ∧ (∃ res, rbFind h1 k = some res ∧ v ∈ res) ∧
      ∃ h2, rbDelete h1 k v = some h2 ∧ ∃ res, rbFind h2 k = some res ∧ v ∉ res := by
  obtain ⟨h1, e1, hv1, A, B, -, eB, -, -⟩ := rbInsert_step k v hv
  obtain ⟨r1, f1, p1⟩ := rbFind_step k hv1
  obtain ⟨h2, e2, hv2, hs, -⟩ := rbDelete_step k v hv1
  obtain ⟨r2, f2, p2⟩ := rbFind_step k hv2
  refine ⟨h1, e1, ⟨r1, f1, ?_⟩, h2, e2, r2, f2, ?_⟩
  · rw [p1.mem_iff, eB]
    exact List.mem_map.2 ⟨(k, v), List.mem_filter.2 ⟨by simp, by simp⟩, rfl⟩
  · rw [p2.mem_iff, hs]
    intro hm
    obtain ⟨e, he, hev⟩ := List.mem_map.1 hm
    obtain ⟨he1, hek⟩ := List.mem_filter.1 he
    obtain ⟨-, hne⟩ := List.mem_filter.1 he1
    exact of_decide_eq_true hne (Prod.ext (of_decide_eq_true hek) hev)

theorem insert_find_delete_round_trip_witness :
    Valid sample ∧
    ∃ h1, rbInsert sample "c" "2" = some h1 ∧ (∃ res, rbFind h1 "c" = some res ∧ "2" ∈ res) ∧
      ∃ h2, rbDelete h1 "c" "2" = some h2 ∧ ∃ res, rbFind h2 "c" = some res ∧ "2" ∉ res :=
  ⟨sample_valid, insert_find_delete_round_trip sample "c" "2" sample_valid⟩

/-- Claim C8: every sequence of `rbInsert` and `rbDelete` calls from the
empty tree returns a tree, and with `n` its number of nodes and `h` its
height (nodes on the longest root-to-sentinel path), `2 ^ h ≤ (n + 1) ^ 2`.
The tree `t` is the shape the state holds, with the same size and height. -/
theorem height_bound (ops : List Op) :
    ∃ h t, run empty ops = some h ∧ Rep h t ∧ size h = t.size ∧ height h = t.height ∧
      2 ^ height h ≤ (size h + 1) ^ 2 := by
  obtain ⟨h, e, hv⟩ := run_valid ops empty valid_empty
  have hb := valid_height_bound hv
  obtain ⟨t, hr, -⟩ := hv
  exact ⟨h, t, e, hr, hr.size_eq, hr.height_eq, hb⟩

/-- Claim C9: on every well-formed tree `rbPrintTree` returns one line per
node, the nodes taken in reverse in-order (right subtree, node, left
subtree): the (key, value) sequence is the reverse of the in-order sequence,
keys are non-increasing when the tree is valid, the root has depth 0, and
the line of a node has indentation width `4 * depth + 4`, `depth` being the
number of parent links to the root. -/
theorem rbPrintTree_reverse_inorder (h : RBTree) (hw : ∃ t, Rep h t) :
    ∃ out, rbPrintTree h = some out ∧
      out = (nodes h).reverse.map
        (fun x => ⟨4 * depth h x + 4, h.color x, h.key x, h.value x⟩) ∧
      (nodes h).Nodup ∧ out.length = size h ∧
      out.map (fun e => (e.key, e.value)) = (inorder h).reverse ∧
      depth h h.root = 0 ∧
      (Valid h → out.Pairwise (fun a b => ¬ a.key < b.key)) := by
  obtain ⟨t, hr⟩ := hw
  obtain ⟨e, hkv, hlen, hnd⟩ := rbPrintTree_step hr
  have hkv' : ((nodes h).reverse.map
      (fun x => (⟨4 * depth h x + 4, h.color x, h.key x, h.value x⟩ : PrintEntry))).map
      (fun e => (e.key, e.value)) = (inorder h).reverse := by
    rw [List.map_map]; exact hkv
  refine ⟨_, e, rfl, hnd, ?_, hkv', ?_, ?_⟩
  · rw [List.length_map, List.length_reverse, hlen]
  · have hp := hr.alloc
    rw [depth]
    cases hn : h.next with
    | zero => rw [hn] at hp; exact absurd hp (Nat.lt_irrefl _)
    | succ f => rw [depthAux, if_pos rfl]
  · intro hv
    have hs := valid_sorted hv
    have hs' : (inorder h).reverse.Pairwise (fun a b => ¬ a.1 < b.1) :=
      List.pairwise_reverse.2 hs
    rw [← hkv', List.pairwise_map] at hs'
    exact hs'

theorem rbPrintTree_reverse_inorder_witness :
    (∃ t, Rep sample t) ∧
    ∃ out, rbPrintTree sample = some out ∧
      out = (nodes sample).reverse.map
        (fun x => ⟨4 * depth sample x + 4, sample.color x, sample.key x, sample.value x⟩) ∧
      (nodes sample).Nodup ∧ out.length = size sample ∧
      out.map (fun e => (e.key, e.value)) = (inorder sample).reverse ∧
      depth sample sample.root = 0 ∧
      (Valid sample → out.Pairwise (fun a b => ¬ a.key < b.key)) :=
  ⟨sample_valid.wf, rbPrintTree_reverse_inorder sample sample_valid.wf⟩

set_option maxRecDepth 100000 in
/-- Claim C10: the scenario of the specification on the empty tree: after
inserting m, c, x, a, e in that order, `rbFind "m"` returns `["1"]`, the
in-order sequence is a, c, e, m, x with their values, and after
`rbDelete "c" "2"` the result of `rbFind "c"` is empty. -/
theorem spec_scenario :
    (insertAll empty [("m", "1"), ("c", "2"), ("x", "3"), ("a", "4"), ("e", "5")]).bind
        (fun t => rbFind t "m") = some ["1"] ∧
    (insertAll empty [("m", "1"), ("c", "2"), ("x", "3"), ("a", "4"), ("e", "5")]).map inorder =
        some [("a", "4"), ("c", "2"), ("e", "5"), ("m", "1"), ("x", "3")] ∧
    ((insertAll empty [("m", "1"), ("c", "2"), ("x", "3"), ("a", "4"), ("e", "5")]).bind
        (fun t => rbDelete t "c" "2")).bind (fun t => rbFind t "c") = some [] := by
  decide!

/-! ## The step-by-step functions compute the same states -/

theorem rbInsertNode_eq_attach (t : RBTree) (z : Ptr) :
    rbInsertNode t z = (rbInsertAttach t z).bind fun t' => rbInsertFixup t' z := by
  rw [rbInsertNode, rbInsertAttach]
  cases rbInsertDescend t z t.next nil t.root with
  | none => rfl
  | some y => rfl

theorem rbInsertFixupLoop_body (f : Nat) (t : RBTree) (z : Ptr) :
    rbInsertFixupLoop (f + 1) t z =
      if t.color (t.parent z) = Color.R then
        rbInsertFixupLoop f (rbInsertFixupBody t z).1 (rbInsertFixupBody t z).2.1
      else some t := by
  rw [rbInsertFixupLoop, rbInsertFixupBody]
  by_cases h1 : t.color (t.parent z) = Color.R
  · rw [if_pos h1, if_pos h1]
    by_cases h2 : t.parent z = t.left (t.parent (t.parent z))
    · rw [if_pos h2, if_pos h2]
      by_cases h3 : t.color (t.right (t.parent (t.parent z))) = Color.R
      · simp only [h3, if_true]
      · simp only [h3, if_false]
        by_cases h4 : z = t.right (t.parent z)
        · simp only [← h4, if_true]
        · simp only [h4, if_false]
    · rw [if_neg h2, if_neg h2]
      by_cases h3 : t.color (t.left (t.parent (t.parent z))) = Color.R
      · simp only [h3, if_true]
      · simp only [h3, if_false]
        by_cases h4 : z = t.left (t.parent z)
        · simp only [← h4, if_true]
        · simp only [h4, if_false]
  · rw [if_neg h1, if_neg h1]

theorem rbInsertFixupLoopLog_fst : ∀ (f : Nat) (t : RBTree) (z : Ptr),
    (rbInsertFixupLoopLog f t z).map Prod.fst = rbInsertFixupLoop f t z
  | 0, _, _ => rfl
  | f + 1, t, z => by
    rw [rbInsertFixupLoop_body, rbInsertFixupLoopLog]
    by_cases h1 : t.color (t.parent z) = Color.R
    · rw [if_pos h1, if_pos h1, ← rbInsertFixupLoopLog_fst f, Option.map_map]
      rfl
    · rw [if_neg h1, if_neg h1]; rfl

theorem rbInsertFixupLog_fst (t : RBTree) (z : Ptr) :
    (rbInsertFixupLog t z).map Prod.fst = rbInsertFixup t z := by
  rw [rbInsertFixupLog, rbInsertFixup, ← rbInsertFixupLoopLog_fst, Option.map_map, Option.map_map]
  rfl

theorem rbInsertLog_fst (t : RBTree) (k v : String) :
    (rbInsertLog t k v).map Prod.fst = rbInsert t k v := by
  rw [rbInsertLog, rbInsert, rbInsertNode_eq_attach]
  cases rbInsertAttach (t.newNode k v) t.next with
  | none => rfl
  | some t' => exact rbInsertFixupLog_fst t' t.next

theorem deleteFixupCase4L_body (rec : RBTree → Ptr → Option (RBTree × Ptr)) (t : RBTree)
    (x w : Ptr) :
    deleteFixupCase4L rec t x w = rec (deleteBodyCase4L t x w).1 (deleteBodyCase4L t x w).2.1 :=
  rfl

theorem deleteFixupCase4R_body (rec : RBTree → Ptr → Option (RBTree × Ptr)) (t : RBTree)
    (x w : Ptr) :
    deleteFixupCase4R rec t x w = rec (deleteBodyCase4R t x w).1 (deleteBodyCase4R t x w).2.1 :=
  rfl

theorem deleteFixupRestL_body (rec : RBTree → Ptr → Option (RBTree × Ptr)) (t : RBTree)
    (x w : Ptr) :
    deleteFixupRestL rec t x w = rec (deleteBodyRestL t x w).1 (deleteBodyRestL t x w).2.1 := by
  rw [deleteFixupRestL, deleteBodyRestL]
  by_cases h1 : t.color (t.left w) = Color.B ∧ t.color (t.right w) = Color.B
  · rw [if_pos h1, if_pos h1]
  · rw [if_neg h1, if_neg h1]
    by_cases h2 : t.color (t.right w) = Color.B
    · simp only [h2, if_true]; rfl
    · simp only [h2, if_false]; rfl

theorem deleteFixupRestR_body (rec : RBTree → Ptr → Option (RBTree × Ptr)) (t : RBTree)
    (x w : Ptr) :
    deleteFixupRestR rec t x w = rec (deleteBodyRestR t x w).1 (deleteBodyRestR t x w).2.1 := by
  rw [deleteFixupRestR, deleteBodyRestR]
  by_cases h1 : t.color (t.right w) = Color.B ∧ t.color (t.left w) = Color.B
  · rw [if_pos h1, if_pos h1]
  · rw [if_neg h1, if_neg h1]
    by_cases h2 : t.color (t.left w) = Color.B
    · simp only [h2, if_true]; rfl
    · simp only [h2, if_false]; rfl

theorem rbDeleteFixupLoop_body (f : Nat) (t : RBTree) (x : Ptr) :
    rbDeleteFixupLoop (f + 1) t x =
      if x ≠ t.root ∧ t.color x = Color.B then
        rbDeleteFixupLoop f (rbDeleteFixupBody t x).1 (rbDeleteFixupBody t x).2.1
      else some (t, x) := by
  rw [rbDeleteFixupLoop_succ, rbDeleteFixupBody]
  by_cases h1 : x ≠ t.root ∧ t.color x = Color.B
  · rw [if_pos h1, if_pos h1]
    by_cases h2 : x = t.left (t.parent x)
    · rw [if_pos h2, if_pos h2, deleteFixupRestL_body]
      by_cases h3 : t.color (t.right (t.parent x)) = Color.R
      · simp only [h3, if_true]
      · simp only [h3, if_false]
    · rw [if_neg h2, if_neg h2, deleteFixupRestR_body]
      by_cases h3 : t.color (t.left (t.parent x)) = Color.R
      · simp only [h3, if_true]
      · simp only [h3, if_false]
  · rw [if_neg h1, if_neg h1]

theorem rbDeleteFixupLoopLog_fst : ∀ (f : Nat) (t : RBTree) (x : Ptr),
    (rbDeleteFixupLoopLog f t x).map Prod.fst = rbDeleteFixupLoop f t x
  | 0, _, _ => rfl
  | f + 1, t, x => by
    rw [rbDeleteFixupLoop_body, rbDeleteFixupLoopLog]
    by_cases h1 : x ≠ t.root ∧ t.color x = Color.B
    · rw [if_pos h1, if_pos h1, ← rbDeleteFixupLoopLog_fst f, Option.map_map]
      rfl
    · rw [if_neg h1, if_neg h1]; rfl

theorem rbDeleteFixupLog_fst (t : RBTree) (x : Ptr) :
    (rbDeleteFixupLog t x).map Prod.fst = rbDeleteFixup t x := by
  rw [rbDeleteFixupLog, rbDeleteFixup, ← rbDeleteFixupLoopLog_fst, Option.map_map, Option.map_map]
  rfl

theorem rbDeleteNode_eq_splice (t : RBTree) (z : Ptr) :
    rbDeleteNode t z = (rbDeleteSplice t z).bind fun r =>
      if r.2.2 = Color.B then rbDeleteFixup r.1 r.2.1 else some r.1 := by
  rw [rbDeleteNode, rbDeleteSplice]
  by_cases h1 : t.left z = nil
  · rw [if_pos h1, if_pos h1]; rfl
  · rw [if_neg h1, if_neg h1]
    by_cases h2 : t.right z = nil
    · rw [if_pos h2, if_pos h2]; rfl
    · rw [if_neg h2, if_neg h2]
      cases rbTreeMaximum t t.next (t.left z) with
      | none => rfl
      | some y => rfl

theorem rbDeleteNodeLog_fst (t : RBTree) (z : Ptr) :
    (rbDeleteNodeLog t z).map Prod.fst = rbDeleteNode t z := by
  rw [rbDeleteNodeLog, rbDeleteNode_eq_splice]
  cases rbDeleteSplice t z with
  | none => rfl
  | some r =>
    simp only [Option.some_bind]
    by_cases h1 : r.2.2 = Color.B
    · rw [if_pos h1, if_pos h1]; exact rbDeleteFixupLog_fst _ _
    · rw [if_neg h1, if_neg h1]; rfl

theorem rbDeleteAllLog_fst : ∀ (zs : List Ptr) (t : RBTree),
    (rbDeleteAllLog t zs).map Prod.fst = rbDeleteAll t zs
  | [], _ => rfl
  | z :: zs, t => by
    rw [rbDeleteAllLog, rbDeleteAll, ← rbDeleteNodeLog_fst]
    cases rbDeleteNodeLog t z with
    | none => rfl
    | some r =>
      simp only [Option.some_bind, Option.map_some', Option.map_map]
      rw [← rbDeleteAllLog_fst zs r.1]
      rfl

theorem rbDeleteLog_fst (t : RBTree) (k v : String) :
    (rbDeleteLog t k v).map Prod.fst = rbDelete t k v := by
  rw [rbDeleteLog, rbDelete]
  cases rbDeleteCollect t k v with
  | none => rfl
  | some zs => exact rbDeleteAllLog_fst _ _

/-! ## One iteration of `rbInsertFixup` -/

theorem RepZ.isReal {h : RBTree} {ctx : List Frame} {t : T} (hz : RepZ h ctx t) {a : Ptr}
    (ha : a ∈ t.addrs ++ ctxAddrs ctx) : real h a := by
  refine ⟨(hz.bound a ha).1, ?_⟩
  rw [(rep_plug.1 hz).nodes_eq]
  have hp := addrs_plug_perm ctx [] t
  simp only [List.append_nil, ctxAddrs_nil] at hp
  exact hp.mem_iff.1 ha

theorem RepZ.isReal_focus {h : RBTree} {ctx : List Frame} {a c l k v r}
    (hz : RepZ h ctx (T.nd a c l k v r)) : real h a :=
  hz.isReal (by simp)

theorem RepZ.depth_focus {h : RBTree} {ctx : List Frame} {a c l k v r}
    (hz : RepZ h ctx (T.nd a c l k v r)) : depth h a = ctx.length := by
  have hf := RepZ.fuel hz
  exact depthAux_focus ctx a c l k v r h.next hz (by omega)

theorem insertIterOK_red {h : RBTree} {z : Ptr} (hu : h.color (uncle h z) = Color.R)
    (hb : rbInsertFixupBody h z =
      (((h.setColor (h.parent z) Color.B).setColor (uncle h z) Color.B).setColor
        (h.parent (h.parent z)) Color.R, h.parent (h.parent z), []))
    (hd : depth (rbInsertFixupBody h z).1 (rbInsertFixupBody h z).2.1 + 2 = depth h z) :
    InsertIterOK h z :=
  ⟨fun _ => ⟨hb, hd⟩, fun hn => absurd hu hn⟩

theorem insertIterOK_black {h : RBTree} {z : Ptr} (hu : h.color (uncle h z) ≠ Color.R)
    (hc : (rbInsertFixupBody h z).1.color
      ((rbInsertFixupBody h z).1.parent (rbInsertFixupBody h z).2.1) = Color.B)
    (hl : (rbInsertFixupBody h z).2.2.length ≤ 2) :
    InsertIterOK h z :=
  ⟨fun hr => absurd hr hu, fun _ => ⟨hc, hl⟩⟩

theorem rbInsertFixupBody_spec {h : RBTree} {z : Ptr} {d : Nat} (hi : InsInv h z d)
    (hred : h.color (h.parent z) = Color.R) :
    (Event.insertIter h z).safe ∧ (∀ e ∈ (rbInsertFixupBody h z).2.2, e.safe) ∧
    InsertIterOK h z ∧ (rbInsertFixupBody h z).1.next = h.next ∧
    ((h.color (uncle h z) = Color.R ∧ ∃ d2, d2 + 2 = d ∧
        InsInv (rbInsertFixupBody h z).1 (rbInsertFixupBody h z).2.1 d2) ∨
      h.color (uncle h z) ≠ Color.R) := by
  obtain ⟨ctx, k, v, l, r, n, hd, hz, hb, hci⟩ := hi
  have hpz : h.parent z = ctxAddr ctx := by simp [parent, hz.mem_focus]
  cases hci with
  | root =>
    have : h.color (h.parent z) = Color.B := by rw [hpz]; exact hz.sent.1
    rw [this] at hred; cases hred
  | ok hc =>
    have : h.color (h.parent z) = Color.B := by
      rw [hpz]
      cases hc with
      | blackL _ _ => simp [color, hz.topL]
      | blackR _ _ => simp [color, hz.topR]
    rw [this] at hred; cases hred
  | @redL p kp vp s ctx1 _ hs hc =>
    have hrp : h.right p = s.addr := by simp [right, hz.topL]
    have hzs : z ≠ s.addr := hz.focus_ne_sibL
    cases hc with
    | @blackL g kg vg u ctx2 _ cu _ hu hc2 =>
      have hz1 := repZ_L.1 hz
      have hz2 := repZ_L.1 hz1
      have hpp : h.parent p = g := by simp [parent, hz1.mem_focus]
      have hlg : h.left g = p := by simp [left, hz2.mem_focus]
      have hrg : h.right g = u.addr := by simp [right, hz2.mem_focus]
      have hcu : h.color u.addr = cu := (own_color hz2.own.2.2 hz.sent.1).trans hu.col_eq
      have hunc : uncle h z = u.addr := by
        simp only [uncle, hpz, ctxAddr_L, hpp, hlg, if_true, hrg]
      have hsafe : (Event.insertIter h z).safe :=
        ⟨hz.isReal_focus, by rw [hpz]; exact hz1.isReal_focus,
          by rw [hpz, ctxAddr_L, hpp]; exact hz2.isReal_focus⟩
      cases cu with
      | R =>
        cases hu with
        | @red y ul ku vu ur _ hul hur =>
        simp only [T.addr_nd] at hrg hcu hunc
        have hbody : rbInsertFixupBody h z =
            (((h.setColor p Color.B).setColor y Color.B).setColor g Color.R, g, []) := by
          simp only [rbInsertFixupBody, hpz, ctxAddr_L, hpp, hlg, if_true, hrg, hcu, T.addr_nd,
            setColor_parent]
        have hz3 := repZ_L.1 (repZ_setColor Color.B hz1)
        have hz4 := repZ_R.1 (repZ_setColor Color.B (repZ_R.2 hz3))
        have hz5 := repZ_setColor Color.R hz4
        refine ⟨hsafe, (by rw [hbody]; intro e he; cases he), ?_, (by rw [hbody]; rfl),
          Or.inl ⟨(by rw [hunc]; exact hcu), ctx2.length, (by rw [← hd]; rfl), ?_⟩⟩
        · refine insertIterOK_red (by rw [hunc]; exact hcu) ?_ ?_
          · rw [hbody, hunc, hpz, ctxAddr_L, hpp]
          · rw [hbody, hz5.depth_focus, hz.depth_focus]; rfl
        · rw [hbody]
          exact ⟨ctx2, kg, vg, _, _, n + 1, rfl, hz5,
            Bal.red (Bal.black hb hs) (Bal.black hul hur), hc2.toIns⟩
      | B =>
        have hbody : rbInsertFixupBody h z =
            (rightRotate ((h.setColor p Color.B).setColor g Color.R) g, z,
              [Event.rightRotate ((h.setColor p Color.B).setColor g Color.R) g]) := by
          simp only [rbInsertFixupBody, hpz, ctxAddr_L, hpp, hlg, if_true, hrg, hcu,
            reduceCtorEq, if_false, hrp, hzs, setColor_parent, List.nil_append]
        have hz3 := repZ_setColor Color.R (repZ_L.1 (repZ_setColor Color.B hz1))
        obtain ⟨hz4, hm4, hn4⟩ := repZ_rightRotate hz3
        have hz4z := repZ_L.2 hz4
        have hne : h.color (uncle h z) ≠ Color.R := by rw [hunc, hcu]; exact fun e => by cases e
        refine ⟨hsafe, ?_, ?_, (by rw [hbody]; exact hn4), Or.inr hne⟩
        · rw [hbody]
          intro e he
          rcases List.mem_singleton.1 he with rfl
          have hl3 : ((h.setColor p Color.B).setColor g Color.R).left g = p := by
            simp [left, hz3.mem_focus]
          exact ⟨hz3.isReal_focus, by rw [hl3]; exact (repZ_L.2 hz3).isReal_focus⟩
        · refine insertIterOK_black hne ?_ (by rw [hbody]; exact Nat.le_succ 1)
          rw [hbody]
          have : (rightRotate ((h.setColor p Color.B).setColor g Color.R) g).parent z = p := by
            simp [parent, hz4z.mem_focus]
          simp only [this]
          simp [color, hz4.mem_focus]
    | @blackR g u kg vg ctx2 _ cu _ hu hc2 =>
      have hz1 := repZ_L.1 hz
      have hz2 := repZ_R.1 hz1
      have hpp : h.parent p = g := by simp [parent, hz1.mem_focus]
      have hlg : h.left g = u.addr := by simp [left, hz2.mem_focus]
      have hpu : p ≠ u.addr := hz1.focus_ne_sibR
      have hlp : h.left p = z := by simp [left, hz.topL]
      have hcu : h.color u.addr = cu := (own_color hz2.own.2.1 hz.sent.1).trans hu.col_eq
      have hunc : uncle h z = u.addr := by
        simp only [uncle, hpz, ctxAddr_L, hpp, hlg, hpu, if_false]
      have hsafe : (Event.insertIter h z).safe :=
        ⟨hz.isReal_focus, by rw [hpz]; exact hz1.isReal_focus,
          by rw [hpz, ctxAddr_L, hpp]; exact hz2.isReal_focus⟩
      cases cu with
      | R =>
        cases hu with
        | @red y ul ku vu ur _ hul hur =>
        simp only [T.addr_nd] at hlg hcu hunc hpu
        have hbody : rbInsertFixupBody h z =
            (((h.setColor p Color.B).setColor y Color.B).setColor g Color.R, g, []) := by
          simp only [rbInsertFixupBody, hpz, ctxAddr_L, hpp, hlg, hpu, if_false, if_true, hcu,
            setColor_parent]
        have hz3 := repZ_R.1 (repZ_setColor Color.B hz1)
        have hz4 := repZ_L.1 (repZ_setColor Color.B (repZ_L.2 hz3))
        have hz5 := repZ_setColor Color.R hz4
        refine ⟨hsafe, (by rw [hbody]; intro e he; cases he), ?_, (by rw [hbody]; rfl),
          Or.inl ⟨(by rw [hunc]; exact hcu), ctx2.length, (by rw [← hd]; rfl), ?_⟩⟩
        · refine insertIterOK_red (by rw [hunc]; exact hcu) ?_ ?_
          · rw [hbody, hunc, hpz, ctxAddr_L, hpp]
          · rw [hbody, hz5.depth_focus, hz.depth_focus]; rfl
        · rw [hbody]
          exact ⟨ctx2, kg, vg, _, _, n + 1, rfl, hz5,
            Bal.red (Bal.black hul hur) (Bal.black hb hs), hc2.toIns⟩
      | B =>
        obtain ⟨hr1, hm1, hn1⟩ := repZ_rightRotate hz1
        have hpp1 : (h.rightRotate p).parent p = z := by
          simp [parent, (repZ_R.2 hr1).mem_focus]
        have hpz1 : (h.rightRotate p).parent z = g := by
          simp [parent, hr1.mem_focus]
        have hbody : rbInsertFixupBody h z =
            (leftRotate (((h.rightRotate p).setColor z Color.B).setColor g Color.R) g, p,
              [Event.rightRotate h p,
                Event.leftRotate (((h.rightRotate p).setColor z Color.B).setColor g Color.R) g]) := by
          simp only [rbInsertFixupBody, hpz, ctxAddr_L, hpp, hlg, hpu, if_false, hcu,
            reduceCtorEq, hlp, if_true, setColor_parent, hpp1, hpz1, List.singleton_append]
        have hz3 := repZ_setColor Color.R (repZ_R.1 (repZ_setColor Color.B hr1))
        obtain ⟨hz4, hm4, hn4⟩ := repZ_leftRotate hz3
        have hz4p := repZ_R.2 hz4
        have hne : h.color (uncle h z) ≠ Color.R := by rw [hunc, hcu]; exact fun e => by cases e
        refine ⟨hsafe, ?_, ?_, (by rw [hbody]; exact hn4.trans hn1), Or.inr hne⟩
        · rw [hbody]
          intro e he
          have hr3 : (((h.rightRotate p).setColor z Color.B).setColor g Color.R).right g = z := by
            simp [right, hz3.mem_focus]
          simp only [List.mem_cons, List.mem_singleton, List.not_mem_nil, or_false] at he
          rcases he with rfl | rfl
          · exact ⟨hz1.isReal_focus, by rw [hlp]; exact hz.isReal_focus⟩
          · exact ⟨hz3.isReal_focus, by rw [hr3]; exact (repZ_R.2 hz3).isReal_focus⟩
        · refine insertIterOK_black hne ?_ (by rw [hbody]; exact Nat.le_refl 2)
          rw [hbody]
          have hpar : (leftRotate (((h.rightRotate p).setColor z Color.B).setColor g Color.R) g).parent p
              = z := by
            simp [parent, hz4p.mem_focus]
          simp only [hpar]
          simp [color, hz4.mem_focus]
  | @redR p s kp vp ctx1 _ hs hc =>
    have hlp : h.left p = s.addr := by simp [left, hz.topR]
    have hrp : h.right p = z := by simp [right, hz.topR]
    have hzs : z ≠ s.addr := hz.focus_ne_sibR
    cases hc with
    | @blackL g kg vg u ctx2 _ cu _ hu hc2 =>
      have hz1 := repZ_R.1 hz
      have hz2 := repZ_L.1 hz1
      have hpp : h.parent p = g := by simp [parent, hz1.mem_focus]
      have hlg : h.left g = p := by simp [left, hz2.mem_focus]
      have hrg : h.right g = u.addr := by simp [right, hz2.mem_focus]
      have hcu : h.color u.addr = cu := (own_color hz2.own.2.2 hz.sent.1).trans hu.col_eq
      have hunc : uncle h z = u.addr := by
        simp only [uncle, hpz, ctxAddr_R, hpp, hlg, if_true, hrg]
      have hsafe : (Event.insertIter h z).safe :=
        ⟨hz.isReal_focus, by rw [hpz]; exact hz1.isReal_focus,
          by rw [hpz, ctxAddr_R, hpp]; exact hz2.isReal_focus⟩
      cases cu with
      | R =>
        cases hu with
        | @red y ul ku vu ur _ hul hur =>
        simp only [T.addr_nd] at hrg hcu hunc
        have hbody : rbInsertFixupBody h z =
            (((h.setColor p Color.B).setColor y Color.B).setColor g Color.R, g, []) := by
          simp only [rbInsertFixupBody, hpz, ctxAddr_R, hpp, hlg, if_true, hrg, hcu,
            setColor_parent]
        have hz3 := repZ_L.1 (repZ_setColor Color.B hz1)
        have hz4 := repZ_R.1 (repZ_setColor Color.B (repZ_R.2 hz3))
        have hz5 := repZ_setColor Color.R hz4
        refine ⟨hsafe, (by rw [hbody]; intro e he; cases he), ?_, (by rw [hbody]; rfl),
          Or.inl ⟨(by rw [hunc]; exact hcu), ctx2.length, (by rw [← hd]; rfl), ?_⟩⟩
        · refine insertIterOK_red (by rw [hunc]; exact hcu) ?_ ?_
          · rw [hbody, hunc, hpz, ctxAddr_R, hpp]
          · rw [hbody, hz5.depth_focus, hz.depth_focus]; rfl
        · rw [hbody]
          exact ⟨ctx2, kg, vg, _, _, n + 1, rfl, hz5,
            Bal.red (Bal.black hs hb) (Bal.black hul hur), hc2.toIns⟩
      | B =>
        obtain ⟨hr1, hm1, hn1⟩ := repZ_leftRotate hz1
        have hpp1 : (h.leftRotate p).parent p = z := by
          simp [parent, (repZ_L.2 hr1).mem_focus]
        have hpz1 : (h.leftRotate p).parent z = g := by
          simp [parent, hr1.mem_focus]
        have hbody : rbInsertFixupBody h z =
            (rightRotate (((h.leftRotate p).setColor z Color.B).setColor g Color.R) g, p,
              [Event.leftRotate h p,
                Event.rightRotate (((h.leftRotate p).setColor z Color.B).setColor g Color.R) g]) := by
          simp only [rbInsertFixupBody, hpz, ctxAddr_R, hpp, hlg, if_true, hrg, hcu,
            reduceCtorEq, if_false, hrp, setColor_parent, hpp1, hpz1, List.singleton_append]
        have hz3 := repZ_setColor Color.R (repZ_L.1 (repZ_setColor Color.B hr1))
        obtain ⟨hz4, hm4, hn4⟩ := repZ_rightRotate hz3
        have hz4p := repZ_L.2 hz4
        have hne : h.color (uncle h z) ≠ Color.R := by rw [hunc, hcu]; exact fun e => by cases e
        refine ⟨hsafe, ?_, ?_, (by rw [hbody]; exact hn4.trans hn1), Or.inr hne⟩
        · rw [hbody]
          intro e he
          have hl3 : (((h.leftRotate p).setColor z Color.B).setColor g Color.R).left g = z := by
            simp [left, hz3.mem_focus]
          simp only [List.mem_cons, List.mem_singleton, List.not_mem_nil, or_false] at he
          rcases he with rfl | rfl
          · exact ⟨hz1.isReal_focus, by rw [hrp]; exact hz.isReal_focus⟩
          · exact ⟨hz3.isReal_focus, by rw [hl3]; exact (repZ_L.2 hz3).isReal_focus⟩
        · refine insertIterOK_black hne ?_ (by rw [hbody]; exact Nat.le_refl 2)
          rw [hbody]
          have hpar : (rightRotate (((h.leftRotate p).setColor z Color.B).setColor g Color.R) g).parent p
              = z := by
            simp [parent, hz4p.mem_focus]
          simp only [hpar]
          simp [color, hz4.mem_focus]
    | @blackR g u kg vg ctx2 _ cu _ hu hc2 =>
      have hz1 := repZ_R.1 hz
      have hz2 := repZ_R.1 hz1
      have hpp : h.parent p = g := by simp [parent, hz1.mem_focus]
      have hlg : h.left g = u.addr := by simp [left, hz2.mem_focus]
      have hpu : p ≠ u.addr := hz1.focus_ne_sibR
      have hcu : h.color u.addr = cu := (own_color hz2.own.2.1 hz.sent.1).trans hu.col_eq
      have hunc : uncle h z = u.addr := by
        simp only [uncle, hpz, ctxAddr_R, hpp, hlg, hpu, if_false]
      have hsafe : (Event.insertIter h z).safe :=
        ⟨hz.isReal_focus, by rw [hpz]; exact hz1.isReal_focus,
          by rw [hpz, ctxAddr_R, hpp]; exact hz2.isReal_focus⟩
      cases cu with
      | R =>
        cases hu with
        | @red y ul ku vu ur _ hul hur =>
        simp only [T.addr_nd] at hlg hcu hunc hpu
        have hbody : rbInsertFixupBody h z =
            (((h.setColor p Color.B).setColor y Color.B).setColor g Color.R, g, []) := by
          simp only [rbInsertFixupBody, hpz, ctxAddr_R, hpp, hlg, hpu, if_false, if_true, hcu,
            setColor_parent]
        have hz3 := repZ_R.1 (repZ_setColor Color.B hz1)
        have hz4 := repZ_L.1 (repZ_setColor Color.B (repZ_L.2 hz3))
        have hz5 := repZ_setColor Color.R hz4
        refine ⟨hsafe, (by rw [hbody]; intro e he; cases he), ?_, (by rw [hbody]; rfl),
          Or.inl ⟨(by rw [hunc]; exact hcu), ctx2.length, (by rw [← hd]; rfl), ?_⟩⟩
        · refine insertIterOK_red (by rw [hunc]; exact hcu) ?_ ?_
          · rw [hbody, hunc, hpz, ctxAddr_R, hpp]
          · rw [hbody, hz5.depth_focus, hz.depth_focus]; rfl
        · rw [hbody]
          exact ⟨ctx2, kg, vg, _, _, n + 1, rfl, hz5,
            Bal.red (Bal.black hul hur) (Bal.black hs hb), hc2.toIns⟩
      | B =>
        have hbody : rbInsertFixupBody h z =
            (leftRotate ((h.setColor p Color.B).setColor g Color.R) g, z,
              [Event.leftRotate ((h.setColor p Color.B).setColor g Color.R) g]) := by
          simp only [rbInsertFixupBody, hpz, ctxAddr_R, hpp, hlg, hpu, if_false, hcu,
            reduceCtorEq, hlp, hzs, setColor_parent, List.nil_append]
        have hz3 := repZ_setColor Color.R (repZ_R.1 (repZ_setColor Color.B hz1))
        obtain ⟨hz4, hm4, hn4⟩ := repZ_leftRotate hz3
        have hz4z := repZ_R.2 hz4
        have hne : h.color (uncle h z) ≠ Color.R := by rw [hunc, hcu]; exact fun e => by cases e
        refine ⟨hsafe, ?_, ?_, (by rw [hbody]; exact hn4), Or.inr hne⟩
        · rw [hbody]
          intro e he
          rcases List.mem_singleton.1 he with rfl
          have hr3 : ((h.setColor p Color.B).setColor g Color.R).right g = p := by
            simp [right, hz3.mem_focus]
          exact ⟨hz3.isReal_focus, by rw [hr3]; exact (repZ_R.2 hz3).isReal_focus⟩
        · refine insertIterOK_black hne ?_ (by rw [hbody]; exact Nat.le_succ 1)
          rw [hbody]
          have : (leftRotate ((h.setColor p Color.B).setColor g Color.R) g).parent z = p := by
            simp [parent, hz4z.mem_focus]
          simp only [this]
          simp [color, hz4.mem_focus]

/-! ## The record of `rbInsertFixup` -/

theorem InsInv.two_le {h : RBTree} {z : Ptr} {d : Nat} (hi : InsInv h z d)
    (hred : h.color (h.parent z) = Color.R) : 2 ≤ d := by
  obtain ⟨ctx, k, v, l, r, n, hd, hz, hb, hci⟩ := hi
  have hpz : h.parent z = ctxAddr ctx := by simp [parent, hz.mem_focus]
  cases hci with
  | root =>
    have : h.color (h.parent z) = Color.B := by rw [hpz]; exact hz.sent.1
    rw [this] at hred; cases hred
  | ok hc =>
    have : h.color (h.parent z) = Color.B := by
      rw [hpz]
      cases hc with
      | blackL _ _ => simp [color, hz.topL]
      | blackR _ _ => simp [color, hz.topR]
    rw [this] at hred; cases hred
  | redL _ hc =>
    cases hc with
    | blackL _ _ => rw [← hd]; simp
    | blackR _ _ => rw [← hd]; simp
  | redR _ hc =>
    cases hc with
    | blackL _ _ => rw [← hd]; simp
    | blackR _ _ => rw [← hd]; simp

theorem rbInsertFixupBody_rot (t : RBTree) (z : Ptr) :
    ∀ e ∈ (rbInsertFixupBody t z).2.2, e.isRotation = true := by
  rw [rbInsertFixupBody]
  by_cases h2 : t.parent z = t.left (t.parent (t.parent z))
  · rw [if_pos h2]
    by_cases h3 : t.color (t.right (t.parent (t.parent z))) = Color.R
    · simp only [h3, if_true]; intro e he; cases he
    · simp only [h3, if_false]
      by_cases h4 : z = t.right (t.parent z)
      · simp only [← h4, if_true]
        intro e he
        simp only [List.singleton_append, List.mem_cons, List.mem_singleton, List.not_mem_nil,
          or_false] at he
        rcases he with rfl | rfl <;> rfl
      · simp only [h4, if_false]
        intro e he
        simp only [List.nil_append, List.mem_singleton] at he
        rw [he]; rfl
  · rw [if_neg h2]
    by_cases h3 : t.color (t.left (t.parent (t.parent z))) = Color.R
    · simp only [h3, if_true]; intro e he; cases he
    · simp only [h3, if_false]
      by_cases h4 : z = t.left (t.parent z)
      · simp only [← h4, if_true]
        intro e he
        simp only [List.singleton_append, List.mem_cons, List.mem_singleton, List.not_mem_nil,
          or_false] at he
        rcases he with rfl | rfl <;> rfl
      · simp only [h4, if_false]
        intro e he
        simp only [List.nil_append, List.mem_singleton] at he
        rw [he]; rfl

/-- The loop of `rbInsertFixup` from a state of the loop: with fuel above
the depth of `z` it returns; what it records is safe, holds at most two
rotations, and every iteration is as `InsertIterOK` says. -/
theorem insertFixupLoopLog_spec : ∀ (fuel : Nat) (h : RBTree) (z : Ptr) (d : Nat),
    d < fuel → InsInv h z d →
    ∃ h' es, rbInsertFixupLoopLog fuel h z = some (h', es) ∧ (∀ e ∈ es, e.safe) ∧
      (es.filter Event.isRotation).length ≤ 2 ∧
      (∀ t z', Event.insertIter t z' ∈ es → InsertIterOK t z') := by
  intro fuel
  induction fuel with
  | zero => intro h z d hf; exact absurd hf (Nat.not_lt_zero _)
  | succ f ih =>
    intro h z d hf hi
    rw [rbInsertFixupLoopLog]
    by_cases hred : h.color (h.parent z) = Color.R
    · rw [if_pos hred]
      have h2 := hi.two_le hred
      obtain ⟨s1, s2, s3, -, s5⟩ := rbInsertFixupBody_spec hi hred
      rcases s5 with ⟨hu, d2, hd2, hi2⟩ | hu
      · obtain ⟨h', es, e, q1, q2, q3⟩ := ih _ _ d2 (by omega) hi2
        have hnil : (rbInsertFixupBody h z).2.2 = [] := by rw [(s3.1 hu).1]
        refine ⟨h', _, by rw [e]; rfl, ?_, ?_, ?_⟩
        · intro e1 he1
          rw [hnil, List.nil_append] at he1
          rcases List.mem_cons.1 he1 with rfl | he1
          · exact s1
          · exact q1 e1 he1
        · rw [hnil, List.nil_append]
          simpa [List.filter_cons, Event.isRotation] using q2
        · intro t z' hm
          rw [hnil, List.nil_append] at hm
          rcases List.mem_cons.1 hm with e1 | hm
          · cases e1; exact s3
          · exact q3 t z' hm
      · obtain ⟨f', rfl⟩ : ∃ f', f = f' + 1 := ⟨f - 1, by omega⟩
        have hex : rbInsertFixupLoopLog (f' + 1) (rbInsertFixupBody h z).1
            (rbInsertFixupBody h z).2.1 = some ((rbInsertFixupBody h z).1, []) := by
          rw [rbInsertFixupLoopLog, (s3.2 hu).1]
          simp
        refine ⟨_, _, by rw [hex]; rfl, ?_, ?_, ?_⟩
        · intro e1 he1
          rw [List.append_nil] at he1
          rcases List.mem_cons.1 he1 with rfl | he1
          · exact s1
          · exact s2 e1 he1
        · rw [List.append_nil]
          refine Nat.le_trans ?_ (s3.2 hu).2
          simpa [List.filter_cons, Event.isRotation] using List.length_filter_le _ _
        · intro t z' hm
          rw [List.append_nil] at hm
          rcases List.mem_cons.1 hm with e1 | hm
          · cases e1; exact s3
          · exact absurd (rbInsertFixupBody_rot h z _ hm) (by simp [Event.isRotation])
    · rw [if_neg hred]
      exact ⟨h, [], rfl, by simp, by simp, by simp⟩

/-- The state in which `rbInsert` calls `rbInsertFixup`: the new node is a
red leaf at the end of the descent. -/
theorem rbInsertAttach_spec {h : RBTree} {t : T} {n : Nat} (k v : String) (hr : Rep h t)
    (hb : Bal t Color.B n) :
    ∃ h1, rbInsertAttach (h.newNode k v) h.next = some h1 ∧
      RepZ h1 (descend k t []) (T.nd h.next Color.R T.lf k v T.lf) ∧
      CIns (descend k t []) 0 ∧ h1.next = h.next + 1 := by
  have hz0 : RepZ (h.newNode k v) [] t := repZ_newNode k v hr
  have hk0 : (h.newNode k v).key h.next = k := by simp [key, newNode]
  have hv0 : (h.newNode k v).value h.next = v := by simp [value, newNode]
  have hfu := RepZ.fuel hr
  have hhs := t.height_le_size
  obtain ⟨ed, hzd⟩ := descend_spec hk0 t [] (h.newNode k v).next
    (by simp only [newNode, List.length_nil] at hfu ⊢; omega) hz0
  have hzd0 : RepZ h (descend k t []) T.lf := by
    refine rep_plug.2 ?_
    rw [plug_descend]; exact hr
  have hzc : h.next ∉ ctxAddrs (descend k t []) := fun hm =>
    Nat.lt_irrefl _ (hzd0.bound _ (by simp [hm])).2
  obtain ⟨t2, e2, hz5, hn5⟩ := attach_spec (z := h.next) hzd (Nat.ne_of_gt hr.alloc) hzc
    (by simp [newNode]) hk0 hv0 (topOK_descend k t [] trivial)
  have hci : CIns (descend k t []) 0 := by
    have hb' : Bal (plug (descend k t []) T.lf) Color.B n := by rw [plug_descend]; exact hb
    obtain ⟨c, n0, hlf, hcb⟩ := Bal.unplug _ hb'
    cases hlf
    exact hcb.toIns
  refine ⟨_, ?_, hz5, hci, by rw [hn5]; rfl⟩
  rw [rbInsertAttach, hz0.root]
  simp only [plug_nil]
  have ed' : rbInsertDescend (h.newNode k v) h.next (h.newNode k v).next nil t.addr =
      some (ctxAddr (descend k t [])) := ed
  rw [ed', Option.some_bind, e2]

/-- `rbInsert` on a valid tree, with the record of its fixup: it returns the
state `rbInsert` returns; what it records is safe, holds at most two
rotations, and every iteration is as `InsertIterOK` says. -/
theorem rbInsertLog_spec {h : RBTree} (k v : String) (hv : Valid h) :
    ∃ h' es, rbInsertLog h k v = some (h', es) ∧ rbInsert h k v = some h' ∧
      (∀ e ∈ es, e.safe) ∧ (es.filter Event.isRotation).length ≤ 2 ∧
      (∀ t z, Event.insertIter t z ∈ es → InsertIterOK t z) := by
  obtain ⟨t, n, hr, -, hb⟩ := valid_iff.1 hv
  obtain ⟨h1, e1, hz1, hci, hn1⟩ := rbInsertAttach_spec k v hr hb
  have hfu := RepZ.fuel hz1
  obtain ⟨h2, es, e2, q1, q2, q3⟩ := insertFixupLoopLog_spec h1.next h1 h.next
    (descend k t []).length (by omega)
    ⟨_, k, v, T.lf, T.lf, 0, rfl, hz1, Bal.red Bal.lf Bal.lf, hci⟩
  have hlog : rbInsertLog h k v = some (h2.setColor h2.root Color.B, es) := by
    rw [rbInsertLog, e1, Option.some_bind, rbInsertFixupLog, e2]; rfl
  refine ⟨_, es, hlog, ?_, q1, q2, q3⟩
  rw [← rbInsertLog_fst, hlog]; rfl

/-! ## One iteration of `rbDeleteFixup` -/

theorem deleteBodyCase4L_safe {h : RBTree} {ctx1 : List Frame} {xt : T}
    {p cp kp vp wa wl kw vw wra a kr vr b}
    (hz : RepZ h (Frame.L p cp kp vp (T.nd wa Color.B wl kw vw (T.nd wra Color.R a kr vr b)) :: ctx1) xt)
    (hpx : h.parent xt.addr = p) :
    ∀ e ∈ (deleteBodyCase4L h xt.addr wa).2.2, e.safe := by
  have hz1 := repZ_L.1 hz
  have hzw := repZ_R.2 hz1
  have hcp : h.color p = cp := by simp [color, hz1.mem_focus]
  have hrw : h.right wa = wra := by simp [right, hzw.mem_focus]
  have h1 := repZ_R.1 (repZ_setColor cp hzw)
  have h2 := repZ_setColor Color.B h1
  have h3 := repZ_R.1 (repZ_R.1 (repZ_setColor Color.B (repZ_R.2 (repZ_R.2 h2))))
  have hr3 : (((h.setColor wa cp).setColor p Color.B).setColor wra Color.B).right p = wa := by
    simp [right, h3.mem_focus]
  simp only [deleteBodyCase4L, hpx, hcp, setColor_parent, setColor_right, hrw]
  intro e he
  rcases List.mem_singleton.1 he with rfl
  exact ⟨h3.isReal_focus, by rw [hr3]; exact (repZ_R.2 h3).isReal_focus⟩

theorem deleteBodyRestL_spec {h : RBTree} {ctx1 : List Frame} {xt : T} {n m : Nat}
    {p cp kp vp wa wl kw vw wr c₁ c₂}
    (hz : RepZ h (Frame.L p cp kp vp (T.nd wa Color.B wl kw vw wr) :: ctx1) xt)
    (hpx : h.parent xt.addr = p) (hx : Bal xt Color.B n) (hwl : Bal wl c₁ n) (hwr : Bal wr c₂ n)
    (hctx : CBal (Frame.L p cp kp vp (T.nd wa Color.B wl kw vw wr) :: ctx1) Color.B (n + 1))
    (hfl : cp = Color.B → ctx1.length ≤ m) :
    (∀ e ∈ (deleteBodyRestL h xt.addr wa).2.2, e.safe) ∧
    ((deleteBodyRestL h xt.addr wa).2.1 = (deleteBodyRestL h xt.addr wa).1.root ∨
      DelInv (deleteBodyRestL h xt.addr wa).1 (deleteBodyRestL h xt.addr wa).2.1 m) := by
  have hz1 := repZ_L.1 hz
  have hzw := repZ_R.2 hz1
  have hlw : h.left wa = wl.addr := by simp [left, hzw.mem_focus]
  have hrw : h.right wa = wr.addr := by simp [right, hzw.mem_focus]
  have hcl : h.color wl.addr = wl.col := own_color hzw.own.2.1 hz.sent.1
  have hcr : h.color wr.addr = wr.col := own_color hzw.own.2.2 hz.sent.1
  have hwan : wa ≠ nil := hzw.focus_ne_nil
  rw [deleteBodyRestL, hlw, hrw, hcl, hcr]
  by_cases hbr : wr.col = Color.B
  · by_cases hbl : wl.col = Color.B
    · -- Case 2
      rw [if_pos ⟨hbl, hbr⟩]
      simp only [setColor_parent, hpx]
      have h1 := repZ_R.1 (repZ_setColor Color.R hzw)
      have hpp : (h.setColor wa Color.R).parent p = ctxAddr ctx1 := by
        simp [parent, h1.mem_focus]
      have hw' : Bal (T.nd wa Color.R wl kw vw wr) Color.R n :=
        Bal.red (hwl.black_of_col hbl) (hwr.black_of_col hbr)
      refine ⟨fun e he => (by cases he), Or.inr ?_⟩
      cases hctx with
      | redL _ hc =>
        exact ⟨ctx1, T.nd p _ xt kp vp (T.nd wa Color.R wl kw vw wr), n, rfl, h1, hpp, hc.toBlack,
          DelFocus.red hx hw', fun hcol => by cases hcol⟩
      | blackL _ hc =>
        exact ⟨ctx1, T.nd p _ xt kp vp (T.nd wa Color.R wl kw vw wr), n + 1, rfl, h1, hpp, hc,
          DelFocus.black (Bal.black hx hw'),
          fun _ => hfl rfl⟩
    · -- Case 3, then Case 4
      rw [if_neg (fun hc => hbl hc.1), if_pos hbr]
      cases hwl with
      | lf => exact absurd rfl hbl
      | black _ _ => exact absurd rfl hbl
      | @red wla a kl vl b _ ha hb =>
        simp only [T.addr_nd, setColor_parent, hpx]
        have h1 := repZ_L.1 (repZ_setColor Color.B (repZ_L.2 hzw))
        have h2 := repZ_setColor Color.R h1
        obtain ⟨h3, hm3, hn3⟩ := repZ_rightRotate h2
        have h3x := repZ_L.2 (repZ_R.1 h3)
        have hwlan : wla ≠ nil := (repZ_L.2 hzw).focus_ne_nil
        have hm : ((h.setColor wla Color.B).setColor wa Color.R).mem nil = h.mem nil := by
          rw [setColor_mem_nil _ _ hwan, setColor_mem_nil _ _ hwlan]
        have hpx3 : (((h.setColor wla Color.B).setColor wa Color.R).rightRotate wa).parent xt.addr = p :=
          parent_keep h3x (hm3.trans hm) hpx rfl
        have hrp3 : (((h.setColor wla Color.B).setColor wa Color.R).rightRotate wa).right p = wla := by
          simp [right, h3x.topL]
        have hl2 : ((h.setColor wla Color.B).setColor wa Color.R).left wa = wla := by
          simp [left, h2.mem_focus]
        rw [hpx3, hrp3]
        refine ⟨?_, Or.inl rfl⟩
        intro e he
        simp only [List.cons_append, List.nil_append, List.mem_cons] at he
        rcases he with rfl | rfl | he
        · exact ⟨h2.isReal_focus, by rw [hl2]; exact (repZ_L.2 h2).isReal_focus⟩
        · exact (repZ_R.2 (repZ_L.1 h3x)).isReal_focus
        · exact deleteBodyCase4L_safe h3x hpx3 e he
  · -- Case 4
    rw [if_neg (fun hc => hbr hc.2), if_neg hbr]
    cases hwr with
    | lf => exact absurd rfl hbr
    | black _ _ => exact absurd rfl hbr
    | @red wra a kr vr b _ ha hb =>
      simp only [List.nil_append]
      exact ⟨deleteBodyCase4L_safe hz hpx, Or.inl rfl⟩

theorem deleteBodyCase4R_safe {h : RBTree} {ctx1 : List Frame} {xt : T}
    {p cp kp vp wa wr kw vw wla a kl vl b}
    (hz : RepZ h (Frame.R p cp (T.nd wa Color.B (T.nd wla Color.R a kl vl b) kw vw wr) kp vp :: ctx1) xt)
    (hpx : h.parent xt.addr = p) :
    ∀ e ∈ (deleteBodyCase4R h xt.addr wa).2.2, e.safe := by
  have hz1 := repZ_R.1 hz
  have hzw := repZ_L.2 hz1
  have hcp : h.color p = cp := by simp [color, hz1.mem_focus]
  have hlw : h.left wa = wla := by simp [left, hzw.mem_focus]
  have h1 := repZ_L.1 (repZ_setColor cp hzw)
  have h2 := repZ_setColor Color.B h1
  have h3 := repZ_L.1 (repZ_L.1 (repZ_setColor Color.B (repZ_L.2 (repZ_L.2 h2))))
  have hl3 : (((h.setColor wa cp).setColor p Color.B).setColor wla Color.B).left p = wa := by
    simp [left, h3.mem_focus]
  simp only [deleteBodyCase4R, hpx, hcp, setColor_parent, setColor_left, hlw]
  intro e he
  rcases List.mem_singleton.1 he with rfl
  exact ⟨h3.isReal_focus, by rw [hl3]; exact (repZ_L.2 h3).isReal_focus⟩

theorem deleteBodyRestR_spec {h : RBTree} {ctx1 : List Frame} {xt : T} {n m : Nat}
    {p cp kp vp wa wl kw vw wr c₁ c₂}
    (hz : RepZ h (Frame.R p cp (T.nd wa Color.B wl kw vw wr) kp vp :: ctx1) xt)
    (hpx : h.parent xt.addr = p) (hx : Bal xt Color.B n) (hwl : Bal wl c₁ n) (hwr : Bal wr c₂ n)
    (hctx : CBal (Frame.R p cp (T.nd wa Color.B wl kw vw wr) kp vp :: ctx1) Color.B (n + 1))
    (hfl : cp = Color.B → ctx1.length ≤ m) :
    (∀ e ∈ (deleteBodyRestR h xt.addr wa).2.2, e.safe) ∧
    ((deleteBodyRestR h xt.addr wa).2.1 = (deleteBodyRestR h xt.addr wa).1.root ∨
      DelInv (deleteBodyRestR h xt.addr wa).1 (deleteBodyRestR h xt.addr wa).2.1 m) := by
  have hz1 := repZ_R.1 hz
  have hzw := repZ_L.2 hz1
  have hlw : h.left wa = wl.addr := by simp [left, hzw.mem_focus]
  have hrw : h.right wa = wr.addr := by simp [right, hzw.mem_focus]
  have hcl : h.color wl.addr = wl.col := own_color hzw.own.2.1 hz.sent.1
  have hcr : h.color wr.addr = wr.col := own_color hzw.own.2.2 hz.sent.1
  have hwan : wa ≠ nil := hzw.focus_ne_nil
  rw [deleteBodyRestR, hlw, hrw, hcl, hcr]
  by_cases hbl : wl.col = Color.B
  · by_cases hbr : wr.col = Color.B
    · -- Case 2
      rw [if_pos ⟨hbr, hbl⟩]
      simp only [setColor_parent, hpx]
      have h1 := repZ_L.1 (repZ_setColor Color.R hzw)
      have hpp : (h.setColor wa Color.R).parent p = ctxAddr ctx1 := by
        simp [parent, h1.mem_focus]
      have hw' : Bal (T.nd wa Color.R wl kw vw wr) Color.R n :=
        Bal.red (hwl.black_of_col hbl) (hwr.black_of_col hbr)
      refine ⟨fun e he => (by cases he), Or.inr ?_⟩
      cases hctx with
      | redR _ hc =>
        exact ⟨ctx1, T.nd p _ (T.nd wa Color.R wl kw vw wr) kp vp xt, n, rfl, h1, hpp, hc.toBlack,
          DelFocus.red hw' hx, fun hcol => by cases hcol⟩
      | blackR _ hc =>
        exact ⟨ctx1, T.nd p _ (T.nd wa Color.R wl kw vw wr) kp vp xt, n + 1, rfl, h1, hpp, hc,
          DelFocus.black (Bal.black hw' hx), fun _ => hfl rfl⟩
    · -- Case 3, then Case 4
      rw [if_neg (fun hc => hbr hc.1), if_pos hbl]
      cases hwr with
      | lf => exact absurd rfl hbr
      | black _ _ => exact absurd rfl hbr
      | @red wra a kr vr b _ ha hb =>
        simp only [T.addr_nd, setColor_parent, hpx]
        have h1 := repZ_R.1 (repZ_setColor Color.B (repZ_R.2 hzw))
        have h2 := repZ_setColor Color.R h1
        obtain ⟨h3, hm3, hn3⟩ := repZ_leftRotate h2
        have h3x := repZ_R.2 (repZ_L.1 h3)
        have hwran : wra ≠ nil := (repZ_R.2 hzw).focus_ne_nil
        have hm : ((h.setColor wra Color.B).setColor wa Color.R).mem nil = h.mem nil := by
          rw [setColor_mem_nil _ _ hwan, setColor_mem_nil _ _ hwran]
        have hpx3 : (((h.setColor wra Color.B).setColor wa Color.R).leftRotate wa).parent xt.addr = p :=
          parent_keep h3x (hm3.trans hm) hpx rfl
        have hlp3 : (((h.setColor wra Color.B).setColor wa Color.R).leftRotate wa).left p = wra := by
          simp [left, h3x.topR]
        have hr2 : ((h.setColor wra Color.B).setColor wa Color.R).right wa = wra := by
          simp [right, h2.mem_focus]
        rw [hpx3, hlp3]
        refine ⟨?_, Or.inl rfl⟩
        intro e he
        simp only [List.cons_append, List.nil_append, List.mem_cons] at he
        rcases he with rfl | rfl | he
        · exact ⟨h2.isReal_focus, by rw [hr2]; exact (repZ_R.2 h2).isReal_focus⟩
        · exact (repZ_L.2 (repZ_R.1 h3x)).isReal_focus
        · exact deleteBodyCase4R_safe h3x hpx3 e he
  · -- Case 4
    rw [if_neg (fun hc => hbl hc.2), if_neg hbl]
    cases hwl with
    | lf => exact absurd rfl hbl
    | black _ _ => exact absurd rfl hbl
    | @red wla a kl vl b _ ha hb =>
      simp only [List.nil_append]
      exact ⟨deleteBodyCase4R_safe hz hpx, Or.inl rfl⟩

/-- An iteration of the loop of `rbDeleteFixup` from a state of the loop in
which the loop test holds: what it records is safe, and it ends at the root
or in a state of the loop one level up. -/
theorem rbDeleteFixupBody_spec {h : RBTree} {x : Ptr} {m : Nat} (hi : DelInv h x m)
    (ht : x ≠ h.root ∧ h.color x = Color.B) :
    (Event.deleteIter h x).safe ∧ (∀ e ∈ (rbDeleteFixupBody h x).2.2, e.safe) ∧ 1 ≤ m ∧
    ((rbDeleteFixupBody h x).2.1 = (rbDeleteFixupBody h x).1.root ∨
      DelInv (rbDeleteFixupBody h x).1 (rbDeleteFixupBody h x).2.1 (m - 1)) := by
  obtain ⟨ctx, xt, n, rfl, hz, hpx, hctx, hfoc, hfl⟩ := hi
  cases ctx with
  | nil =>
    have hroot : h.root = xt.addr := hz.root
    exact absurd hroot.symm ht.1
  | cons F ctx1 =>
    have hcol : h.color xt.addr = xt.col := own_color hz.own hz.sent.1
    cases hfoc with
    | @red a l k v r c₁ c₂ _ hl hr =>
      rw [hcol] at ht; exact absurd ht.2 (by simp [T.col])
    | black hb =>
      have hlen := hfl hb.col_eq
      simp only [List.length_cons] at hlen
      cases F with
      | L p cp kp vp w =>
        have hlp : h.left p = xt.addr := by simp [left, hz.topL]
        have hrp : h.right p = w.addr := by simp [right, hz.topL]
        simp only [ctxAddr_L] at hpx
        have hz1 := repZ_L.1 hz
        have hzw := repZ_R.2 hz1
        have hcw : h.color w.addr = w.col := own_color hzw.own hz.sent.1
        have hsafe : (Event.deleteIter h xt.addr).safe := by
          show real h (h.parent xt.addr)
          rw [hpx]; exact hz1.isReal_focus
        refine ⟨hsafe, ?_⟩
        cases hctx with
        | redL hw hc =>
          cases hw with
          | @black wa wl kw vw wr c₁ c₂ _ hwl hwr =>
            simp only [T.addr_nd, T.col] at hrp hcw
            have hbody : rbDeleteFixupBody h xt.addr =
                ((deleteBodyRestL h xt.addr wa).1, (deleteBodyRestL h xt.addr wa).2.1,
                  Event.sibling h wa :: (deleteBodyRestL h xt.addr wa).2.2) := by
              simp only [rbDeleteFixupBody, hpx, hlp, if_true, hrp, hcw, T.col, reduceCtorEq,
                if_false, T.addr_nd, List.nil_append]
            obtain ⟨s1, s2⟩ := deleteBodyRestL_spec (m := m - 1) hz hpx hb hwl hwr
              (CBal.redL (Bal.black hwl hwr) hc) (fun hc' => by cases hc')
            rw [hbody]
            refine ⟨?_, by omega, s2⟩
            intro e he
            rcases List.mem_cons.1 he with rfl | he
            · exact hzw.isReal_focus
            · exact s1 e he
        | blackL hw hc =>
          cases hw with
          | @black wa wl kw vw wr c₁ c₂ _ hwl hwr =>
            simp only [T.addr_nd, T.col] at hrp hcw
            have hbody : rbDeleteFixupBody h xt.addr =
                ((deleteBodyRestL h xt.addr wa).1, (deleteBodyRestL h xt.addr wa).2.1,
                  Event.sibling h wa :: (deleteBodyRestL h xt.addr wa).2.2) := by
              simp only [rbDeleteFixupBody, hpx, hlp, if_true, hrp, hcw, T.col, reduceCtorEq,
                if_false, T.addr_nd, List.nil_append]
            obtain ⟨s1, s2⟩ := deleteBodyRestL_spec (m := m - 1) hz hpx hb hwl hwr
              (CBal.blackL (Bal.black hwl hwr) hc) (fun _ => by omega)
            rw [hbody]
            refine ⟨?_, by omega, s2⟩
            intro e he
            rcases List.mem_cons.1 he with rfl | he
            · exact hzw.isReal_focus
            · exact s1 e he
          | @red wa wl kw vw wr _ hwl hwr =>
            simp only [T.addr_nd, T.col] at hrp hcw
            have h1 := repZ_setColor Color.R (repZ_R.1 (repZ_setColor Color.B hzw))
            obtain ⟨h3, hm3, hn3⟩ := repZ_leftRotate h1
            have h3x := repZ_L.2 (repZ_L.2 h3)
            have hwan : wa ≠ nil := hzw.focus_ne_nil
            have hpn : p ≠ nil := hz1.focus_ne_nil
            have hm : ((h.setColor wa Color.B).setColor p Color.R).mem nil = h.mem nil := by
              rw [setColor_mem_nil _ _ hpn, setColor_mem_nil _ _ hwan]
            have hpx3 : (((h.setColor wa Color.B).setColor p Color.R).leftRotate p).parent xt.addr = p :=
              parent_keep h3x (hm3.trans hm) hpx rfl
            have hr1 : ((h.setColor wa Color.B).setColor p Color.R).right p = wa := by
              simp [right, h1.mem_focus]
            cases hwl with
            | @black wla a kl vl b c₁ c₂ _ ha hb' =>
              have hrp3 : (((h.setColor wa Color.B).setColor p Color.R).leftRotate p).right p = wla := by
                simp [right, h3x.topL]
              have hbody : rbDeleteFixupBody h xt.addr =
                  ((deleteBodyRestL (((h.setColor wa Color.B).setColor p Color.R).leftRotate p)
                      xt.addr wla).1,
                    (deleteBodyRestL (((h.setColor wa Color.B).setColor p Color.R).leftRotate p)
                      xt.addr wla).2.1,
                    Event.sibling h wa ::
                      Event.leftRotate ((h.setColor wa Color.B).setColor p Color.R) p ::
                      Event.sibling (((h.setColor wa Color.B).setColor p Color.R).leftRotate p) wla ::
                      (deleteBodyRestL (((h.setColor wa Color.B).setColor p Color.R).leftRotate p)
                        xt.addr wla).2.2) := by
                simp only [rbDeleteFixupBody, hpx, hlp, if_true, hrp, hcw, T.col, T.addr_nd,
                  setColor_parent, hpx3, hrp3, List.cons_append, List.nil_append]
              obtain ⟨s1, s2⟩ := deleteBodyRestL_spec (m := m - 1) h3x hpx3 hb ha hb'
                (CBal.redL (Bal.black ha hb') (CBal.blackL hwr hc)) (fun hc' => by cases hc')
              rw [hbody]
              refine ⟨?_, by omega, s2⟩
              intro e he
              simp only [List.mem_cons] at he
              rcases he with rfl | rfl | rfl | he
              · exact hzw.isReal_focus
              · exact ⟨h1.isReal_focus, by rw [hr1]; exact (repZ_R.2 h1).isReal_focus⟩
              · exact (repZ_R.2 (repZ_L.1 h3x)).isReal_focus
              · exact s1 e he
      | R p cp w kp vp =>
        have hlp : h.left p = w.addr := by simp [left, hz.topR]
        simp only [ctxAddr_R] at hpx
        have hz1 := repZ_R.1 hz
        have hzw := repZ_L.2 hz1
        have hcw : h.color w.addr = w.col := own_color hzw.own hz.sent.1
        have hsafe : (Event.deleteIter h xt.addr).safe := by
          show real h (h.parent xt.addr)
          rw [hpx]; exact hz1.isReal_focus
        refine ⟨hsafe, ?_⟩
        cases hctx with
        | redR hw hc =>
          cases hw with
          | @black wa wl kw vw wr c₁ c₂ _ hwl hwr =>
            have hxw : xt.addr ≠ wa := hz.x_ne_sibR
            simp only [T.addr_nd, T.col] at hlp hcw
            have hbody : rbDeleteFixupBody h xt.addr =
                ((deleteBodyRestR h xt.addr wa).1, (deleteBodyRestR h xt.addr wa).2.1,
                  Event.sibling h wa :: (deleteBodyRestR h xt.addr wa).2.2) := by
              simp only [rbDeleteFixupBody, hpx, hlp, hxw, if_false, hcw, T.col, reduceCtorEq,
                List.nil_append]
            obtain ⟨s1, s2⟩ := deleteBodyRestR_spec (m := m - 1) hz hpx hb hwl hwr
              (CBal.redR (Bal.black hwl hwr) hc) (fun hc' => by cases hc')
            rw [hbody]
            refine ⟨?_, by omega, s2⟩
            intro e he
            rcases List.mem_cons.1 he with rfl | he
            · exact hzw.isReal_focus
            · exact s1 e he
        | blackR hw hc =>
          cases hw with
          | @black wa wl kw vw wr c₁ c₂ _ hwl hwr =>
            have hxw : xt.addr ≠ wa := hz.x_ne_sibR
            simp only [T.addr_nd, T.col] at hlp hcw
            have hbody : rbDeleteFixupBody h xt.addr =
                ((deleteBodyRestR h xt.addr wa).1, (deleteBodyRestR h xt.addr wa).2.1,
                  Event.sibling h wa :: (deleteBodyRestR h xt.addr wa).2.2) := by
              simp only [rbDeleteFixupBody, hpx, hlp, hxw, if_false, hcw, T.col, reduceCtorEq,
                List.nil_append]
            obtain ⟨s1, s2⟩ := deleteBodyRestR_spec (m := m - 1) hz hpx hb hwl hwr
              (CBal.blackR (Bal.black hwl hwr) hc) (fun _ => by omega)
            rw [hbody]
            refine ⟨?_, by omega, s2⟩
            intro e he
            rcases List.mem_cons.1 he with rfl | he
            · exact hzw.isReal_focus
            · exact s1 e he
          | @red wa wl kw vw wr _ hwl hwr =>
            have hxw : xt.addr ≠ wa := hz.x_ne_sibR
            simp only [T.addr_nd, T.col] at hlp hcw
            have h1 := repZ_setColor Color.R (repZ_L.1 (repZ_setColor Color.B hzw))
            obtain ⟨h3, hm3, hn3⟩ := repZ_rightRotate h1
            have h3x := repZ_R.2 (repZ_R.2 h3)
            have hwan : wa ≠ nil := hzw.focus_ne_nil
            have hpn : p ≠ nil := hz1.focus_ne_nil
            have hm : ((h.setColor wa Color.B).setColor p Color.R).mem nil = h.mem nil := by
              rw [setColor_mem_nil _ _ hpn, setColor_mem_nil _ _ hwan]
            have hpx3 : (((h.setColor wa Color.B).setColor p Color.R).rightRotate p).parent xt.addr = p :=
              parent_keep h3x (hm3.trans hm) hpx rfl
            have hl1 : ((h.setColor wa Color.B).setColor p Color.R).left p = wa := by
              simp [left, h1.mem_focus]
            cases hwr with
            | @black wra a kr vr b c₁ c₂ _ ha hb' =>
              have hlp3 : (((h.setColor wa Color.B).setColor p Color.R).rightRotate p).left p = wra := by
                simp [left, h3x.topR]
              have hbody : rbDeleteFixupBody h xt.addr =
                  ((deleteBodyRestR (((h.setColor wa Color.B).setColor p Color.R).rightRotate p)
                      xt.addr wra).1,
                    (deleteBodyRestR (((h.setColor wa Color.B).setColor p Color.R).rightRotate p)
                      xt.addr wra).2.1,
                    Event.sibling h wa ::
                      Event.rightRotate ((h.setColor wa Color.B).setColor p Color.R) p ::
                      Event.sibling (((h.setColor wa Color.B).setColor p Color.R).rightRotate p) wra ::
                      (deleteBodyRestR (((h.setColor wa Color.B).setColor p Color.R).rightRotate p)
                        xt.addr wra).2.2) := by
                simp only [rbDeleteFixupBody, hpx, hlp, hxw, if_false, if_true, hcw, T.col,
                  setColor_parent, hpx3, hlp3, List.cons_append, List.nil_append]
              obtain ⟨s1, s2⟩ := deleteBodyRestR_spec (m := m - 1) h3x hpx3 hb ha hb'
                (CBal.redR (Bal.black ha hb') (CBal.blackR hwl hc)) (fun hc' => by cases hc')
              rw [hbody]
              refine ⟨?_, by omega, s2⟩
              intro e he
              simp only [List.mem_cons] at he
              rcases he with rfl | rfl | rfl | he
              · exact hzw.isReal_focus
              · exact ⟨h1.isReal_focus, by rw [hl1]; exact (repZ_L.2 h1).isReal_focus⟩
              · exact (repZ_L.2 (repZ_R.1 h3x)).isReal_focus
              · exact s1 e he

/-! ## The record of `rbDeleteFixup` -/

theorem deleteBodyCase4L_root (t : RBTree) (x w : Ptr) :
    (deleteBodyCase4L t x w).2.1 = (deleteBodyCase4L t x w).1.root := rfl

theorem deleteBodyCase4R_root (t : RBTree) (x w : Ptr) :
    (deleteBodyCase4R t x w).2.1 = (deleteBodyCase4R t x w).1.root := rfl

theorem deleteBodyRestL_moves (t : RBTree) (x w : Ptr) :
    (deleteBodyRestL t x w).2.1 = (deleteBodyRestL t x w).1.parent x ∨
      (deleteBodyRestL t x w).2.1 = (deleteBodyRestL t x w).1.root := by
  rw [deleteBodyRestL]
  by_cases h1 : t.color (t.left w) = Color.B ∧ t.color (t.right w) = Color.B
  · rw [if_pos h1]; exact Or.inl rfl
  · rw [if_neg h1]; exact Or.inr rfl

theorem deleteBodyRestR_moves (t : RBTree) (x w : Ptr) :
    (deleteBodyRestR t x w).2.1 = (deleteBodyRestR t x w).1.parent x ∨
      (deleteBodyRestR t x w).2.1 = (deleteBodyRestR t x w).1.root := by
  rw [deleteBodyRestR]
  by_cases h1 : t.color (t.right w) = Color.B ∧ t.color (t.left w) = Color.B
  · rw [if_pos h1]; exact Or.inl rfl
  · rw [if_neg h1]; exact Or.inr rfl

/-- Every iteration of the loop of `rbDeleteFixup` moves `x` to its parent
or sets it to the root. -/
theorem rbDeleteFixupBody_moves (t : RBTree) (x : Ptr) :
    (rbDeleteFixupBody t x).2.1 = (rbDeleteFixupBody t x).1.parent x ∨
      (rbDeleteFixupBody t x).2.1 = (rbDeleteFixupBody t x).1.root := by
  rw [rbDeleteFixupBody]
  by_cases h1 : x = t.left (t.parent x)
  · rw [if_pos h1]; exact deleteBodyRestL_moves _ _ _
  · rw [if_neg h1]; exact deleteBodyRestR_moves _ _ _

/-- The loop of `rbDeleteFixup` from a state of the loop: with enough fuel
it returns, and what it records is safe. -/
theorem deleteFixupLoopLog_spec : ∀ (fuel : Nat) (h : RBTree) (x : Ptr) (m : Nat),
    m < fuel → DelInv h x m →
    ∃ r es, rbDeleteFixupLoopLog fuel h x = some (r, es) ∧ ∀ e ∈ es, e.safe := by
  intro fuel
  induction fuel with
  | zero => intro h x m hf; exact absurd hf (Nat.not_lt_zero _)
  | succ f ih =>
    intro h x m hf hi
    rw [rbDeleteFixupLoopLog]
    by_cases ht : x ≠ h.root ∧ h.color x = Color.B
    · rw [if_pos ht]
      obtain ⟨s1, s2, s3, s4⟩ := rbDeleteFixupBody_spec hi ht
      have hrest : ∃ r es, rbDeleteFixupLoopLog f (rbDeleteFixupBody h x).1
          (rbDeleteFixupBody h x).2.1 = some (r, es) ∧ ∀ e ∈ es, e.safe := by
        rcases s4 with hroot | hi2
        · obtain ⟨f', rfl⟩ : ∃ f', f = f' + 1 := ⟨f - 1, by omega⟩
          refine ⟨((rbDeleteFixupBody h x).1, (rbDeleteFixupBody h x).2.1), [], ?_, by simp⟩
          rw [rbDeleteFixupLoopLog, if_neg (fun hc => hc.1 hroot)]
        · exact ih _ _ (m - 1) (by omega) hi2
      obtain ⟨r, es, e, q⟩ := hrest
      refine ⟨r, _, by rw [e]; rfl, ?_⟩
      intro e1 he1
      rcases List.mem_cons.1 he1 with rfl | he1
      · exact s1
      · rcases List.mem_append.1 he1 with he1 | he1
        · exact s2 e1 he1
        · exact q e1 he1
    · rw [if_neg ht]
      exact ⟨(h, x), [], rfl, by simp⟩

/-- `rbDeleteFixup` from a state of its loop: it returns, and what it
records is safe. -/
theorem rbDeleteFixupLog_spec {h : RBTree} {ctx : List Frame} {xt : T} {n : Nat}
    (hz : RepZ h ctx xt) (hpx : h.parent xt.addr = ctxAddr ctx)
    (hctx : CBal ctx Color.B (n + 1)) (hfoc : DelFocus xt n) :
    ∃ h' es, rbDeleteFixupLog h xt.addr = some (h', es) ∧ ∀ e ∈ es, e.safe := by
  have hfu := RepZ.fuel hz
  obtain ⟨r, es, e, q⟩ := deleteFixupLoopLog_spec h.next h xt.addr ctx.length (by omega)
    ⟨ctx, xt, n, rfl, hz, hpx, hctx, hfoc, fun _ => Nat.le_refl _⟩
  exact ⟨_, es, by rw [rbDeleteFixupLog, e]; rfl, q⟩

/-! ## The state in which `rbDelete(Node*)` calls `rbDeleteFixup` -/

theorem rbDeleteSplice_caseA {h : RBTree} {ctx : List Frame} {z c k v r c' m}
    (hz : RepZ h ctx (T.nd z c T.lf k v r)) (hb : Bal (T.nd z c T.lf k v r) c' m)
    (hctx : CBal ctx c' m) :
    ∃ h1, rbDeleteSplice h z = some (h1, r.addr, c) ∧ (c = Color.B → FixupReady h1 r.addr) := by
  have hlz : h.left z = nil := by simp [left, hz.mem_focus]
  have hrz : h.right z = r.addr := by simp [right, hz.mem_focus]
  have hcz : h.color z = c := by simp [color, hz.mem_focus]
  obtain ⟨hz1, hp1, -, hn1⟩ := repZ_transplant (s := r) hz (Or.inr rfl)
  simp only [rbDeleteSplice, hlz, if_true, hrz, hcz]
  refine ⟨_, rfl, ?_⟩
  intro hc
  cases hb with
  | red hl hr => cases hc
  | black hl hr =>
    cases hl
    exact ⟨ctx, r, _, rfl, hz1, hp1, hctx, delFocus_of_bal0 hr⟩

theorem rbDeleteSplice_caseB {h : RBTree} {ctx : List Frame} {z c k v la cl ll kl vl lr c' m}
    (hz : RepZ h ctx (T.nd z c (T.nd la cl ll kl vl lr) k v T.lf))
    (hb : Bal (T.nd z c (T.nd la cl ll kl vl lr) k v T.lf) c' m) (hctx : CBal ctx c' m) :
    ∃ h1, rbDeleteSplice h z = some (h1, la, c) ∧ (c = Color.B → FixupReady h1 la) := by
  have hlz : h.left z = la := by simp [left, hz.mem_focus]
  have hrz : h.right z = nil := by simp [right, hz.mem_focus]
  have hcz : h.color z = c := by simp [color, hz.mem_focus]
  have hla : la ≠ nil := (repZ_L.2 hz).focus_ne_nil
  obtain ⟨hz1, hp1, -, hn1⟩ := repZ_transplant (s := T.nd la cl ll kl vl lr) hz (Or.inl rfl)
  simp only [T.addr_nd] at hp1 hn1
  simp only [rbDeleteSplice, hlz, hla, if_false, hrz, if_true, hcz]
  refine ⟨_, rfl, ?_⟩
  intro hc
  cases hb with
  | red hl hr => cases hc
  | black hl hr =>
    cases hr
    exact ⟨ctx, T.nd la cl ll kl vl lr, _, rfl, hz1, hp1, hctx, delFocus_of_bal0 hl⟩

/-- The two-children case of `rbDelete(Node*)` up to the fixup, once the
maximum `y` of the left subtree is known. -/
theorem rbDeleteSplice_two {h : RBTree} {z y : Ptr} (hl : h.left z ≠ nil) (hr : h.right z ≠ nil)
    (hy : rbTreeMaximum h h.next (h.left z) = some y) (g : RBTree)
    (hg : (if h.parent y = z then h.setParent (h.left y) y
      else ((rbTransplant h y (h.left y)).setLeft y ((rbTransplant h y (h.left y)).left z)).setParent
        (((rbTransplant h y (h.left y)).setLeft y ((rbTransplant h y (h.left y)).left z)).left y) y) = g) :
    rbDeleteSplice h z =
      some ((((rbTransplant g z y).setRight y ((rbTransplant g z y).right z)).setParent
          (((rbTransplant g z y).setRight y ((rbTransplant g z y).right z)).right y) y).setColor y
        ((((rbTransplant g z y).setRight y ((rbTransplant g z y).right z)).setParent
          (((rbTransplant g z y).setRight y ((rbTransplant g z y).right z)).right y) y).color z),
        h.left y, h.color y) := by
  subst hg
  rw [rbDeleteSplice, if_neg hl, if_neg hr, hy, Option.some_bind]

/-- `z` has two children and the maximum `y` of its left subtree is its
left child: `y` takes the place and the colour of `z`. -/
theorem rbDeleteSplice_caseC1 {h : RBTree} {ctx : List Frame}
    {z cz kz vz y cy yl ky vy ra cr rl kr vr rr c' m}
    (hz : RepZ h ctx (T.nd z cz (T.nd y cy yl ky vy T.lf) kz vz (T.nd ra cr rl kr vr rr)))
    (hb : Bal (T.nd z cz (T.nd y cy yl ky vy T.lf) kz vz (T.nd ra cr rl kr vr rr)) c' m)
    (hctx : CBal ctx c' m) :
    ∃ h1, rbDeleteSplice h z = some (h1, yl.addr, cy) ∧
      rbTreeMaximum h h.next (h.left z) = some y ∧ h.parent y = z ∧
      RepZ h1 ctx (T.nd y cz yl ky vy (T.nd ra cr rl kr vr rr)) ∧ h1.next = h.next ∧
      (cy = Color.B → FixupReady h1 yl.addr) := by
  have hzy := repZ_L.2 hz
  have hzr := repZ_R.2 hz
  have hlz : h.left z = y := by simp [left, hz.mem_focus]
  have hrz : h.right z = ra := by simp [right, hz.mem_focus]
  have hyn : y ≠ nil := hzy.focus_ne_nil
  have hran : ra ≠ nil := hzr.focus_ne_nil
  have hzn : z ≠ nil := hz.focus_ne_nil
  have hpy : h.parent y = z := by simp [parent, hzy.mem_focus]
  have hly : h.left y = yl.addr := by simp [left, hzy.mem_focus]
  have hcy : h.color y = cy := by simp [color, hzy.mem_focus]
  have hfu := RepZ.fuel hz
  have hmax : rbTreeMaximum h h.next (h.left z) = some y := by
    rw [hlz, rbTreeMaximum_spec T.lf y cy yl ky vy z h.next hzy.own
      (fun b hb => (hzy.bound b (List.mem_append_left _ hb)).1)
      (by have := (T.nd y cy yl ky vy T.lf).height_le_size; simp only [T.size] at hfu this; omega)]
    simp
  have hnd := hz.nodup
  simp only [T.addrs_nd, T.addrs_lf, List.append_assoc, List.cons_append, List.nodup_append,
    List.nodup_cons, List.mem_append, List.mem_cons, not_or, List.disjoint_cons_left,
    List.disjoint_cons_right, List.disjoint_append_left, List.disjoint_append_right,
    List.nil_append, List.append_nil] at hnd
  obtain ⟨ndyl, ⟨⟨yz, yrl, yra, yrr, yc⟩, ⟨zrl, zra, zrr, zc⟩, ndrl, ⟨⟨rarr, rac⟩, ndrr, ndc, drrc⟩,
    rarl, drlrr, drlc⟩, yyl, zyl, dylrl, rayl, dylrr, dylc⟩ := hnd
  have hbd := hz.bound
  have hcnz : ∀ a ∈ ctxAddrs ctx, a ≠ nil := fun a ha => (hbd a (List.mem_append_right _ ha)).1
  have hrlnz : ∀ a ∈ rl.addrs, a ≠ nil := fun a ha => (hbd a (by simp [ha])).1
  have hrrnz : ∀ a ∈ rr.addrs, a ≠ nil := fun a ha => (hbd a (by simp [ha])).1
  have xz : z ≠ yl.addr := T.addr_ne_of_not_mem hzn zyl
  have xy : y ≠ yl.addr := T.addr_ne_of_not_mem hyn yyl
  have xra : ra ≠ yl.addr := T.addr_ne_of_not_mem hran rayl
  have xrl : yl.addr ∉ rl.addrs := T.addr_not_mem_of_disjoint hrlnz dylrl
  have xrr : yl.addr ∉ rr.addrs := T.addr_not_mem_of_disjoint hrrnz dylrr
  have xc : yl.addr ∉ ctxAddrs ctx := T.addr_not_mem_of_disjoint hcnz dylc
  have fr : ∀ a, a ≠ yl.addr → (h.setParent yl.addr y).mem a = h.mem a := by
    intro a ha; rw [setParent_mem, if_neg ha]
  have hs' : (h.setParent yl.addr y).color nil = Color.B ∧ (h.setParent yl.addr y).left nil = nil ∧
      (h.setParent yl.addr y).right nil = nil := by
    have := hz.sent
    simp only [color, left, right, setParent_mem] at this ⊢
    split
    · rename_i e; rw [← e]; exact this
    · exact this
  obtain ⟨g4, e4, hg4, hm4, hn4⟩ := @substitute_spec (h.setParent yl.addr y) ctx z y kz vz ky vy cz cy y
    nil z yl ra cr rl kr vr rr
    (by rw [setParent_root, hz.root]; exact plug_addr_congr ctx rfl)
    (ownCtx_congr ctx _ (fun a ha => fr a (fun e => xc (e ▸ ha))) hz.ownc)
    (by rw [fr z xz, hz.mem_focus]; rfl)
    (own_congr _ _ (fun a ha => fr a (by
      simp only [T.addrs_nd, List.mem_append, List.mem_cons] at ha
      rcases ha with ha | rfl | ha
      · exact fun e => xrl (e ▸ ha)
      · exact xra
      · exact fun e => xrr (e ▸ ha))) hz.own.2.2)
    (by rw [fr y xy, hzy.mem_focus]; rfl)
    (own_setParent_root y hzy.own.2.1 ndyl)
    (by
      simp only [T.addrs_nd, List.append_assoc, List.cons_append, List.nodup_append,
        List.nodup_cons, List.mem_append, List.mem_cons, not_or, List.disjoint_cons_left,
        List.disjoint_cons_right, List.disjoint_append_left, List.disjoint_append_right]
      exact ⟨ndyl, ⟨⟨yrl, yra, yrr, yc⟩, ndrl, ⟨⟨rarr, rac⟩, ndrr, ndc, drrc⟩, rarl, drlrr, drlc⟩,
        yyl, dylrl, rayl, dylrr, dylc⟩)
    (by
      intro a ha
      rw [setParent_next]
      refine hbd a ?_
      simp only [T.addrs_nd, T.addrs_lf, List.mem_append, List.mem_cons] at ha ⊢
      tauto)
    hzn
    (by
      simp only [T.addrs_nd, List.mem_append, List.mem_cons, not_or]
      exact ⟨⟨zyl, Ne.symm yz, zrl, zra, zrr⟩, zc⟩)
    hs' (by rw [setParent_next]; exact hz.alloc)
  have hg4x := repZ_L.2 hg4
  have hpx : g4.parent yl.addr = ctxAddr (Frame.L y cz ky vy (T.nd ra cr rl kr vr rr) :: ctx) :=
    parent_keep hg4x hm4 (by simp [parent, setParent_mem]) rfl
  have hn4' : g4.next = h.next := by rw [hn4, setParent_next]
  refine ⟨g4, ?_, hmax, hpy, hg4, hn4', ?_⟩
  · rw [rbDeleteSplice_two (by rw [hlz]; exact hyn) (by rw [hrz]; exact hran) hmax
      (h.setParent yl.addr y) (by rw [if_pos hpy, hly]), e4, hcy, hly]
  · intro hc
    cases hb with
    | red hl hr =>
      cases hl with
      | black hyl hlf =>
        cases hlf
        exact ⟨_, yl, _, rfl, hg4x, hpx, CBal.redL hr hctx, delFocus_of_bal0 hyl⟩
    | black hl hr =>
      cases hl with
      | black hyl hlf =>
        cases hlf
        exact ⟨_, yl, _, rfl, hg4x, hpx, CBal.blackL hr hctx, delFocus_of_bal0 hyl⟩
      | red hyl hlf => cases hc

/-- `z` has two children and the maximum `y` of its left subtree is not its
left child: `y` is unlinked, its left child taking its place, and then takes
the place and the colour of `z`. -/
theorem rbDeleteSplice_caseC2 {h : RBTree} {ctx path : List Frame}
    {z cz kz vz y cy yl ky vy ra cr rl kr vr rr c' m} (hpath : path ≠ [])
    (hcr : ctxRight path = [])
    (hz : RepZ h ctx (T.nd z cz (plug path (T.nd y cy yl ky vy T.lf)) kz vz (T.nd ra cr rl kr vr rr)))
    (hbY : Bal (T.nd y cy yl ky vy T.lf) c' m)
    (hctx : CBal (path ++ Frame.L z cz kz vz (T.nd ra cr rl kr vr rr) :: ctx) c' m) :
    ∃ h1, rbDeleteSplice h z = some (h1, yl.addr, cy) ∧
      rbTreeMaximum h h.next (h.left z) = some y ∧ h.parent y ≠ z ∧
      RepZ h1 ctx (T.nd y cz (plug path yl) ky vy (T.nd ra cr rl kr vr rr)) ∧ h1.next = h.next ∧
      h1.right (h.parent y) = yl.addr ∧
      (cy = Color.B → FixupReady h1 yl.addr) := by
  have hzl := repZ_L.2 hz
  have hzY := (repZ_plug path _).2 hzl
  have hzr := repZ_R.2 hz
  have hzn : z ≠ nil := hz.focus_ne_nil
  have hyn : y ≠ nil := hzY.focus_ne_nil
  have hran : ra ≠ nil := hzr.focus_ne_nil
  have hlz : h.left z = (plug path (T.nd y cy yl ky vy T.lf)).addr := by simp [left, hz.mem_focus]
  have hrz : h.right z = ra := by simp [right, hz.mem_focus]
  have hly : h.left y = yl.addr := by simp [left, hzY.mem_focus]
  have hcy : h.color y = cy := by simp [color, hzY.mem_focus]
  have hpy : h.parent y = ctxAddr (path ++ Frame.L z cz kz vz (T.nd ra cr rl kr vr rr) :: ctx) := by
    simp [parent, hzY.mem_focus]
  have hlne : plug path (T.nd y cy yl ky vy T.lf) ≠ T.lf := plug_ne_lf _ (by simp)
  have hfu := RepZ.fuel hzl
  -- the maximum
  have hmax : rbTreeMaximum h h.next (h.left z) = some y := by
    have hle : (plug path (T.nd y cy yl ky vy T.lf)).entries =
        (ctxLeft path ++ yl.entries) ++ [(y, ky, vy)] := by
      rw [plug_entries, hcr]; simp
    have hhs := (plug path (T.nd y cy yl ky vy T.lf)).height_le_size
    rw [hlz, rbTreeMaximum_last hlne hzl.own
      (fun b hb => (hzl.bound b (List.mem_append_left _ hb)).1) (by omega), hle,
      lastAddr_append_singleton]
  -- y's parent is not z
  have hpyz : h.parent y ≠ z := by
    rw [hpy]
    have hnd := hzY.nodup
    rw [ctxAddrs_append] at hnd
    cases path with
    | nil => exact absurd rfl hpath
    | cons F path' =>
      have hm : ctxAddr (F :: path' ++ Frame.L z cz kz vz (T.nd ra cr rl kr vr rr) :: ctx) ∈
          ctxAddrs (F :: path') := by
        rw [ctxAddr_append]; exact ctxAddr_mem_ctxAddrs (by simp)
      intro e
      rw [e] at hm
      simp only [ctxAddrs_L, List.nodup_append, List.disjoint_append_right,
        List.disjoint_cons_right, List.mem_append, List.mem_cons, not_or] at hnd
      exact hnd.2.1.2.2.1 hm
  -- step 1: unlink y
  obtain ⟨hz1, hp1, f1, hn1⟩ := repZ_transplant (s := yl) hzY (Or.inl rfl)
  have hz1' := repZ_L.1 ((repZ_plug path _).1 hz1)
  have hyC : y ∉ ctxAddrs (path ++ Frame.L z cz kz vz (T.nd ra cr rl kr vr rr) :: ctx) := by
    have hnd := hzY.nodup
    simp only [T.addrs_nd, T.addrs_lf, List.append_assoc, List.cons_append, List.nil_append,
      List.nodup_append, List.nodup_cons, List.disjoint_cons_left] at hnd
    exact hnd.2.1.1
  have hyyl : y ∉ yl.addrs := by
    have hnd := hzY.nodup
    simp only [T.addrs_nd, T.addrs_lf, List.append_assoc, List.cons_append, List.nil_append,
      List.nodup_append, List.nodup_cons, List.disjoint_cons_right] at hnd
    exact hnd.2.2.1
  have hyN : y ∉ (T.nd z cz (plug path yl) kz vz (T.nd ra cr rl kr vr rr)).addrs ++ ctxAddrs ctx := by
    intro hm
    have hp := addrs_plug_perm path (Frame.L z cz kz vz (T.nd ra cr rl kr vr rr) :: ctx) yl
    have : y ∈ yl.addrs ++ ctxAddrs (path ++ Frame.L z cz kz vz (T.nd ra cr rl kr vr rr) :: ctx) := by
      rw [hp.mem_iff]
      simp only [T.addrs_nd, ctxAddrs_L, List.mem_append, List.mem_cons] at hm ⊢
      tauto
    rcases List.mem_append.1 this with h1 | h1
    · exact hyyl h1
    · exact hyC h1
  have hm1y : (rbTransplant h y yl.addr).mem y = h.mem y :=
    f1 y hyC (T.addr_ne_of_not_mem hyn hyyl)
  have hl'ne : plug path yl ≠ T.lf := by
    cases path with
    | nil => exact absurd rfl hpath
    | cons F path' =>
      cases F with
      | L a c k v r => exact plug_ne_lf (t := T.nd a c yl k v r) path' (by simp)
      | R a c l k v => exact plug_ne_lf (t := T.nd a c l k v yl) path' (by simp)
  have hl'n : (plug path yl).addr ≠ nil :=
    T.addr_ne_nil hl'ne (fun b hb => (hz1'.bound b (by simp [hb])).1)
  have hnd1 := hz1'.nodup
  simp only [T.addrs_nd, List.append_assoc, List.cons_append, List.nodup_append, List.nodup_cons,
    List.mem_append, List.mem_cons, not_or, List.disjoint_cons_left, List.disjoint_cons_right,
    List.disjoint_append_left, List.disjoint_append_right] at hnd1
  obtain ⟨ndl', ⟨⟨zrl, zra, zrr, zc⟩, ndrl, ⟨⟨rarr, rac⟩, ndrr, ndc, drrc⟩, rarl, drlrr, drlc⟩,
    zl', dl'rl, ral', dl'rr, dl'c⟩ := hnd1
  simp only [T.addrs_nd, List.mem_append, List.mem_cons, not_or] at hyN
  obtain ⟨⟨yl', yz, yrl, yra, yrr⟩, yc⟩ := hyN
  have hbd1 := hz1'.bound
  have hcnz : ∀ a ∈ ctxAddrs ctx, a ≠ nil := fun a ha => (hbd1 a (List.mem_append_right _ ha)).1
  have hrlnz : ∀ a ∈ rl.addrs, a ≠ nil := fun a ha => (hbd1 a (by simp [ha])).1
  have hrrnz : ∀ a ∈ rr.addrs, a ≠ nil := fun a ha => (hbd1 a (by simp [ha])).1
  have l'y : y ≠ (plug path yl).addr := T.addr_ne_of_not_mem hyn yl'
  have l'z : z ≠ (plug path yl).addr := T.addr_ne_of_not_mem hzn zl'
  have l'ra : ra ≠ (plug path yl).addr := T.addr_ne_of_not_mem hran ral'
  have l'rl : (plug path yl).addr ∉ rl.addrs := T.addr_not_mem_of_disjoint hrlnz dl'rl
  have l'rr : (plug path yl).addr ∉ rr.addrs := T.addr_not_mem_of_disjoint hrrnz dl'rr
  have l'c : (plug path yl).addr ∉ ctxAddrs ctx := T.addr_not_mem_of_disjoint hcnz dl'c
  have ht1lz : (rbTransplant h y yl.addr).left z = (plug path yl).addr := by
    simp [left, hz1'.mem_focus]
  have hleft : ((rbTransplant h y yl.addr).setLeft y (plug path yl).addr).left y =
      (plug path yl).addr := by simp [left, setLeft_mem]
  have fr : ∀ a, a ≠ y → a ≠ (plug path yl).addr →
      (((rbTransplant h y yl.addr).setLeft y (plug path yl).addr).setParent
        (plug path yl).addr y).mem a = (rbTransplant h y yl.addr).mem a := by
    intro a ay al; rw [setParent_mem, if_neg al, setLeft_mem, if_neg ay]
  have hgnil : (((rbTransplant h y yl.addr).setLeft y (plug path yl).addr).setParent
      (plug path yl).addr y).mem nil = (rbTransplant h y yl.addr).mem nil :=
    fr nil (Ne.symm hyn) (Ne.symm hl'n)
  obtain ⟨g4, e4, hg4, hm4, hn4⟩ := @substitute_spec
    (((rbTransplant h y yl.addr).setLeft y (plug path yl).addr).setParent (plug path yl).addr y)
    ctx z y kz vz ky vy cz cy (plug path yl).addr nil
    (ctxAddr (path ++ Frame.L z cz kz vz (T.nd ra cr rl kr vr rr) :: ctx)) (plug path yl)
    ra cr rl kr vr rr
    (by rw [setParent_root, setLeft_root, hz1'.root]; exact plug_addr_congr ctx rfl)
    (ownCtx_congr ctx _ (fun a ha => fr a (ne_of_mem_of_not_mem ha yc)
      (fun e => l'c (e ▸ ha))) hz1'.ownc)
    (by rw [fr z (Ne.symm yz) l'z, hz1'.mem_focus]; rfl)
    (own_congr _ _ (fun a ha => by
      simp only [T.addrs_nd, List.mem_append, List.mem_cons] at ha
      rcases ha with ha | rfl | ha
      · exact fr a (ne_of_mem_of_not_mem ha yrl) (fun e => l'rl (e ▸ ha))
      · exact fr a (Ne.symm yra) l'ra
      · exact fr a (ne_of_mem_of_not_mem ha yrr) (fun e => l'rr (e ▸ ha))) hz1'.own.2.2)
    (by
      rw [setParent_mem, if_neg l'y, setLeft_mem, if_pos rfl, hm1y, hzY.mem_focus]
      rfl)
    (own_setParent_root y (own_congr _ _ (fun a ha => by
      rw [setLeft_mem, if_neg (ne_of_mem_of_not_mem ha yl')]) hz1'.own.2.1) ndl')
    (by
      simp only [T.addrs_nd, List.append_assoc, List.cons_append, List.nodup_append,
        List.nodup_cons, List.mem_append, List.mem_cons, not_or, List.disjoint_cons_left,
        List.disjoint_cons_right, List.disjoint_append_left, List.disjoint_append_right]
      exact ⟨ndl', ⟨⟨yrl, yra, yrr, yc⟩, ndrl, ⟨⟨rarr, rac⟩, ndrr, ndc, drrc⟩, rarl, drlrr, drlc⟩,
        yl', dl'rl, ral', dl'rr, dl'c⟩)
    (by
      intro a ha
      rw [setParent_next, setLeft_next]
      simp only [T.addrs_nd, List.mem_append, List.mem_cons] at ha
      rcases ha with (ha | rfl | ha) | ha
      · exact hbd1 a (by simp [ha])
      · exact ⟨hyn, by rw [hn1]; exact (hzY.bound a (by simp)).2⟩
      · exact hbd1 a (by
          simp only [T.addrs_nd, List.mem_append, List.mem_cons] at ha ⊢; tauto)
      · exact hbd1 a (by simp [ha]))
    hzn
    (by
      simp only [T.addrs_nd, List.mem_append, List.mem_cons, not_or]
      exact ⟨⟨zl', fun e => yz e.symm, zrl, zra, zrr⟩, zc⟩)
    (by
      have := hz1.sent
      simp only [color, left, right] at this ⊢
      rw [hgnil]; exact this)
    (by rw [setParent_next, setLeft_next]; exact hz1.alloc)
  have hg4x := (repZ_plug path _).2 (repZ_L.2 hg4)
  have hca : ctxAddr (path ++ Frame.L y cz ky vy (T.nd ra cr rl kr vr rr) :: ctx) =
      ctxAddr (path ++ Frame.L z cz kz vz (T.nd ra cr rl kr vr rr) :: ctx) := by
    cases path with
    | nil => exact absurd rfl hpath
    | cons F path' => rw [ctxAddr_append, ctxAddr_append]
  have hpx : g4.parent yl.addr =
      ctxAddr (path ++ Frame.L y cz ky vy (T.nd ra cr rl kr vr rr) :: ctx) := by
    rw [hca]; exact parent_keep hg4x (hm4.trans hgnil) hp1 hca
  have hn4' : g4.next = h.next := by rw [hn4, setParent_next, setLeft_next, hn1]
  have hlzn : h.left z ≠ nil := by
    rw [hlz]
    exact T.addr_ne_nil hlne (fun b hb => (hzl.bound b (List.mem_append_left _ hb)).1)
  have hrzn : h.right z ≠ nil := by rw [hrz]; exact hran
  have hry : g4.right (h.parent y) = yl.addr := by
    rw [hpy]
    cases path with
    | nil => exact absurd rfl hpath
    | cons F path' =>
      cases F with
      | L a c k v r => simp [ctxRight] at hcr
      | R a c l k v =>
        have := hg4x.topR
        simp only [List.cons_append, ctxAddr_R]
        simp [right, this]
  refine ⟨g4, ?_, hmax, hpyz, hg4, hn4', hry, ?_⟩
  · rw [rbDeleteSplice_two hlzn hrzn hmax _ (by rw [if_neg hpyz, hly, ht1lz, hleft]), e4, hcy, hly]
  · intro hc
    cases hbY with
    | red hyl hlf => cases hc
    | black hyl hlf =>
      cases hlf
      exact ⟨_, yl, _, rfl, hg4x, hpx, CBal.swapL hctx, delFocus_of_bal0 hyl⟩

/-- `rbDelete(Node*)` at the node of an entry of a balanced tree, up to the
fixup: when the colour removed is black, the state is a state of the loop of
`rbDeleteFixup`. -/
theorem rbDeleteSplice_core {h : RBTree} {t : T} {n : Nat} (hr : Rep h t) (hb : Bal t Color.B n)
    {A B : List (Ptr × String × String)} {e : Ptr × String × String}
    (he : t.entries = A ++ e :: B) :
    ∃ h1 x yoc, rbDeleteSplice h e.1 = some (h1, x, yoc) ∧ (yoc = Color.B → FixupReady h1 x) := by
  obtain ⟨ctx, c, l, r, hz, et, hA, hB⟩ := hr.focus he
  rw [et] at hb
  obtain ⟨c', m, hbZ, hctx⟩ := Bal.unplug ctx hb
  cases l with
  | lf =>
    obtain ⟨h1, e1, e2⟩ := rbDeleteSplice_caseA hz hbZ hctx
    exact ⟨h1, _, _, e1, e2⟩
  | nd la cl ll kl vl lr =>
    cases r with
    | lf =>
      obtain ⟨h1, e1, e2⟩ := rbDeleteSplice_caseB hz hbZ hctx
      exact ⟨h1, _, _, e1, e2⟩
    | nd ra cr rl kr vr rr =>
      obtain ⟨path, y, cy, yl, ky, vy, el, hcr⟩ := max_decomp (T.nd la cl ll kl vl lr) (by simp)
      cases path with
      | nil =>
        rw [plug_nil] at el
        rw [el] at hz hbZ hA
        obtain ⟨h1, e1, -, -, -, -, e2⟩ := rbDeleteSplice_caseC1 hz hbZ hctx
        exact ⟨h1, _, _, e1, e2⟩
      | cons F path' =>
        rw [el] at hz hb hA
        have hp : plug ctx (T.nd e.1 c (plug (F :: path') (T.nd y cy yl ky vy T.lf)) e.2.1 e.2.2
            (T.nd ra cr rl kr vr rr)) =
            plug ((F :: path') ++ Frame.L e.1 c e.2.1 e.2.2 (T.nd ra cr rl kr vr rr) :: ctx)
              (T.nd y cy yl ky vy T.lf) := by
          rw [plug_append]; rfl
        rw [hp] at hb
        obtain ⟨c'', m'', hbY, hctx'⟩ := Bal.unplug _ hb
        obtain ⟨h1, e1, -, -, -, -, -, e2⟩ := rbDeleteSplice_caseC2 (by simp) hcr hz hbY hctx'
        exact ⟨h1, _, _, e1, e2⟩

/-- `rbDelete(Node*)` with the record of its fixup: it returns the state
`rbDelete(Node*)` returns, and what it records is safe. -/
theorem rbDeleteNodeLog_spec {h : RBTree} {t : T} {n : Nat} (hr : Rep h t) (hb : Bal t Color.B n)
    {A B : List (Ptr × String × String)} {e : Ptr × String × String}
    (he : t.entries = A ++ e :: B) :
    ∃ h' es, rbDeleteNodeLog h e.1 = some (h', es) ∧ rbDeleteNode h e.1 = some h' ∧
      ∀ e ∈ es, e.safe := by
  obtain ⟨h1, x, yoc, e1, hfix⟩ := rbDeleteSplice_core hr hb he
  have hlog : ∃ h' es, rbDeleteNodeLog h e.1 = some (h', es) ∧ ∀ e ∈ es, e.safe := by
    rw [rbDeleteNodeLog, e1, Option.some_bind]
    by_cases hc : yoc = Color.B
    · obtain ⟨ctx, xt, m, rfl, hz, hpx, hctx, hfoc⟩ := hfix hc
      obtain ⟨h', es, e2, q⟩ := rbDeleteFixupLog_spec hz hpx hctx hfoc
      exact ⟨h', es, by simp only [hc, if_true]; exact e2, q⟩
    · exact ⟨h1, [], by simp only [hc, if_false], by simp⟩
  obtain ⟨h', es, e2, q⟩ := hlog
  refine ⟨h', es, e2, ?_, q⟩
  rw [← rbDeleteNodeLog_fst, e2]; rfl

theorem rbDeleteAllLog_spec : ∀ (zs : List Ptr) {h : RBTree} {t : T} {n : Nat}, Rep h t →
    Bal t Color.B n → zs.Nodup → (∀ z ∈ zs, z ∈ t.addrs) →
    ∃ h' es, rbDeleteAllLog h zs = some (h', es) ∧ ∀ e ∈ es, e.safe
  | [], h, t, n, _, _, _, _ => ⟨h, [], rfl, by simp⟩
  | z :: zs, h, t, n, hr, hb, hnd, hm => by
    have hz : z ∈ t.entries.map Prod.fst := by rw [← T.addrs_eq]; exact hm z (by simp)
    obtain ⟨e, he, rfl⟩ := List.mem_map.1 hz
    obtain ⟨A, B, hAB⟩ := List.append_of_mem he
    obtain ⟨h1, t1, n1, e1, hr1, hb1, he1, hn1⟩ := rbDeleteNode_core hr hb hAB
    obtain ⟨h1', es1, l1, l2, q1⟩ := rbDeleteNodeLog_spec hr hb hAB
    rw [e1] at l2
    cases l2
    obtain ⟨hnz, hnd'⟩ := List.nodup_cons.1 hnd
    have hm1 : ∀ z' ∈ zs, z' ∈ t1.addrs := by
      intro z' hz'
      have h1 := hm z' (by simp [hz'])
      rw [T.addrs_eq, hAB] at h1
      rw [T.addrs_eq, he1]
      have hne : z' ≠ e.1 := fun e' => hnz (e' ▸ hz')
      simp only [List.map_append, List.map_cons, List.mem_append, List.mem_cons] at h1 ⊢
      tauto
    obtain ⟨h2, es2, l3, q2⟩ := rbDeleteAllLog_spec zs hr1 hb1 hnd' hm1
    refine ⟨h2, es1 ++ es2, by rw [rbDeleteAllLog, l1, Option.some_bind, l3]; rfl, ?_⟩
    intro e' he'
    rcases List.mem_append.1 he' with h' | h'
    · exact q1 e' h'
    · exact q2 e' h'

/-- `rbDelete(key, value)` on a valid tree, with the record of its fixups:
it returns the state `rbDelete` returns, and what it records is safe. -/
theorem rbDeleteLog_spec {h : RBTree} (k v : String) (hv : Valid h) :
    ∃ h' es, rbDeleteLog h k v = some (h', es) ∧ rbDelete h k v = some h' ∧
      ∀ e ∈ es, e.safe := by
  obtain ⟨t, n, hr, ho, hb⟩ := valid_iff.1 hv
  obtain ⟨zs, hcol, hperm⟩ := rbDeleteCollect_core hr k v ho
  have hnde := hr.nodup_entries
  have hsub : ((t.entries.filter (fun e => decide (e.2.1 = k) && decide (e.2.2 = v))).map
      Prod.fst).Sublist (t.entries.map Prod.fst) := (List.filter_sublist _).map _
  have hnd : zs.reverse.Nodup := by
    rw [List.nodup_reverse]
    exact (List.Perm.nodup_iff hperm).2 (hnde.sublist hsub)
  have hmem : ∀ z ∈ zs.reverse, z ∈ t.addrs := by
    intro z hz
    rw [List.mem_reverse, hperm.mem_iff] at hz
    rw [T.addrs_eq]
    exact hsub.subset hz
  obtain ⟨h', es, e1, q⟩ := rbDeleteAllLog_spec zs.reverse hr hb hnd hmem
  have hlog : rbDeleteLog h k v = some (h', es) := by
    rw [rbDeleteLog, hcol, Option.some_bind, e1]
  refine ⟨h', es, hlog, ?_, q⟩
  rw [← rbDeleteLog_fst, hlog]; rfl

/-! ## The relinking of `rbDelete(Node*)`, read on the heap -/

theorem three_valid : Valid three := by
  obtain ⟨h', e, hv⟩ := insertAll_valid [("m", "1"), ("c", "2"), ("x", "3")] empty valid_empty
  rw [three, e]
  exact hv

/-- A node that takes the place of `z` in the zipper: colour, parent link,
link from the parent (or the root pointer) and right link are those of `z`. -/
theorem RepZ.replace_facts {h h1 : RBTree} {ctx : List Frame} {z cz l kz vz r y L ky vy}
    (hz : RepZ h ctx (T.nd z cz l kz vz r)) (hg : RepZ h1 ctx (T.nd y cz L ky vy r)) :
    h1.color y = h.color z ∧ h1.parent y = h.parent z ∧
    (if h.parent z = nil then h1.root = y
      else if z = h.left (h.parent z) then h1.left (h.parent z) = y
      else h1.right (h.parent z) = y) ∧
    h1.right y = h.right z ∧ h1.left y = L.addr := by
  have hpz : h.parent z = ctxAddr ctx := by simp [parent, hz.mem_focus]
  refine ⟨by simp [color, hz.mem_focus, hg.mem_focus],
    by simp [parent, hz.mem_focus, hg.mem_focus], ?_,
    by simp [right, hz.mem_focus, hg.mem_focus], by simp [left, hg.mem_focus]⟩
  rw [hpz]
  cases ctx with
  | nil =>
    rw [ctxAddr_nil, if_pos rfl]
    exact hg.root
  | cons F ctx1 =>
    cases F with
    | L p cp kp vp s =>
      have hpn : p ≠ nil := (repZ_L.1 hz).focus_ne_nil
      have hlp : h.left p = z := by simp [left, hz.topL]
      rw [ctxAddr_L, if_neg hpn, hlp, if_pos rfl]
      simp [left, hg.topL]
    | R p cp s kp vp =>
      have hpn : p ≠ nil := (repZ_R.1 hz).focus_ne_nil
      have hlp : h.left p = s.addr := by simp [left, hz.topR]
      have hzs : z ≠ s.addr := hz.focus_ne_sibR
      rw [ctxAddr_R, if_neg hpn, hlp, if_neg hzs]
      simp [right, hg.topR]

/-- Removing one entry: the in-order nodes of the new state are the old
ones without the node of that entry. -/
theorem nodes_remove {h h1 : RBTree} {t t1 : T} (hr : Rep h t) (hr1 : Rep h1 t1)
    {A B : List (Ptr × String × String)} {e : Ptr × String × String}
    (he : t.entries = A ++ e :: B) (he1 : t1.entries = A ++ B) :
    nodes h1 = (nodes h).filter (fun a => decide (a ≠ e.1)) := by
  have hnd := hr.nodup_entries
  rw [he] at hnd
  have hf := filter_ne_addr hnd
  rw [hr.nodes_eq, hr1.nodes_eq, T.addrs_eq, T.addrs_eq, he, he1, ← hf, List.filter_map]
  rfl

/-! ## The node found by `rbTreeSearch` -/

theorem dup_valid : Valid dup := by
  obtain ⟨h', e, hv⟩ := insertAll_valid [("k", "a"), ("k", "b"), ("k", "c")] empty valid_empty
  rw [dup, e]
  exact hv

/-- The search passes only nodes with another key. -/
theorem searchZ_path (k : String) : ∀ (t : T) (ctx : List Frame),
    (∀ f ∈ ctx, f.key ≠ k) → ∀ f ∈ (searchZ k t ctx).1, f.key ≠ k
  | T.lf, _, h => h
  | T.nd a c l k' v r, ctx, h => by
    unfold searchZ
    split
    · exact h
    · rename_i hne
      have hk : k' ≠ k := fun e => hne e.symm
      split
      · refine searchZ_path k l _ ?_
        intro f hf
        rcases List.mem_cons.1 hf with rfl | hf
        · exact hk
        · exact h f hf
      · refine searchZ_path k r _ ?_
        intro f hf
        rcases List.mem_cons.1 hf with rfl | hf
        · exact hk
        · exact h f hf

/-- The keys met on the way up from the node in focus are those of the
frames of the zipper. -/
theorem RepZ.ancestor_keys {h : RBTree} {k : String} : ∀ (ctx : List Frame) {a c l k' v r},
    RepZ h ctx (T.nd a c l k' v r) → (∀ f ∈ ctx, f.key ≠ k) →
    ∀ i < ctx.length, h.key ((h.parent)^[i + 1] a) ≠ k
  | [], _, _, _, _, _, _, _, _, i, hi => absurd hi (Nat.not_lt_zero i)
  | F :: ctx, a, c, l, k', v, r, hz, hk, i, hi => by
    have hpa : h.parent a = ctxAddr (F :: ctx) := by simp [parent, hz.mem_focus]
    rw [Function.iterate_succ_apply, hpa]
    cases F with
    | L p cp kp vp s =>
      have hz1 := repZ_L.1 hz
      rw [ctxAddr_L]
      cases i with
      | zero =>
        rw [Function.iterate_zero_apply]
        have : h.key p = kp := by simp [key, hz1.mem_focus]
        rw [this]
        exact hk _ (List.mem_cons_self _ _)
      | succ j =>
        exact RepZ.ancestor_keys ctx hz1 (fun f hf => hk f (List.mem_cons_of_mem _ hf)) j
          (by simp only [List.length_cons] at hi; omega)
    | R p cp s kp vp =>
      have hz1 := repZ_R.1 hz
      rw [ctxAddr_R]
      cases i with
      | zero =>
        rw [Function.iterate_zero_apply]
        have : h.key p = kp := by simp [key, hz1.mem_focus]
        rw [this]
        exact hk _ (List.mem_cons_self _ _)
      | succ j =>
        exact RepZ.ancestor_keys ctx hz1 (fun f hf => hk f (List.mem_cons_of_mem _ hf)) j
          (by simp only [List.length_cons] at hi; omega)

/-- The search for a key that is present: it answers a real node with that
key, and no node above it has that key. -/
theorem rbTreeSearch_found {h : RBTree} {t : T} (hr : Rep h t) (k : String)
    (ho : t.entries.Pairwise (fun a b => ¬ b.2.1 < a.2.1)) (hk : ∃ e ∈ t.entries, e.2.1 = k) :
    ∃ x, rbTreeSearch h k h.next h.root = some x ∧ real h x ∧ h.key x = k ∧
      ∀ i < depth h x, h.key ((h.parent)^[i + 1] x) ≠ k := by
  have hfu := RepZ.fuel hr
  have hhs := t.height_le_size
  have hs := rbTreeSearch_spec (h := h) k t [] h.next hr
    (by simp only [List.length_nil] at hfu; omega)
  have hroot : h.root = t.addr := hr.root
  rw [hroot, hs]
  have hp := plug_searchZ k t []
  rcases searchZ_found k t [] with e | ⟨a, c, l, v, r, e⟩
  · obtain ⟨e1, he1, hk1⟩ := hk
    exact absurd hk1 (searchZ_absent k t [] ho e e1 he1)
  · rw [e] at hp ⊢
    have hz : RepZ h (searchZ k t []).1 (T.nd a c l k v r) := by
      rw [rep_plug, hp]; exact hr
    refine ⟨a, rfl, hz.isReal_focus, by simp [key, hz.mem_focus], ?_⟩
    rw [hz.depth_focus]
    exact RepZ.ancestor_keys _ hz (searchZ_path k t [] (by simp))

/-! ## The claims about the fixup loops -/

/-- Claim C11: on a valid red-black tree `rbInsert`, `rbFind` and `rbDelete`
return for all strings.  The loop of `rbInsertFixup` runs to its end within
the fuel, and each of its iterations either moves `z` to its grandparent,
two levels up (uncle red), or leaves the parent of `z` black, so that the
next test ends the loop (uncle black); the loop of `rbDeleteFixup` runs to
its end, and each of its iterations moves `x` to its parent or sets `x` to
the root. -/
theorem operations_total (h : RBTree) (k v : String) (hv : Valid h) :
    (∃ h', rbInsert h k v = some h') ∧ (∃ res, rbFind h k = some res) ∧
    (∃ h', rbDelete h k v = some h') ∧
    (∃ h' es, rbInsertLog h k v = some (h', es) ∧
      ∀ t z, Event.insertIter t z ∈ es → InsertIterOK t z) ∧
    (∃ h' es, rbDeleteLog h k v = some (h', es)) ∧
    (∀ (t : RBTree) (x : Ptr),
      (rbDeleteFixupBody t x).2.1 = (rbDeleteFixupBody t x).1.parent x ∨
        (rbDeleteFixupBody t x).2.1 = (rbDeleteFixupBody t x).1.root) := by
  obtain ⟨h1, es1, e1, e1', -, -, q1⟩ := rbInsertLog_spec k v hv
  obtain ⟨h2, es2, e2, e2', -⟩ := rbDeleteLog_spec k v hv
  obtain ⟨res, e3, -⟩ := rbFind_step k hv
  exact ⟨⟨h1, e1'⟩, ⟨res, e3⟩, ⟨h2, e2'⟩, ⟨h1, es1, e1, q1⟩, ⟨h2, es2, e2⟩,
    rbDeleteFixupBody_moves⟩

theorem operations_total_witness :
    Valid sample ∧
    ((∃ h', rbInsert sample "d" "6" = some h') ∧ (∃ res, rbFind sample "d" = some res) ∧
    (∃ h', rbDelete sample "d" "6" = some h') ∧
    (∃ h' es, rbInsertLog sample "d" "6" = some (h', es) ∧
      ∀ t z, Event.insertIter t z ∈ es → InsertIterOK t z) ∧
    (∃ h' es, rbDeleteLog sample "d" "6" = some (h', es)) ∧
    (∀ (t : RBTree) (x : Ptr),
      (rbDeleteFixupBody t x).2.1 = (rbDeleteFixupBody t x).1.parent x ∨
        (rbDeleteFixupBody t x).2.1 = (rbDeleteFixupBody t x).1.root)) :=
  ⟨sample_valid, operations_total sample "d" "6" sample_valid⟩

/-- Claim C17: `rbInsert` on a valid tree calls `rbInsertFixup` on a freshly
attached red leaf; in every iteration of its loop, if the uncle is red only
three colours change, no rotation is called and `z` moves to its
grandparent; if the uncle is black at most two rotations are called, the
parent of `z` is black afterwards and the loop ends at its next test.  In
all, `rbInsert` calls at most two rotations. -/
theorem rbInsert_rotations (h : RBTree) (k v : String) (hv : Valid h) :
    ∃ h' es, rbInsertLog h k v = some (h', es) ∧ rbInsert h k v = some h' ∧
      (es.filter Event.isRotation).length ≤ 2 ∧
      ∀ t z, Event.insertIter t z ∈ es →
        InsertIterOK t z ∧
        (t.color (uncle t z) ≠ Color.R → ∀ f,
          rbInsertFixupLoop (f + 1) (rbInsertFixupBody t z).1 (rbInsertFixupBody t z).2.1 =
            some (rbInsertFixupBody t z).1) := by
  obtain ⟨h1, es1, e1, e1', -, q2, q3⟩ := rbInsertLog_spec k v hv
  refine ⟨h1, es1, e1, e1', q2, fun t z hm => ⟨q3 t z hm, ?_⟩⟩
  intro hu f
  rw [rbInsertFixupLoop, ((q3 t z hm).2 hu).1]
  simp

theorem rbInsert_rotations_witness :
    Valid sample ∧
    ∃ h' es, rbInsertLog sample "d" "6" = some (h', es) ∧ rbInsert sample "d" "6" = some h' ∧
      (es.filter Event.isRotation).length ≤ 2 ∧
      ∀ t z, Event.insertIter t z ∈ es →
        InsertIterOK t z ∧
        (t.color (uncle t z) ≠ Color.R → ∀ f,
          rbInsertFixupLoop (f + 1) (rbInsertFixupBody t z).1 (rbInsertFixupBody t z).2.1 =
            some (rbInsertFixupBody t z).1) :=
  ⟨sample_valid, rbInsert_rotations sample "d" "6" sample_valid⟩

/-- Claim C19: when `rbInsert` or `rbDelete` runs on a valid tree, every
call `leftRotate(x)` is at a real node with a real right child, every call
`rightRotate(x)` at a real node with a real left child, every iteration of
`rbInsertFixup` (the parent of `z` is red) finds a real parent and
grandparent, and every sibling `w` read by `rbDeleteFixup` is a real node. -/
theorem fixup_safe (h : RBTree) (k v : String) (hv : Valid h) :
    (∃ h' es, rbInsertLog h k v = some (h', es) ∧ rbInsert h k v = some h' ∧
      ∀ e ∈ es, e.safe) ∧
    (∃ h' es, rbDeleteLog h k v = some (h', es) ∧ rbDelete h k v = some h' ∧
      ∀ e ∈ es, e.safe) := by
  obtain ⟨h1, es1, e1, e1', q1, -, -⟩ := rbInsertLog_spec k v hv
  exact ⟨⟨h1, es1, e1, e1', q1⟩, rbDeleteLog_spec k v hv⟩

theorem fixup_safe_witness :
    Valid sample ∧
    ((∃ h' es, rbInsertLog sample "c" "2" = some (h', es) ∧ rbInsert sample "c" "2" = some h' ∧
      ∀ e ∈ es, e.safe) ∧
    (∃ h' es, rbDeleteLog sample "c" "2" = some (h', es) ∧ rbDelete sample "c" "2" = some h' ∧
      ∀ e ∈ es, e.safe)) :=
  ⟨sample_valid, fixup_safe sample "c" "2" sample_valid⟩

/-! ## The claims about the structural delete and the search -/

set_option maxRecDepth 100000 in
/-- Claim C12, as stated, fails: in the tree of `m`, `c`, `x` the root `m`
has two children and its successor is the node of `x` (cell 3), but after
the relinking of `rbDelete(Node*)` the root is the node of `c` (cell 2). -/
theorem rbDeleteNode_not_successor :
    Valid three ∧ 1 ∈ nodes three ∧ three.left 1 ≠ nil ∧ three.right 1 ≠ nil ∧
      ¬ ReplacedBySuccessor three 1 := by
  refine ⟨three_valid, by decide!, by decide!, by decide!, ?_⟩
  rintro ⟨y, t1, x, yoc, h1, h2, -, -, h5⟩
  have hmin : rbTreeMinimum three three.next (three.right 1) = some 3 := by decide!
  have hs : (rbDeleteSplice three 1).map (fun r => r.1.root) = some 2 := by decide!
  have hp : three.parent 1 = nil := by decide!
  rw [hmin] at h1
  rw [h2] at hs
  cases h1
  have h6 := h5 hp
  simp only [Option.map_some', Option.some.injEq] at hs
  rw [hs] at h6
  exact absurd h6 (by decide)

/-- Claim C12, amended: on a valid tree, for a node `z` with two real
children, `rbDelete(Node*)` takes the in-order predecessor `y` of `z`, the
maximum of its left subtree: at the test of `yoc` the node `y` has the
colour, the parent and the right child of `z`, the parent of `z` (or the
root pointer) points to `y`, the left child of `y` is its own when `y` was
the left child of `z` and the left child of `z` otherwise, the old left
child of `y` has taken the old place of `y`, `x` is that child and `yoc`
the old colour of `y`, and the in-order nodes are the old ones without `z`. -/
theorem rbDeleteNode_predecessor (h : RBTree) (z : Ptr) (hv : Valid h) (hz : z ∈ nodes h)
    (hl : h.left z ≠ nil) (hr : h.right z ≠ nil) :
    ∃ y h1, rbTreeMaximum h h.next (h.left z) = some y ∧ rbTreePredecessor h z = some y ∧
      real h y ∧ rbDeleteSplice h z = some (h1, h.left y, h.color y) ∧
      h1.color y = h.color z ∧ h1.parent y = h.parent z ∧
      (if h.parent z = nil then h1.root = y
        else if z = h.left (h.parent z) then h1.left (h.parent z) = y
        else h1.right (h.parent z) = y) ∧
      h1.right y = h.right z ∧
      h1.left y = (if h.parent y = z then h.left y else h.left z) ∧
      (h.parent y ≠ z → h1.right (h.parent y) = h.left y) ∧
      nodes h1 = (nodes h).filter (fun a => decide (a ≠ z)) := by
  obtain ⟨t, n, hr0, -, hb⟩ := valid_iff.1 hv
  rw [hr0.nodes_eq, T.addrs_eq] at hz
  obtain ⟨e, he, rfl⟩ := List.mem_map.1 hz
  obtain ⟨A, B, hAB⟩ := List.append_of_mem he
  obtain ⟨ctx, c, l, r, hzz, et, hA, hB⟩ := hr0.focus hAB
  have hpred : rbTreePredecessor h e.1 = rbTreeMaximum h h.next (h.left e.1) := by
    rw [rbTreePredecessor, if_pos hl]
  rw [hpred]
  have hlz : h.left e.1 = l.addr := by simp [left, hzz.mem_focus]
  have hrz : h.right e.1 = r.addr := by simp [right, hzz.mem_focus]
  rw [et] at hb
  obtain ⟨c', m, hbZ, hctx⟩ := Bal.unplug ctx hb
  cases l with
  | lf => exact absurd hlz hl
  | nd la cl ll kl vl lr =>
    cases r with
    | lf => exact absurd hrz hr
    | nd ra cr rl kr vr rr =>
      obtain ⟨path, y, cy, yl, ky, vy, el, hcr⟩ := max_decomp (T.nd la cl ll kl vl lr) (by simp)
      cases path with
      | nil =>
        rw [plug_nil] at el
        rw [el] at hzz hbZ hA
        obtain ⟨h1, e1, hmax, hpy, hg, -, -⟩ := rbDeleteSplice_caseC1 hzz hbZ hctx
        have hzy := repZ_L.2 hzz
        have hly : h.left y = yl.addr := by simp [left, hzy.mem_focus]
        have hcy : h.color y = cy := by simp [color, hzy.mem_focus]
        obtain ⟨f1, f2, f3, f4, f5⟩ := hzz.replace_facts hg
        refine ⟨y, h1, hmax, hmax, hzy.isReal_focus, by rw [e1, hly, hcy], f1, f2, f3, f4,
          by rw [if_pos hpy, f5, hly], fun hne => absurd hpy hne, ?_⟩
        refine nodes_remove hr0 (rep_plug.1 hg) hAB ?_
        rw [plug_entries, hA, hB]; simp
      | cons F path' =>
        rw [el] at hzz hb hA
        have hp : plug ctx (T.nd e.1 c (plug (F :: path') (T.nd y cy yl ky vy T.lf)) e.2.1 e.2.2
            (T.nd ra cr rl kr vr rr)) =
            plug ((F :: path') ++ Frame.L e.1 c e.2.1 e.2.2 (T.nd ra cr rl kr vr rr) :: ctx)
              (T.nd y cy yl ky vy T.lf) := by
          rw [plug_append]; rfl
        rw [hp] at hb
        obtain ⟨c'', m'', hbY, hctx'⟩ := Bal.unplug _ hb
        obtain ⟨h1, e1, hmax, hpy, hg, -, hry, -⟩ :=
          rbDeleteSplice_caseC2 (by simp) hcr hzz hbY hctx'
        have hzy := (repZ_plug (F :: path') _).2 (repZ_L.2 hzz)
        have hly : h.left y = yl.addr := by simp [left, hzy.mem_focus]
        have hcy : h.color y = cy := by simp [color, hzy.mem_focus]
        obtain ⟨f1, f2, f3, f4, f5⟩ := hzz.replace_facts hg
        have hlz' : h.left e.1 = (plug (F :: path') yl).addr := by
          rw [hlz, el]; exact plug_addr_cons _ _ _ _
        refine ⟨y, h1, hmax, hmax, hzy.isReal_focus, by rw [e1, hly, hcy], f1, f2, f3, f4,
          by rw [if_neg hpy, f5, hlz'], fun _ => by rw [hry, hly], ?_⟩
        refine nodes_remove hr0 (rep_plug.1 hg) hAB ?_
        rw [plug_entries, hA, hB]
        simp [plug_entries, hcr]

set_option maxRecDepth 100000 in
theorem rbDeleteNode_predecessor_witness :
    Valid three ∧ 1 ∈ nodes three ∧ three.left 1 ≠ nil ∧ three.right 1 ≠ nil ∧
    ∃ y h1, rbTreeMaximum three three.next (three.left 1) = some y ∧
      rbTreePredecessor three 1 = some y ∧
      real three y ∧ rbDeleteSplice three 1 = some (h1, three.left y, three.color y) ∧
      h1.color y = three.color 1 ∧ h1.parent y = three.parent 1 ∧
      (if three.parent 1 = nil then h1.root = y
        else if 1 = three.left (three.parent 1) then h1.left (three.parent 1) = y
        else h1.right (three.parent 1) = y) ∧
      h1.right y = three.right 1 ∧
      h1.left y = (if three.parent y = 1 then three.left y else three.left 1) ∧
      (three.parent y ≠ 1 → h1.right (three.parent y) = three.left y) ∧
      nodes h1 = (nodes three).filter (fun a => decide (a ≠ 1)) :=
  ⟨three_valid, by decide!, by decide!, by decide!,
    rbDeleteNode_predecessor three 1 three_valid (by decide!) (by decide!) (by decide!)⟩

set_option maxRecDepth 100000 in
/-- Claim C13, as stated, fails: after the inserts of `(k, a)`, `(k, b)`,
`(k, c)` the search for `k` answers the node of `b` (cell 2, the root),
whose in-order predecessor is the node of `a` (cell 1), with key `k`. -/
theorem rbTreeSearch_not_first :
    Valid dup ∧ (∃ e ∈ inorder dup, e.1 = "k") ∧ ¬ SearchFindsFirst dup "k" := by
  refine ⟨dup_valid, ⟨("k", "a"), by decide!, rfl⟩, ?_⟩
  intro hf
  have h1 : rbTreeSearch dup "k" dup.next dup.root = some 2 := by decide!
  have h2 : rbTreePredecessor dup 2 = some 1 := by decide!
  have h3 : dup.key 1 = "k" := by decide!
  exact hf 2 h1 (by decide) 1 h2 (by decide) h3

/-- Claim C13, amended: on a valid tree that holds the key `k`,
`rbTreeSearch` from the root answers a real node with key `k`, the one
nearest to the root on its path: none of the nodes above it has key `k`.
(It need not be the first such node in in-order.) -/
theorem rbTreeSearch_nearest_root (h : RBTree) (k : String) (hv : Valid h)
    (hk : ∃ e ∈ inorder h, e.1 = k) :
    ∃ x, rbTreeSearch h k h.next h.root = some x ∧ real h x ∧ h.key x = k ∧
      ∀ i < depth h x, h.key ((h.parent)^[i + 1] x) ≠ k := by
  obtain ⟨t, n, hr, ho, -⟩ := valid_iff.1 hv
  refine rbTreeSearch_found hr k ho ?_
  obtain ⟨e, he, hek⟩ := hk
  rw [hr.inorder_eq, T.toList_eq] at he
  obtain ⟨e', he', rfl⟩ := List.mem_map.1 he
  exact ⟨e', he', hek⟩

set_option maxRecDepth 100000 in
theorem rbTreeSearch_nearest_root_witness :
    Valid dup ∧ (∃ e ∈ inorder dup, e.1 = "k") ∧
    ∃ x, rbTreeSearch dup "k" dup.next dup.root = some x ∧ real dup x ∧ dup.key x = "k" ∧
      ∀ i < depth dup x, dup.key ((dup.parent)^[i + 1] x) ≠ "k" :=
  ⟨dup_valid, ⟨("k", "a"), by decide!, rfl⟩,
    rbTreeSearch_nearest_root dup "k" dup_valid ⟨("k", "a"), by decide!, rfl⟩⟩

/-! ## Rotations, read on the heap -/

theorem setLeft_kvc (h : RBTree) (x p a : Ptr) :
    (h.setLeft x p).key a = h.key a ∧ (h.setLeft x p).value a = h.value a ∧
      (h.setLeft x p).color a = h.color a := by
  simp only [key, value, color, setLeft_mem]
  split
  · rename_i e; rw [e]; exact ⟨rfl, rfl, rfl⟩
  · exact ⟨rfl, rfl, rfl⟩

theorem setRight_kvc (h : RBTree) (x p a : Ptr) :
    (h.setRight x p).key a = h.key a ∧ (h.setRight x p).value a = h.value a ∧
      (h.setRight x p).color a = h.color a := by
  simp only [key, value, color, setRight_mem]
  split
  · rename_i e; rw [e]; exact ⟨rfl, rfl, rfl⟩
  · exact ⟨rfl, rfl, rfl⟩

theorem setParent_kvc (h : RBTree) (x p a : Ptr) :
    (h.setParent x p).key a = h.key a ∧ (h.setParent x p).value a = h.value a ∧
      (h.setParent x p).color a = h.color a := by
  simp only [key, value, color, setParent_mem]
  split
  · rename_i e; rw [e]; exact ⟨rfl, rfl, rfl⟩
  · exact ⟨rfl, rfl, rfl⟩

theorem kvc_trans {h1 h2 h3 : RBTree} {a : Ptr}
    (h12 : h2.key a = h1.key a ∧ h2.value a = h1.value a ∧ h2.color a = h1.color a)
    (h23 : h3.key a = h2.key a ∧ h3.value a = h2.value a ∧ h3.color a = h2.color a) :
    h3.key a = h1.key a ∧ h3.value a = h1.value a ∧ h3.color a = h1.color a :=
  ⟨h23.1.trans h12.1, h23.2.1.trans h12.2.1, h23.2.2.trans h12.2.2⟩

theorem kvc_guard (c : Prop) [Decidable c] (h : RBTree) (q x a : Ptr) :
    (if c then h.setParent q x else h).key a = h.key a ∧
    (if c then h.setParent q x else h).value a = h.value a ∧
    (if c then h.setParent q x else h).color a = h.color a := by
  split
  · exact setParent_kvc h q x a
  · exact ⟨rfl, rfl, rfl⟩

theorem kvc_relink (c1 c2 : Prop) [Decidable c1] [Decidable c2] (h : RBTree) (p v q w a : Ptr) :
    (if c1 then h.setRoot v else if c2 then h.setLeft p v else h.setRight q w).key a = h.key a ∧
    (if c1 then h.setRoot v else if c2 then h.setLeft p v else h.setRight q w).value a = h.value a ∧
    (if c1 then h.setRoot v else if c2 then h.setLeft p v else h.setRight q w).color a =
      h.color a := by
  split
  · exact ⟨rfl, rfl, rfl⟩
  · split
    · exact setLeft_kvc h p v a
    · exact setRight_kvc h q w a

theorem kvc_relink' (c1 c2 : Prop) [Decidable c1] [Decidable c2] (h : RBTree) (p v q w a : Ptr) :
    (if c1 then h.setRoot v else if c2 then h.setRight p v else h.setLeft q w).key a = h.key a ∧
    (if c1 then h.setRoot v else if c2 then h.setRight p v else h.setLeft q w).value a = h.value a ∧
    (if c1 then h.setRoot v else if c2 then h.setRight p v else h.setLeft q w).color a =
      h.color a := by
  split
  · exact ⟨rfl, rfl, rfl⟩
  · split
    · exact setRight_kvc h p v a
    · exact setLeft_kvc h q w a

/-- A rotation writes links only: keys, values and colours stay. -/
theorem leftRotate_kvc (h : RBTree) (x a : Ptr) :
    (leftRotate h x).key a = h.key a ∧ (leftRotate h x).value a = h.value a ∧
      (leftRotate h x).color a = h.color a := by
  rw [leftRotate_eq h x _ _ _ _ rfl rfl rfl rfl]
  exact kvc_trans (kvc_trans (kvc_trans (kvc_trans (kvc_trans (setRight_kvc _ _ _ a)
    (kvc_guard _ _ _ _ a)) (setParent_kvc _ _ _ a)) (kvc_relink _ _ _ _ _ _ _ a))
    (setLeft_kvc _ _ _ a)) (setParent_kvc _ _ _ a)

theorem rightRotate_kvc (h : RBTree) (x a : Ptr) :
    (rightRotate h x).key a = h.key a ∧ (rightRotate h x).value a = h.value a ∧
      (rightRotate h x).color a = h.color a := by
  rw [rightRotate_eq h x _ _ _ _ rfl rfl rfl rfl]
  exact kvc_trans (kvc_trans (kvc_trans (kvc_trans (kvc_trans (setLeft_kvc _ _ _ a)
    (kvc_guard _ _ _ _ a)) (setParent_kvc _ _ _ a)) (kvc_relink' _ _ _ _ _ _ _ a))
    (setRight_kvc _ _ _ a)) (setParent_kvc _ _ _ a)

theorem setRight_left (h : RBTree) (x p a : Ptr) : (h.setRight x p).left a = h.left a := by
  simp only [left, setRight_mem]; split
  · rename_i e; rw [e]
  · rfl

theorem setLeft_right (h : RBTree) (x p a : Ptr) : (h.setLeft x p).right a = h.right a := by
  simp only [right, setLeft_mem]; split
  · rename_i e; rw [e]
  · rfl

theorem setRight_parent (h : RBTree) (x p a : Ptr) : (h.setRight x p).parent a = h.parent a := by
  simp only [parent, setRight_mem]; split
  · rename_i e; rw [e]
  · rfl

theorem setLeft_parent (h : RBTree) (x p a : Ptr) : (h.setLeft x p).parent a = h.parent a := by
  simp only [parent, setLeft_mem]; split
  · rename_i e; rw [e]
  · rfl

theorem setParent_parent (h : RBTree) (q p a : Ptr) :
    (h.setParent q p).parent a = if a = q then p else h.parent a := by
  simp only [parent, setParent_mem]; split <;> rfl

/-- A left rotation writes the cells of `x`, of its right child `y`, of the
left child of `y` and of the parent of `x`, and no other. -/
theorem leftRotate_mem_other (h : RBTree) (x a : Ptr) (h1 : a ≠ x) (h2 : a ≠ h.right x)
    (h3 : a ≠ h.left (h.right x)) (h4 : a ≠ h.parent x) :
    (leftRotate h x).mem a = h.mem a := by
  rw [leftRotate_eq h x _ _ _ _ rfl rfl rfl rfl, setParent_mem, if_neg h1, setLeft_mem, if_neg h2]
  have e1 : (h.setRight x (h.left (h.right x))).left (h.right x) = h.left (h.right x) :=
    setRight_left _ _ _ _
  have m2 : (if (h.setRight x (h.left (h.right x))).left (h.right x) ≠ nil then
      (h.setRight x (h.left (h.right x))).setParent
        ((h.setRight x (h.left (h.right x))).left (h.right x)) x
      else h.setRight x (h.left (h.right x))).mem a = h.mem a := by
    rw [e1]
    split
    · rw [setParent_mem, if_neg h3, setRight_mem, if_neg h1]
    · rw [setRight_mem, if_neg h1]
  have p2 : (if (h.setRight x (h.left (h.right x))).left (h.right x) ≠ nil then
      (h.setRight x (h.left (h.right x))).setParent
        ((h.setRight x (h.left (h.right x))).left (h.right x)) x
      else h.setRight x (h.left (h.right x))).parent x = x ∨
      (if (h.setRight x (h.left (h.right x))).left (h.right x) ≠ nil then
      (h.setRight x (h.left (h.right x))).setParent
        ((h.setRight x (h.left (h.right x))).left (h.right x)) x
      else h.setRight x (h.left (h.right x))).parent x = h.parent x := by
    split
    · rw [setParent_parent]
      split
      · exact Or.inl rfl
      · exact Or.inr (setRight_parent _ _ _ _)
    · exact Or.inr (setRight_parent _ _ _ _)
  generalize (if (h.setRight x (h.left (h.right x))).left (h.right x) ≠ nil then
      (h.setRight x (h.left (h.right x))).setParent
        ((h.setRight x (h.left (h.right x))).left (h.right x)) x
      else h.setRight x (h.left (h.right x))) = t2 at m2 p2 ⊢
  have p3 : (t2.setParent (h.right x) (t2.parent x)).parent x = t2.parent x := by
    rw [setParent_parent]; split <;> rfl
  have ha : a ≠ (t2.setParent (h.right x) (t2.parent x)).parent x := by
    rw [p3]
    rcases p2 with e | e
    · rw [e]; exact h1
    · rw [e]; exact h4
  have m3 : (t2.setParent (h.right x) (t2.parent x)).mem a = h.mem a := by
    rw [setParent_mem, if_neg h2, m2]
  split
  · rw [setRoot_mem, m3]
  · split
    · rw [setLeft_mem, if_neg ha, m3]
    · rw [setRight_mem, if_neg ha, m3]

theorem rightRotate_mem_other (h : RBTree) (x a : Ptr) (h1 : a ≠ x) (h2 : a ≠ h.left x)
    (h3 : a ≠ h.right (h.left x)) (h4 : a ≠ h.parent x) :
    (rightRotate h x).mem a = h.mem a := by
  rw [rightRotate_eq h x _ _ _ _ rfl rfl rfl rfl, setParent_mem, if_neg h1, setRight_mem, if_neg h2]
  have e1 : (h.setLeft x (h.right (h.left x))).right (h.left x) = h.right (h.left x) :=
    setLeft_right _ _ _ _
  have m2 : (if (h.setLeft x (h.right (h.left x))).right (h.left x) ≠ nil then
      (h.setLeft x (h.right (h.left x))).setParent
        ((h.setLeft x (h.right (h.left x))).right (h.left x)) x
      else h.setLeft x (h.right (h.left x))).mem a = h.mem a := by
    rw [e1]
    split
    · rw [setParent_mem, if_neg h3, setLeft_mem, if_neg h1]
    · rw [setLeft_mem, if_neg h1]
  have p2 : (if (h.setLeft x (h.right (h.left x))).right (h.left x) ≠ nil then
      (h.setLeft x (h.right (h.left x))).setParent
        ((h.setLeft x (h.right (h.left x))).right (h.left x)) x
      else h.setLeft x (h.right (h.left x))).parent x = x ∨
      (if (h.setLeft x (h.right (h.left x))).right (h.left x) ≠ nil then
      (h.setLeft x (h.right (h.left x))).setParent
        ((h.setLeft x (h.right (h.left x))).right (h.left x)) x
      else h.setLeft x (h.right (h.left x))).parent x = h.parent x := by
    split
    · rw [setParent_parent]
      split
      · exact Or.inl rfl
      · exact Or.inr (setLeft_parent _ _ _ _)
    · exact Or.inr (setLeft_parent _ _ _ _)
  generalize (if (h.setLeft x (h.right (h.left x))).right (h.left x) ≠ nil then
      (h.setLeft x (h.right (h.left x))).setParent
        ((h.setLeft x (h.right (h.left x))).right (h.left x)) x
      else h.setLeft x (h.right (h.left x))) = t2 at m2 p2 ⊢
  have p3 : (t2.setParent (h.left x) (t2.parent x)).parent x = t2.parent x := by
    rw [setParent_parent]; split <;> rfl
  have ha : a ≠ (t2.setParent (h.left x) (t2.parent x)).parent x := by
    rw [p3]
    rcases p2 with e | e
    · rw [e]; exact h1
    · rw [e]; exact h4
  have m3 : (t2.setParent (h.left x) (t2.parent x)).mem a = h.mem a := by
    rw [setParent_mem, if_neg h2, m2]
  split
  · rw [setRoot_mem, m3]
  · split
    · rw [setRight_mem, if_neg ha, m3]
    · rw [setLeft_mem, if_neg ha, m3]

/-- The node `y` that a rotation puts in the place of `x`: it has the parent of
`x`, the parent (or the root pointer) points to it, and the parent is
otherwise as before. -/
theorem RepZ.position_facts {h h1 : RBTree} {ctx : List Frame} {x cx l kx vx r y cy L ky vy R}
    (hz : RepZ h ctx (T.nd x cx l kx vx r)) (hg : RepZ h1 ctx (T.nd y cy L ky vy R)) :
    h1.parent y = h.parent x ∧
    (if h.parent x = nil then h1.root = y
      else if x = h.left (h.parent x) then h1.left (h.parent x) = y
      else h1.right (h.parent x) = y) ∧
    (if h.parent x = nil then h1.root = y
      else if x = h.right (h.parent x) then h1.right (h.parent x) = y
      else h1.left (h.parent x) = y) ∧
    (h.parent x ≠ nil → h1.root = h.root ∧ h1.parent (h.parent x) = h.parent (h.parent x) ∧
      (x = h.left (h.parent x) → h1.right (h.parent x) = h.right (h.parent x)) ∧
      (x ≠ h.left (h.parent x) → h1.left (h.parent x) = h.left (h.parent x)) ∧
      (x = h.right (h.parent x) → h1.left (h.parent x) = h.left (h.parent x)) ∧
      (x ≠ h.right (h.parent x) → h1.right (h.parent x) = h.right (h.parent x))) := by
  have hpz : h.parent x = ctxAddr ctx := by simp [parent, hz.mem_focus]
  refine ⟨by simp [parent, hz.mem_focus, hg.mem_focus], ?_⟩
  rw [hpz]
  cases ctx with
  | nil =>
    rw [ctxAddr_nil, if_pos rfl, if_pos rfl]
    exact ⟨hg.root, hg.root, fun e => absurd rfl e⟩
  | cons F ctx1 =>
    have hroot : h1.root = h.root := by
      rw [hg.root, hz.root]; exact plug_addr_cons _ _ _ _
    cases F with
    | L p cp kp vp s =>
      have hpn : p ≠ nil := (repZ_L.1 hz).focus_ne_nil
      have hlp : h.left p = x := by simp [left, hz.topL]
      have hrp : h.right p = s.addr := by simp [right, hz.topL]
      have hzs : x ≠ s.addr := hz.focus_ne_sibL
      rw [ctxAddr_L, if_neg hpn, if_neg hpn, hlp, hrp, if_pos rfl, if_neg hzs]
      refine ⟨by simp [left, hg.topL], by simp [left, hg.topL], fun _ => ⟨hroot, ?_, ?_, ?_, ?_, ?_⟩⟩
      · simp [parent, hz.topL, hg.topL]
      · intro _; simp [right, hg.topL]
      · intro e; exact absurd rfl e
      · intro e; exact absurd e hzs
      · intro _; simp [right, hg.topL]
    | R p cp s kp vp =>
      have hpn : p ≠ nil := (repZ_R.1 hz).focus_ne_nil
      have hlp : h.left p = s.addr := by simp [left, hz.topR]
      have hrp : h.right p = x := by simp [right, hz.topR]
      have hzs : x ≠ s.addr := hz.focus_ne_sibR
      rw [ctxAddr_R, if_neg hpn, if_neg hpn, hlp, hrp, if_pos rfl, if_neg hzs]
      refine ⟨by simp [right, hg.topR], by simp [right, hg.topR], fun _ => ⟨hroot, ?_, ?_, ?_, ?_, ?_⟩⟩
      · simp [parent, hz.topR, hg.topR]
      · intro e; exact absurd e hzs
      · intro _; simp [left, hg.topR]
      · intro _; simp [left, hg.topR]
      · intro e; exact absurd rfl e

/-- Two states that represent trees with the same in-order addresses and
agree on keys, values and colours have the same in-order sequence. -/
theorem inorderC_congr {h h1 : RBTree} (hn : nodes h1 = nodes h)
    (hk : ∀ a, h1.key a = h.key a ∧ h1.value a = h.value a ∧ h1.color a = h.color a) :
    inorderC h1 = inorderC h := by
  unfold inorderC
  rw [hn]
  apply List.map_congr_left
  intro a _
  obtain ⟨e1, e2, e3⟩ := hk a
  rw [e1, e2, e3]

/-- The effect of `leftRotate` at a node in focus whose right child is real. -/
theorem leftRotate_spec {h : RBTree} {ctx : List Frame} {x cx l kx vx y cy m ky vy r}
    (hz : RepZ h ctx (T.nd x cx l kx vx (T.nd y cy m ky vy r))) :
    LeftRotated h (leftRotate h x) x := by
  obtain ⟨hg, hnil, hnext⟩ := repZ_leftRotate hz
  have hy : h.right x = y := by simp [right, hz.mem_focus]
  have hzy := repZ_R.2 hz
  have hm : h.left y = m.addr := by simp [left, hzy.mem_focus]
  have hgx := repZ_L.2 hg
  have hn : nodes (leftRotate h x) = nodes h := by
    rw [(rep_plug.1 hg).nodes_eq, (rep_plug.1 hz).nodes_eq, T.addrs_eq, T.addrs_eq,
      plug_entries, plug_entries]
    simp
  obtain ⟨p1, p2, _, p4⟩ := RepZ.position_facts hz hg
  rw [LeftRotated, hy, hm]
  refine ⟨⟨_, rep_plug.1 hg⟩, hn, inorderC_congr hn (leftRotate_kvc h x), leftRotate_kvc h x,
    p1, p2, by simp [left, hg.mem_focus], by simp [parent, hgx.mem_focus],
    by simp [right, hgx.mem_focus], ?_, by simp [left, hgx.mem_focus, hz.mem_focus],
    by simp [right, hg.mem_focus, hzy.mem_focus], ?_, ?_, ?_, hnil, hnext⟩
  · intro hmn
    cases m with
    | lf => exact absurd rfl hmn
    | nd a ca la ka va ra =>
      have := (repZ_R.2 hgx).mem_focus
      simp [parent, this]
  · intro hp
    obtain ⟨q1, q2, q3, q4, _, _⟩ := p4 hp
    exact ⟨q1, q2, q3, q4⟩
  · intro hmn
    cases m with
    | lf => exact absurd rfl hmn
    | nd a ca la ka va ra =>
      have e1 := (repZ_R.2 hgx).mem_focus
      have e2 := (repZ_L.2 hzy).mem_focus
      simp [left, right, e1, e2]
  · intro a h1 h2 h3 h4
    apply leftRotate_mem_other h x a h1
    · rw [hy]; exact h2
    · rw [hy, hm]; exact h3
    · exact h4

/-- The effect of `rightRotate` at a node in focus whose left child is real. -/
theorem rightRotate_spec {h : RBTree} {ctx : List Frame} {x cx l kx vx y cy m ky vy r}
    (hz : RepZ h ctx (T.nd x cx (T.nd y cy l ky vy m) kx vx r)) :
    RightRotated h (rightRotate h x) x := by
  obtain ⟨hg, hnil, hnext⟩ := repZ_rightRotate hz
  have hy : h.left x = y := by simp [left, hz.mem_focus]
  have hzy := repZ_L.2 hz
  have hm : h.right y = m.addr := by simp [right, hzy.mem_focus]
  have hgx := repZ_R.2 hg
  have hn : nodes (rightRotate h x) = nodes h := by
    rw [(rep_plug.1 hg).nodes_eq, (rep_plug.1 hz).nodes_eq, T.addrs_eq, T.addrs_eq,
      plug_entries, plug_entries]
    simp
  obtain ⟨p1, _, p3, p4⟩ := RepZ.position_facts hz hg
  rw [RightRotated, hy, hm]
  refine ⟨⟨_, rep_plug.1 hg⟩, hn, inorderC_congr hn (rightRotate_kvc h x), rightRotate_kvc h x,
    p1, p3, by simp [right, hg.mem_focus], by simp [parent, hgx.mem_focus],
    by simp [left, hgx.mem_focus], ?_, by simp [right, hgx.mem_focus, hz.mem_focus],
    by simp [left, hg.mem_focus, hzy.mem_focus], ?_, ?_, ?_, hnil, hnext⟩
  · intro hmn
    cases m with
    | lf => exact absurd rfl hmn
    | nd a ca la ka va ra =>
      have := (repZ_L.2 hgx).mem_focus
      simp [parent, this]
  · intro hp
    obtain ⟨q1, q2, _, _, q5, q6⟩ := p4 hp
    exact ⟨q1, q2, q5, q6⟩
  · intro hmn
    cases m with
    | lf => exact absurd rfl hmn
    | nd a ca la ka va ra =>
      have e1 := (repZ_L.2 hgx).mem_focus
      have e2 := (repZ_R.2 hzy).mem_focus
      simp [left, right, e1, e2]
  · intro a h1 h2 h3 h4
    apply rightRotate_mem_other h x a h1
    · rw [hy]; exact h2
    · rw [hy, hm]; exact h3
    · exact h4

/-- A real node of a well-formed tree can be brought in focus. -/
theorem Rep.focus_at {h : RBTree} {t : T} (hr : Rep h t) {x : Ptr} (hx : x ∈ nodes h) :
    ∃ ctx c l k v r, RepZ h ctx (T.nd x c l k v r) := by
  rw [hr.nodes_eq] at hx
  obtain ⟨ctx, c, l, k, v, r, e⟩ := focus_of_mem t x hx
  exact ⟨ctx, c, l, k, v, r, rep_plug.2 (e ▸ hr)⟩

/-- Claim C14: in a well-formed tree, `leftRotate(x)` on a node `x` with a
real right child `y` leaves the in-order sequence of keys, values and colours
unchanged, puts `y` in the former position of `x`, makes `x` the left child
of `y` and the former left subtree of `y` the right subtree of `x`, and
changes no other link; `rightRotate(x)` on a node with a real left child is
the mirror image. -/
theorem rotations_spec (h : RBTree) (x : Ptr) (hw : ∃ t, Rep h t) (hx : x ∈ nodes h) :
    (h.right x ≠ nil → LeftRotated h (leftRotate h x) x) ∧
    (h.left x ≠ nil → RightRotated h (rightRotate h x) x) := by
  obtain ⟨t, hr⟩ := hw
  obtain ⟨ctx, c, l, k, v, r, hz⟩ := hr.focus_at hx
  constructor
  · intro hy
    cases r with
    | lf => exact absurd (by simp [right, hz.mem_focus]) hy
    | nd y cy m ky vy r => exact leftRotate_spec hz
  · intro hy
    cases l with
    | lf => exact absurd (by simp [left, hz.mem_focus]) hy
    | nd y cy l ky vy m => exact rightRotate_spec hz

set_option maxRecDepth 100000 in
theorem rotations_spec_witness :
    (∃ t, Rep sample t) ∧ 2 ∈ nodes sample ∧ sample.right 2 ≠ nil ∧ sample.left 2 ≠ nil ∧
    LeftRotated sample (leftRotate sample 2) 2 ∧ RightRotated sample (rightRotate sample 2) 2 :=
  ⟨sample_valid.wf, by decide!, by decide!, by decide!,
    (rotations_spec sample 2 sample_valid.wf (by decide!)).1 (by decide!),
    (rotations_spec sample 2 sample_valid.wf (by decide!)).2 (by decide!)⟩

/-! ## Neighbours and extremes, read on the in-order list of nodes -/

theorem headAddr_eq (E : List (Ptr × String × String)) :
    headAddr E = ((E.map Prod.fst).head?).getD nil := by
  cases E <;> rfl

theorem lastAddr_eq (E : List (Ptr × String × String)) :
    lastAddr E = ((E.map Prod.fst).getLast?).getD nil := by
  rw [lastAddr, headAddr_eq, List.map_reverse, List.head?_reverse]

theorem headAddr_some {E : List (Ptr × String × String)} (hE : E ≠ []) :
    some (headAddr E) = (E.map Prod.fst).head? := by
  cases E with
  | nil => exact absurd rfl hE
  | cons e E => rfl

theorem lastAddr_some {E : List (Ptr × String × String)} (hE : E ≠ []) :
    some (lastAddr E) = (E.map Prod.fst).getLast? := by
  rw [lastAddr, headAddr_some (by simpa using hE), List.map_reverse, List.head?_reverse]

/-- Successor and predecessor of a node, read on the in-order list of nodes. -/
theorem Rep.neighbours {h : RBTree} {t : T} (hr : Rep h t) {A B : List Ptr} {x : Ptr}
    (hn : nodes h = A ++ x :: B) :
    rbTreeSuccessor h x = some (B.head?.getD nil) ∧
      rbTreePredecessor h x = some (A.getLast?.getD nil) := by
  rw [hr.nodes_eq, T.addrs_eq] at hn
  obtain ⟨A', R, he, hA, hR⟩ := List.map_eq_append_iff.1 hn
  obtain ⟨e, B', rfl, hx, hB⟩ := List.map_eq_cons_iff.1 hR
  obtain ⟨h1, h2, -⟩ := hr.at_entry he
  rw [hx] at h1 h2
  rw [h1, h2, headAddr_eq, lastAddr_eq, hA, hB]
  exact ⟨rfl, rfl⟩

/-- Minimum and maximum below a node, read on the in-order list of the
nodes of its subtree. -/
theorem Rep.extremes {h : RBTree} {t : T} (hr : Rep h t) {x : Ptr} (hx : x ∈ nodes h) :
    x ∈ nodesAux h h.next x ∧
      rbTreeMinimum h h.next x = (nodesAux h h.next x).head? ∧
      rbTreeMaximum h h.next x = (nodesAux h h.next x).getLast? := by
  obtain ⟨ctx, c, l, k, v, r, hz⟩ := hr.focus_at hx
  have hb : ∀ b ∈ (T.nd x c l k v r).addrs, b ≠ nil :=
    fun b hb => (hz.bound b (List.mem_append_left _ hb)).1
  have hf : (T.nd x c l k v r).height < h.next := by
    have h1 := hz.fuel
    have h2 := (T.nd x c l k v r).height_le_size
    omega
  have hs := nodesAux_spec (T.nd x c l k v r) _ h.next hz.own hb hf
  rw [T.addr_nd] at hs
  have hne : (T.nd x c l k v r).entries ≠ [] := by simp
  rw [hs, rbTreeMinimum_spec l x c k v r _ h.next hz.own hb hf,
    rbTreeMaximum_spec r x c l k v _ h.next hz.own hb hf, T.addrs_eq,
    headAddr_some hne, lastAddr_some hne]
  refine ⟨?_, rfl, rfl⟩
  rw [← T.addrs_eq]; simp

/-! ## The sentinel along a sequence of operations -/

theorem T.single_of_entries {t : T} {e : Ptr × String × String} (he : t.entries = [e]) :
    ∃ c, t = T.nd e.1 c T.lf e.2.1 e.2.2 T.lf := by
  cases t with
  | lf => simp [T.entries] at he
  | nd a c l k v r =>
    have hl := congrArg List.length he
    simp only [T.entries_nd, List.length_append, List.length_cons, List.length_nil] at hl
    have h1 : l.entries = [] := List.length_eq_zero.1 (by omega)
    have h2 : r.entries = [] := List.length_eq_zero.1 (by omega)
    have e1 : l = T.lf := by
      cases l with
      | lf => rfl
      | nd _ _ _ _ _ _ => simp [T.entries_nd] at h1
    have e2 : r = T.lf := by
      cases r with
      | lf => rfl
      | nd _ _ _ _ _ _ => simp [T.entries_nd] at h2
    subst e1 e2
    simp only [T.entries_nd, T.entries, List.nil_append, List.cons.injEq, and_true] at he
    subst he
    exact ⟨c, rfl⟩

/-- The parent link of the root of a non-empty tree is the sentinel. -/
theorem Rep.rootParent {h : RBTree} {t : T} (hr : Rep h t) (hne : t ≠ T.lf) :
    h.parent h.root = nil := by
  cases t with
  | lf => exact absurd rfl hne
  | nd a c l k v r =>
    have e1 : h.root = a := hr.root
    have e2 := RepZ.mem_focus hr
    rw [e1]
    simp [parent, e2]

/-- Deleting the only node: the root becomes the sentinel, and the parent
link of the sentinel is the sentinel. -/
theorem rbDeleteNode_single {h : RBTree} {z c k v} (hr : Rep h (T.nd z c T.lf k v T.lf))
    {h' : RBTree} (he : rbDeleteNode h z = some h') : h'.parent h'.root = nil := by
  have e2 := RepZ.mem_focus hr
  have hl : h.left z = nil := by simp [left, e2]
  have hrt : h.right z = nil := by simp [right, e2]
  have hp : h.parent z = nil := by simp [parent, e2]
  have hc : h.color z = c := by simp [color, e2]
  have ha : h.next ≠ 0 := Nat.pos_iff_ne_zero.1 hr.alloc
  obtain ⟨f, hf⟩ := Nat.exists_eq_succ_of_ne_zero ha
  rw [rbDeleteNode, if_pos hl, hrt] at he
  simp only [rbTransplant, hp, if_true] at he
  by_cases hcb : h.color z = Color.B
  · rw [if_pos hcb, rbDeleteFixup] at he
    simp only [setParent_next, setRoot_next, hf, rbDeleteFixupLoop, setParent_root, setRoot_root,
      ne_eq, not_true_eq_false, false_and, if_false, Option.map_some', Option.some.injEq] at he
    rw [← he]
    simp [parent, setColor_mem, setParent_mem]
    exact hp
  · rw [if_neg hcb] at he
    simp only [Option.some.injEq] at he
    rw [← he]
    simp [parent, setParent_mem]
    exact hp

theorem rbDeleteNode_rootParent {h : RBTree} {t : T} {n : Nat} (hr : Rep h t)
    (hb : Bal t Color.B n) {A B : List (Ptr × String × String)} {e : Ptr × String × String}
    (he : t.entries = A ++ e :: B) {h' : RBTree}
    (hd : rbDeleteNode h e.1 = some h') : h'.parent h'.root = nil := by
  obtain ⟨h1, t1, n1, e1, hr1, -, he1, -⟩ := rbDeleteNode_core hr hb he
  rw [hd, Option.some.injEq] at e1
  subst e1
  by_cases hne : t1 = T.lf
  · rw [hne] at he1
    have hAB : A = [] ∧ B = [] := by
      simpa [T.entries] using he1.symm
    rw [hAB.1, hAB.2, List.nil_append] at he
    obtain ⟨c, rfl⟩ := T.single_of_entries he
    exact rbDeleteNode_single hr hd
  · exact hr1.rootParent hne

theorem rbDeleteAll_rootParent : ∀ (zs : List Ptr) {h : RBTree} {t : T} {n : Nat}, Rep h t →
    Bal t Color.B n → zs.Nodup → (∀ z ∈ zs, z ∈ t.addrs) → h.parent h.root = nil →
    ∀ h', rbDeleteAll h zs = some h' → h'.parent h'.root = nil
  | [], h, t, n, _, _, _, _, hj, h', hd => by
    simp only [rbDeleteAll, Option.some.injEq] at hd
    rw [← hd]; exact hj
  | z :: zs, h, t, n, hr, hb, hnd, hm, _, h', hd => by
    have hz : z ∈ t.entries.map Prod.fst := by rw [← T.addrs_eq]; exact hm z (by simp)
    obtain ⟨e, he, rfl⟩ := List.mem_map.1 hz
    obtain ⟨A, B, hAB⟩ := List.append_of_mem he
    obtain ⟨h1, t1, n1, e1, hr1, hb1, he1, hn1⟩ := rbDeleteNode_core hr hb hAB
    obtain ⟨hnz, hnd'⟩ := List.nodup_cons.1 hnd
    have hm1 : ∀ z' ∈ zs, z' ∈ t1.addrs := by
      intro z' hz'
      have h1 := hm z' (by simp [hz'])
      rw [T.addrs_eq, hAB] at h1
      rw [T.addrs_eq, he1]
      have hne : z' ≠ e.1 := fun e' => hnz (e' ▸ hz')
      simp only [List.map_append, List.map_cons, List.mem_append, List.mem_cons] at h1 ⊢
      tauto
    rw [rbDeleteAll, e1, Option.some_bind] at hd
    exact rbDeleteAll_rootParent zs hr1 hb1 hnd' hm1
      (rbDeleteNode_rootParent hr hb hAB e1) h' hd

theorem rbDelete_rootParent {h : RBTree} (k v : String) (hv : Valid h)
    (hj : h.parent h.root = nil) {h' : RBTree} (hd : rbDelete h k v = some h') :
    h'.parent h'.root = nil := by
  obtain ⟨t, n, hr, ho, hb⟩ := valid_iff.1 hv
  obtain ⟨zs, hcol, hperm⟩ := rbDeleteCollect_core hr k v ho
  have hnde := hr.nodup_entries
  have hsub : ((t.entries.filter (fun e => decide (e.2.1 = k) && decide (e.2.2 = v))).map
      Prod.fst).Sublist (t.entries.map Prod.fst) := (List.filter_sublist _).map _
  have hnd : zs.reverse.Nodup := by
    rw [List.nodup_reverse]
    exact (List.Perm.nodup_iff hperm).2 (hnde.sublist hsub)
  have hmem : ∀ z ∈ zs.reverse, z ∈ t.addrs := by
    intro z hz
    rw [List.mem_reverse, hperm.mem_iff] at hz
    rw [T.addrs_eq]
    exact hsub.subset hz
  rw [rbDelete, hcol, Option.some_bind] at hd
  exact rbDeleteAll_rootParent zs.reverse hr hb hnd hmem hj h' hd

theorem rbInsert_rootParent {h : RBTree} (k v : String) (hv : Valid h) {h' : RBTree}
    (hd : rbInsert h k v = some h') : h'.parent h'.root = nil := by
  obtain ⟨t, n, hr, ho, hb⟩ := valid_iff.1 hv
  obtain ⟨h1, t', n', e, hr', -, -, A, B, -, eB, -⟩ := rbInsert_core k v hr ho hb
  rw [hd, Option.some.injEq] at e
  subst e
  refine hr'.rootParent ?_
  rintro rfl
  simp [T.entries] at eB

/-- Every child link of a real node refers to a real node or to the sentinel. -/
theorem Rep.children {h : RBTree} {t : T} (hr : Rep h t) {x : Ptr} (hx : x ∈ nodes h) :
    (h.left x = nil ∨ h.left x ∈ nodes h) ∧ (h.right x = nil ∨ h.right x ∈ nodes h) := by
  obtain ⟨ctx, c, l, k, v, r, hz⟩ := hr.focus_at hx
  have hn := (rep_plug.1 hz).nodes_eq
  have hsub : ∀ a, a ∈ l.addrs ∨ a ∈ r.addrs → a ∈ nodes h := by
    intro a ha
    rw [hn, T.addrs_eq, plug_entries]
    simp only [T.entries_nd, List.map_append, List.map_cons, List.mem_append, List.mem_cons,
      ← T.addrs_eq]
    tauto
  have e1 : h.left x = l.addr := by simp [left, hz.mem_focus]
  have e2 : h.right x = r.addr := by simp [right, hz.mem_focus]
  rw [e1, e2]
  exact ⟨l.addr_nil_or_mem.imp id fun hm => hsub _ (Or.inl hm),
    r.addr_nil_or_mem.imp id fun hm => hsub _ (Or.inr hm)⟩

theorem applyOp_sentinel {h : RBTree} (op : Op) (hv : Valid h) (hj : h.parent h.root = nil) :
    ∃ h', applyOp h op = some h' ∧ Valid h' ∧ h'.parent h'.root = nil := by
  obtain ⟨h', e, hv'⟩ := applyOp_step op hv
  refine ⟨h', e, hv', ?_⟩
  cases op with
  | insert k v => exact rbInsert_rootParent k v hv e
  | delete k v => exact rbDelete_rootParent k v hv hj e

theorem run_sentinel : ∀ (ops : List Op) (h : RBTree), Valid h → h.parent h.root = nil →
    ∃ h', run h ops = some h' ∧ Valid h' ∧ h'.parent h'.root = nil
  | [], h, hv, hj => ⟨h, rfl, hv, hj⟩
  | op :: ops, h, hv, hj => by
    obtain ⟨h1, e1, hv1, hj1⟩ := applyOp_sentinel op hv hj
    obtain ⟨h2, e2, hv2⟩ := run_sentinel ops h1 hv1 hj1
    exact ⟨h2, by rw [run, e1]; exact e2, hv2⟩

/-! ## The order of the values answered by `rbFind` -/

/-- The cell of an entry holds its key and value. -/
theorem Rep.entry_kv {h : RBTree} {t : T} (hr : Rep h t) {e : Ptr × String × String}
    (he : e ∈ t.entries) : h.key e.1 = e.2.1 ∧ h.value e.1 = e.2.2 := by
  obtain ⟨A, B, hAB⟩ := List.append_of_mem he
  obtain ⟨-, -, h3, h4, -⟩ := hr.at_entry hAB
  exact ⟨h3, h4⟩

theorem Rep.filter_values {h : RBTree} {t : T} (hr : Rep h t) (k : String)
    {E : List (Ptr × String × String)} (hE : ∀ e ∈ E, e ∈ t.entries) :
    (E.filter (fun e => decide (e.2.1 = k))).map (fun e => e.2.2) =
      ((E.map Prod.fst).filter (fun a => decide (h.key a = k))).map h.value := by
  induction E with
  | nil => rfl
  | cons e E ih =>
    obtain ⟨e1, e2⟩ := hr.entry_kv (hE e (by simp))
    have ih' := ih (fun e' he' => hE e' (by simp [he']))
    simp only [List.map_cons, List.filter_cons, e1]
    by_cases hk : e.2.1 = k
    · simp only [hk, decide_True, if_true, List.map_cons, e2, ih']
    · simp only [hk, decide_False, Bool.false_eq_true, if_false, ih']

/-- The list answered by `rbFind` for a key that is present, read on the
in-order list of nodes: the value of the node found by the search, then the
values of the nodes with that key before it, nearest first, then of those
after it. -/
theorem rbFind_order_core {h : RBTree} (k : String) (hv : Valid h)
    (hk : ∃ e ∈ inorder h, e.1 = k) :
    ∃ x P S, rbTreeSearch h k h.next h.root = some x ∧ real h x ∧ h.key x = k ∧
      (∀ i < depth h x, h.key ((h.parent)^[i + 1] x) ≠ k) ∧
      nodes h = P ++ x :: S ∧
      rbFind h k = some (h.value x ::
        (((P.filter (fun a => decide (h.key a = k))).reverse.map h.value) ++
          (S.filter (fun a => decide (h.key a = k))).map h.value)) := by
  obtain ⟨t, n, hr, ho, -⟩ := valid_iff.1 hv
  have hk' : ∃ e ∈ t.entries, e.2.1 = k := by
    obtain ⟨e, he, hek⟩ := hk
    rw [hr.inorder_eq, T.toList_eq] at he
    obtain ⟨e', he', rfl⟩ := List.mem_map.1 he
    exact ⟨e', he', hek⟩
  obtain ⟨x, hs, hreal, hkey, hdepth⟩ := rbTreeSearch_found hr k ho hk'
  rcases rbFind_core hr k ho with ⟨-, hno⟩ | ⟨A, x', v, B, he, hs', hf⟩
  · obtain ⟨e, he, hek⟩ := hk'
    exact absurd hek (hno e he)
  · rw [hs, Option.some.injEq] at hs'
    subst hs'
    have hmem : (x, k, v) ∈ t.entries := by rw [he]; simp
    have hval : h.value x = v := (hr.entry_kv hmem).2
    have hA : ∀ e ∈ A, e ∈ t.entries := fun e h1 => by rw [he]; simp [h1]
    have hB : ∀ e ∈ B, e ∈ t.entries := fun e h1 => by rw [he]; simp [h1]
    refine ⟨x, A.map Prod.fst, B.map Prod.fst, hs, hreal, hkey, hdepth, ?_, ?_⟩
    · rw [hr.nodes_eq, T.addrs_eq, he]; simp
    · rw [hf, hval, List.map_reverse, List.map_reverse, hr.filter_values k hA,
        hr.filter_values k hB]

/-! ## `splitString` -/

theorem substr_succ {s : List Char} {i : Nat} (hi : i < s.length) (d : Nat) :
    substr s i 1 ++ substr s (i + 1) d = substr s i (d + 1) := by
  unfold substr
  rw [List.drop_eq_getElem_cons hi]
  rfl

theorem substr_one {s : List Char} {i : Nat} (hi : i < s.length) :
    substr s i 1 = [s[i]] := by
  unfold substr
  rw [List.drop_eq_getElem_cons hi]
  rfl

/-- The loop of `splitString` stops at the first index `j` that is the end
of the string or holds a space, if the counter can hold `j`. -/
theorem splitStringLoop_run (w : Nat) (s : List Char) (j : Nat) (hj : j < 2 ^ w)
    (hle : j ≤ s.length) (hstop : j = s.length ∨ substr s j 1 = [' ']) :
    ∀ (d i : Nat) (out1 : List Char) (f : Nat), i + d = j → d < f →
      (∀ k, i ≤ k → k < j → substr s k 1 ≠ [' ']) →
      splitStringLoop w s f i out1 = some (j, out1 ++ substr s i d)
  | 0, i, out1, f, hij, hf, _ => by
    obtain ⟨f, rfl⟩ := Nat.exists_eq_succ_of_ne_zero (Nat.pos_iff_ne_zero.1 hf)
    have e : i = j := by omega
    subst e
    have hc : ¬ (i < s.length ∧ substr s i 1 ≠ [' ']) := by
      rintro ⟨h1, h2⟩
      rcases hstop with h | h
      · omega
      · exact h2 h
    rw [splitStringLoop, if_neg hc]
    simp [substr]
  | d + 1, i, out1, f, hij, hf, hns => by
    obtain ⟨f, rfl⟩ := Nat.exists_eq_succ_of_ne_zero (Nat.pos_iff_ne_zero.1 (Nat.lt_of_le_of_lt (Nat.zero_le _) hf))
    have hi : i < s.length := by omega
    have hc : i < s.length ∧ substr s i 1 ≠ [' '] := ⟨hi, hns i (Nat.le_refl _) (by omega)⟩
    have hm : (i + 1) % 2 ^ w = i + 1 := Nat.mod_eq_of_lt (by omega)
    rw [splitStringLoop, if_pos hc, hm,
      splitStringLoop_run w s j hj hle hstop d (i + 1) _ f (by omega) (by omega)
        (fun k h1 h2 => hns k (by omega) h2),
      List.append_assoc, substr_succ hi]

/-- Below the range of the counter, `splitString` returns the part before
the first space (or the end) and the part after it. -/
theorem splitString_small (w : Nat) (s : List Char) (j fuel : Nat) (hj : j + 1 < 2 ^ w)
    (hle : j ≤ s.length) (hstop : j = s.length ∨ substr s j 1 = [' '])
    (hns : ∀ k, k < j → substr s k 1 ≠ [' ']) :
    splitString w s (j + 1 + fuel) = some (s.take j, s.drop (j + 1)) := by
  have h1 := splitStringLoop_run w s j (by omega) hle hstop j 0 [] (j + 1 + fuel) (by omega)
    (by omega) (fun k _ hk => hns k hk)
  have hm : (j + 1) % 2 ^ w = j + 1 := Nat.mod_eq_of_lt hj
  rw [splitString, h1, Option.map_some']
  simp only [hm, List.nil_append, substr, List.drop_zero]
  by_cases hlt : j + 1 < s.length
  · rw [if_pos hlt]
  · rw [if_neg hlt, List.drop_eq_nil_of_le (by omega)]

/-- When the loop stops at the last value the counter can hold, `i++` gives
`0` and `out2` is the whole input. -/
theorem splitString_wrap (w : Nat) (s : List Char) (j fuel : Nat) (hj : j + 1 = 2 ^ w)
    (hle : j ≤ s.length) (hstop : j = s.length ∨ substr s j 1 = [' '])
    (hns : ∀ k, k < j → substr s k 1 ≠ [' ']) (hne : s ≠ []) :
    splitString w s (j + 1 + fuel) = some (s.take j, s) := by
  have h1 := splitStringLoop_run w s j (by omega) hle hstop j 0 [] (j + 1 + fuel) (by omega)
    (by omega) (fun k _ hk => hns k hk)
  have hm : (j + 1) % 2 ^ w = 0 := by rw [hj]; exact Nat.mod_self _
  have hpos : 0 < s.length := List.length_pos.2 hne
  rw [splitString, h1, Option.map_some']
  simp only [hm, List.nil_append, substr, List.drop_zero, if_pos hpos]

theorem longWord_length : longWord.length = 2 ^ 32 - 1 := List.length_replicate _ _

theorem longWord_no_space : ' ' ∉ longWord := by
  intro h
  have := List.eq_of_mem_replicate h
  exact absurd this (by decide)

theorem longWord_ne_nil : longWord ≠ [] := by
  intro h
  have := congrArg List.length h
  rw [longWord_length] at this
  exact absurd this (by norm_num)

/-- On `longWord`, `splitString` with a 32-bit counter puts the whole input
in `out1` and in `out2`. -/
theorem splitString_longWord (fuel : Nat) :
    splitString 32 longWord (2 ^ 32 + fuel) = some (longWord, longWord) := by
  have hl := longWord_length
  have h := splitString_wrap 32 longWord (2 ^ 32 - 1) fuel (by norm_num) (by rw [hl])
    (Or.inl hl.symm) ?_ longWord_ne_nil
  · rw [show 2 ^ 32 - 1 + 1 + fuel = 2 ^ 32 + fuel by norm_num] at h
    rw [h, ← hl, List.take_length]
  · intro k hk
    have hk' : k < longWord.length := by rw [hl]; exact hk
    rw [substr_one hk']
    have : longWord[k] = 'a' := List.getElem_replicate (a := 'a') (n := 2 ^ 32 - 1) hk'
    rw [this]
    decide

theorem dropWhile_head_space (s : List Char) (c : Char) (D : List Char)
    (h : s.dropWhile (fun c => decide (c ≠ ' ')) = c :: D) : c = ' ' := by
  have := List.head?_dropWhile_not (fun c => decide (c ≠ ' ')) s
  rw [h] at this
  simpa using this

/-- On an input that the counter can measure (`length + 1 < 2 ^ w`),
`splitString` returns and splits at the first space. -/
theorem splitString_short (w : Nat) (s : List Char) (fuel : Nat) (hs : s.length + 1 < 2 ^ w) :
    ∃ out1 out2, splitString w s (s.length + 1 + fuel) = some (out1, out2) ∧
      SplitsAtFirstSpace s out1 out2 := by
  have hAD := List.takeWhile_append_dropWhile (fun c => decide (c ≠ ' ')) s
  generalize hA : s.takeWhile (fun c => decide (c ≠ ' ')) = A at hAD
  generalize hD : s.dropWhile (fun c => decide (c ≠ ' ')) = D at hAD
  have hAn : ' ' ∉ A := by
    intro hm
    rw [← hA] at hm
    have := List.mem_takeWhile_imp hm
    simp at this
  have hlen : s.length = A.length + D.length := by rw [← hAD, List.length_append]
  have hns : ∀ k, k < A.length → substr s k 1 ≠ [' '] := by
    intro k hk
    have hk' : k < s.length := by omega
    rw [substr_one hk']
    have e : s[k] = A[k] := by
      simp only [← hAD]
      exact List.getElem_append_left hk
    rw [e]
    intro h1
    have h2 : A[k] = ' ' := by simpa using h1
    exact hAn (h2 ▸ List.getElem_mem _)
  have htake : s.take A.length = A := by rw [← hAD, List.take_left]
  have hdrop : s.drop (A.length + 1) = D.tail := by
    rw [← hAD, ← List.drop_drop, List.drop_left]
    cases D <;> rfl
  have hstop : A.length = s.length ∨ substr s A.length 1 = [' '] := by
    cases D with
    | nil => left; simp [hlen]
    | cons c D' =>
      right
      have hc := dropWhile_head_space s c D' hD
      rw [substr, ← hAD, List.drop_left, hc]
      rfl
  have hrun := splitString_small w s A.length (s.length - A.length + fuel) (by omega) (by omega)
    hstop hns
  rw [show A.length + 1 + (s.length - A.length + fuel) = s.length + 1 + fuel by omega, htake,
    hdrop] at hrun
  refine ⟨A, D.tail, hrun, ?_, ?_⟩
  · intro hno
    cases D with
    | nil => rw [List.append_nil] at hAD; exact ⟨hAD, rfl⟩
    | cons c D' =>
      have hc := dropWhile_head_space s c D' hD
      exact absurd (by rw [← hAD, hc]; simp) hno
  · intro hyes
    refine ⟨hAn, ?_⟩
    cases D with
    | nil => rw [List.append_nil] at hAD; rw [hAD] at hAn; exact absurd hyes hAn
    | cons c D' =>
      have hc := dropWhile_head_space s c D' hD
      rw [← hAD, hc]; rfl

/-- Claim C15: in a well-formed tree, for a real node `x` that splits the
in-order list of nodes as `A ++ x :: B`, `rbTreeSuccessor(x)` returns the
first node of `B`, or the sentinel if `B` is empty, and `rbTreePredecessor(x)`
returns the last node of `A`, or the sentinel if `A` is empty;
`rbTreeMinimum(x)` and `rbTreeMaximum(x)` return the first and the last node
of the in-order traversal of the subtree rooted at `x`, which is not empty. -/
theorem order_queries (h : RBTree) (x : Ptr) (A B : List Ptr) (hw : ∃ t, Rep h t)
    (hn : nodes h = A ++ x :: B) :
    rbTreeSuccessor h x = some (B.head?.getD nil) ∧
    rbTreePredecessor h x = some (A.getLast?.getD nil) ∧
    x ∈ nodesAux h h.next x ∧
    rbTreeMinimum h h.next x = (nodesAux h h.next x).head? ∧
    rbTreeMaximum h h.next x = (nodesAux h h.next x).getLast? := by
  obtain ⟨t, hr⟩ := hw
  obtain ⟨h1, h2⟩ := hr.neighbours hn
  exact ⟨h1, h2, hr.extremes (by rw [hn]; simp)⟩

set_option maxRecDepth 100000 in
theorem order_queries_witness :
    (∃ t, Rep sample t) ∧ nodes sample = [4] ++ 2 :: [5, 1, 3] ∧
    rbTreeSuccessor sample 2 = some (([5, 1, 3] : List Ptr).head?.getD nil) ∧
    rbTreePredecessor sample 2 = some (([4] : List Ptr).getLast?.getD nil) ∧
    2 ∈ nodesAux sample sample.next 2 ∧
    rbTreeMinimum sample sample.next 2 = (nodesAux sample sample.next 2).head? ∧
    rbTreeMaximum sample sample.next 2 = (nodesAux sample sample.next 2).getLast? :=
  ⟨sample_valid.wf, by decide!, order_queries sample 2 [4] [5, 1, 3] sample_valid.wf (by decide!)⟩

/-- Claim C16: every sequence of `rbInsert` and `rbDelete` calls from the
empty tree returns, and in the state it reaches the sentinel is black, its
left and right links refer to itself, the parent link of the root is the
sentinel, no real node is the sentinel, and every child link of a real node
refers to a real node or to the sentinel. -/
theorem sentinel_invariant (ops : List Op) :
    ∃ h, run empty ops = some h ∧ h.color nil = Color.B ∧ h.left nil = nil ∧
      h.right nil = nil ∧ h.parent h.root = nil ∧
      ∀ x ∈ nodes h, x ≠ nil ∧ (h.left x = nil ∨ h.left x ∈ nodes h) ∧
        (h.right x = nil ∨ h.right x ∈ nodes h) := by
  obtain ⟨h, e, hv, hj⟩ := run_sentinel ops empty valid_empty rfl
  obtain ⟨t, hr⟩ := hv.wf
  refine ⟨h, e, hr.sent.1, hr.sent.2.1, hr.sent.2.2, hj, fun x hx => ⟨?_, hr.children hx⟩⟩
  rw [hr.nodes_eq] at hx
  exact (hr.bound x (List.mem_append_left _ hx)).1

set_option maxRecDepth 100000 in
/-- Claim C18: on a valid tree that holds the key `k`, the list returned by
`rbFind(k)` is the value of the node `x` returned by `rbTreeSearch` (a real
node with key `k`, with no node of key `k` above it), then the values of the
nodes with key `k` before `x` in in-order, nearest first, then the values of
those after `x`, nearest first; after the inserts of `(k, a)`, `(k, b)`,
`(k, c)` into the empty tree the result is `[b, a, c]`. -/
theorem rbFind_order (h : RBTree) (k : String) (hv : Valid h)
    (hk : ∃ e ∈ inorder h, e.1 = k) :
    (∃ x P S, rbTreeSearch h k h.next h.root = some x ∧ real h x ∧ h.key x = k ∧
      (∀ i < depth h x, h.key ((h.parent)^[i + 1] x) ≠ k) ∧
      nodes h = P ++ x :: S ∧
      rbFind h k = some (h.value x ::
        (((P.filter (fun a => decide (h.key a = k))).reverse.map h.value) ++
          (S.filter (fun a => decide (h.key a = k))).map h.value))) ∧
    (insertAll empty [("k", "a"), ("k", "b"), ("k", "c")]).bind (fun t => rbFind t "k") =
      some ["b", "a", "c"] :=
  ⟨rbFind_order_core k hv hk, by decide!⟩

set_option maxRecDepth 100000 in
theorem rbFind_order_witness :
    Valid dup ∧ (∃ e ∈ inorder dup, e.1 = "k") ∧ rbFind dup "k" = some ["b", "a", "c"] ∧
    ∃ x P S, rbTreeSearch dup "k" dup.next dup.root = some x ∧ real dup x ∧ dup.key x = "k" ∧
      (∀ i < depth dup x, dup.key ((dup.parent)^[i + 1] x) ≠ "k") ∧
      nodes dup = P ++ x :: S ∧
      rbFind dup "k" = some (dup.value x ::
        (((P.filter (fun a => decide (dup.key a = "k"))).reverse.map dup.value) ++
          (S.filter (fun a => decide (dup.key a = "k"))).map dup.value)) :=
  ⟨dup_valid, ⟨("k", "a"), by decide!, rfl⟩, by decide!,
    (rbFind_order dup "k" dup_valid ⟨("k", "a"), by decide!, rfl⟩).1⟩

/-- Claim C20 does not hold of the code with a 32-bit counter: on a line of
`2 ^ 32 - 1` letters without a space the loop of `splitString` stops at the
end of the line with `i = 2 ^ 32 - 1`, `i++` gives `0`, and `out2` is the
whole line instead of the empty string. -/
theorem splitString_overflow :
    ' ' ∉ longWord ∧
    (∀ fuel, splitString 32 longWord (2 ^ 32 + fuel) = some (longWord, longWord)) ∧
    ¬ SplitsAtFirstSpace longWord longWord longWord :=
  ⟨longWord_no_space, splitString_longWord,
    fun hs => longWord_ne_nil (hs.1 longWord_no_space).2⟩

end RBTree
